import Mathlib

/-!
# EMMA free-list allocator: a shallow embedding

The allocator keeps all of its metadata inside the arena it manages, so the
embedding is a word-addressed memory together with the few fields of the
`FreeList` object itself.

* An address is a natural number, `0` is `NULL`.  Pointer arithmetic on
  addresses is exact (an arena lies inside the address space, so sums of
  addresses and sizes inside it do not wrap).
* Every `std::size_t` computation wraps at `2 ^ 64`.
* The data model is LP64: a pointer and a `std::size_t` take 8 bytes, so
  `sizeof(Header) = 24` and `sizeof(Node) = 40`; a field lives in the word at
  `object address + field offset`.
* A field access through `NULL` is the fault `null_deref`.
* Every other address is memory the process may use: the embedding has no
  unmapped pages, so a store through a wild non-null pointer succeeds here
  where a real process can be stopped by the operating system.  A theorem
  about a call that returns is therefore a theorem about the calls that stay
  inside memory the process owns.
* Every `while` loop is a recursive function on a fuel counter; running out of
  fuel is the fault `out_of_fuel`.
-/

namespace Emma

/-- Ways in which a run of the embedded code can fail to return. -/
inductive Fault where
  | null_deref
  | out_of_fuel
deriving DecidableEq, Repr

deriving instance DecidableEq for Except

/-! ## Memory -/

/-- Word-addressed memory: an association list from byte address to the word
stored there.  An address that is not listed reads as `0`. -/
abbrev Mem := List (Nat × Nat)

/-- Read the word at address `a`. -/
def Mem.read : Mem → Nat → Nat
  | [], _ => 0
  | (k, x) :: m, a => if k = a then x else Mem.read m a

/-- Write the word `v` at address `a`. -/
def Mem.write : Mem → Nat → Nat → Mem
  | [], a, v => [(a, v)]
  | (k, x) :: m, a, v => if k = a then (k, v) :: m else (k, x) :: Mem.write m a v

/-! ## `std::size_t` arithmetic -/

/-- The number of values of `std::size_t`. -/
def SIZE_MOD : Nat := 2 ^ 64

/-- The constant `std::numeric_limits<std::size_t>::max()`. -/
def SIZE_MAX : Nat := 2 ^ 64 - 1

/-- Addition of two `std::size_t` values. -/
def wadd (a b : Nat) : Nat := (a + b) % SIZE_MOD

/-- Subtraction of two `std::size_t` values. -/
def wsub (a b : Nat) : Nat := (a % SIZE_MOD + (SIZE_MOD - b % SIZE_MOD)) % SIZE_MOD

/-- Multiplication of two `std::size_t` values. -/
def wmul (a b : Nat) : Nat := (a * b) % SIZE_MOD

/-! ## Layout -/

/-- The value of `sizeof(Header)`: `next`, `prev`, `node`. -/
def sizeofHeader : Nat := 24

/-- The value of `sizeof(emma::RedBlackTree::Node)`: `left`, `right`, `parent`,
`value`, `color` (padded). -/
def sizeofNode : Nat := 40

def HEADER_MAX_PADDING : Nat := 2 * sizeofHeader
def NODE_MAX_PADDING : Nat := 2 * sizeofNode
def MIN_INIT_SIZE : Nat := NODE_MAX_PADDING + HEADER_MAX_PADDING

def off_next : Nat := 0
def off_prev : Nat := 8
def off_node : Nat := 16

def off_left : Nat := 0
def off_right : Nat := 8
def off_parent : Nat := 16
def off_value : Nat := 24
def off_color : Nat := 32

def BLACK : Nat := 0
def RED : Nat := 1

/-! ## Allocator object -/

/-- The `FreeList` object (with its `BaseAllocator` and `RedBlackTree` parts)
and the memory its pointers refer to. -/
structure FreeList where
  mem : Mem
  m_root : Nat
  m_end_of_memory : Nat
  m_memory_location : Nat
  m_memory_maxsize : Nat
deriving DecidableEq, Repr

/-- Read the field at offset `off` of the object at `p`. -/
def FreeList.get (s : FreeList) (p off : Nat) : Except Fault Nat :=
  if p = 0 then .error .null_deref else .ok (s.mem.read (p + off))

/-- Write the field at offset `off` of the object at `p`. -/
def FreeList.set (s : FreeList) (p off v : Nat) : Except Fault FreeList :=
  if p = 0 then .error .null_deref else .ok { s with mem := s.mem.write (p + off) v }

/-- The constructor `Header(nxt, prv)` run at address `h`. -/
def new_Header (s : FreeList) (h nxt prv : Nat) : Except Fault FreeList := do
  let s ← s.set h off_next nxt
  let s ← s.set h off_prev prv
  s.set h off_node 0

/-- The constructor `Node(value)` run at address `n`. -/
def new_Node (s : FreeList) (n value : Nat) : Except Fault FreeList := do
  let s ← s.set n off_left 0
  let s ← s.set n off_right 0
  let s ← s.set n off_parent 0
  let s ← s.set n off_value value
  s.set n off_color BLACK

/-! ## Red-black tree -/

/-- Method `RedBlackTree::rotate_node_left`. -/
def rotate_node_left (s : FreeList) (target_node : Nat) : Except Fault FreeList :=
  if target_node = 0 then pure s else do
    let right_child ← s.get target_node off_right
    -- 1. target_node->right = right_child->left
    let s ← s.set target_node off_right (← s.get right_child off_left)
    let tr ← s.get target_node off_right
    let s ← (if tr ≠ 0 then s.set tr off_parent target_node else pure s)
    -- 2. right_child->parent = target_node->parent
    let s ← s.set right_child off_parent (← s.get target_node off_parent)
    -- 3. update the parent of target_node
    let tp ← s.get target_node off_parent
    let s ←
      (if tp = 0 then pure { s with m_root := right_child }
       else do
         let tpl ← s.get tp off_left
         if tpl = target_node then s.set tp off_left right_child
         else s.set tp off_right right_child)
    -- 4. target_node becomes the left child of right_child
    let s ← s.set right_child off_left target_node
    s.set target_node off_parent right_child

/-- Method `RedBlackTree::rotate_node_right`. -/
def rotate_node_right (s : FreeList) (target_node : Nat) : Except Fault FreeList :=
  if target_node = 0 then pure s else do
    let left_child ← s.get target_node off_left
    -- 1. target_node->left = left_child->right
    let s ← s.set target_node off_left (← s.get left_child off_right)
    let tl ← s.get target_node off_left
    let s ← (if tl ≠ 0 then s.set tl off_parent target_node else pure s)
    -- 2. left_child->parent = target_node->parent
    let s ← s.set left_child off_parent (← s.get target_node off_parent)
    -- 3. update the parent of target_node
    let tp ← s.get target_node off_parent
    let s ←
      (if tp = 0 then pure { s with m_root := left_child }
       else do
         let tpl ← s.get tp off_left
         if tpl = target_node then s.set tp off_left left_child
         else s.set tp off_right left_child)
    -- 4. target_node becomes the right child of left_child
    let s ← s.set left_child off_right target_node
    s.set target_node off_parent left_child

/-- Method `RedBlackTree::transplant_node`. -/
def transplant_node (s : FreeList) (dest_node src_node : Nat) : Except Fault FreeList :=
  if dest_node = 0 then pure s else do
    let dp ← s.get dest_node off_parent
    let s ←
      (if dp = 0 then pure { s with m_root := src_node }
       else do
         let dpl ← s.get dp off_left
         if dest_node = dpl then s.set dp off_left src_node
         else s.set dp off_right src_node)
    if src_node ≠ 0 then do
      let dp ← s.get dest_node off_parent
      s.set src_node off_parent dp
    else pure s

/-- The loop of `RedBlackTree::get_smallest_in_subtree`. -/
def get_smallest_loop : Nat → FreeList → Nat → Except Fault Nat
  | 0, _, _ => .error .out_of_fuel
  | fuel + 1, s, target => do
    let tl ← s.get target off_left
    if tl ≠ 0 then do
      let target ← s.get target off_left
      get_smallest_loop fuel s target
    else pure target

/-- Method `RedBlackTree::get_smallest_in_subtree`. -/
def get_smallest_in_subtree (fuel : Nat) (s : FreeList) (target : Nat) : Except Fault Nat :=
  if target = 0 then pure 0 else get_smallest_loop fuel s target

/-- The loop condition of `fix_insert_node_violations`. -/
def fix_insert_cond (s : FreeList) (current_node : Nat) : Except Fault Bool :=
  if current_node = s.m_root then pure false
  else do
    let c ← s.get current_node off_color
    if c ≠ RED then pure false
    else do
      let p ← s.get current_node off_parent
      let pc ← s.get p off_color
      pure (decide (pc = RED))

/-- The test `uncle_node != NULL && uncle_node->color == RED`. -/
def is_red (s : FreeList) (n : Nat) : Except Fault Bool :=
  if n = 0 then pure false
  else do
    let c ← s.get n off_color
    pure (decide (c = RED))

/-- The test `n == NULL || n->color == BLACK`. -/
def is_black (s : FreeList) (n : Nat) : Except Fault Bool :=
  if n = 0 then pure true
  else do
    let c ← s.get n off_color
    pure (decide (c = BLACK))

/-- The statement `std::swap(a->color, b->color)`. -/
def swap_color (s : FreeList) (a b : Nat) : Except Fault FreeList := do
  let ca ← s.get a off_color
  let cb ← s.get b off_color
  let s ← s.set a off_color cb
  s.set b off_color ca

/-- The loop of `RedBlackTree::fix_insert_node_violations`. -/
def fix_insert_loop : Nat → FreeList → Nat → Except Fault FreeList
  | 0, _, _ => .error .out_of_fuel
  | fuel + 1, s, current_node => do
    let continue_loop ← fix_insert_cond s current_node
    if continue_loop then do
      let parent_node ← s.get current_node off_parent
      let grandparent_node ← s.get parent_node off_parent
      let gl ← s.get grandparent_node off_left
      if parent_node = gl then do
        let uncle_node ← s.get grandparent_node off_right
        let uncle_red ← is_red s uncle_node
        if uncle_red then do
          let s ← s.set grandparent_node off_color RED
          let s ← s.set parent_node off_color BLACK
          let s ← s.set uncle_node off_color BLACK
          fix_insert_loop fuel s grandparent_node
        else do
          let pr ← s.get parent_node off_right
          let (s, parent_node) ←
            (if current_node = pr then do
               let s ← rotate_node_left s parent_node
               let current_node := parent_node
               let parent_node ← s.get current_node off_parent
               pure (s, parent_node)
             else pure (s, parent_node))
          let s ← rotate_node_right s grandparent_node
          let s ← swap_color s parent_node grandparent_node
          fix_insert_loop fuel s parent_node
      else do
        let uncle_node ← s.get grandparent_node off_left
        let uncle_red ← is_red s uncle_node
        if uncle_red then do
          let s ← s.set grandparent_node off_color RED
          let s ← s.set parent_node off_color BLACK
          let s ← s.set uncle_node off_color BLACK
          fix_insert_loop fuel s grandparent_node
        else do
          let pl ← s.get parent_node off_left
          let (s, parent_node) ←
            (if current_node = pl then do
               let s ← rotate_node_right s parent_node
               let current_node := parent_node
               let parent_node ← s.get current_node off_parent
               pure (s, parent_node)
             else pure (s, parent_node))
          let s ← rotate_node_left s grandparent_node
          let s ← swap_color s parent_node grandparent_node
          fix_insert_loop fuel s parent_node
    else pure s

/-- Method `RedBlackTree::fix_insert_node_violations`. -/
def fix_insert_node_violations (fuel : Nat) (s : FreeList) (current_node : Nat) :
    Except Fault FreeList :=
  if current_node = 0 then pure s
  else do
    let s ← fix_insert_loop fuel s current_node
    s.set s.m_root off_color BLACK

/-- The descent loop of `RedBlackTree::insert_node`; returns `parent_node`. -/
def insert_descend : Nat → FreeList → Nat → Nat → Nat → Except Fault Nat
  | 0, _, _, _, _ => .error .out_of_fuel
  | fuel + 1, s, new_node, current_node, parent_node =>
    if current_node ≠ 0 then do
      let nv ← s.get new_node off_value
      let cv ← s.get current_node off_value
      if nv < cv then do
        let l ← s.get current_node off_left
        insert_descend fuel s new_node l current_node
      else do
        let r ← s.get current_node off_right
        insert_descend fuel s new_node r current_node
    else pure parent_node

/-- Method `RedBlackTree::insert_node`. -/
def insert_node (fuel : Nat) (s : FreeList) (new_node : Nat) : Except Fault FreeList :=
  if new_node = 0 then pure s
  else do
    let s ← s.set new_node off_left 0
    let s ← s.set new_node off_right 0
    let s ← s.set new_node off_color RED
    -- 1. traverse down from the root
    let parent_node ← insert_descend fuel s new_node s.m_root 0
    -- 2. hang the new node below the last node traversed
    let s ← s.set new_node off_parent parent_node
    let s ←
      (if parent_node = 0 then pure { s with m_root := new_node }
       else do
         let nv ← s.get new_node off_value
         let pv ← s.get parent_node off_value
         if nv < pv then s.set parent_node off_left new_node
         else s.set parent_node off_right new_node)
    -- 3. repair
    fix_insert_node_violations fuel s new_node

/-- The test `(sibling_node->left == NULL || sibling_node->left->color == BLACK)
&& (sibling_node->right == NULL || sibling_node->right->color == BLACK)`. -/
def both_children_black (s : FreeList) (sibling_node : Nat) : Except Fault Bool := do
  let sl ← s.get sibling_node off_left
  let left_black ← is_black s sl
  if left_black then do
    let sr ← s.get sibling_node off_right
    is_black s sr
  else pure false

/-- The body of `fix_remove_node_violations` when `current_node` is a left
child; returns the state and the next `current_node`. -/
def fix_remove_left (s : FreeList) (current_node : Nat) : Except Fault (FreeList × Nat) := do
  let cp ← s.get current_node off_parent
  let sibling_node ← s.get cp off_right
  -- red sibling
  let sc ← s.get sibling_node off_color
  let (s, sibling_node) ←
    (if sc = RED then do
       let s ← s.set sibling_node off_color BLACK
       let cp ← s.get current_node off_parent
       let s ← s.set cp off_color RED
       let cp ← s.get current_node off_parent
       let s ← rotate_node_left s cp
       let cp ← s.get current_node off_parent
       let sibling_node ← s.get cp off_right
       pure (s, sibling_node)
     else pure (s, sibling_node))
  -- sibling with two black children
  let both_black ← both_children_black s sibling_node
  if both_black then do
    let s ← s.set sibling_node off_color RED
    let cp ← s.get current_node off_parent
    pure (s, cp)
  else do
    let sr ← s.get sibling_node off_right
    let right_black ← is_black s sr
    let (s, sibling_node) ←
      (if right_black then do
         let sl ← s.get sibling_node off_left
         let s ← (if sl ≠ 0 then s.set sl off_color BLACK else pure s)
         let s ← s.set sibling_node off_color RED
         let s ← rotate_node_right s sibling_node
         let cp ← s.get current_node off_parent
         let sibling_node ← s.get cp off_right
         pure (s, sibling_node)
       else pure (s, sibling_node))
    let cp ← s.get current_node off_parent
    let cpc ← s.get cp off_color
    let s ← s.set sibling_node off_color cpc
    let sp ← s.get sibling_node off_parent
    let s ← s.set sp off_color BLACK
    let sr ← s.get sibling_node off_right
    let s ← (if sr ≠ 0 then s.set sr off_color BLACK else pure s)
    let cp ← s.get current_node off_parent
    let s ← rotate_node_right s cp
    pure (s, s.m_root)

/-- The body of `fix_remove_node_violations` when `current_node` is a right
child; returns the state and the next `current_node`. -/
def fix_remove_right (s : FreeList) (current_node : Nat) : Except Fault (FreeList × Nat) := do
  let cp ← s.get current_node off_parent
  let sibling_node ← s.get cp off_left
  -- red sibling
  let sc ← s.get sibling_node off_color
  let (s, sibling_node) ←
    (if sc = RED then do
       let s ← s.set sibling_node off_color BLACK
       let cp ← s.get current_node off_parent
       let s ← s.set cp off_color RED
       let cp ← s.get current_node off_parent
       let s ← rotate_node_right s cp
       let cp ← s.get current_node off_parent
       let sibling_node ← s.get cp off_left
       pure (s, sibling_node)
     else pure (s, sibling_node))
  -- sibling with two black children
  let both_black ← both_children_black s sibling_node
  if both_black then do
    let s ← s.set sibling_node off_color RED
    let cp ← s.get current_node off_parent
    pure (s, cp)
  else do
    let sl ← s.get sibling_node off_left
    let left_black ← is_black s sl
    let (s, sibling_node) ←
      (if left_black then do
         let sr ← s.get sibling_node off_right
         let s ← (if sr ≠ 0 then s.set sr off_color BLACK else pure s)
         let s ← s.set sibling_node off_color RED
         let s ← rotate_node_left s sibling_node
         let cp ← s.get current_node off_parent
         let sibling_node ← s.get cp off_left
         pure (s, sibling_node)
       else pure (s, sibling_node))
    let cp ← s.get current_node off_parent
    let cpc ← s.get cp off_color
    let s ← s.set sibling_node off_color cpc
    let cp ← s.get current_node off_parent
    let s ← s.set cp off_color BLACK
    let sl ← s.get sibling_node off_left
    let s ← (if sl ≠ 0 then s.set sl off_color BLACK else pure s)
    let cp ← s.get current_node off_parent
    let s ← rotate_node_right s cp
    pure (s, s.m_root)

/-- The loop of `RedBlackTree::fix_remove_node_violations`; returns the state
and the final `current_node`. -/
def fix_remove_loop : Nat → FreeList → Nat → Except Fault (FreeList × Nat)
  | 0, _, _ => .error .out_of_fuel
  | fuel + 1, s, current_node =>
    if current_node = s.m_root then pure (s, current_node)
    else do
      let c ← s.get current_node off_color
      if c = BLACK then do
        let cp ← s.get current_node off_parent
        let cpl ← s.get cp off_left
        if current_node = cpl then do
          let (s, current_node) ← fix_remove_left s current_node
          fix_remove_loop fuel s current_node
        else do
          let (s, current_node) ← fix_remove_right s current_node
          fix_remove_loop fuel s current_node
      else pure (s, current_node)

/-- Method `RedBlackTree::fix_remove_node_violations`. -/
def fix_remove_node_violations (fuel : Nat) (s : FreeList) (current_node : Nat) :
    Except Fault FreeList :=
  if current_node = 0 then pure s
  else do
    let (s, current_node) ← fix_remove_loop fuel s current_node
    s.set current_node off_color BLACK

/-- The two-children case of `RedBlackTree::remove_node`; returns the state,
`original_color` and `replacing_node`. -/
def remove_node_both (fuel : Nat) (s : FreeList) (target_node : Nat) :
    Except Fault (FreeList × Nat × Nat) := do
  let tr ← s.get target_node off_right
  let temp_node ← get_smallest_in_subtree fuel s tr
  let original_color ← s.get temp_node off_color
  let replacing_node ← s.get temp_node off_right
  let tp ← s.get temp_node off_parent
  let s ←
    (if tp = target_node then s.set replacing_node off_parent temp_node
     else do
       let r ← s.get temp_node off_right
       let s ← transplant_node s temp_node r
       let tr ← s.get target_node off_right
       let s ← s.set temp_node off_right tr
       let r ← s.get temp_node off_right
       if r ≠ 0 then s.set r off_parent temp_node else pure s)
  let s ← transplant_node s target_node temp_node
  let tl ← s.get target_node off_left
  let s ← s.set temp_node off_left tl
  let l ← s.get temp_node off_left
  let s ← (if l ≠ 0 then s.set l off_parent temp_node else pure s)
  let tc ← s.get target_node off_color
  let s ← s.set temp_node off_color tc
  pure (s, original_color, replacing_node)

/-- Method `RedBlackTree::remove_node`. -/
def remove_node (fuel : Nat) (s : FreeList) (target_node : Nat) : Except Fault FreeList :=
  if target_node = 0 then pure s
  else do
    let original_color ← s.get target_node off_color
    let tl ← s.get target_node off_left
    let (s, original_color, replacing_node) ←
      (if tl = 0 then do
         let replacing_node ← s.get target_node off_right
         let r ← s.get target_node off_right
         let s ← transplant_node s target_node r
         pure (s, original_color, replacing_node)
       else do
         let tr ← s.get target_node off_right
         if tr = 0 then do
           let replacing_node ← s.get target_node off_left
           let l ← s.get target_node off_left
           let s ← transplant_node s target_node l
           pure (s, original_color, replacing_node)
         else remove_node_both fuel s target_node)
    if original_color = BLACK then fix_remove_node_violations fuel s replacing_node
    else pure s

/-- The descent loop of `RedBlackTree::search_best_fit`; returns `parent_node`. -/
def search_descend : Nat → FreeList → Nat → Nat → Nat → Except Fault Nat
  | 0, _, _, _, _ => .error .out_of_fuel
  | fuel + 1, s, target_size, current_node, parent_node =>
    if current_node ≠ 0 then do
      let v ← s.get current_node off_value
      if target_size = v then pure current_node
      else if target_size < v then do
        let l ← s.get current_node off_left
        search_descend fuel s target_size l current_node
      else do
        let r ← s.get current_node off_right
        search_descend fuel s target_size r current_node
    else pure parent_node

/-- The ascent loop of `RedBlackTree::search_best_fit`. -/
def search_ascend : Nat → FreeList → Nat → Nat → Except Fault Nat
  | 0, _, _, _ => .error .out_of_fuel
  | fuel + 1, s, target_size, parent_node =>
    if parent_node ≠ 0 then do
      let v ← s.get parent_node off_value
      if target_size > v then do
        let p ← s.get parent_node off_parent
        search_ascend fuel s target_size p
      else pure parent_node
    else pure parent_node

/-- Method `RedBlackTree::search_best_fit`. -/
def search_best_fit (fuel : Nat) (s : FreeList) (target_size : Nat) : Except Fault Nat := do
  let parent_node ← search_descend fuel s target_size s.m_root 0
  search_ascend fuel s target_size parent_node

/-! ## Free list -/

/-- Method `FreeList::get_header_placement_from_ptr`.  Every address the allocator
passes here is at least `sizeof(Header)`; below that (where the C++ pointer
subtraction is undefined) the subtraction stops at 0. -/
def get_header_placement_from_ptr (ptr : Nat) : Nat :=
  if ptr = 0 then 0
  else
    let earliest_unaligned_header := ptr - sizeofHeader
    let align_offset := earliest_unaligned_header % sizeofHeader
    earliest_unaligned_header - align_offset

/-- Method `FreeList::align_to_natural`; returns the new `ptr` and the new `space_left`. -/
def align_to_natural (data_size ptr space_left : Nat) : Nat × Nat :=
  let align_offset := ptr % data_size
  let u_ptr := ptr - align_offset
  let u_ptr := u_ptr + data_size
  (u_ptr, wsub space_left (wsub data_size align_offset))

/-- Method `FreeList::create_new_memory_block`. -/
def create_new_memory_block (fuel : Nat) (s : FreeList)
    (prev_header next_header deallocated_ptr : Nat) : Except Fault FreeList :=
  if next_header = 0 then pure s
  else
    let space_left := wsub next_header deallocated_ptr
    let original_space_left := space_left
    if space_left < HEADER_MAX_PADDING + NODE_MAX_PADDING then pure s
    else do
      -- where to put the header
      let aligned_header := deallocated_ptr
      let (aligned_header, space_left) := align_to_natural sizeofHeader aligned_header space_left
      -- same for the node
      let aligned_node := aligned_header + sizeofHeader
      let (aligned_node, _) := align_to_natural sizeofNode aligned_node space_left
      -- move the header to the closest aligned position behind the node
      let aligned_header := get_header_placement_from_ptr aligned_node
      let memory_left_minus_header :=
        wsub (wsub original_space_left (wsub aligned_header deallocated_ptr)) sizeofHeader
      -- construct the node and insert it
      let s ← new_Node s aligned_node memory_left_minus_header
      let s ← insert_node fuel s aligned_node
      -- construct the header and update the linked list
      let s ← new_Header s aligned_header next_header prev_header
      let s ← (if prev_header ≠ 0 then s.set prev_header off_next aligned_header else pure s)
      let s ←
        (if next_header ≠ 0 ∧ next_header ≠ s.m_end_of_memory then
           s.set next_header off_prev aligned_header
         else pure s)
      s.set aligned_header off_node aligned_node

/-- Method `FreeList::split_extra_memory_into_new_block`. -/
def split_extra_memory_into_new_block (fuel : Nat) (s : FreeList)
    (space_left prev_header extra_memory : Nat) : Except Fault FreeList :=
  if space_left < HEADER_MAX_PADDING + NODE_MAX_PADDING then pure s
  else do
    let original_space_left := space_left
    -- where to put the header
    let aligned_header := extra_memory
    let (aligned_header, space_left) := align_to_natural sizeofHeader aligned_header space_left
    -- same for the node
    let aligned_node := aligned_header + sizeofHeader
    let (aligned_node, _) := align_to_natural sizeofNode aligned_node space_left
    -- move the header to the closest aligned position behind the node
    let aligned_header := get_header_placement_from_ptr aligned_node
    let memory_left_minus_header :=
      wsub (wsub original_space_left (wsub aligned_header extra_memory)) sizeofHeader
    -- construct the node and insert it
    let s ← new_Node s aligned_node memory_left_minus_header
    let s ← insert_node fuel s aligned_node
    -- construct the header and update the linked list
    let pn ← s.get prev_header off_next
    let s ← new_Header s aligned_header pn prev_header
    let s ← s.set prev_header off_next aligned_header
    s.set aligned_header off_node aligned_node

/-- The helper `start_or_size_is_invalid`. -/
def start_or_size_is_invalid (start size : Nat) : Bool :=
  if size < MIN_INIT_SIZE then true
  else if start = 0 then true
  else false

/-- The constructor `FreeList::FreeList(start, size)`, run on the memory `mem`.
The member `m_end_of_memory` has no initialiser: `uninit` is the value it holds
when the constructor returns early. -/
def FreeList.construct (fuel : Nat) (mem : Mem) (uninit start size : Nat) :
    Except Fault FreeList :=
  let s : FreeList :=
    { mem := mem, m_root := 0, m_end_of_memory := uninit,
      m_memory_location := start, m_memory_maxsize := size }
  if start_or_size_is_invalid start size then pure s
  else
    let s := { s with m_end_of_memory := start + size }
    create_new_memory_block fuel s 0 s.m_end_of_memory start

/-- The helper `data_size_is_invalid`. -/
def data_size_is_invalid (data_size : Nat) : Bool :=
  if data_size = 0 then true
  else if SIZE_MAX / data_size < 2 then true
  else false

/-- Method `FreeList::allocate_raw_ptr`; returns the new state and the pointer. -/
def allocate_raw_ptr (fuel : Nat) (s : FreeList) (data_size : Nat) :
    Except Fault (FreeList × Nat) :=
  if data_size_is_invalid data_size then pure (s, 0)
  else do
    let search_size := wadd HEADER_MAX_PADDING (wmul data_size 2)
    let search_size := if search_size < MIN_INIT_SIZE then MIN_INIT_SIZE else search_size
    -- find the best fitting free node
    let free_node ← search_best_fit fuel s search_size
    if free_node = 0 then pure (s, 0)
    else do
      let header := get_header_placement_from_ptr free_node
      let aligned_data_ptr := header + sizeofHeader
      let space_left ← s.get free_node off_value
      let (aligned_data_ptr, space_left) := align_to_natural data_size aligned_data_ptr space_left
      -- move the header forward to the closest aligned position behind the data
      let next ← s.get header off_next
      let prev ← s.get header off_prev
      let header := get_header_placement_from_ptr aligned_data_ptr
      let s ← new_Header s header next prev
      let s ← (if prev ≠ 0 then s.set prev off_next header else pure s)
      let s ← (if next ≠ s.m_end_of_memory then s.set next off_prev header else pure s)
      -- make sure there is room for a node when the block is freed
      let fv ← s.get free_node off_value
      let space_taken := wsub fv space_left
      let data_size :=
        if wadd space_taken data_size < MIN_INIT_SIZE then wsub MIN_INIT_SIZE space_taken
        else data_size
      let space_left := wsub space_left data_size
      -- remove the free node
      let s ← remove_node fuel s free_node
      let s ← split_extra_memory_into_new_block fuel s space_left header
        (aligned_data_ptr + data_size)
      pure (s, aligned_data_ptr)

/-- The right-neighbour step of `FreeList::free_raw_ptr`; returns the state,
`right_header` and `new_next`. -/
def free_merge_right (fuel : Nat) (s : FreeList) (our_header right_header new_next : Nat) :
    Except Fault (FreeList × Nat × Nat) := do
  let right_is_free ←
    (if right_header ≠ s.m_end_of_memory then do
       let rn ← s.get right_header off_node
       pure (decide (rn ≠ 0))
     else pure false)
  if right_is_free then do
    let new_next ← s.get right_header off_next
    let rn ← s.get right_header off_next
    let s ← s.set our_header off_next rn
    let rn ← s.get right_header off_next
    let s ←
      (if rn ≠ s.m_end_of_memory then do
         let rn ← s.get right_header off_next
         s.set rn off_prev our_header
       else pure s)
    let node ← s.get right_header off_node
    let s ← remove_node fuel s node
    pure (s, 0, new_next)
  else pure (s, right_header, new_next)

/-- Method `FreeList::free_raw_ptr`. -/
def free_raw_ptr (fuel : Nat) (s : FreeList) (data : Nat) : Except Fault FreeList := do
  let our_header := get_header_placement_from_ptr data
  let left_header ← s.get our_header off_prev
  let right_header ← s.get our_header off_next
  let new_next ← s.get our_header off_next
  -- if the block on our right is free, destroy it and extend our own memory
  let (s, right_header, new_next) ← free_merge_right fuel s our_header right_header new_next
  -- if the block on our left is free, destroy ourselves and extend the left block
  let left_is_free ←
    (if left_header ≠ 0 then do
       let ln ← s.get left_header off_node
       pure (decide (ln ≠ 0))
     else pure false)
  if left_is_free then do
    let s ←
      (if right_header ≠ 0 ∧ right_header ≠ s.m_end_of_memory then
         s.set right_header off_prev left_header
       else pure s)
    let our_next ← s.get our_header off_next
    let s ← s.set left_header off_next our_next
    let node ← s.get our_header off_node
    let s ← remove_node fuel s node
    let ln ← s.get left_header off_next
    let new_memory_size := wsub ln left_header
    -- update the size of the left block's node
    let node ← s.get left_header off_node
    let s ← remove_node fuel s node
    let node ← s.get left_header off_node
    let s ← s.set node off_value new_memory_size
    let node ← s.get left_header off_node
    insert_node fuel s node
  else do
    let our_header := if left_header = 0 then s.m_memory_location else our_header
    create_new_memory_block fuel s left_header new_next our_header

/-! ## Vocabulary of the properties -/

/-- The `value` field of the node at address `a`. -/
def FreeList.value (s : FreeList) (a : Nat) : Nat := s.mem.read (a + off_value)

/-- Shape of a binary tree whose nodes are the addresses of `Node` objects. -/
inductive Tree where
  | nil
  | node (l : Tree) (a : Nat) (r : Tree)
deriving DecidableEq, Repr

/-- The node addresses of a tree, in order. -/
def Tree.addrs : Tree → List Nat
  | .nil => []
  | .node l a r => l.addrs ++ a :: r.addrs

/-- The number of nodes on the longest path from the root down. -/
def Tree.height : Tree → Nat
  | .nil => 0
  | .node l _ r => max l.height r.height + 1

/-- The relation `TreeAt s t p par`: in the memory of `s` the pointer `p` heads the tree `t`,
every node is a non-null address whose `left` and `right` fields head its
subtrees, and every `parent` field holds the address of the node above
(`par` for the topmost node). -/
def TreeAt (s : FreeList) : Tree → Nat → Nat → Prop
  | .nil, p, _ => p = 0
  | .node l a r, p, par =>
    p = a ∧ a ≠ 0 ∧ s.mem.read (a + off_parent) = par ∧
      TreeAt s l (s.mem.read (a + off_left)) a ∧ TreeAt s r (s.mem.read (a + off_right)) a

/-- Binary-search-tree order by `value`: nothing in a left subtree exceeds the
node, nothing in a right subtree is below it. -/
def Ordered (s : FreeList) : Tree → Prop
  | .nil => True
  | .node l a r =>
    (∀ x ∈ l.addrs, s.value x ≤ s.value a) ∧ (∀ y ∈ r.addrs, s.value a ≤ s.value y) ∧
      Ordered s l ∧ Ordered s r

/-- The node the two loops of `search_best_fit` end on inside the subtree `t`,
or `up` when they leave the subtree through its top. -/
def best_fit_in (s : FreeList) (target_size : Nat) : Tree → Nat → Nat
  | .nil, up => up
  | .node l a r, up =>
    if target_size = s.value a then a
    else if target_size < s.value a then best_fit_in s target_size l a
    else best_fit_in s target_size r up

/-- A call a client makes on the allocator. -/
inductive Call where
  | allocate (data_size : Nat)
  | free (data : Nat)
deriving DecidableEq, Repr

/-- A client of the allocator: the allocator and the payloads `(pointer, size)`
the client currently owns. -/
structure Client where
  allocator : FreeList
  live : List (Nat × Nat)
deriving DecidableEq, Repr

/-- One call of a client: a successful `allocate_raw_ptr` adds the payload to the
live ones, `free_raw_ptr` removes it. -/
def Client.call (fuel : Nat) (c : Client) : Call → Except Fault Client
  | .allocate data_size => do
    let (s, p) ← allocate_raw_ptr fuel c.allocator data_size
    pure (if p = 0 then { c with allocator := s }
      else { allocator := s, live := c.live ++ [(p, data_size)] })
  | .free data => do
    let s ← free_raw_ptr fuel c.allocator data
    pure { allocator := s, live := c.live.filter (fun q => q.1 ≠ data) }

/-- A sequence of calls, one after the other. -/
def Client.run (fuel : Nat) : Client → List Call → Except Fault Client
  | c, [] => pure c
  | c, call :: calls => do
    let c ← c.call fuel call
    Client.run fuel c calls

/-- Every `free` of the sequence is given a pointer that is live at that point
(a fault ends the check). -/
def Client.frees_live (fuel : Nat) : Client → List Call → Bool
  | _, [] => true
  | c, call :: calls =>
    (match call with
      | .allocate _ => true
      | .free data => (c.live.map Prod.fst).contains data) &&
    (match c.call fuel call with
      | .ok c2 => Client.frees_live fuel c2 calls
      | .error _ => true)

/-- The byte ranges `[p, p + size)` of two payloads do not meet. -/
def payloads_disjoint (a b : Nat × Nat) : Bool :=
  decide (a.1 + a.2 ≤ b.1) || decide (b.1 + b.2 ≤ a.1)

/-- The arena `[1000, 2000)` on zeroed memory, as the constructor leaves it. -/
def arena_1000 : FreeList :=
  { mem := [(1040, 0), (1048, 0), (1056, 0), (1064, 968), (1072, 0),
            (1008, 2000), (1016, 0), (1024, 1040)],
    m_root := 1040, m_end_of_memory := 2000,
    m_memory_location := 1000, m_memory_maxsize := 1000 }

/-- The arena `[1000, 2000)` after four 4-byte allocations and the release of
the first and the third: three free blocks, with nodes 1440, 1040 and 1760. -/
def arena_three_free : FreeList :=
  { mem := [(1040, 1440), (1048, 1760), (1056, 0), (1064, 168), (1072, 0), (1008, 1200),
            (1016, 0), (1024, 1040), (1240, 0), (1248, 0), (1256, 0), (1264, 776), (1272, 0),
            (1200, 1416), (1208, 1008), (1216, 0), (1400, 0), (1408, 0), (1416, 1560),
            (1424, 1200), (1432, 1440), (1368, 1560), (1376, 1200), (1384, 0), (1600, 0),
            (1608, 0), (1616, 0), (1624, 416), (1632, 0), (1560, 1728), (1568, 1416),
            (1576, 0), (1760, 0), (1768, 0), (1776, 1040), (1784, 248), (1792, 1),
            (1728, 2000), (1736, 1560), (1744, 1760), (1440, 0), (1448, 0), (1456, 1040),
            (1464, 120), (1472, 1)],
    m_root := 1040, m_end_of_memory := 2000,
    m_memory_location := 1000, m_memory_maxsize := 1000 }

/-- The shape of the tree of `arena_three_free`. -/
def tree_three_free : Tree :=
  .node (.node .nil 1440 .nil) 1040 (.node .nil 1760 .nil)

/-- The size `allocate_raw_ptr` searches the tree for. -/
def search_size (data_size : Nat) : Nat :=
  if wadd HEADER_MAX_PADDING (wmul data_size 2) < MIN_INIT_SIZE then MIN_INIT_SIZE
  else wadd HEADER_MAX_PADDING (wmul data_size 2)

/-- The address `create_new_memory_block` gives the node of a block made at `ptr`. -/
def node_placement (ptr : Nat) : Nat :=
  (align_to_natural sizeofNode
    ((align_to_natural sizeofHeader ptr 0).1 + sizeofHeader) 0).1

/-- The address `create_new_memory_block` gives the header of a block made at `ptr`. -/
def header_placement (ptr : Nat) : Nat :=
  get_header_placement_from_ptr (node_placement ptr)

/-- The headers met from `h` along `next`, up to the end sentinel. -/
def block_list (s : FreeList) : Nat → Nat → List Nat
  | 0, _ => []
  | fuel + 1, h =>
    if h = s.m_end_of_memory then []
    else h :: block_list s fuel (s.mem.read (h + off_next))

/-- Three 4-byte allocations, the release of the first two (which merge), and a
fourth allocation, which splits the merged block. -/
def calls_split : List Call :=
  [.allocate 4, .allocate 4, .allocate 4, .free 1036, .free 1228, .allocate 4]

/-- The calls of `calls_split`, then the release of the third and the fourth
payload and three more allocations. -/
def calls_reuse : List Call :=
  calls_split ++ [.free 1396, .free 1036, .allocate 4, .allocate 4, .allocate 4]

/-! ## Vocabulary of the red-black properties and of whole runs -/

/-- The `color` field of the node at address `a`. -/
def FreeList.color (s : FreeList) (a : Nat) : Nat := s.mem.read (a + off_color)

/-- The colour of the root of a tree; an empty tree counts as BLACK. -/
def root_color (s : FreeList) : Tree → Nat
  | .nil => BLACK
  | .node _ a _ => s.color a

/-- No RED node has a RED child. -/
def NoRedRed (s : FreeList) : Tree → Prop
  | .nil => True
  | .node l a r =>
    (s.color a = RED → root_color s l ≠ RED ∧ root_color s r ≠ RED) ∧
      NoRedRed s l ∧ NoRedRed s r

/-- The number of BLACK nodes on every path from the root to a null link, when
that number is the same on all of them and every node is RED or BLACK. -/
def black_height (s : FreeList) : Tree → Option Nat
  | .nil => some 0
  | .node l a r =>
    match black_height s l, black_height s r with
    | some x, some y =>
      if x = y then
        if s.color a = BLACK then some (x + 1)
        else if s.color a = RED then some x
        else none
      else none
    | _, _ => none

/-- The red-black properties: the root is BLACK, no RED node has a RED child,
and every path from the root to a null link holds the same number of BLACK
nodes. -/
def RedBlack (s : FreeList) (t : Tree) : Prop :=
  root_color s t = BLACK ∧ NoRedRed s t ∧ (black_height s t).isSome = true

/-- The nodes met by an in-order walk from the pointer `p` along `left` and
`right`. -/
def tree_nodes (s : FreeList) : Nat → Nat → List Nat
  | 0, _ => []
  | fuel + 1, p =>
    if p = 0 then []
    else tree_nodes s fuel (s.mem.read (p + off_left)) ++
      p :: tree_nodes s fuel (s.mem.read (p + off_right))

/-- The allocation loop of the determinism test: `allocate_raw_ptr data_size`
until it returns null, at most `rounds` times; returns the pointers in the order
they were handed out. -/
def allocate_until_failure (fuel data_size : Nat) :
    Nat → FreeList → List Nat → Except Fault (FreeList × List Nat)
  | 0, _, _ => .error .out_of_fuel
  | rounds + 1, s, ptrs_list => do
    let (s, p) ← allocate_raw_ptr fuel s data_size
    if p = 0 then pure (s, ptrs_list)
    else allocate_until_failure fuel data_size rounds s (ptrs_list ++ [p])

/-- The calls `free_raw_ptr p` for the pointers of a list, in the order of the list. -/
def free_each (fuel : Nat) : FreeList → List Nat → Except Fault FreeList
  | s, [] => pure s
  | s, p :: ps => do
    let s ← free_raw_ptr fuel s p
    free_each fuel s ps

/-- The calls `allocate_raw_ptr d` for the sizes of a list, in the order of the
list; returns the pointers. -/
def allocate_each (fuel : Nat) : FreeList → List Nat → Except Fault (FreeList × List Nat)
  | s, [] => pure (s, [])
  | s, d :: ds => do
    let (s, p) ← allocate_raw_ptr fuel s d
    let (s, ps) ← allocate_each fuel s ds
    pure (s, p :: ps)

/-- The calls `new(n) Node(v)` and `insert_node(n)` for the pairs `(n, v)` of a
list, in the order of the list. -/
def insert_each (fuel : Nat) : FreeList → List (Nat × Nat) → Except Fault FreeList
  | s, [] => pure s
  | s, (n, v) :: rest => do
    let s ← new_Node s n v
    let s ← insert_node fuel s n
    insert_each fuel s rest

/-- The determinism test: allocate `data_size` bytes until failure, free all the
pointers in allocation order, allocate until failure again; returns the
pointers of the first and of the second loop. -/
def exhaustion_test (fuel data_size rounds : Nat) (s : FreeList) :
    Except Fault (List Nat × List Nat) := do
  let (s, first) ← allocate_until_failure fuel data_size rounds s []
  let s ← free_each fuel s first
  let (_, second) ← allocate_until_failure fuel data_size rounds s []
  pure (first, second)

/-- Decision procedure for `TreeAt`. -/
def TreeAt.decide (s : FreeList) : (t : Tree) → (p par : Nat) → Decidable (TreeAt s t p par)
  | .nil, p, _ => inferInstanceAs (Decidable (p = 0))
  | .node l a r, p, par =>
    let _ := TreeAt.decide s l (s.mem.read (a + off_left)) a
    let _ := TreeAt.decide s r (s.mem.read (a + off_right)) a
    inferInstanceAs (Decidable (p = a ∧ a ≠ 0 ∧ s.mem.read (a + off_parent) = par ∧
      TreeAt s l (s.mem.read (a + off_left)) a ∧ TreeAt s r (s.mem.read (a + off_right)) a))

instance (s : FreeList) (t : Tree) (p par : Nat) : Decidable (TreeAt s t p par) :=
  TreeAt.decide s t p par

/-- Decision procedure for `Ordered`. -/
def Ordered.decide (s : FreeList) : (t : Tree) → Decidable (Ordered s t)
  | .nil => inferInstanceAs (Decidable True)
  | .node l a r =>
    let _ := Ordered.decide s l
    let _ := Ordered.decide s r
    inferInstanceAs (Decidable ((∀ x ∈ l.addrs, s.value x ≤ s.value a) ∧
      (∀ y ∈ r.addrs, s.value a ≤ s.value y) ∧ Ordered s l ∧ Ordered s r))

instance (s : FreeList) (t : Tree) : Decidable (Ordered s t) := Ordered.decide s t

/-- Decision procedure for `NoRedRed`. -/
def NoRedRed.decide (s : FreeList) : (t : Tree) → Decidable (NoRedRed s t)
  | .nil => inferInstanceAs (Decidable True)
  | .node l a r =>
    let _ := NoRedRed.decide s l
    let _ := NoRedRed.decide s r
    inferInstanceAs (Decidable ((s.color a = RED → root_color s l ≠ RED ∧ root_color s r ≠ RED) ∧
      NoRedRed s l ∧ NoRedRed s r))

instance (s : FreeList) (t : Tree) : Decidable (NoRedRed s t) := NoRedRed.decide s t

instance (s : FreeList) (t : Tree) : Decidable (RedBlack s t) :=
  inferInstanceAs (Decidable (root_color s t = BLACK ∧ NoRedRed s t ∧
    (black_height s t).isSome = true))

/-- The arena `[1000, 1496)` on zeroed memory, as the constructor leaves it. -/
def arena_496 : FreeList :=
  { mem := [(1040, 0), (1048, 0), (1056, 0), (1064, 464), (1072, 0),
            (1008, 1496), (1016, 0), (1024, 1040)],
    m_root := 1040, m_end_of_memory := 1496,
    m_memory_location := 1000, m_memory_maxsize := 496 }

/-- The arena `[1000, 1600)` on zeroed memory, as the constructor leaves it. -/
def arena_600 : FreeList :=
  { mem := [(1040, 0), (1048, 0), (1056, 0), (1064, 568), (1072, 0),
            (1008, 1600), (1016, 0), (1024, 1040)],
    m_root := 1040, m_end_of_memory := 1600,
    m_memory_location := 1000, m_memory_maxsize := 600 }

/-- The arena `[1000, 1900)` on zeroed memory, as the constructor leaves it. -/
def arena_900 : FreeList :=
  { mem := [(1040, 0), (1048, 0), (1056, 0), (1064, 868), (1072, 0),
            (1008, 1900), (1016, 0), (1024, 1040)],
    m_root := 1040, m_end_of_memory := 1900,
    m_memory_location := 1000, m_memory_maxsize := 900 }

/-- Four 4-byte allocations and the release of the first and the third. -/
def calls_two_holes : List Call :=
  [.allocate 4, .allocate 4, .allocate 4, .allocate 4, .free 1036, .free 1396]

/-- The arena `[1000, 1900)` after `calls_two_holes`: the blocks 1008 (free),
1200 (used), 1416 (free), 1560 (used), 1728 (free), and the tree of the nodes
1440, 1760 (root) and 1040. -/
def arena_900_two_holes : FreeList :=
  { mem := [(1040, 0), (1048, 0), (1056, 1760), (1064, 168), (1072, 1), (1008, 1200),
            (1016, 0), (1024, 1040), (1240, 0), (1248, 0), (1256, 0), (1264, 676), (1272, 0),
            (1200, 1416), (1208, 1008), (1216, 0), (1400, 0), (1408, 0), (1416, 1560),
            (1424, 1200), (1432, 1440), (1368, 1560), (1376, 1200), (1384, 0), (1600, 0),
            (1608, 0), (1616, 0), (1624, 316), (1632, 0), (1560, 1728), (1568, 1416),
            (1576, 0), (1760, 1440), (1768, 1040), (1776, 0), (1784, 148), (1792, 0),
            (1728, 1900), (1736, 1560), (1744, 1760), (1440, 0), (1448, 0), (1456, 1760),
            (1464, 120), (1472, 1)],
    m_root := 1760, m_end_of_memory := 1900,
    m_memory_location := 1000, m_memory_maxsize := 900 }

/-- The shape of the tree of `arena_900_two_holes`. -/
def tree_two_holes : Tree :=
  .node (.node .nil 1440 .nil) 1760 (.node .nil 1040 .nil)

/-- Four 4-byte allocations, then the release of the first, the third, the
second and the fourth payload. -/
def calls_drain : List Call :=
  [.allocate 4, .allocate 4, .allocate 4, .allocate 4,
   .free 1036, .free 1396, .free 1228, .free 1588]

/-- An allocator object without memory and with an empty tree. -/
def empty_tree : FreeList :=
  { mem := [], m_root := 0, m_end_of_memory := 0, m_memory_location := 0,
    m_memory_maxsize := 0 }

/-- The tree made by inserting nodes of values 10, 20, 30 and 40 at the addresses
40, 80, 120 and 160 into the empty tree: the root 80 is BLACK, its children 40
and 120 are BLACK, and 120 has the RED right child 160. -/
def tree_of_four : FreeList :=
  { mem := [(40, 0), (48, 0), (56, 80), (64, 10), (72, 0), (80, 40), (88, 120), (96, 0),
            (104, 20), (112, 0), (120, 0), (128, 160), (136, 80), (144, 30), (152, 0),
            (160, 0), (168, 0), (176, 120), (184, 40), (192, 1)],
    m_root := 80, m_end_of_memory := 0, m_memory_location := 0, m_memory_maxsize := 0 }

/-! ## Trees with a hole -/

/-- The `Node` objects at `a` and `b` do not overlap. -/
def far (a b : Nat) : Prop := a + sizeofNode ≤ b ∨ b + sizeofNode ≤ a

/-- The nodes of a list are distinct objects: no two of them overlap. -/
def Separated (l : List Nat) : Prop := l.Pairwise far

/-- The side of a node on which a subtree hangs. -/
inductive Dir where
  | left
  | right
deriving DecidableEq, Repr

/-- One step of a path from a subtree up to the root: the node above, the side
the subtree hangs on, and the subtree on the other side. -/
structure Frame where
  dir : Dir
  a : Nat
  sib : Tree
deriving DecidableEq, Repr

/-- The path from a subtree up to the root, nearest node first. -/
abbrev Ctx := List Frame

/-- The tree around a hole, with the hole filled by `t`. -/
def plug : Ctx → Tree → Tree
  | [], t => t
  | ⟨.left, a, sib⟩ :: c, t => plug c (.node t a sib)
  | ⟨.right, a, sib⟩ :: c, t => plug c (.node sib a t)

/-- The nodes of a path that come before the hole in order. -/
def ctx_before : Ctx → List Nat
  | [] => []
  | ⟨.left, _, _⟩ :: c => ctx_before c
  | ⟨.right, a, sib⟩ :: c => ctx_before c ++ (sib.addrs ++ [a])

/-- The nodes of a path that come after the hole in order. -/
def ctx_after : Ctx → List Nat
  | [] => []
  | ⟨.left, a, sib⟩ :: c => (a :: sib.addrs) ++ ctx_after c
  | ⟨.right, _, _⟩ :: c => ctx_after c

/-- The relation `CtxAt s c p par root`: in the memory of `s` the path `c` leads
from a hole, whose pointer is `p` and whose parent link is `par`, up to the tree
headed by `root`. -/
def CtxAt (s : FreeList) : Ctx → Nat → Nat → Nat → Prop
  | [], p, par, root => par = 0 ∧ root = p
  | ⟨.left, a, sib⟩ :: c, p, par, root =>
    par = a ∧ a ≠ 0 ∧ s.mem.read (a + off_left) = p ∧
      TreeAt s sib (s.mem.read (a + off_right)) a ∧
      CtxAt s c a (s.mem.read (a + off_parent)) root
  | ⟨.right, a, sib⟩ :: c, p, par, root =>
    par = a ∧ a ≠ 0 ∧ s.mem.read (a + off_right) = p ∧
      TreeAt s sib (s.mem.read (a + off_left)) a ∧
      CtxAt s c a (s.mem.read (a + off_parent)) root

/-- The colour of the node right above the hole; BLACK when there is none. -/
def ctx_color (s : FreeList) : Ctx → Nat
  | [] => BLACK
  | f :: _ => s.color f.a

/-- No RED node of a path has a RED child, the hole left aside. -/
def CtxNoRedRed (s : FreeList) : Ctx → Prop
  | [] => True
  | f :: c =>
    NoRedRed s f.sib ∧ (s.color f.a = RED → root_color s f.sib ≠ RED ∧ ctx_color s c ≠ RED) ∧
      CtxNoRedRed s c

/-- The black heights along a path agree when the hole holds a tree of black
height `h`. -/
def CtxBalanced (s : FreeList) : Ctx → Nat → Prop
  | [], _ => True
  | f :: c, h =>
    black_height s f.sib = some h ∧
      ((s.color f.a = RED ∧ CtxBalanced s c h) ∨ (s.color f.a = BLACK ∧ CtxBalanced s c (h + 1)))

/-- The path from the root of `t` down to the null link where `insert_node` hangs
a node of value `v`: left while `v` is smaller than the node, right otherwise.
The frames met are added in front of `c`. -/
def insert_path (s : FreeList) (v : Nat) : Tree → Ctx → Ctx
  | .nil, c => c
  | .node l a r, c =>
    if v < s.value a then insert_path s v l (⟨.left, a, r⟩ :: c)
    else insert_path s v r (⟨.right, a, l⟩ :: c)

/-- A state `s2` reads like `s` on the three link fields of the nodes of `l`. -/
def LinksAgree (s s2 : FreeList) (l : List Nat) : Prop :=
  ∀ a ∈ l, s2.mem.read (a + off_left) = s.mem.read (a + off_left) ∧
    s2.mem.read (a + off_right) = s.mem.read (a + off_right) ∧
    s2.mem.read (a + off_parent) = s.mem.read (a + off_parent)

/-- A state `s2` reads like `s` on the `value` and `color` fields of the nodes of `l`. -/
def DataAgree (s s2 : FreeList) (l : List Nat) : Prop :=
  ∀ a ∈ l, s2.value a = s.value a ∧ s2.color a = s.color a

/-- The nodes of a path: those above the hole and those of the subtrees beside it. -/
def ctx_addrs (c : Ctx) : List Nat := ctx_before c ++ ctx_after c

/-- A state `s2` reads like `s` on the `color` field of the nodes of `l`. -/
def ColorsAgree (s s2 : FreeList) (l : List Nat) : Prop :=
  ∀ a ∈ l, s2.color a = s.color a

/-- The loop invariant of `fix_insert_node_violations` on the shape of the tree:
`current_node` heads the subtree `t`, the path `c` leads from it to the root, the
nodes in order are those of `l`, and the root is BLACK unless `current_node` is
the root. -/
def FixShape (s : FreeList) (l : List Nat) (c : Ctx) (t : Tree) (cur : Nat) : Prop :=
  cur ≠ 0 ∧ (∃ par, TreeAt s t cur par ∧ CtxAt s c cur par s.m_root) ∧
    (plug c t).addrs = l ∧ (c ≠ [] → s.color s.m_root = BLACK)

/-- The loop invariant of `fix_insert_node_violations` on the colours: the only
RED node that may have a RED parent is `current_node`, and the black heights
agree everywhere. -/
def FixColors (s : FreeList) (c : Ctx) (t : Tree) (h : Nat) : Prop :=
  NoRedRed s t ∧ black_height s t = some h ∧ CtxNoRedRed s c ∧ CtxBalanced s c h

/-- The node right above the hole of a path; null when the path is empty. -/
def ctx_head_addr : Ctx → Nat
  | [] => 0
  | f :: _ => f.a

/-- The state `s3` is `s` with the fresh RED leaf `n` hung below `par` (as the
root when `par` is null), on the side its value asks for; the nodes of `t` are
otherwise untouched. -/
def Hung (s s3 : FreeList) (t : Tree) (n par : Nat) : Prop :=
  s3.m_root = (if par = 0 then n else s.m_root) ∧
  (∀ m ∈ t.addrs, s3.value m = s.value m ∧ s3.color m = s.color m ∧
    s3.mem.read (m + off_parent) = s.mem.read (m + off_parent)) ∧
  (∀ m ∈ t.addrs, m ≠ par → s3.mem.read (m + off_left) = s.mem.read (m + off_left) ∧
    s3.mem.read (m + off_right) = s.mem.read (m + off_right)) ∧
  (s3.mem.read (n + off_left) = 0 ∧ s3.mem.read (n + off_right) = 0 ∧
    s3.mem.read (n + off_parent) = par ∧ s3.color n = RED ∧ s3.value n = s.value n) ∧
  (par ≠ 0 →
    (s.value n < s.value par → s3.mem.read (par + off_left) = n ∧
      s3.mem.read (par + off_right) = s.mem.read (par + off_right)) ∧
    (¬ s.value n < s.value par → s3.mem.read (par + off_right) = n ∧
      s3.mem.read (par + off_left) = s.mem.read (par + off_left)))

instance (a b : Nat) : Decidable (far a b) :=
  inferInstanceAs (Decidable (a + sizeofNode ≤ b ∨ b + sizeofNode ≤ a))

instance (l : List Nat) : Decidable (Separated l) :=
  inferInstanceAs (Decidable (l.Pairwise far))

/-- The shape of the tree of `tree_of_four`. -/
def shape_of_four : Tree :=
  .node (.node .nil 40 .nil) 80 (.node .nil 120 (.node .nil 160 .nil))

/-- The state `tree_of_four` with a fifth `Node` object of value 50 built at
address 200 and not yet inserted. -/
def tree_of_four_and_fresh : FreeList :=
  { tree_of_four with mem := tree_of_four.mem ++ [(224, 50)] }

/-- A tree of the single RED node 1000 of value 10, with a `Node` object of
value 20 built at address 2000 and not yet inserted. -/
def red_root : FreeList :=
  { mem := [(1000, 0), (1008, 0), (1016, 0), (1024, 10), (1032, 1), (2024, 20)],
    m_root := 1000, m_end_of_memory := 0, m_memory_location := 0, m_memory_maxsize := 0 }

/-! ## Vocabulary of the placement and layout properties -/

/-- Method `FreeList::get_header_placement_from_ptr` with `sizeof(Header)` as the
parameter `header_size`. -/
def get_header_placement_sized (header_size ptr : Nat) : Nat :=
  if ptr = 0 then 0
  else
    let earliest_unaligned_header := ptr - header_size
    let align_offset := earliest_unaligned_header % header_size
    earliest_unaligned_header - align_offset

/-- The sum, over the blocks met from `h` along `next` up to the end sentinel, of
the span of each block: the address of its next header (or of the end sentinel)
minus the address of its own header. -/
def span_sum (s : FreeList) (fuel h : Nat) : Nat :=
  ((block_list s fuel h).map (fun b => s.mem.read (b + off_next) - b)).sum

/-- The `next` links from `h` lead upwards in memory and reach the end sentinel
within `fuel` steps. -/
def ascends_to_end (s : FreeList) : Nat → Nat → Bool
  | 0, h => decide (h = s.m_end_of_memory)
  | fuel + 1, h =>
    if h = s.m_end_of_memory then true
    else decide (h < s.mem.read (h + off_next)) &&
      ascends_to_end s fuel (s.mem.read (h + off_next))

/-- The arena `[1008, 2008)` on zeroed memory, as the constructor leaves it: the
header of its block is at 1056, the node at 1080. -/
def arena_1008 : FreeList :=
  { mem := [(1080, 0), (1088, 0), (1096, 0), (1104, 928), (1112, 0),
            (1056, 2008), (1064, 0), (1072, 1080)],
    m_root := 1080, m_end_of_memory := 2008,
    m_memory_location := 1008, m_memory_maxsize := 1000 }

/-- An allocation of 84 bytes between two allocations of 4 bytes. -/
def calls_short_block : List Call :=
  [.allocate 4, .allocate 84, .allocate 4]

/-- Two allocations of 4 bytes, one of 24 bytes, and the release of the second
payload. -/
def calls_header_on_node : List Call :=
  [.allocate 4, .allocate 4, .allocate 24, .free 1228]

/-- A call on the tree alone: `new(n) Node(v)` followed by `insert_node(n)`, or
`remove_node(n)`. -/
inductive TreeCall where
  | insert (n v : Nat)
  | remove (n : Nat)
deriving DecidableEq, Repr

/-- A sequence of calls on the tree, one after the other. -/
def run_tree_calls (fuel : Nat) : FreeList → List TreeCall → Except Fault FreeList
  | s, [] => pure s
  | s, .insert n v :: rest => do
    let s ← new_Node s n v
    let s ← insert_node fuel s n
    run_tree_calls fuel s rest
  | s, .remove n :: rest => do
    let s ← remove_node fuel s n
    run_tree_calls fuel s rest

/-- Every `remove` of the sequence is given a node that is in the tree at that
point, and every `insert` a node that is not (a fault ends the check). -/
def tree_calls_valid (fuel : Nat) : FreeList → List TreeCall → Bool
  | _, [] => true
  | s, call :: rest =>
    (match call with
      | .insert n _ => !(tree_nodes s fuel s.m_root).contains n
      | .remove n => (tree_nodes s fuel s.m_root).contains n) &&
    (match run_tree_calls fuel s [call] with
      | .ok s2 => tree_calls_valid fuel s2 rest
      | .error _ => true)

/-- Six insertions, the removal of the root, two insertions and the removal of
a node with one child. -/
def calls_to_chain : List TreeCall :=
  [.insert 40 20, .insert 80 100, .insert 120 10, .insert 160 110, .insert 200 30,
   .insert 240 120, .remove 40, .insert 280 40, .insert 320 90, .remove 200]

/-- The tree after `calls_to_chain`: the six nodes hang below one another. -/
def shape_chain : Tree :=
  .node .nil 120 (.node .nil 280 (.node .nil 320 (.node .nil 80 (.node .nil 160
    (.node .nil 240 .nil)))))

/-- Four more insertions after `calls_to_chain`. -/
def calls_to_long_path : List TreeCall :=
  calls_to_chain ++ [.insert 360 60, .insert 400 50, .insert 440 80, .insert 480 70]

/-- The tree after `calls_to_long_path`: ten nodes, eight of them on one path. -/
def shape_long_path : Tree :=
  .node .nil 120 (.node .nil 280 (.node (.node .nil 400 .nil) 360
    (.node (.node .nil 480 .nil) 440 (.node .nil 320 (.node .nil 80 (.node .nil 160
      (.node .nil 240 .nil)))))))

/-- No node has a node of equal value anywhere in its left subtree. -/
def TiesLeanRight (s : FreeList) : Tree → Prop
  | .nil => True
  | .node l a r =>
    (∀ x ∈ l.addrs, s.value x ≠ s.value a) ∧ TiesLeanRight s l ∧ TiesLeanRight s r

/-- Decision procedure for `TiesLeanRight`. -/
def TiesLeanRight.decide (s : FreeList) : (t : Tree) → Decidable (TiesLeanRight s t)
  | .nil => isTrue trivial
  | .node l a r =>
    let _ := TiesLeanRight.decide s l
    let _ := TiesLeanRight.decide s r
    inferInstanceAs (Decidable
      ((∀ x ∈ l.addrs, s.value x ≠ s.value a) ∧ TiesLeanRight s l ∧ TiesLeanRight s r))

instance (s : FreeList) (t : Tree) : Decidable (TiesLeanRight s t) := TiesLeanRight.decide s t

/-- A pair `(node, value)` put into a list of such pairs behind every pair whose
value is at most its own. -/
def place_by_value (x : Nat × Nat) : List (Nat × Nat) → List (Nat × Nat)
  | [] => [x]
  | y :: ys => if x.2 < y.2 then x :: y :: ys else y :: place_by_value x ys

/-- The pairs `(node, value)` of a list sorted by value, pairs of equal value in
the order of the list. -/
def sorted_by_value (l : List (Nat × Nat)) : List (Nat × Nat) :=
  l.foldl (fun acc x => place_by_value x acc) []

/-- The tree `t` of the state `s` holds the nodes of the pairs `(node, value)` of
`acc`, in the order of `acc`, each with its value; it is well linked, red-black
and in order by value. -/
def HoldsInOrder (s : FreeList) (t : Tree) (acc : List (Nat × Nat)) : Prop :=
  TreeAt s t s.m_root 0 ∧ RedBlack s t ∧ Ordered s t ∧ t.addrs = acc.map Prod.fst ∧
    ∀ x ∈ acc, s.value x.1 = x.2

/-! ## Vocabulary of the last properties -/

/-- The address `allocate_raw_ptr` moves the header of a free block to: the
header placement behind the payload pointer, which is the end of the old header
`header` aligned to `data_size`. -/
def relocated_header (header data_size : Nat) : Nat :=
  get_header_placement_from_ptr (align_to_natural data_size (header + sizeofHeader) 0).1

/-- The byte ranges `[a, a + la)` and `[b, b + lb)` meet. -/
def ranges_meet (a la b lb : Nat) : Bool :=
  decide (a < b + lb) && decide (b < a + la)

/-- The left-right mirror image of a tree shape. -/
def Tree.mirror : Tree → Tree
  | .nil => .nil
  | .node l a r => .node r.mirror a l.mirror

/-- The state in which the node `n` has its `left` and `right` fields exchanged. -/
def mirror_node (s : FreeList) (n : Nat) : FreeList :=
  let l := s.mem.read (n + off_left)
  let r := s.mem.read (n + off_right)
  { s with mem := (s.mem.write (n + off_left) r).write (n + off_right) l }

/-- The state in which every node of `l` has its `left` and `right` fields
exchanged: the mirror image of a tree with the nodes `l`. -/
def mirror_nodes (s : FreeList) (l : List Nat) : FreeList := l.foldl mirror_node s

/-- The tree `remove_node(200)` hands to `fix_remove_node_violations` after the
first nine calls of `calls_to_chain`: the BLACK node 120 has taken the place of
its parent 200 as left child of the root 280, whose right child 80 is BLACK with
the RED left child 320 and the BLACK right child 160. -/
def double_black_tree : FreeList :=
  { mem := [(40, 120), (48, 80), (56, 0), (64, 20), (72, 0), (80, 320), (88, 160), (96, 280),
            (104, 100), (112, 0), (120, 0), (128, 0), (136, 280), (144, 10), (152, 0),
            (160, 0), (168, 240), (176, 80), (184, 110), (192, 0), (200, 120), (208, 0),
            (216, 280), (224, 30), (232, 0), (240, 0), (248, 0), (256, 160), (264, 120),
            (272, 1), (280, 120), (288, 80), (296, 0), (304, 40), (312, 0), (320, 0),
            (328, 0), (336, 80), (344, 90), (352, 1)],
    m_root := 280, m_end_of_memory := 0, m_memory_location := 0, m_memory_maxsize := 0 }

/-- The shape of `double_black_tree`. -/
def shape_double_black : Tree :=
  .node (.node .nil 120 .nil) 280
    (.node (.node .nil 320 .nil) 80 (.node .nil 160 (.node .nil 240 .nil)))

/-- The shape `fix_remove_node_violations` leaves from the mirror image of
`double_black_tree`. -/
def shape_mirror_fixed : Tree :=
  .node (.node (.node (.node .nil 240 .nil) 160 .nil) 80 .nil) 320
    (.node .nil 280 (.node .nil 120 .nil))

/-- Two allocations of 4 bytes and the release of both payloads, the first one
first. -/
def calls_merge_left : List Call :=
  [.allocate 4, .allocate 4, .free 1036, .free 1228]

/-! ## States of the arena `[1000, 2000)` -/

/-- The arena `[1000, 2000)` after `allocate_raw_ptr 4` on the fresh arena: the
used block of header 1008 with payload 1036, and the free block of header 1200
and node 1240. -/
def arena_1000_one_used : FreeList :=
  { mem := [(1040, 0), (1048, 0), (1056, 0), (1064, 968), (1072, 0), (1008, 1200),
            (1016, 0), (1024, 0), (1240, 0), (1248, 0), (1256, 0), (1264, 776), (1272, 0),
            (1200, 2000), (1208, 1008), (1216, 1240)],
    m_root := 1240, m_end_of_memory := 2000,
    m_memory_location := 1000, m_memory_maxsize := 1000 }

/-- The arena `[1000, 2000)` after that allocation and `free_raw_ptr 1036`: one
free block again, of header 1008 and node 1040. -/
def arena_1000_refreed : FreeList :=
  { mem := [(1040, 0), (1048, 0), (1056, 0), (1064, 968), (1072, 0), (1008, 2000),
            (1016, 0), (1024, 1040), (1240, 0), (1248, 0), (1256, 0), (1264, 776),
            (1272, 0), (1200, 2000), (1208, 1008), (1216, 1240)],
    m_root := 1040, m_end_of_memory := 2000,
    m_memory_location := 1000, m_memory_maxsize := 1000 }

/-! ## Tree code seen from the free list

The free list needs little of the tree code it calls: the calls touch only
`Node` objects of the tree, along links that lead from tree nodes to tree nodes,
and they never write a `value` field. -/

/-- Postcondition of a run of embedded code: when the run returns `a`, `Q a`
holds. -/
def Post {α : Type} (x : Except Fault α) (Q : α → Prop) : Prop := ∀ a, x = .ok a → Q a

/-- The pointer `x` is `NULL` or one of the nodes `L`. -/
def NodeOrNull (L : List Nat) (x : Nat) : Prop := x = 0 ∨ x ∈ L

/-- The offset `off` is that of one of the fields `left`, `right`, `parent`. -/
def IsLink (off : Nat) : Prop := off = off_left ∨ off = off_right ∨ off = off_parent

/-- The links of the nodes `L` stay inside `L`: `m_root` and the fields `left`,
`right` and `parent` of every node of `L` are `NULL` or a node of `L`. -/
def LinksClosed (s : FreeList) (L : List Nat) : Prop :=
  NodeOrNull L s.m_root ∧
    ∀ m ∈ L, m ≠ 0 ∧ NodeOrNull L (s.mem.read (m + off_left)) ∧
      NodeOrNull L (s.mem.read (m + off_right)) ∧ NodeOrNull L (s.mem.read (m + off_parent))

/-- The address `w` lies in none of the `Node` objects `L`. -/
def OutsideNodes (L : List Nat) (w : Nat) : Prop := ∀ m ∈ L, w < m ∨ m + sizeofNode ≤ w

/-- The state `s2` differs from `s` by tree operations on the nodes `L`: links
still stay inside `L`, memory outside the nodes of `L` and the `value` of every
node of `L` are as in `s`, and so is the arena. -/
def Keeps (L : List Nat) (s s2 : FreeList) : Prop :=
  LinksClosed s2 L ∧ (∀ w, OutsideNodes L w → s2.mem.read w = s.mem.read w) ∧
    (∀ m ∈ L, s2.value m = s.value m) ∧ s2.m_end_of_memory = s.m_end_of_memory ∧
    s2.m_memory_location = s.m_memory_location ∧ s2.m_memory_maxsize = s.m_memory_maxsize

instance (L : List Nat) (x : Nat) : Decidable (NodeOrNull L x) :=
  inferInstanceAs (Decidable (x = 0 ∨ x ∈ L))

instance (s : FreeList) (L : List Nat) : Decidable (LinksClosed s L) :=
  inferInstanceAs (Decidable (NodeOrNull L s.m_root ∧
    ∀ m ∈ L, m ≠ 0 ∧ NodeOrNull L (s.mem.read (m + off_left)) ∧
      NodeOrNull L (s.mem.read (m + off_right)) ∧ NodeOrNull L (s.mem.read (m + off_parent))))

/-! ## The block list as the free list should keep it -/

/-- The headers `bs` follow one another along `next`, upwards in memory, from `h`
to `e`. -/
def Seg (s : FreeList) : List Nat → Nat → Nat → Prop
  | [], h, e => h = e
  | b :: rest, h, e =>
    h = b ∧ b < s.mem.read (b + off_next) ∧ Seg s rest (s.mem.read (b + off_next)) e

/-- The headers `bs` are the blocks from `h` to the end sentinel, linked both
ways: the `next` of each is the one after it (the end sentinel for the last),
behind its own `Header` object, and the `prev` of each is the one before it (`p`
for the first). -/
def Linked (s : FreeList) : List Nat → Nat → Nat → Prop
  | [], h, _ => h = s.m_end_of_memory
  | b :: rest, h, p =>
    h = b ∧ b ≠ 0 ∧ s.mem.read (b + off_prev) = p ∧
      b + sizeofHeader ≤ s.mem.read (b + off_next) ∧
      Linked s rest (s.mem.read (b + off_next)) b

/-- Decision procedure for `Linked`. -/
def Linked.decide (s : FreeList) : (bs : List Nat) → (h p : Nat) → Decidable (Linked s bs h p)
  | [], h, _ => inferInstanceAs (Decidable (h = s.m_end_of_memory))
  | b :: rest, h, p =>
    let _ := Linked.decide s rest (s.mem.read (b + off_next)) b
    inferInstanceAs (Decidable (h = b ∧ b ≠ 0 ∧ s.mem.read (b + off_prev) = p ∧
      b + sizeofHeader ≤ s.mem.read (b + off_next) ∧
      Linked s rest (s.mem.read (b + off_next)) b))

instance (s : FreeList) (bs : List Nat) (h p : Nat) : Decidable (Linked s bs h p) :=
  Linked.decide s bs h p

/-- The nodes of the free blocks among `bs`. -/
def free_nodes (s : FreeList) (bs : List Nat) : List Nat :=
  (bs.map (fun b => s.mem.read (b + off_node))).filter (fun n => n ≠ 0)

/-- The block of header `b` is used, or it is free and in order: its node is the
one placed for this header, the `Node` object ends inside the block, and the
`value` of the node is the number of bytes from the end of the header to the
next header. -/
def FreeBlockOk (s : FreeList) (b : Nat) : Prop :=
  s.mem.read (b + off_node) = 0 ∨
    (get_header_placement_from_ptr (s.mem.read (b + off_node)) = b ∧
      s.mem.read (b + off_node) + sizeofNode ≤ s.mem.read (b + off_next) ∧
      s.value (s.mem.read (b + off_node)) = s.mem.read (b + off_next) - (b + sizeofHeader))

instance (s : FreeList) (b : Nat) : Decidable (FreeBlockOk s b) :=
  inferInstanceAs (Decidable (s.mem.read (b + off_node) = 0 ∨
    (get_header_placement_from_ptr (s.mem.read (b + off_node)) = b ∧
      s.mem.read (b + off_node) + sizeofNode ≤ s.mem.read (b + off_next) ∧
      s.value (s.mem.read (b + off_node)) = s.mem.read (b + off_next) - (b + sizeofHeader))))

/-- One of two neighbouring blocks is used. -/
def NotBothFree (s : FreeList) (a b : Nat) : Prop :=
  s.mem.read (a + off_node) = 0 ∨ s.mem.read (b + off_node) = 0

instance (s : FreeList) : DecidableRel (NotBothFree s) :=
  fun a b => inferInstanceAs (Decidable (s.mem.read (a + off_node) = 0 ∨
    s.mem.read (b + off_node) = 0))

/-- The free list is in order, with the blocks `bs`: the blocks are linked both
ways from the first one, whose `prev` is `NULL`, to the end sentinel, which is
the end of the arena; every free block is in order (`FreeBlockOk`); no two
neighbouring blocks are both free; and the links of the tree stay inside the
nodes of the free blocks. -/
def WellFormed (s : FreeList) (bs : List Nat) : Prop :=
  Linked s bs (bs.headD s.m_end_of_memory) 0 ∧
    (∀ b ∈ bs, s.m_memory_location ≤ b) ∧
    s.m_end_of_memory = s.m_memory_location + s.m_memory_maxsize ∧
    s.m_end_of_memory < SIZE_MOD ∧
    (∀ b ∈ bs, FreeBlockOk s b) ∧
    bs.Chain' (NotBothFree s) ∧
    LinksClosed s (free_nodes s bs)

instance (s : FreeList) (bs : List Nat) : Decidable (WellFormed s bs) :=
  inferInstanceAs (Decidable (Linked s bs (bs.headD s.m_end_of_memory) 0 ∧
    (∀ b ∈ bs, s.m_memory_location ≤ b) ∧
    s.m_end_of_memory = s.m_memory_location + s.m_memory_maxsize ∧
    s.m_end_of_memory < SIZE_MOD ∧
    (∀ b ∈ bs, FreeBlockOk s b) ∧
    bs.Chain' (NotBothFree s) ∧
    LinksClosed s (free_nodes s bs)))

/-- The `value` of the node of the block of header `b`, when the block is free,
is the number of bytes from the end of the header to the next header. -/
def measured (s : FreeList) (b : Nat) : Bool :=
  decide (s.mem.read (b + off_node) = 0) ||
    decide (s.value (s.mem.read (b + off_node)) =
      s.mem.read (b + off_next) - (b + sizeofHeader))

/-- The block list after a call: `bs` are the headers met from `h0` along `next`,
upwards in memory and up to the end sentinel; `h0` has no block before it; the
spans of the blocks add up to the distance from `h0` to the end sentinel; and
the node of every free block gives the number of bytes behind its header. -/
def Tiled (s : FreeList) (bs : List Nat) (h0 : Nat) : Prop :=
  s.mem.read (h0 + off_prev) = 0 ∧
    ∀ k, bs.length ≤ k →
      block_list s k h0 = bs ∧ ascends_to_end s k h0 = true ∧
        span_sum s k h0 = s.m_end_of_memory - h0 ∧
        ∀ b ∈ block_list s k h0, measured s b = true

/-- The word at `w` after a header `h` with the fields `nxt` and `prv` has been
constructed in `s` and linked in: `prv->next = h` when there is a block before,
`nxt->prev = h` when `nxt` is not the end sentinel. -/
def relinked (s : FreeList) (h nxt prv w : Nat) : Nat :=
  if nxt ≠ s.m_end_of_memory ∧ w = nxt + off_prev then h
  else if prv ≠ 0 ∧ w = prv + off_next then h
  else if w = h + off_node then 0
  else if w = h + off_prev then prv
  else if w = h + off_next then nxt
  else s.mem.read w

/-- The word at `w` after `split_extra_memory_into_new_block` has constructed the
header `h2` with the node `n2` behind the header `h`, whose `next` was `nxt`;
`r` is the word at `w` before. -/
def split_linked (h h2 n2 nxt w r : Nat) : Nat :=
  if w = h2 + off_node then n2
  else if w = h + off_next then h2
  else if w = h2 + off_prev then h
  else if w = h2 + off_next then nxt
  else r

/-- The block list after a call, as far as the spans go: `bs` are the headers met
from `h0` along `next`, upwards in memory and up to the end sentinel; `h0` has no
block before it; and the spans of the blocks add up to the distance from `h0` to
the end sentinel. -/
def Spanned (s : FreeList) (bs : List Nat) (h0 : Nat) : Prop :=
  s.mem.read (h0 + off_prev) = 0 ∧
    ∀ k, bs.length ≤ k →
      block_list s k h0 = bs ∧ ascends_to_end s k h0 = true ∧
        span_sum s k h0 = s.m_end_of_memory - h0

/-- The arena `[1000, 2000)` after two 4-byte allocations: the used blocks of
headers 1008 and 1200 and the free block of header 1368. -/
def arena_1000_two_used : FreeList :=
  { mem := [(1040, 0), (1048, 0), (1056, 0), (1064, 968), (1072, 0), (1008, 1200),
            (1016, 0), (1024, 0), (1240, 0), (1248, 0), (1256, 0), (1264, 776),
            (1272, 0), (1200, 1368), (1208, 1008), (1216, 0), (1400, 0), (1408, 0),
            (1416, 0), (1424, 608), (1432, 0), (1368, 2000), (1376, 1200), (1384, 1400)],
    m_root := 1400, m_end_of_memory := 2000,
    m_memory_location := 1000, m_memory_maxsize := 1000 }

/-- The arena `[1000, 2000)` after two 4-byte allocations and the release of the
first: the used block of header 1200 between the free blocks of headers 1008
and 1368. -/
def arena_1000_middle_used : FreeList :=
  { mem := [(1040, 0), (1048, 0), (1056, 1400), (1064, 168), (1072, 1), (1008, 1200),
            (1016, 0), (1024, 1040), (1240, 0), (1248, 0), (1256, 0), (1264, 776),
            (1272, 0), (1200, 1368), (1208, 1008), (1216, 0), (1400, 1040), (1408, 0),
            (1416, 0), (1424, 608), (1432, 0), (1368, 2000), (1376, 1200), (1384, 1400)],
    m_root := 1400, m_end_of_memory := 2000,
    m_memory_location := 1000, m_memory_maxsize := 1000 }

/-- The arena `[1000, 2000)` after the release of that used block, too: one free
block of header 1008. -/
def arena_1000_merged : FreeList :=
  { mem := [(1040, 0), (1048, 0), (1056, 0), (1064, 992), (1072, 0), (1008, 2000),
            (1016, 0), (1024, 1040), (1240, 0), (1248, 0), (1256, 0), (1264, 776),
            (1272, 0), (1200, 2000), (1208, 1008), (1216, 0), (1400, 1040), (1408, 0),
            (1416, 0), (1424, 608), (1432, 0), (1368, 2000), (1376, 1200), (1384, 1400)],
    m_root := 1040, m_end_of_memory := 2000,
    m_memory_location := 1000, m_memory_maxsize := 1000 }

/-! ## Basic facts -/

theorem bind_eq_ok {α β : Type} {x : Except Fault α} {f : α → Except Fault β} {b : β}
    (h : (x >>= f) = .ok b) : ∃ a, x = .ok a ∧ f a = .ok b := by
  cases x with
  | error e => simp [bind, Except.bind] at h
  | ok a => exact ⟨a, rfl, h⟩

theorem read_write (m : Mem) (a v b : Nat) :
    (Mem.write m a v).read b = if b = a then v else m.read b := by
  induction m with
  | nil =>
    simp only [Mem.write, Mem.read]
    split_ifs <;> simp_all
  | cons kx m ih =>
    obtain ⟨k, x⟩ := kx
    simp only [Mem.write]
    split_ifs with h1 h2 h2
    · subst h1; subst h2; simp [Mem.read]
    · subst h1
      have h3 : ¬ k = b := fun e => h2 e.symm
      simp [Mem.read, h3]
    · subst h2
      simp [Mem.read, h1, ih]
    · by_cases hkb : k = b
      · simp [Mem.read, hkb]
      · simp [Mem.read, hkb, ih, h2]

theorem get_ok (s : FreeList) {p : Nat} (off : Nat) (hp : p ≠ 0) :
    s.get p off = .ok (s.mem.read (p + off)) := by
  simp [FreeList.get, hp]

theorem align_to_natural_fst (d p v : Nat) :
    (align_to_natural d p v).1 = p - p % d + d := rfl

theorem align_to_natural_mod (d p v : Nat) : (align_to_natural d p v).1 % d = 0 := by
  rw [align_to_natural_fst]
  obtain ⟨k, hk⟩ : d ∣ p - p % d := Nat.dvd_sub_mod p
  rw [hk]
  have e : d * k + d = d * (k + 1) := by ring
  rw [e]
  exact Nat.mul_mod_right d (k + 1)

theorem align_to_natural_ne_zero (d p v : Nat) (hd : d ≠ 0) :
    (align_to_natural d p v).1 ≠ 0 := by
  rw [align_to_natural_fst]; omega

/-- What a returning call of `allocate_raw_ptr` hands back: `NULL` and the state
it started from, or the aligned address computed from the node found. -/
theorem allocate_raw_ptr_result {fuel : Nat} {s s2 : FreeList} {d p : Nat}
    (h : allocate_raw_ptr fuel s d = .ok (s2, p)) :
    (p = 0 ∧ s2 = s) ∨
    (d ≠ 0 ∧ ∃ n v, n ≠ 0 ∧
      p = (align_to_natural d (get_header_placement_from_ptr n + sizeofHeader) v).1) := by
  unfold allocate_raw_ptr at h
  split at h
  · simp [pure, Except.pure] at h
    exact Or.inl ⟨h.2.symm, h.1.symm⟩
  · rename_i hv
    have hd : d ≠ 0 := by
      intro h0; subst h0; simp [data_size_is_invalid] at hv
    obtain ⟨n, hn, h⟩ := bind_eq_ok h
    split at h
    · simp [pure, Except.pure] at h
      exact Or.inl ⟨h.2.symm, h.1.symm⟩
    · rename_i hn0
      right
      refine ⟨hd, n, ?_⟩
      obtain ⟨v, hv1, h⟩ := bind_eq_ok h
      refine ⟨v, hn0, ?_⟩
      obtain ⟨a1, -, h⟩ := bind_eq_ok h
      obtain ⟨a2, -, h⟩ := bind_eq_ok h
      obtain ⟨a3, -, h⟩ := bind_eq_ok h
      obtain ⟨a4, -, h⟩ := bind_eq_ok h
      obtain ⟨a5, -, h⟩ := bind_eq_ok h
      obtain ⟨a6, -, h⟩ := bind_eq_ok h
      obtain ⟨a7, -, h⟩ := bind_eq_ok h
      obtain ⟨a8, -, h⟩ := bind_eq_ok h
      simp [pure, Except.pure] at h
      exact h.2.symm

/-! ## C1: alignment of the returned pointer -/

/-- C1: for every allocator state and every size `d > 0`, a non-null pointer
returned by `allocate_raw_ptr d` is a multiple of `d`. -/
theorem allocate_raw_ptr_aligned (fuel : Nat) (s s2 : FreeList) (d p : Nat) (hd : 0 < d)
    (h : allocate_raw_ptr fuel s d = .ok (s2, p)) (hp : p ≠ 0) : p % d = 0 := by
  have _ := hd
  rcases allocate_raw_ptr_result h with ⟨h0, -⟩ | ⟨-, n, v, -, rfl⟩
  · exact absurd h0 hp
  · exact align_to_natural_mod d _ v

set_option maxRecDepth 100000 in
/-- C1 at a concrete call: the first 4-byte allocation on the arena `[1000, 2000)`. -/
theorem allocate_raw_ptr_aligned_witness :
    (0 < 4 ∧ (allocate_raw_ptr 10 arena_1000 4).map Prod.snd = .ok 1036 ∧ 1036 ≠ 0) ∧
      1036 % 4 = 0 :=
  ⟨by decide,
    allocate_raw_ptr_aligned 10 arena_1000
      { mem := [(1040, 0), (1048, 0), (1056, 0), (1064, 968), (1072, 0), (1008, 1200),
                (1016, 0), (1024, 0), (1240, 0), (1248, 0), (1256, 0), (1264, 776),
                (1272, 0), (1200, 2000), (1208, 1008), (1216, 1240)],
        m_root := 1240, m_end_of_memory := 2000,
        m_memory_location := 1000, m_memory_maxsize := 1000 }
      4 1036 (by decide) (by decide) (by decide)⟩

/-! ## C5: a null return leaves the allocator as it was -/

/-- C5: whenever `allocate_raw_ptr` returns null, the allocator state after the
call (tree root, every header and node in memory, the object's fields) is the
state before it. -/
theorem allocate_raw_ptr_null_keeps_state (fuel : Nat) (s s2 : FreeList) (d : Nat)
    (h : allocate_raw_ptr fuel s d = .ok (s2, 0)) : s2 = s := by
  rcases allocate_raw_ptr_result h with ⟨-, h2⟩ | ⟨hd, n, v, -, hp⟩
  · exact h2
  · exact absurd hp.symm (align_to_natural_ne_zero d _ v hd)

set_option maxRecDepth 100000 in
/-- C5 at a concrete call: 1000 bytes do not fit the arena `[1000, 2000)`. -/
theorem allocate_raw_ptr_null_keeps_state_witness :
    ∃ s2, allocate_raw_ptr 10 arena_1000 1000 = .ok (s2, 0) ∧ s2 = arena_1000 :=
  ⟨arena_1000, by decide,
    allocate_raw_ptr_null_keeps_state 10 arena_1000 arena_1000 1000 (by decide)⟩

/-! ## C6: `free_raw_ptr(NULL)` -/

/-- C6 (as the code behaves): `free_raw_ptr` has no null check; on `NULL` the
header address computed is `NULL` and the first statement reads
`our_header->prev` through it. -/
theorem free_raw_ptr_null_dereferences (fuel : Nat) (s : FreeList) :
    free_raw_ptr fuel s 0 = .error .null_deref := by
  simp [free_raw_ptr, get_header_placement_from_ptr, FreeList.get, bind, Except.bind]

/-! ## C8: a rejected construction -/

/-- C8: constructed with a null base or with a size below `MIN_INIT_SIZE`, the
allocator has an empty tree, and every later `allocate_raw_ptr`, for every
size, returns null and leaves that state in place. -/
theorem construct_rejected_never_allocates (fuel : Nat) (mem : Mem) (uninit start size : Nat)
    (h : start = 0 ∨ size < MIN_INIT_SIZE) :
    ∃ s, FreeList.construct fuel mem uninit start size = .ok s ∧ s.m_root = 0 ∧
      ∀ (calls : List Nat) (f : Nat), 0 < f →
        Client.run f ⟨s, []⟩ (calls.map Call.allocate) = .ok ⟨s, []⟩ := by
  have hinv : start_or_size_is_invalid start size = true := by
    unfold start_or_size_is_invalid
    rcases h with h | h
    · subst h; simp
    · simp [h]
  refine ⟨{ mem := mem, m_root := 0, m_end_of_memory := uninit, m_memory_location := start,
            m_memory_maxsize := size },
    by simp [FreeList.construct, hinv, pure, Except.pure], rfl, ?_⟩
  intro calls f hf
  obtain ⟨g, rfl⟩ : ∃ g, f = g + 1 := ⟨f - 1, by omega⟩
  induction calls with
  | nil => rfl
  | cons d ds ih =>
    have hstep : ∀ s : FreeList, s.m_root = 0 → allocate_raw_ptr (g + 1) s d = .ok (s, 0) := by
      intro s hs
      unfold allocate_raw_ptr
      split
      · rfl
      · simp [search_best_fit, search_descend, search_ascend, hs, bind, Except.bind, pure,
          Except.pure]
    simp only [List.map_cons, Client.run, Client.call, bind, Except.bind]
    rw [hstep _ rfl]
    simpa [Client.run, pure, Except.pure, bind, Except.bind] using ih

/-- C8 at a concrete construction: a 127-byte arena at address 1000. -/
theorem construct_rejected_never_allocates_witness :
    (1000 = 0 ∨ 127 < MIN_INIT_SIZE) ∧
      ∃ s, FreeList.construct 10 [] 0 1000 127 = .ok s ∧ s.m_root = 0 ∧
        ∀ (calls : List Nat) (f : Nat), 0 < f →
          Client.run f ⟨s, []⟩ (calls.map Call.allocate) = .ok ⟨s, []⟩ :=
  ⟨by decide, construct_rejected_never_allocates 10 [] 0 1000 127 (by decide)⟩

/-! ## C3: `search_best_fit` -/

theorem search_ascend_succ (f : Nat) (s : FreeList) (r p : Nat) :
    search_ascend (f + 1) s r p =
      if p ≠ 0 then do
        let v ← s.get p off_value
        if r > v then do
          let q ← s.get p off_parent
          search_ascend f s r q
        else pure p
      else pure p := rfl

theorem search_descend_succ (f : Nat) (s : FreeList) (r c par : Nat) :
    search_descend (f + 1) s r c par =
      if c ≠ 0 then do
        let v ← s.get c off_value
        if r = v then pure c
        else if r < v then do
          let l ← s.get c off_left
          search_descend f s r l c
        else do
          let x ← s.get c off_right
          search_descend f s r x c
      else pure par := rfl

theorem search_ascend_mono (s : FreeList) (r : Nat) :
    ∀ (f k p up : Nat), search_ascend f s r p = .ok up → search_ascend (f + k) s r p = .ok up := by
  intro f
  induction f with
  | zero => intro k p up h; simp [search_ascend] at h
  | succ f ih =>
    intro k p up h
    have e : f + 1 + k = (f + k) + 1 := by omega
    rw [e]
    rw [search_ascend_succ] at h ⊢
    by_cases hp : p ≠ 0
    · rw [if_pos hp] at h ⊢
      obtain ⟨v, hv, h⟩ := bind_eq_ok h
      simp only [hv, bind, Except.bind]
      by_cases hlt : r > v
      · rw [if_pos hlt] at h ⊢
        obtain ⟨q, hq, h⟩ := bind_eq_ok h
        simp only [hq, bind, Except.bind]
        exact ih k q up h
      · rw [if_neg hlt] at h ⊢
        exact h
    · rw [if_neg hp] at h ⊢
      exact h

/-- The two loops of `search_best_fit`, run from the top of a subtree: the
descent returns, and the ascent from where it stopped ends on `best_fit_in`. -/
theorem search_descend_ascend (s : FreeList) (r : Nat) :
    ∀ (t : Tree) (c par fd : Nat), TreeAt s t c par → t.height < fd →
      ∃ pn, search_descend fd s r c par = .ok pn ∧
        ∀ fa up, search_ascend fa s r par = .ok up →
          search_ascend (fa + t.height) s r pn = .ok (best_fit_in s r t up) := by
  intro t
  induction t with
  | nil =>
    intro c par fd ht hf
    obtain ⟨g, rfl⟩ : ∃ g, fd = g + 1 := ⟨fd - 1, by omega⟩
    have hc : c = 0 := ht
    subst hc
    refine ⟨par, by simp [search_descend_succ, pure, Except.pure], ?_⟩
    intro fa up h
    simpa [Tree.height, best_fit_in] using h
  | node l a rt ihl ihr =>
    intro c par fd ht hf
    obtain ⟨g, rfl⟩ : ∃ g, fd = g + 1 := ⟨fd - 1, by omega⟩
    obtain ⟨hc, ha, hpar, htl, htr⟩ := ht
    subst hc
    have hh : (Tree.node l c rt).height = max l.height rt.height + 1 := rfl
    have hval : s.get c off_value = .ok (s.value c) := get_ok s off_value ha
    have hasc : ∀ f, search_ascend (f + 1) s r c =
        if r > s.value c then search_ascend f s r par else .ok c := by
      intro f
      rw [search_ascend_succ]
      simp only [ha, ne_eq, not_false_eq_true, if_true, hval, bind, Except.bind,
        get_ok s off_parent ha, hpar]
      split_ifs <;> rfl
    rw [search_descend_succ]
    simp only [ha, ne_eq, not_false_eq_true, if_true, hval, bind, Except.bind]
    by_cases heq : r = s.value c
    · refine ⟨c, by simp [heq, pure, Except.pure], ?_⟩
      intro fa up _
      rw [hh, ← Nat.add_assoc, hasc]
      simp [best_fit_in, heq]
    · by_cases hlt : r < s.value c
      · obtain ⟨pn, hpn, hup⟩ := ihl (s.mem.read (c + off_left)) c g htl (by omega)
        refine ⟨pn, by simp [heq, hlt, get_ok s off_left ha, hpn], ?_⟩
        intro fa up _
        have h1 : search_ascend (fa + (max l.height rt.height - l.height) + 1) s r c = .ok c := by
          rw [hasc]
          simp [Nat.not_lt.mpr (Nat.le_of_lt hlt)]
        have h2 := hup _ _ h1
        have e : fa + (max l.height rt.height - l.height) + 1 + l.height =
            fa + (Tree.node l c rt).height := by
          rw [hh]; omega
        rw [e] at h2
        simpa [best_fit_in, heq, hlt] using h2
      · have hgt : r > s.value c := by omega
        obtain ⟨pn, hpn, hup⟩ := ihr (s.mem.read (c + off_right)) c g htr (by omega)
        refine ⟨pn, by simp [heq, hlt, get_ok s off_right ha, hpn], ?_⟩
        intro fa up hfa
        have h1 : search_ascend (fa + 1) s r c = .ok up := by
          rw [hasc]
          simp [hgt, hfa]
        have h2 := search_ascend_mono s r _ (max l.height rt.height - rt.height) _ _
          (hup _ _ h1)
        have e : fa + 1 + rt.height + (max l.height rt.height - rt.height) =
            fa + (Tree.node l c rt).height := by
          rw [hh]; omega
        rw [e] at h2
        simpa [best_fit_in, heq, hlt] using h2

theorem treeAt_addr_ne_zero (s : FreeList) :
    ∀ (t : Tree) (c par : Nat), TreeAt s t c par → ∀ a ∈ t.addrs, a ≠ 0 := by
  intro t
  induction t with
  | nil => intro c par _ a ha; simp [Tree.addrs] at ha
  | node l b rt ihl ihr =>
    intro c par ht a ha
    obtain ⟨-, hb, -, htl, htr⟩ := ht
    simp only [Tree.addrs, List.mem_append, List.mem_cons] at ha
    rcases ha with ha | ha | ha
    · exact ihl _ _ htl a ha
    · exact ha ▸ hb
    · exact ihr _ _ htr a ha

/-- On an ordered tree `best_fit_in` is `up` when no node is large enough, and
otherwise a node of least value among those that are. -/
theorem best_fit_in_spec (s : FreeList) (r : Nat) :
    ∀ (t : Tree) (up : Nat), Ordered s t →
      ((∀ a ∈ t.addrs, s.value a < r) ∧ best_fit_in s r t up = up) ∨
      (best_fit_in s r t up ∈ t.addrs ∧ r ≤ s.value (best_fit_in s r t up) ∧
        ∀ a ∈ t.addrs, r ≤ s.value a → s.value (best_fit_in s r t up) ≤ s.value a) := by
  intro t
  induction t with
  | nil => intro up _; left; simp [Tree.addrs, best_fit_in]
  | node l b rt ihl ihr =>
    intro up ho
    obtain ⟨hl, hr, hol, hor⟩ := ho
    by_cases heq : r = s.value b
    · right
      simp only [best_fit_in, heq, if_true]
      refine ⟨by simp [Tree.addrs], le_refl _, ?_⟩
      intro a _ h; exact h
    · by_cases hlt : r < s.value b
      · right
        simp only [best_fit_in, heq, hlt, if_true, if_false]
        rcases ihl b hol with ⟨hnone, hb⟩ | ⟨hin, hge, hmin⟩
        · rw [hb]
          refine ⟨by simp [Tree.addrs], Nat.le_of_lt hlt, ?_⟩
          intro a ha hra
          simp only [Tree.addrs, List.mem_append, List.mem_cons] at ha
          rcases ha with ha | ha | ha
          · exact absurd (hnone a ha) (by omega)
          · rw [ha]
          · exact hr a ha
        · refine ⟨by simp [Tree.addrs, hin], hge, ?_⟩
          intro a ha hra
          simp only [Tree.addrs, List.mem_append, List.mem_cons] at ha
          rcases ha with ha | ha | ha
          · exact hmin a ha hra
          · rw [ha]; exact hl _ hin
          · exact le_trans (hl _ hin) (hr a ha)
      · have hgt : s.value b < r := by omega
        simp only [best_fit_in, heq, hlt, if_false]
        rcases ihr up hor with ⟨hnone, hb⟩ | ⟨hin, hge, hmin⟩
        · left
          refine ⟨?_, hb⟩
          intro a ha
          simp only [Tree.addrs, List.mem_append, List.mem_cons] at ha
          rcases ha with ha | ha | ha
          · exact lt_of_le_of_lt (hl a ha) hgt
          · rw [ha]; exact hgt
          · exact hnone a ha
        · right
          refine ⟨by simp [Tree.addrs, hin], hge, ?_⟩
          intro a ha hra
          simp only [Tree.addrs, List.mem_append, List.mem_cons] at ha
          rcases ha with ha | ha | ha
          · exact absurd (hl a ha) (by omega)
          · rw [ha] at hra; omega
          · exact hmin a ha hra

/-- What `search_best_fit` returns on a well-formed ordered tree. -/
theorem search_best_fit_eq (s : FreeList) (t : Tree) (r fuel : Nat)
    (ht : TreeAt s t s.m_root 0) (hf : t.height < fuel) :
    search_best_fit fuel s r = .ok (best_fit_in s r t 0) := by
  obtain ⟨pn, hpn, hup⟩ := search_descend_ascend s r t s.m_root 0 fuel ht hf
  have h0 : search_ascend 1 s r 0 = .ok 0 := by simp [search_ascend_succ, pure, Except.pure]
  have h1 := search_ascend_mono s r _ (fuel - (1 + t.height)) _ _ (hup 1 0 h0)
  have e : 1 + t.height + (fuel - (1 + t.height)) = fuel := by omega
  rw [e] at h1
  simp [search_best_fit, hpn, h1, bind, Except.bind]

/-- On a well-formed ordered tree the search by `best_fit_in` from the root comes
back with null exactly when no node is large enough. -/
theorem best_fit_in_eq_zero_iff (s : FreeList) (t : Tree) (r : Nat)
    (ht : TreeAt s t s.m_root 0) (ho : Ordered s t) :
    best_fit_in s r t 0 = 0 ↔ ∀ a ∈ t.addrs, s.value a < r := by
  have hne := treeAt_addr_ne_zero s t _ _ ht
  rcases best_fit_in_spec s r t 0 ho with ⟨hnone, hb⟩ | ⟨hin, hge, -⟩
  · exact ⟨fun _ => hnone, fun _ => hb⟩
  · exact ⟨fun h => absurd h (hne _ hin), fun h => absurd (h _ hin) (by omega)⟩

/-- C3: on a tree that is BST-ordered by value with consistent parent links,
`search_best_fit r` returns; it returns null exactly when no node has a value
of at least `r`; otherwise it returns a node of the tree whose value is the
least one that is at least `r`, so a node of value `r` whenever one exists. -/
theorem search_best_fit_correct (s : FreeList) (t : Tree) (r fuel : Nat)
    (ht : TreeAt s t s.m_root 0) (ho : Ordered s t) (hf : t.height < fuel) :
    ∃ n, search_best_fit fuel s r = .ok n ∧
      (n = 0 ↔ ∀ a ∈ t.addrs, s.value a < r) ∧
      (n ≠ 0 → n ∈ t.addrs ∧ r ≤ s.value n ∧
        ∀ a ∈ t.addrs, r ≤ s.value a → s.value n ≤ s.value a) ∧
      ((∃ a ∈ t.addrs, s.value a = r) → n ≠ 0 ∧ s.value n = r) := by
  refine ⟨best_fit_in s r t 0, search_best_fit_eq s t r fuel ht hf,
    best_fit_in_eq_zero_iff s t r ht ho, ?_⟩
  have hz := best_fit_in_eq_zero_iff s t r ht ho
  rcases best_fit_in_spec s r t 0 ho with ⟨hnone, hb⟩ | ⟨hin, hge, hmin⟩
  · refine ⟨fun h => absurd (hz.mpr hnone) h, ?_⟩
    rintro ⟨a, ha, hra⟩
    exact absurd (hnone a ha) (by omega)
  · have hn0 : best_fit_in s r t 0 ≠ 0 := fun h => absurd (hz.mp h _ hin) (by omega)
    refine ⟨fun _ => ⟨hin, hge, hmin⟩, ?_⟩
    rintro ⟨a, ha, hra⟩
    exact ⟨hn0, le_antisymm (hra ▸ hmin a ha (by omega)) hge⟩

/-- C3 at a concrete tree: three free nodes of values 120, 168 and 248, and the
request 150. -/
theorem search_best_fit_correct_witness :
    ∃ n, search_best_fit 10 arena_three_free 150 = .ok n ∧
      (n = 0 ↔ ∀ a ∈ tree_three_free.addrs, arena_three_free.value a < 150) ∧
      (n ≠ 0 → n ∈ tree_three_free.addrs ∧ 150 ≤ arena_three_free.value n ∧
        ∀ a ∈ tree_three_free.addrs, 150 ≤ arena_three_free.value a →
          arena_three_free.value n ≤ arena_three_free.value a) ∧
      ((∃ a ∈ tree_three_free.addrs, arena_three_free.value a = 150) →
        n ≠ 0 ∧ arena_three_free.value n = 150) :=
  search_best_fit_correct arena_three_free tree_three_free 150 10
    ⟨rfl, by decide, rfl, ⟨rfl, by decide, rfl, rfl, rfl⟩, ⟨rfl, by decide, rfl, rfl, rfl⟩⟩
    (by simp [Ordered, tree_three_free, Tree.addrs, FreeList.value, arena_three_free,
      Mem.read, off_value])
    (by decide)

/-! ## C4: when `allocate_raw_ptr` fails for want of a block -/

/-- A returning call of `allocate_raw_ptr` for an accepted size returns null
exactly when its search did. -/
theorem allocate_raw_ptr_search {fuel : Nat} {s s2 : FreeList} {d p : Nat}
    (hv : data_size_is_invalid d = false) (h : allocate_raw_ptr fuel s d = .ok (s2, p)) :
    ∃ n, search_best_fit fuel s (search_size d) = .ok n ∧ (n = 0 ↔ p = 0) := by
  have hd : d ≠ 0 := by
    intro h0; subst h0; simp [data_size_is_invalid] at hv
  unfold allocate_raw_ptr at h
  rw [hv] at h
  simp only [Bool.false_eq_true, if_false] at h
  obtain ⟨n, hn, h⟩ := bind_eq_ok h
  refine ⟨n, hn, ?_⟩
  split at h
  · rename_i hn0
    simp [pure, Except.pure] at h
    exact ⟨fun _ => h.2.symm, fun _ => hn0⟩
  · rename_i hn0
    obtain ⟨v, -, h⟩ := bind_eq_ok h
    obtain ⟨a1, -, h⟩ := bind_eq_ok h
    obtain ⟨a2, -, h⟩ := bind_eq_ok h
    obtain ⟨a3, -, h⟩ := bind_eq_ok h
    obtain ⟨a4, -, h⟩ := bind_eq_ok h
    obtain ⟨a5, -, h⟩ := bind_eq_ok h
    obtain ⟨a6, -, h⟩ := bind_eq_ok h
    obtain ⟨a7, -, h⟩ := bind_eq_ok h
    obtain ⟨a8, -, h⟩ := bind_eq_ok h
    simp [pure, Except.pure] at h
    have hp : p ≠ 0 := h.2 ▸ align_to_natural_ne_zero d _ v hd
    exact ⟨fun h0 => absurd h0 hn0, fun h0 => absurd h0 hp⟩

theorem search_size_eq (d : Nat) (hov : 2 * d + 2 * sizeofHeader ≤ SIZE_MAX) :
    search_size d = max MIN_INIT_SIZE (2 * d + 2 * sizeofHeader) := by
  unfold search_size wadd wmul HEADER_MAX_PADDING MIN_INIT_SIZE NODE_MAX_PADDING SIZE_MOD
  unfold SIZE_MAX sizeofHeader at hov
  unfold sizeofHeader sizeofNode
  have h1 : d * 2 % 2 ^ 64 = d * 2 := Nat.mod_eq_of_lt (by omega)
  have h2 : (2 * 24 + d * 2) % 2 ^ 64 = 2 * 24 + d * 2 := Nat.mod_eq_of_lt (by omega)
  rw [h1, h2]
  split_ifs <;> omega

theorem data_size_valid (d : Nat) (hd : 0 < d) (hov : 2 * d + 2 * sizeofHeader ≤ SIZE_MAX) :
    data_size_is_invalid d = false := by
  have h2 : 2 ≤ SIZE_MAX / d := by
    rw [Nat.le_div_iff_mul_le hd]
    unfold sizeofHeader at hov
    omega
  have hd0 : d ≠ 0 := by omega
  simp [data_size_is_invalid, hd0]
  omega

/-- C4: for a size `d > 0` whose doubled, header-padded value fits `std::size_t`
and a state whose tree is BST-ordered with consistent parent links,
`allocate_raw_ptr d` returns null exactly when no node of the free-size tree
has a value of at least `max(MIN_INIT_SIZE, 2*d + 2*sizeof(Header))`. -/
theorem allocate_raw_ptr_null_iff (s : FreeList) (t : Tree) (d fuel : Nat) (hd : 0 < d)
    (hov : 2 * d + 2 * sizeofHeader ≤ SIZE_MAX) (ht : TreeAt s t s.m_root 0)
    (ho : Ordered s t) (hf : t.height < fuel) :
    (∃ s2, allocate_raw_ptr fuel s d = .ok (s2, 0)) ↔
      ∀ a ∈ t.addrs, s.value a < max MIN_INIT_SIZE (2 * d + 2 * sizeofHeader) := by
  have hv := data_size_valid d hd hov
  have hn := search_best_fit_eq s t (search_size d) fuel ht hf
  have hnull := best_fit_in_eq_zero_iff s t (search_size d) ht ho
  rw [← search_size_eq d hov]
  constructor
  · rintro ⟨s2, h⟩
    obtain ⟨m, hm, hmp⟩ := allocate_raw_ptr_search hv h
    rw [hn] at hm
    cases hm
    exact hnull.mp (hmp.mpr rfl)
  · intro hnone
    rw [hnull.mpr hnone] at hn
    refine ⟨s, ?_⟩
    unfold allocate_raw_ptr
    rw [hv]
    simp only [Bool.false_eq_true, if_false]
    have hn2 : search_best_fit fuel s
        (if wadd HEADER_MAX_PADDING (wmul d 2) < MIN_INIT_SIZE then MIN_INIT_SIZE
          else wadd HEADER_MAX_PADDING (wmul d 2)) = .ok 0 := hn
    rw [hn2]
    rfl

/-- C4 at a concrete state: free nodes of values 120, 168 and 248, and a request
of 200 bytes. -/
theorem allocate_raw_ptr_null_iff_witness :
    (∃ s2, allocate_raw_ptr 10 arena_three_free 200 = .ok (s2, 0)) ↔
      ∀ a ∈ tree_three_free.addrs,
        arena_three_free.value a < max MIN_INIT_SIZE (2 * 200 + 2 * sizeofHeader) :=
  allocate_raw_ptr_null_iff arena_three_free tree_three_free 200 10 (by decide) (by decide)
    ⟨rfl, by decide, rfl, ⟨rfl, by decide, rfl, rfl, rfl⟩, ⟨rfl, by decide, rfl, rfl, rfl⟩⟩
    (by simp [Ordered, tree_three_free, Tree.addrs, FreeList.value, arena_three_free,
      Mem.read, off_value])
    (by decide)

/-! ## C9: the state after a successful construction -/

theorem placement_bounds (ptr : Nat) :
    ptr < header_placement ptr ∧ header_placement ptr ≤ ptr + 64 ∧
      header_placement ptr + sizeofHeader ≤ node_placement ptr ∧
      node_placement ptr ≤ ptr + 88 := by
  unfold header_placement node_placement get_header_placement_from_ptr
  simp only [align_to_natural_fst]
  unfold sizeofHeader sizeofNode
  have h1 : ptr % 24 < 24 := Nat.mod_lt _ (by decide)
  have h2 : ptr % 24 ≤ ptr := Nat.mod_le _ _
  have h3 : (ptr - ptr % 24 + 24 + 24) % 40 < 40 := Nat.mod_lt _ (by decide)
  have h4 : (ptr - ptr % 24 + 24 + 24) % 40 ≤ ptr - ptr % 24 + 24 + 24 := Nat.mod_le _ _
  have hd : 24 ∣ ptr - ptr % 24 := Nat.dvd_sub_mod ptr
  obtain ⟨k, hk⟩ := hd
  generalize hn : ptr - ptr % 24 + 24 + 24 - (ptr - ptr % 24 + 24 + 24) % 40 + 40 = n at *
  have hn0 : n ≠ 0 := by omega
  rw [if_neg hn0]
  have h5 : (n - 24) % 24 < 24 := Nat.mod_lt _ (by decide)
  have h6 : (n - 24) % 24 ≤ n - 24 := Nat.mod_le _ _
  have hd2 : 24 ∣ n - 24 - (n - 24) % 24 := Nat.dvd_sub_mod _
  obtain ⟨j, hj⟩ := hd2
  omega

theorem wsub_add_left (a b : Nat) (hb : b < SIZE_MOD) : wsub (a + b) a = b := by
  unfold wsub
  unfold SIZE_MOD at hb ⊢
  have h1 : a % 2 ^ 64 < 2 ^ 64 := Nat.mod_lt _ (by decide)
  rw [Nat.add_mod a b, Nat.mod_eq_of_lt hb]
  by_cases h : a % 2 ^ 64 + b < 2 ^ 64
  · rw [Nat.mod_eq_of_lt h]
    have e : a % 2 ^ 64 + b + (2 ^ 64 - a % 2 ^ 64) = b + 2 ^ 64 := by omega
    rw [e, Nat.add_mod_right, Nat.mod_eq_of_lt hb]
  · have h2 : (a % 2 ^ 64 + b) % 2 ^ 64 = a % 2 ^ 64 + b - 2 ^ 64 := by
      rw [Nat.mod_eq_sub_mod (by omega)]
      exact Nat.mod_eq_of_lt (by omega)
    rw [h2]
    have e : a % 2 ^ 64 + b - 2 ^ 64 + (2 ^ 64 - a % 2 ^ 64) = b := by omega
    rw [e, Nat.mod_eq_of_lt hb]

theorem wsub_of_le (a b : Nat) (ha : a < SIZE_MOD) (hb : b ≤ a) : wsub a b = a - b := by
  unfold wsub
  unfold SIZE_MOD at ha ⊢
  have hb2 : b < 2 ^ 64 := by omega
  rw [Nat.mod_eq_of_lt ha, Nat.mod_eq_of_lt hb2]
  have e : a + (2 ^ 64 - b) = (a - b) + 2 ^ 64 := by omega
  rw [e, Nat.add_mod_right]
  exact Nat.mod_eq_of_lt (by omega)
theorem insert_descend_succ (f : Nat) (s : FreeList) (nn c par : Nat) :
    insert_descend (f + 1) s nn c par =
      if c ≠ 0 then do
        let nv ← s.get nn off_value
        let cv ← s.get c off_value
        if nv < cv then do
          let l ← s.get c off_left
          insert_descend f s nn l c
        else do
          let r ← s.get c off_right
          insert_descend f s nn r c
      else pure par := rfl

theorem fix_insert_loop_root (f : Nat) (s : FreeList) :
    fix_insert_loop (f + 1) s s.m_root = .ok s := by
  simp [fix_insert_loop, fix_insert_cond, bind, Except.bind, pure, Except.pure]

/-- The call of `insert_node` on the empty tree. -/
theorem insert_node_empty (f : Nat) (m : Mem) (e l z n : Nat) (hn : n ≠ 0) :
    insert_node (f + 1)
      { mem := m, m_root := 0, m_end_of_memory := e, m_memory_location := l,
        m_memory_maxsize := z } n = .ok
      { mem := ((((m.write (n + off_left) 0).write (n + off_right) 0).write
          (n + off_color) RED).write (n + off_parent) 0).write (n + off_color) BLACK,
        m_root := n, m_end_of_memory := e, m_memory_location := l, m_memory_maxsize := z } := by
  unfold insert_node
  simp only [hn, if_false, FreeList.set, bind, Except.bind, insert_descend_succ,
    ne_eq, not_true_eq_false, pure, Except.pure, if_true]
  unfold fix_insert_node_violations
  simp only [hn, if_false, bind, Except.bind]
  have := fix_insert_loop_root f
    { mem := (((m.write (n + off_left) 0).write (n + off_right) 0).write
          (n + off_color) RED).write (n + off_parent) 0,
      m_root := n, m_end_of_memory := e, m_memory_location := l, m_memory_maxsize := z }
  simp only at this
  rw [this]
  simp [FreeList.set, hn]

theorem read_write_eq (m : Mem) (a v : Nat) : (Mem.write m a v).read a = v := by
  rw [read_write, if_pos rfl]

theorem read_write_ne (m : Mem) (a v b : Nat) (h : b ≠ a) :
    (Mem.write m a v).read b = m.read b := by
  rw [read_write, if_neg h]

theorem new_Node_ok (s : FreeList) (n v : Nat) (hn : n ≠ 0) :
    new_Node s n v = .ok
      { s with
        mem := ((((s.mem.write (n + off_left) 0).write (n + off_right) 0).write
          (n + off_parent) 0).write (n + off_value) v).write (n + off_color) BLACK } := by
  simp [new_Node, FreeList.set, hn, bind, Except.bind]

/-- The call of `create_new_memory_block` with no left neighbour, the end sentinel on the
right and an empty tree: the state it returns. -/
theorem create_first_block (f : Nat) (s : FreeList) (ptr : Nat) (hr : s.m_root = 0)
    (hE : s.m_end_of_memory ≠ 0)
    (hsp : ¬ wsub s.m_end_of_memory ptr < HEADER_MAX_PADDING + NODE_MAX_PADDING) :
    ∃ s2, create_new_memory_block (f + 1) s 0 s.m_end_of_memory ptr = .ok s2 ∧
      s2.m_root = node_placement ptr ∧ s2.m_end_of_memory = s.m_end_of_memory ∧
      s2.mem.read (header_placement ptr + off_next) = s.m_end_of_memory ∧
      s2.mem.read (header_placement ptr + off_prev) = 0 ∧
      s2.mem.read (header_placement ptr + off_node) = node_placement ptr ∧
      s2.mem.read (node_placement ptr + off_left) = 0 ∧
      s2.mem.read (node_placement ptr + off_right) = 0 ∧
      s2.mem.read (node_placement ptr + off_parent) = 0 ∧
      s2.mem.read (node_placement ptr + off_color) = BLACK ∧
      s2.mem.read (node_placement ptr + off_value) =
        wsub (wsub (wsub s.m_end_of_memory ptr) (wsub (header_placement ptr) ptr))
          sizeofHeader := by
  obtain ⟨h1, h2, h3, h4⟩ := placement_bounds ptr
  have hn : node_placement ptr ≠ 0 := by unfold sizeofHeader at h3; omega
  have hh : header_placement ptr ≠ 0 := by omega
  unfold create_new_memory_block
  rw [if_neg hE, if_neg hsp]
  have e1 : (align_to_natural sizeofNode
      ((align_to_natural sizeofHeader ptr (wsub s.m_end_of_memory ptr)).1 + sizeofHeader)
      (align_to_natural sizeofHeader ptr (wsub s.m_end_of_memory ptr)).2).1 =
      node_placement ptr := rfl
  simp only [e1]
  have e2 : get_header_placement_from_ptr (node_placement ptr) = header_placement ptr := rfl
  simp only [e2]
  simp only [new_Node_ok _ _ _ hn, bind, Except.bind, hr]
  rw [insert_node_empty f _ _ _ _ _ hn]
  simp only [new_Header, FreeList.set, hh, if_false, bind, Except.bind, pure, Except.pure,
    ne_eq, not_true_eq_false, false_and, and_false]
  refine ⟨_, rfl, rfl, rfl, ?_⟩
  generalize header_placement ptr = h at *
  generalize node_placement ptr = n at *
  unfold sizeofHeader at h3
  unfold off_next off_prev off_node off_left off_right off_parent off_color off_value
  refine ⟨?_, ?_, ?_, ?_, ?_, ?_, ?_, ?_⟩ <;>
    repeat (first | rw [read_write_eq] | rw [read_write_ne _ _ _ _ (by omega)])

/-- C9: after construction with a non-null base `B` and a size `S` of at least
`MIN_INIT_SIZE`, the block list is the single block at `header_placement B`: it
is free (its node is `node_placement B`), its `prev` is null and its `next` is
the end sentinel `B + S`; the tree is that node alone, a BLACK root without
children or parent, and its value is `S - (header - B) - sizeof(Header)`. -/
theorem construct_single_free_block (fuel : Nat) (mem : Mem) (uninit B S : Nat)
    (hf : 0 < fuel) (hB : B ≠ 0) (hS : MIN_INIT_SIZE ≤ S) (hmax : S ≤ SIZE_MAX) :
    ∃ s, FreeList.construct fuel mem uninit B S = .ok s ∧
      s.m_end_of_memory = B + S ∧
      (∀ k, block_list s (k + 1) (header_placement B) = [header_placement B]) ∧
      s.mem.read (header_placement B + off_prev) = 0 ∧
      s.mem.read (header_placement B + off_next) = B + S ∧
      s.mem.read (header_placement B + off_node) = node_placement B ∧
      TreeAt s (.node .nil (node_placement B) .nil) s.m_root 0 ∧
      s.mem.read (node_placement B + off_color) = BLACK ∧
      s.value (node_placement B) = S - (header_placement B - B) - sizeofHeader ∧
      header_placement B = get_header_placement_from_ptr (node_placement B) ∧
      B < header_placement B ∧ node_placement B + sizeofNode ≤ B + S := by
  obtain ⟨f, rfl⟩ : ∃ f, fuel = f + 1 := ⟨fuel - 1, by omega⟩
  obtain ⟨h1, h2, h3, h4⟩ := placement_bounds B
  have hS2 : 128 ≤ S := hS
  have hmax2 : S < 2 ^ 64 := by unfold SIZE_MAX at hmax; omega
  have hinv : start_or_size_is_invalid B S = false := by
    have : ¬ S < MIN_INIT_SIZE := by omega
    simp [start_or_size_is_invalid, this, hB]
  have hsz : wsub (B + S) B = S := wsub_add_left B S hmax2
  have hsp : ¬ wsub (B + S) B < HEADER_MAX_PADDING + NODE_MAX_PADDING := by
    rw [hsz]
    show ¬ S < 2 * 24 + 2 * 40
    omega
  obtain ⟨s2, hs2, hroot, hend, hnext, hprev, hnode, hl, hr, hp, hc, hv⟩ :=
    create_first_block f
      { mem := mem, m_root := 0, m_end_of_memory := B + S, m_memory_location := B,
        m_memory_maxsize := S } B rfl (by show B + S ≠ 0; omega) hsp
  have hn0 : node_placement B ≠ 0 := by unfold sizeofHeader at h3; omega
  refine ⟨s2, ?_, hend, ?_, hprev, hnext, hnode, ?_, hc, ?_, rfl, h1, ?_⟩
  · simp only [FreeList.construct, hinv, Bool.false_eq_true, if_false]
    exact hs2
  · intro k
    have hne : header_placement B ≠ s2.m_end_of_memory := by
      rw [hend]; show header_placement B ≠ B + S; unfold sizeofHeader at h3; omega
    have hend2 : s2.mem.read (header_placement B + off_next) = s2.m_end_of_memory := by
      rw [hnext, hend]
    cases k with
    | zero => simp [block_list, hne]
    | succ k => simp [block_list, hne, hend2]
  · rw [hroot]
    exact ⟨rfl, hn0, hp, hl, hr⟩
  · show s2.mem.read (node_placement B + off_value) = _
    rw [hv]
    show wsub (wsub (wsub (B + S) B) (wsub (header_placement B) B)) sizeofHeader = _
    have hk : wsub (header_placement B) B = header_placement B - B := by
      have e : header_placement B = B + (header_placement B - B) := by omega
      have hlt : header_placement B - B < SIZE_MOD := by
        show header_placement B - B < 2 ^ 64
        omega
      conv_lhs => rw [e]
      exact wsub_add_left B _ hlt
    rw [hsz, hk, wsub_of_le S _ hmax2 (by omega),
      wsub_of_le _ _ (by show _ < 2 ^ 64; omega) (by unfold sizeofHeader; omega)]
  · show node_placement B + 40 ≤ B + S
    omega

/-- C9 at a concrete construction: the arena `[1000, 2000)` on zeroed memory. -/
theorem construct_single_free_block_witness :
    ∃ s, FreeList.construct 10 [] 0 1000 1000 = .ok s ∧
      s.m_end_of_memory = 1000 + 1000 ∧
      (∀ k, block_list s (k + 1) (header_placement 1000) = [header_placement 1000]) ∧
      s.mem.read (header_placement 1000 + off_prev) = 0 ∧
      s.mem.read (header_placement 1000 + off_next) = 1000 + 1000 ∧
      s.mem.read (header_placement 1000 + off_node) = node_placement 1000 ∧
      TreeAt s (.node .nil (node_placement 1000) .nil) s.m_root 0 ∧
      s.mem.read (node_placement 1000 + off_color) = BLACK ∧
      s.value (node_placement 1000) = 1000 - (header_placement 1000 - 1000) - sizeofHeader ∧
      header_placement 1000 = get_header_placement_from_ptr (node_placement 1000) ∧
      1000 < header_placement 1000 ∧ node_placement 1000 + sizeofNode ≤ 1000 + 1000 :=
  construct_single_free_block 10 [] 0 1000 1000 (by decide) (by decide) (by decide)
    (by decide)

/-! ## C7: sizes whose padded double overflows -/

set_option maxRecDepth 100000 in
/-- C7 (as the code behaves): `data_size_is_invalid` tests the doubling alone.
For `d = 2^63 - 1` the padded double `2*d + 2*sizeof(Header)` exceeds `SIZE_MAX`,
yet the size is accepted, the search size wraps around to `MIN_INIT_SIZE`, the
free block of the arena `[1000, 2000)` is taken and the pointer returned is the
address `d`. -/
theorem allocate_raw_ptr_accepts_overflowing_size :
    SIZE_MAX < 2 * (2 ^ 63 - 1) + 2 * sizeofHeader ∧
      data_size_is_invalid (2 ^ 63 - 1) = false ∧
      search_size (2 ^ 63 - 1) = MIN_INIT_SIZE ∧
      (allocate_raw_ptr 10 arena_1000 (2 ^ 63 - 1)).map Prod.snd = .ok (2 ^ 63 - 1) := by
  decide

/-! ## C10 and C2: the block list after a split -/

set_option maxRecDepth 100000 in
/-- C10 (as the code behaves): `split_extra_memory_into_new_block` links the new
free block behind the allocated one but never sets `next->prev`.  On the arena
`[1000, 2000)` the calls of `calls_split` all return, every `free` is given a
live pointer, and afterwards the list from the first block is
`1008, 1200, 1368, 1560` while the block after 1200 (which is not the end
sentinel) still names 1008 as its `prev`. -/
theorem split_leaves_stale_prev :
    FreeList.construct 10 [] 0 1000 1000 = .ok arena_1000 ∧
      Client.frees_live 20 ⟨arena_1000, []⟩ calls_split = true ∧
      (Client.run 20 ⟨arena_1000, []⟩ calls_split).map (fun c =>
        (c.live, c.allocator.m_end_of_memory,
          c.allocator.mem.read (1008 + off_prev),
          block_list c.allocator 10 1008,
          c.allocator.mem.read (1200 + off_next),
          c.allocator.mem.read (1368 + off_prev))) =
        .ok ([(1396, 4), (1036, 4)], 2000, 0, [1008, 1200, 1368, 1560], 1368, 1008) := by
  decide

set_option maxRecDepth 100000 in
/-- C2 (as the code behaves): on the arena `[1000, 2000)` the calls of
`calls_reuse` all return and every `free` is given a live pointer, yet the ninth
and the eleventh call both return the address 1228 while the first of the two
payloads is still live. -/
theorem live_payload_handed_out_twice :
    FreeList.construct 10 [] 0 1000 1000 = .ok arena_1000 ∧
      Client.frees_live 20 ⟨arena_1000, []⟩ calls_reuse = true ∧
      (Client.run 20 ⟨arena_1000, []⟩ calls_reuse).map Client.live =
        .ok [(1228, 4), (1036, 4), (1228, 4)] ∧
      payloads_disjoint (1228, 4) (1228, 4) = false := by
  decide

/-! ## C11 and C12: free blocks, the list and the tree -/

set_option maxRecDepth 100000 in
/-- C11 (as the code behaves): on the arena `[1000, 2000)` the calls of
`calls_drain` all return and every `free` is given a live pointer.  Afterwards
no payload is live, yet the tree holds two nodes: the free block with header
1008 ends at 1560 (its `next`), and the free block that starts there has its
header at 1608; the two were not merged. -/
theorem adjacent_free_blocks_left_unmerged :
    Client.frees_live 20 ⟨arena_1000, []⟩ calls_drain = true ∧
      (Client.run 20 ⟨arena_1000, []⟩ calls_drain).map (fun c =>
        (c.live, tree_nodes c.allocator 10 c.allocator.m_root, c.allocator.m_end_of_memory)) =
        .ok ([], [1640, 1040], 2000) ∧
      get_header_placement_from_ptr 1040 = 1008 ∧
      get_header_placement_from_ptr 1640 = 1608 ∧
      (Client.run 20 ⟨arena_1000, []⟩ calls_drain).map (fun c =>
        (c.allocator.mem.read (1008 + off_node), c.allocator.mem.read (1008 + off_next),
          c.allocator.mem.read (1608 + off_node), c.allocator.mem.read (1608 + off_next))) =
        .ok (1040, 1560, 1640, 2000) ∧
      header_placement 1560 = 1608 := by
  decide

set_option maxRecDepth 100000 in
/-- C12 (as the code behaves): on the arena `[1000, 2000)`, after the calls of
`calls_split` and the release of the third payload, the nodes reachable from the
tree root are 1240 and 1440, while the blocks of the list from the first block
are 1008 and 1416, whose `node` fields are null and 1440: the node 1240 is in
the tree and belongs to no block of the list. -/
theorem tree_node_without_block :
    Client.frees_live 20 ⟨arena_1000, []⟩ (calls_split ++ [.free 1396]) = true ∧
      (Client.run 20 ⟨arena_1000, []⟩ (calls_split ++ [.free 1396])).map (fun c =>
        (tree_nodes c.allocator 10 c.allocator.m_root,
          c.allocator.mem.read (1008 + off_prev),
          block_list c.allocator 10 1008,
          (block_list c.allocator 10 1008).map
            (fun h => c.allocator.mem.read (h + off_node)))) =
        .ok ([1240, 1440], 0, [1008, 1416], [0, 1440]) := by
  decide

/-! ## C14 and C15: `remove_node` -/

set_option maxRecDepth 100000 in
/-- C14 (as the code behaves): `fix_remove_node_violations` returns at once when
the replacing node is null.  The tree `tree_of_four` (made by four calls of
`insert_node`) satisfies the red-black properties; removing its BLACK leaf 40
returns and leaves the root 80 with no left child and the right subtree
120 - 160, which has no common black height. -/
theorem remove_node_breaks_black_height :
    insert_each 10 empty_tree [(40, 10), (80, 20), (120, 30), (160, 40)] = .ok tree_of_four ∧
      TreeAt tree_of_four
        (.node (.node .nil 40 .nil) 80 (.node .nil 120 (.node .nil 160 .nil)))
        tree_of_four.m_root 0 ∧
      RedBlack tree_of_four
        (.node (.node .nil 40 .nil) 80 (.node .nil 120 (.node .nil 160 .nil))) ∧
      (remove_node 10 tree_of_four 40).map (fun s =>
        (decide (TreeAt s (.node .nil 80 (.node .nil 120 (.node .nil 160 .nil))) s.m_root 0),
          black_height s (.node .nil 80 (.node .nil 120 (.node .nil 160 .nil))),
          decide (RedBlack s (.node .nil 80 (.node .nil 120 (.node .nil 160 .nil)))))) =
        .ok (true, none, false) := by
  decide

set_option maxRecDepth 100000 in
/-- C15 (as the code behaves): when the target has two children and its in-order
successor is its right child without a right child, `remove_node` writes
`replacing_node->parent` through the null `replacing_node`.  The tree of
`arena_900_two_holes` is BST-ordered with consistent parent links and satisfies
the red-black properties; removing its root 1760 is a null dereference. -/
theorem remove_node_null_dereference :
    TreeAt arena_900_two_holes tree_two_holes arena_900_two_holes.m_root 0 ∧
      Ordered arena_900_two_holes tree_two_holes ∧
      RedBlack arena_900_two_holes tree_two_holes ∧
      1760 ∈ tree_two_holes.addrs ∧
      remove_node 10 arena_900_two_holes 1760 = .error .null_deref := by
  decide

/-! ## C17, C18, C19: runs to exhaustion and back -/

set_option maxRecDepth 100000 in
/-- C17 (as the code behaves): on the arena `[1000, 1496)` the first allocation
loop of 4-byte objects succeeds twice; after both pointers are freed in
allocation order the second loop succeeds three times. -/
theorem exhaustion_test_counts_differ :
    FreeList.construct 10 [] 0 1000 496 = .ok arena_496 ∧
      exhaustion_test 20 4 10 arena_496 = .ok ([1036, 1228], [1036, 1228, 1396]) := by
  decide

set_option maxRecDepth 100000 in
/-- C18 (as the code behaves): on the arena `[1000, 1600)` the allocation loop of
4-byte objects returns 1036, 1228 and 1396 and then null; after the second
pointer is freed the next `allocate_raw_ptr 4` still returns null. -/
theorem free_one_then_allocate_fails :
    FreeList.construct 10 [] 0 1000 600 = .ok arena_600 ∧
      (do
        let (s, ptrs_list) ← allocate_until_failure 20 4 10 arena_600 []
        let s ← free_raw_ptr 20 s 1228
        let (_, p) ← allocate_raw_ptr 20 s 4
        pure (ptrs_list, p)) = .ok ([1036, 1228, 1396], 0) := by
  decide

set_option maxRecDepth 100000 in
/-- C19 (as the code behaves): on the arena `[1000, 1900)` five 4-byte
allocations succeed; after the five pointers are freed in the order first,
third, second, fourth, fifth, the fifth of the same five allocations returns
null. -/
theorem same_allocations_fail_after_frees :
    FreeList.construct 10 [] 0 1000 900 = .ok arena_900 ∧
      (do
        let (s, first) ← allocate_each 20 arena_900 [4, 4, 4, 4, 4]
        let s ← free_each 20 s [1036, 1396, 1228, 1588, 1756]
        let (_, second) ← allocate_each 20 s [4, 4, 4, 4, 4]
        pure (first, second)) =
        .ok ([1036, 1228, 1396, 1588, 1756], [1636, 1036, 1228, 1396, 0]) := by
  decide

/-! ## C20: freeing a block between two free blocks -/

set_option maxRecDepth 100000 in
/-- C20 (as the code behaves): on the arena `[1000, 1900)` the calls of
`calls_two_holes` lead to `arena_900_two_holes`, where the blocks 1416, 1560 and
1728 are consecutive, the first and the last free and the middle one used (its
payload 1588 is live).  `free_raw_ptr 1588` removes the node 1760 of the right
block from the tree first, and that `remove_node` is a null dereference. -/
theorem free_between_free_blocks_null_dereference :
    Client.run 20 ⟨arena_900, []⟩ calls_two_holes =
        .ok ⟨arena_900_two_holes, [(1228, 4), (1588, 4)]⟩ ∧
      get_header_placement_from_ptr 1588 = 1560 ∧
      arena_900_two_holes.mem.read (1560 + off_prev) = 1416 ∧
      arena_900_two_holes.mem.read (1560 + off_next) = 1728 ∧
      arena_900_two_holes.mem.read (1560 + off_node) = 0 ∧
      arena_900_two_holes.mem.read (1416 + off_next) = 1560 ∧
      arena_900_two_holes.mem.read (1416 + off_node) = 1440 ∧
      arena_900_two_holes.mem.read (1728 + off_prev) = 1560 ∧
      arena_900_two_holes.mem.read (1728 + off_node) = 1760 ∧
      free_raw_ptr 20 arena_900_two_holes 1588 = .error .null_deref := by
  decide

/-! ## Trees with a hole: basic facts -/

theorem plug_addrs : ∀ (c : Ctx) (t : Tree),
    (plug c t).addrs = ctx_before c ++ t.addrs ++ ctx_after c := by
  intro c
  induction c with
  | nil => intro t; simp [plug, ctx_before, ctx_after]
  | cons f c ih =>
    intro t
    obtain ⟨d, a, sib⟩ := f
    cases d with
    | left => simp [plug, ctx_before, ctx_after, ih, Tree.addrs]
    | right => simp [plug, ctx_before, ctx_after, ih, Tree.addrs]

theorem treeAt_plug (s : FreeList) (root : Nat) : ∀ (c : Ctx) (t : Tree),
    TreeAt s (plug c t) root 0 ↔ ∃ p par, TreeAt s t p par ∧ CtxAt s c p par root := by
  intro c
  induction c with
  | nil =>
    intro t
    simp only [plug, CtxAt]
    constructor
    · intro h; exact ⟨root, 0, h, rfl, rfl⟩
    · rintro ⟨p, par, h, rfl, rfl⟩; exact h
  | cons f c ih =>
    intro t
    obtain ⟨d, a, sib⟩ := f
    cases d with
    | left =>
      simp only [plug, CtxAt, ih, TreeAt]
      constructor
      · rintro ⟨p, par, ⟨rfl, ha, hpar, ht, hs⟩, hc⟩
        exact ⟨_, _, ht, rfl, ha, rfl, hs, hpar ▸ hc⟩
      · rintro ⟨p, par, ht, rfl, ha, rfl, hs, hc⟩
        exact ⟨_, _, ⟨rfl, ha, rfl, ht, hs⟩, hc⟩
    | right =>
      simp only [plug, CtxAt, ih, TreeAt]
      constructor
      · rintro ⟨p, par, ⟨rfl, ha, hpar, hs, ht⟩, hc⟩
        exact ⟨_, _, ht, rfl, ha, rfl, hs, hpar ▸ hc⟩
      · rintro ⟨p, par, ht, rfl, ha, rfl, hs, hc⟩
        exact ⟨_, _, ⟨rfl, ha, rfl, hs, ht⟩, hc⟩

theorem far_symm {a b : Nat} (h : far a b) : far b a := Or.symm h

theorem far_ne {a b : Nat} (h : far a b) : a ≠ b := by
  unfold far sizeofNode at h; omega


/-! ## The rotations -/

theorem set_ok (s : FreeList) {p : Nat} (off v : Nat) (hp : p ≠ 0) :
    s.set p off v = .ok { s with mem := s.mem.write (p + off) v } := by
  simp [FreeList.set, hp]

/-- What `rotate_node_right` does to memory: `x` is the left child of `g`, `b` the
right child of `x` and `par` the parent of `g`. -/
theorem rotate_node_right_mem (s : FreeList) (g x b par pl : Nat) (hg : g ≠ 0) (hx : x ≠ 0)
    (hgl : s.mem.read (g + off_left) = x) (hxr : s.mem.read (x + off_right) = b)
    (hgp : s.mem.read (g + off_parent) = par) (hpl : s.mem.read (par + off_left) = pl)
    (hgx : far g x) (hbg : b ≠ 0 → far b g ∧ far b x)
    (hpar : par ≠ 0 → far par g ∧ far par x ∧ (b ≠ 0 → far par b)) :
    ∃ s2, rotate_node_right s g = .ok s2 ∧
      s2.m_root = (if par = 0 then x else s.m_root) ∧
      s2.m_end_of_memory = s.m_end_of_memory ∧
      ∀ addr, s2.mem.read addr =
        if addr = g + off_parent then x
        else if addr = x + off_right then g
        else if par ≠ 0 ∧ pl = g ∧ addr = par + off_left then x
        else if par ≠ 0 ∧ pl ≠ g ∧ addr = par + off_right then x
        else if addr = x + off_parent then par
        else if b ≠ 0 ∧ addr = b + off_parent then g
        else if addr = g + off_left then b
        else s.mem.read addr := by
  unfold far sizeofNode at hgx hbg hpar
  unfold off_left at hgl hpl
  unfold off_right at hxr
  unfold off_parent at hgp
  unfold rotate_node_right
  unfold off_left off_right off_parent
  rw [if_neg hg]
  simp only [get_ok _ _ hg, get_ok _ _ hx, hgl, hxr, bind, Except.bind, set_ok _ _ _ hg,
    set_ok _ _ _ hx, read_write_eq]
  by_cases hb : b = 0
  · simp only [hb, ne_eq, not_true_eq_false, if_false, pure, Except.pure, get_ok _ _ hg,
      get_ok _ _ hx, set_ok _ _ _ hg, set_ok _ _ _ hx]
    simp (disch := omega) only [read_write_ne, hgp]
    by_cases hp : par = 0
    · simp only [hp, if_true, set_ok _ _ _ hg, set_ok _ _ _ hx]
      refine ⟨_, rfl, rfl, rfl, ?_⟩
      intro addr
      simp only [read_write, hb, hp, ne_eq, not_true_eq_false, not_false_eq_true,
        true_and, false_and, if_true, if_false]
    · have hpar2 := hpar hp
      simp only [if_neg hp, get_ok _ _ hp, set_ok _ _ _ hp]
      simp (disch := omega) only [read_write_ne, hpl]
      by_cases hplg : pl = g
      · simp only [hplg, if_true]
        refine ⟨_, rfl, rfl, rfl, ?_⟩
        intro addr
        simp only [read_write, hb, hp, hplg, ne_eq, not_true_eq_false, not_false_eq_true,
          true_and, false_and, if_true, if_false]
      · simp only [if_neg hplg]
        refine ⟨_, rfl, rfl, rfl, ?_⟩
        intro addr
        simp only [read_write, hb, hp, hplg, ne_eq, not_true_eq_false, not_false_eq_true,
          true_and, false_and, if_true, if_false]
  · have hbg2 := hbg hb
    simp only [ne_eq, hb, not_false_eq_true, if_true, pure, Except.pure, get_ok _ _ hg,
      get_ok _ _ hx, set_ok _ _ _ hg, set_ok _ _ _ hx, set_ok _ _ _ hb]
    simp (disch := omega) only [read_write_ne, hgp]
    by_cases hp : par = 0
    · simp only [hp, if_true, set_ok _ _ _ hg, set_ok _ _ _ hx]
      refine ⟨_, rfl, rfl, rfl, ?_⟩
      intro addr
      simp only [read_write, hb, hp, ne_eq, not_true_eq_false, not_false_eq_true,
        true_and, false_and, if_true, if_false]
    · have hpar2 := hpar hp
      have hpar3 := hpar2.2.2 hb
      simp only [if_neg hp, get_ok _ _ hp, set_ok _ _ _ hp]
      simp (disch := omega) only [read_write_ne, hpl]
      by_cases hplg : pl = g
      · simp only [hplg, if_true]
        refine ⟨_, rfl, rfl, rfl, ?_⟩
        intro addr
        simp only [read_write, hb, hp, hplg, ne_eq, not_true_eq_false, not_false_eq_true,
          true_and, false_and, if_true, if_false]
      · simp only [if_neg hplg]
        refine ⟨_, rfl, rfl, rfl, ?_⟩
        intro addr
        simp only [read_write, hb, hp, hplg, ne_eq, not_true_eq_false, not_false_eq_true,
          true_and, false_and, if_true, if_false]

/-- What `rotate_node_left` does to memory: `x` is the right child of `g`, `b` the
left child of `x` and `par` the parent of `g`. -/
theorem rotate_node_left_mem (s : FreeList) (g x b par pl : Nat) (hg : g ≠ 0) (hx : x ≠ 0)
    (hgl : s.mem.read (g + off_right) = x) (hxr : s.mem.read (x + off_left) = b)
    (hgp : s.mem.read (g + off_parent) = par) (hpl : s.mem.read (par + off_left) = pl)
    (hgx : far g x) (hbg : b ≠ 0 → far b g ∧ far b x)
    (hpar : par ≠ 0 → far par g ∧ far par x ∧ (b ≠ 0 → far par b)) :
    ∃ s2, rotate_node_left s g = .ok s2 ∧
      s2.m_root = (if par = 0 then x else s.m_root) ∧
      s2.m_end_of_memory = s.m_end_of_memory ∧
      ∀ addr, s2.mem.read addr =
        if addr = g + off_parent then x
        else if addr = x + off_left then g
        else if par ≠ 0 ∧ pl = g ∧ addr = par + off_left then x
        else if par ≠ 0 ∧ pl ≠ g ∧ addr = par + off_right then x
        else if addr = x + off_parent then par
        else if b ≠ 0 ∧ addr = b + off_parent then g
        else if addr = g + off_right then b
        else s.mem.read addr := by
  unfold far sizeofNode at hgx hbg hpar
  unfold off_right at hgl
  unfold off_left at hxr hpl
  unfold off_parent at hgp
  unfold rotate_node_left
  unfold off_left off_right off_parent
  rw [if_neg hg]
  simp only [get_ok _ _ hg, get_ok _ _ hx, hgl, hxr, bind, Except.bind, set_ok _ _ _ hg,
    set_ok _ _ _ hx, read_write_eq]
  by_cases hb : b = 0
  · simp only [hb, ne_eq, not_true_eq_false, if_false, pure, Except.pure, get_ok _ _ hg,
      get_ok _ _ hx, set_ok _ _ _ hg, set_ok _ _ _ hx]
    simp (disch := omega) only [read_write_ne, hgp]
    by_cases hp : par = 0
    · simp only [hp, if_true, set_ok _ _ _ hg, set_ok _ _ _ hx]
      refine ⟨_, rfl, rfl, rfl, ?_⟩
      intro addr
      simp only [read_write, hb, hp, ne_eq, not_true_eq_false, not_false_eq_true,
        true_and, false_and, if_true, if_false]
    · have hpar2 := hpar hp
      simp only [if_neg hp, get_ok _ _ hp, set_ok _ _ _ hp]
      simp (disch := omega) only [read_write_ne, hpl]
      by_cases hplg : pl = g
      · simp only [hplg, if_true]
        refine ⟨_, rfl, rfl, rfl, ?_⟩
        intro addr
        simp only [read_write, hb, hp, hplg, ne_eq, not_true_eq_false, not_false_eq_true,
          true_and, false_and, if_true, if_false]
      · simp only [if_neg hplg]
        refine ⟨_, rfl, rfl, rfl, ?_⟩
        intro addr
        simp only [read_write, hb, hp, hplg, ne_eq, not_true_eq_false, not_false_eq_true,
          true_and, false_and, if_true, if_false]
  · have hbg2 := hbg hb
    simp only [ne_eq, hb, not_false_eq_true, if_true, pure, Except.pure, get_ok _ _ hg,
      get_ok _ _ hx, set_ok _ _ _ hg, set_ok _ _ _ hx, set_ok _ _ _ hb]
    simp (disch := omega) only [read_write_ne, hgp]
    by_cases hp : par = 0
    · simp only [hp, if_true, set_ok _ _ _ hg, set_ok _ _ _ hx]
      refine ⟨_, rfl, rfl, rfl, ?_⟩
      intro addr
      simp only [read_write, hb, hp, ne_eq, not_true_eq_false, not_false_eq_true,
        true_and, false_and, if_true, if_false]
    · have hpar2 := hpar hp
      have hpar3 := hpar2.2.2 hb
      simp only [if_neg hp, get_ok _ _ hp, set_ok _ _ _ hp]
      simp (disch := omega) only [read_write_ne, hpl]
      by_cases hplg : pl = g
      · simp only [hplg, if_true]
        refine ⟨_, rfl, rfl, rfl, ?_⟩
        intro addr
        simp only [read_write, hb, hp, hplg, ne_eq, not_true_eq_false, not_false_eq_true,
          true_and, false_and, if_true, if_false]
      · simp only [if_neg hplg]
        refine ⟨_, rfl, rfl, rfl, ?_⟩
        intro addr
        simp only [read_write, hb, hp, hplg, ne_eq, not_true_eq_false, not_false_eq_true,
          true_and, false_and, if_true, if_false]

/-! ## The rotations, node by node -/

theorem separated_far {l : List Nat} (hl : Separated l) {a b : Nat} (ha : a ∈ l) (hb : b ∈ l) :
    a = b ∨ far a b := by
  by_cases hab : a = b
  · exact Or.inl hab
  · exact Or.inr (List.Pairwise.forall (fun _ _ h => far_symm h) hl ha hb hab)

theorem far_off_ne {a b : Nat} (h : a = b ∨ far a b) (i j : Nat) (hij : i ≠ j) (hi : i < 40)
    (hj : j < 40) : (a + i = b + j) = False := by
  unfold far sizeofNode at h
  simp only [eq_iff_iff, iff_false]
  omega

theorem far_off_eq {a b : Nat} (_ : a = b ∨ far a b) (i : Nat) :
    (a + i = b + i) = (a = b) := by
  simp

/-- What `rotate_node_right` does to the fields of the nodes of a separated list
that holds every node involved. -/
theorem rotate_node_right_fields (s : FreeList) (l : List Nat) (g x b par pl : Nat)
    (hl : Separated l) (h0 : ∀ n ∈ l, n ≠ 0) (hgl : g ∈ l) (hxl : x ∈ l)
    (hbl : b ≠ 0 → b ∈ l) (hparl : par ≠ 0 → par ∈ l)
    (hgx : g ≠ x) (hbg : b ≠ g) (hbx : b ≠ x) (hpg : par ≠ g) (hpx : par ≠ x)
    (hpb : par ≠ 0 → par ≠ b)
    (hleft : s.mem.read (g + off_left) = x) (hxr : s.mem.read (x + off_right) = b)
    (hgp : s.mem.read (g + off_parent) = par) (hpl : s.mem.read (par + off_left) = pl) :
    ∃ s2, rotate_node_right s g = .ok s2 ∧
      s2.m_root = (if par = 0 then x else s.m_root) ∧
      ∀ n ∈ l,
        s2.mem.read (n + off_left) =
          (if par ≠ 0 ∧ pl = g ∧ n = par then x else if n = g then b
           else s.mem.read (n + off_left)) ∧
        s2.mem.read (n + off_right) =
          (if n = x then g else if par ≠ 0 ∧ pl ≠ g ∧ n = par then x
           else s.mem.read (n + off_right)) ∧
        s2.mem.read (n + off_parent) =
          (if n = g then x else if n = x then par else if b ≠ 0 ∧ n = b then g
           else s.mem.read (n + off_parent)) ∧
        s2.value n = s.value n ∧ s2.color n = s.color n := by
  have fgx : far g x := (separated_far hl hgl hxl).resolve_left hgx
  have fbg : b ≠ 0 → far b g ∧ far b x := fun h =>
    ⟨(separated_far hl (hbl h) hgl).resolve_left hbg,
      (separated_far hl (hbl h) hxl).resolve_left hbx⟩
  have fpar : par ≠ 0 → far par g ∧ far par x ∧ (b ≠ 0 → far par b) := fun h =>
    ⟨(separated_far hl (hparl h) hgl).resolve_left hpg,
      (separated_far hl (hparl h) hxl).resolve_left hpx,
      fun hb => (separated_far hl (hparl h) (hbl hb)).resolve_left (hpb h)⟩
  obtain ⟨s2, hs2, hroot, -, hmem⟩ :=
    rotate_node_right_mem s g x b par pl (h0 g hgl) (h0 x hxl) hleft hxr hgp hpl fgx fbg fpar
  refine ⟨s2, hs2, hroot, ?_⟩
  intro n hn
  have hn0 := h0 n hn
  have hng := separated_far hl hn hgl
  have hnx := separated_far hl hn hxl
  have hnb : b = 0 ∨ (b ≠ 0 ∧ (n = b ∨ far n b)) := by
    by_cases h : b = 0
    · exact Or.inl h
    · exact Or.inr ⟨h, separated_far hl hn (hbl h)⟩
  have hnp : par = 0 ∨ (par ≠ 0 ∧ (n = par ∨ far n par)) := by
    by_cases h : par = 0
    · exact Or.inl h
    · exact Or.inr ⟨h, separated_far hl hn (hparl h)⟩
  unfold FreeList.value FreeList.color
  simp only [hmem]
  clear hmem hs2 hroot hl h0 hgl hxl hbl hparl hleft hxr hgp hpl fgx fbg fpar hn
  unfold off_left off_right off_parent off_value off_color
  simp (disch := decide) only [far_off_ne hng, far_off_ne hnx, far_off_eq hng, far_off_eq hnx,
    if_false]
  rcases hnb with hb | ⟨hb, hb2⟩ <;> rcases hnp with hp | ⟨hp, hp2⟩
  · simp only [hb, hp, ne_eq, not_true_eq_false, false_and, if_false, and_self]
  · simp (disch := decide) only [hb, far_off_ne hp2, far_off_eq hp2, ne_eq, not_true_eq_false,
      false_and, and_false, if_false, and_self]
  · simp (disch := decide) only [hp, far_off_ne hb2, far_off_eq hb2, ne_eq, not_true_eq_false,
      false_and, and_false, if_false, and_self]
  · simp (disch := decide) only [far_off_ne hp2, far_off_ne hb2, far_off_eq hp2, far_off_eq hb2,
      and_false, if_false, and_self]

/-- What `rotate_node_left` does to the fields of the nodes of a separated list
that holds every node involved. -/
theorem rotate_node_left_fields (s : FreeList) (l : List Nat) (g x b par pl : Nat)
    (hl : Separated l) (h0 : ∀ n ∈ l, n ≠ 0) (hgl : g ∈ l) (hxl : x ∈ l)
    (hbl : b ≠ 0 → b ∈ l) (hparl : par ≠ 0 → par ∈ l)
    (hgx : g ≠ x) (hbg : b ≠ g) (hbx : b ≠ x) (hpg : par ≠ g) (hpx : par ≠ x)
    (hpb : par ≠ 0 → par ≠ b)
    (hleft : s.mem.read (g + off_right) = x) (hxr : s.mem.read (x + off_left) = b)
    (hgp : s.mem.read (g + off_parent) = par) (hpl : s.mem.read (par + off_left) = pl) :
    ∃ s2, rotate_node_left s g = .ok s2 ∧
      s2.m_root = (if par = 0 then x else s.m_root) ∧
      ∀ n ∈ l,
        s2.mem.read (n + off_left) =
          (if n = x then g else if par ≠ 0 ∧ pl = g ∧ n = par then x
           else s.mem.read (n + off_left)) ∧
        s2.mem.read (n + off_right) =
          (if par ≠ 0 ∧ pl ≠ g ∧ n = par then x else if n = g then b
           else s.mem.read (n + off_right)) ∧
        s2.mem.read (n + off_parent) =
          (if n = g then x else if n = x then par else if b ≠ 0 ∧ n = b then g
           else s.mem.read (n + off_parent)) ∧
        s2.value n = s.value n ∧ s2.color n = s.color n := by
  have fgx : far g x := (separated_far hl hgl hxl).resolve_left hgx
  have fbg : b ≠ 0 → far b g ∧ far b x := fun h =>
    ⟨(separated_far hl (hbl h) hgl).resolve_left hbg,
      (separated_far hl (hbl h) hxl).resolve_left hbx⟩
  have fpar : par ≠ 0 → far par g ∧ far par x ∧ (b ≠ 0 → far par b) := fun h =>
    ⟨(separated_far hl (hparl h) hgl).resolve_left hpg,
      (separated_far hl (hparl h) hxl).resolve_left hpx,
      fun hb => (separated_far hl (hparl h) (hbl hb)).resolve_left (hpb h)⟩
  obtain ⟨s2, hs2, hroot, -, hmem⟩ :=
    rotate_node_left_mem s g x b par pl (h0 g hgl) (h0 x hxl) hleft hxr hgp hpl fgx fbg fpar
  refine ⟨s2, hs2, hroot, ?_⟩
  intro n hn
  have hn0 := h0 n hn
  have hng := separated_far hl hn hgl
  have hnx := separated_far hl hn hxl
  have hnb : b = 0 ∨ (b ≠ 0 ∧ (n = b ∨ far n b)) := by
    by_cases h : b = 0
    · exact Or.inl h
    · exact Or.inr ⟨h, separated_far hl hn (hbl h)⟩
  have hnp : par = 0 ∨ (par ≠ 0 ∧ (n = par ∨ far n par)) := by
    by_cases h : par = 0
    · exact Or.inl h
    · exact Or.inr ⟨h, separated_far hl hn (hparl h)⟩
  unfold FreeList.value FreeList.color
  simp only [hmem]
  clear hmem hs2 hroot hl h0 hgl hxl hbl hparl hleft hxr hgp hpl fgx fbg fpar hn
  unfold off_left off_right off_parent off_value off_color
  simp (disch := decide) only [far_off_ne hng, far_off_ne hnx, far_off_eq hng, far_off_eq hnx,
    if_false]
  rcases hnb with hb | ⟨hb, hb2⟩ <;> rcases hnp with hp | ⟨hp, hp2⟩
  · simp only [hb, hp, ne_eq, not_true_eq_false, false_and, if_false, and_self]
  · simp (disch := decide) only [hb, far_off_ne hp2, far_off_eq hp2, ne_eq, not_true_eq_false,
      false_and, and_false, if_false, and_self]
  · simp (disch := decide) only [hp, far_off_ne hb2, far_off_eq hb2, ne_eq, not_true_eq_false,
      false_and, and_false, if_false, and_self]
  · simp (disch := decide) only [far_off_ne hp2, far_off_ne hb2, far_off_eq hp2, far_off_eq hb2,
      and_false, if_false, and_self]

/-! ## Trees and paths in a changed memory -/

theorem treeAt_root {s : FreeList} : ∀ {t : Tree} {p par : Nat},
    TreeAt s t p par → p = 0 ∨ p ∈ t.addrs := by
  intro t p par h
  cases t with
  | nil => exact Or.inl h
  | node l a r =>
    simp only [TreeAt] at h
    right
    simp [Tree.addrs, h.1]

theorem treeAt_congr {s s2 : FreeList} : ∀ {t : Tree} {p par : Nat},
    LinksAgree s s2 t.addrs → TreeAt s t p par → TreeAt s2 t p par := by
  intro t
  induction t with
  | nil => intro p par _ h; exact h
  | node l a r ihl ihr =>
    intro p par hag h
    simp only [TreeAt] at h ⊢
    obtain ⟨h1, h2, h3, h4, h5⟩ := h
    have ha := hag a (by simp [Tree.addrs])
    refine ⟨h1, h2, by rw [ha.2.2, h3], ?_, ?_⟩
    · rw [ha.1]
      exact ihl (fun n hn => hag n (by simp [Tree.addrs, hn])) h4
    · rw [ha.2.1]
      exact ihr (fun n hn => hag n (by simp [Tree.addrs, hn])) h5

/-- A subtree whose topmost node gets a new parent link. -/
theorem treeAt_reparent {s s2 : FreeList} {t : Tree} {p par par2 : Nat}
    (h : TreeAt s t p par)
    (hchild : ∀ n ∈ t.addrs, s2.mem.read (n + off_left) = s.mem.read (n + off_left) ∧
      s2.mem.read (n + off_right) = s.mem.read (n + off_right))
    (hparent : ∀ n ∈ t.addrs, n ≠ p → s2.mem.read (n + off_parent) = s.mem.read (n + off_parent))
    (hnd : t.addrs.Nodup)
    (hp : p ≠ 0 → s2.mem.read (p + off_parent) = par2) : TreeAt s2 t p par2 := by
  cases t with
  | nil => exact h
  | node l a r =>
    simp only [TreeAt] at h ⊢
    obtain ⟨h1, h2, h3, h4, h5⟩ := h
    subst h1
    simp only [Tree.addrs, List.nodup_append, List.nodup_cons, List.mem_cons] at hnd
    have ha := hchild p (by simp [Tree.addrs])
    refine ⟨rfl, h2, hp h2, ?_, ?_⟩
    · rw [ha.1]
      refine treeAt_congr (fun n hn => ?_) h4
      have hn2 : n ∈ (Tree.node l p r).addrs := by simp [Tree.addrs, hn]
      refine ⟨(hchild n hn2).1, (hchild n hn2).2, hparent n hn2 ?_⟩
      rintro rfl
      exact hnd.2.2 hn (List.mem_cons_self _ _)
    · rw [ha.2]
      refine treeAt_congr (fun n hn => ?_) h5
      have hn2 : n ∈ (Tree.node l p r).addrs := by simp [Tree.addrs, hn]
      refine ⟨(hchild n hn2).1, (hchild n hn2).2, hparent n hn2 ?_⟩
      rintro rfl
      exact hnd.2.1.1 hn

theorem ctxAt_congr {s s2 : FreeList} : ∀ {c : Ctx} {p par root : Nat},
    LinksAgree s s2 (ctx_addrs c) → CtxAt s c p par root → CtxAt s2 c p par root := by
  intro c
  induction c with
  | nil => intro p par root _ h; exact h
  | cons f c ih =>
    intro p par root hag h
    obtain ⟨d, a, sib⟩ := f
    cases d with
    | left =>
      simp only [CtxAt] at h ⊢
      obtain ⟨h1, h2, h3, h4, h5⟩ := h
      have ha := hag a (by simp [ctx_addrs, ctx_before, ctx_after])
      refine ⟨h1, h2, by rw [ha.1, h3], ?_, ?_⟩
      · rw [ha.2.1]
        exact treeAt_congr (fun n hn => hag n (by simp [ctx_addrs, ctx_before, ctx_after, hn])) h4
      · rw [ha.2.2]
        refine ih (fun n hn => hag n ?_) h5
        simp only [ctx_addrs, List.mem_append] at hn
        rcases hn with hn | hn <;> simp [ctx_addrs, ctx_before, ctx_after, hn]
    | right =>
      simp only [CtxAt] at h ⊢
      obtain ⟨h1, h2, h3, h4, h5⟩ := h
      have ha := hag a (by simp [ctx_addrs, ctx_before, ctx_after])
      refine ⟨h1, h2, by rw [ha.2.1, h3], ?_, ?_⟩
      · rw [ha.1]
        exact treeAt_congr (fun n hn => hag n (by simp [ctx_addrs, ctx_before, ctx_after, hn])) h4
      · rw [ha.2.2]
        refine ih (fun n hn => hag n ?_) h5
        simp only [ctx_addrs, List.mem_append] at hn
        rcases hn with hn | hn <;> simp [ctx_addrs, ctx_before, ctx_after, hn]

/-- A path whose hole gets a new pointer: only the child link of the node right
above the hole (or the root, when there is none) changes. -/
theorem ctxAt_replace {s s2 : FreeList} {c : Ctx} {p p2 par root root2 : Nat}
    (h : CtxAt s c p par root) (hnd : (ctx_addrs c).Nodup)
    (hrest : ∀ n ∈ ctx_addrs c, n ≠ par →
      s2.mem.read (n + off_left) = s.mem.read (n + off_left) ∧
      s2.mem.read (n + off_right) = s.mem.read (n + off_right) ∧
      s2.mem.read (n + off_parent) = s.mem.read (n + off_parent))
    (hroot : root2 = if par = 0 then p2 else root)
    (hpar : ∀ d a sib c2, c = ⟨d, a, sib⟩ :: c2 →
      s2.mem.read (a + off_parent) = s.mem.read (a + off_parent) ∧
      (d = .left → s2.mem.read (a + off_left) = p2 ∧
        s2.mem.read (a + off_right) = s.mem.read (a + off_right)) ∧
      (d = .right → s2.mem.read (a + off_right) = p2 ∧
        s2.mem.read (a + off_left) = s.mem.read (a + off_left))) :
    CtxAt s2 c p2 par root2 := by
  cases c with
  | nil =>
    simp only [CtxAt] at h ⊢
    rw [hroot, if_pos h.1]
    exact ⟨h.1, rfl⟩
  | cons f c =>
    obtain ⟨d, a, sib⟩ := f
    obtain ⟨hp1, hp2, hp3⟩ := hpar d a sib c rfl
    have hsib : ∀ n ∈ sib.addrs, n ∈ ctx_addrs (⟨d, a, sib⟩ :: c) ∧ n ≠ a := by
      intro n hn
      cases d <;>
        simp only [ctx_addrs, ctx_before, ctx_after, List.nodup_append, List.nodup_cons,
          List.mem_append, List.mem_cons, List.cons_append] at hnd ⊢
      · refine ⟨Or.inr (Or.inr (Or.inl hn)), ?_⟩
        rintro rfl
        simp_all
      · refine ⟨Or.inl (Or.inr (Or.inl hn)), ?_⟩
        rintro rfl
        simp_all
    have hc : ∀ n ∈ ctx_addrs c, n ∈ ctx_addrs (⟨d, a, sib⟩ :: c) ∧ n ≠ a := by
      intro n hn
      cases d <;>
        simp only [ctx_addrs, ctx_before, ctx_after, List.nodup_append, List.nodup_cons,
          List.mem_append, List.mem_cons, List.cons_append] at hnd hn ⊢
      · refine ⟨by tauto, ?_⟩
        rintro rfl
        rcases hn with hn | hn <;> simp_all
      · refine ⟨by tauto, ?_⟩
        rintro rfl
        rcases hn with hn | hn <;> simp_all
    cases d with
    | left =>
      simp only [CtxAt] at h ⊢
      obtain ⟨h1, h2, h3, h4, h5⟩ := h
      subst h1
      rw [if_neg h2] at hroot
      subst hroot
      refine ⟨rfl, h2, (hp2 rfl).1, ?_, ?_⟩
      · rw [(hp2 rfl).2]
        exact treeAt_congr (fun n hn => hrest n (hsib n hn).1 (hsib n hn).2) h4
      · rw [hp1]
        exact ctxAt_congr (fun n hn => hrest n (hc n hn).1 (hc n hn).2) h5
    | right =>
      simp only [CtxAt] at h ⊢
      obtain ⟨h1, h2, h3, h4, h5⟩ := h
      subst h1
      rw [if_neg h2] at hroot
      subst hroot
      refine ⟨rfl, h2, (hp3 rfl).1, ?_, ?_⟩
      · rw [(hp3 rfl).2]
        exact treeAt_congr (fun n hn => hrest n (hsib n hn).1 (hsib n hn).2) h4
      · rw [hp1]
        exact ctxAt_congr (fun n hn => hrest n (hc n hn).1 (hc n hn).2) h5

/-! ## The rotations on trees with a hole -/

theorem nodup_parts {k1 k2 a b c : List Nat} {x g : Nat}
    (h : (k1 ++ (a ++ x :: (b ++ g :: (c ++ k2)))).Nodup) :
    x ≠ g ∧ (k1 ++ k2).Nodup ∧ b.Nodup ∧
      (∀ n, n ∈ a ∨ n ∈ b ∨ n ∈ c ∨ n ∈ k1 ++ k2 → n ≠ x ∧ n ≠ g) ∧
      (∀ n ∈ b, n ∉ a ∧ n ∉ c ∧ n ∉ k1 ++ k2) ∧ (∀ n ∈ k1 ++ k2, n ∉ a ∧ n ∉ c) := by
  simp only [List.nodup_append, List.nodup_cons, List.mem_append, List.mem_cons,
    List.disjoint_left, not_or] at h ⊢
  obtain ⟨hk1, ⟨ha, ⟨⟨hx1, hx2, hx3, hx4⟩, hb, ⟨⟨hg1, hg2⟩, hc, hk2, hck⟩, hbg⟩, hax⟩, hk⟩ := h
  refine ⟨hx2, ⟨hk1, hk2, fun n hn => (hk hn).2.2.2.2.2⟩, hb, ?_, ?_, ?_⟩
  · rintro n (hn | hn | hn | hn | hn)
    · exact ⟨(hax hn).1, (hax hn).2.2.1⟩
    · exact ⟨fun e => hx1 (e ▸ hn), (hbg hn).1⟩
    · exact ⟨fun e => hx3 (e ▸ hn), fun e => hg1 (e ▸ hn)⟩
    · exact ⟨(hk hn).2.1, (hk hn).2.2.2.1⟩
    · exact ⟨fun e => hx4 (e ▸ hn), fun e => hg2 (e ▸ hn)⟩
  · intro n hn
    exact ⟨fun e => (hax e).2.1 hn, (hbg hn).2.1, fun e => (hk e).2.2.1 hn, (hbg hn).2.2⟩
  · rintro n (hn | hn)
    · exact ⟨(hk hn).1, (hk hn).2.2.2.2.1⟩
    · exact ⟨fun e => (hax e).2.2.2.2 hn, fun e => hck e hn⟩

theorem ctxAt_par {s : FreeList} {c : Ctx} {p par root : Nat} (h : CtxAt s c p par root) :
    par = 0 ∨ par ∈ ctx_addrs c := by
  cases c with
  | nil => exact Or.inl h.1
  | cons f c =>
    obtain ⟨d, a, sib⟩ := f
    right
    cases d <;> simp only [CtxAt] at h <;>
      simp [ctx_addrs, ctx_before, ctx_after, h.1]

theorem rotate_node_right_tree (s : FreeList) (l : List Nat) (c : Ctx) (a b cc : Tree)
    (x g par : Nat) (hl : Separated l) (h0 : ∀ n ∈ l, n ≠ 0)
    (haddr : (plug c (.node (.node a x b) g cc)).addrs = l)
    (ht : TreeAt s (.node (.node a x b) g cc) g par) (hc : CtxAt s c g par s.m_root) :
    ∃ s2, rotate_node_right s g = .ok s2 ∧ TreeAt s2 (.node a x (.node b g cc)) x par ∧
      CtxAt s2 c x par s2.m_root ∧ (plug c (.node a x (.node b g cc))).addrs = l ∧
      DataAgree s s2 l ∧ s2.m_root = (if par = 0 then x else s.m_root) := by
  have hnd : l.Nodup := List.Pairwise.imp far_ne hl
  have hmem : ∀ n, n ∈ l ↔ n ∈ a.addrs ∨ n ∈ b.addrs ∨ n ∈ cc.addrs ∨ n ∈ ctx_addrs c ∨
      n = x ∨ n = g := by
    intro n
    rw [← haddr, plug_addrs]
    simp only [Tree.addrs, ctx_addrs, List.mem_append, List.mem_cons]
    tauto
  rw [← haddr, plug_addrs] at hnd
  simp only [Tree.addrs, List.append_assoc, List.cons_append] at hnd
  obtain ⟨hxg, hK, hB, hne, hBd, hKd⟩ := nodup_parts hnd
  change (∀ n, n ∈ a.addrs ∨ n ∈ b.addrs ∨ n ∈ cc.addrs ∨ n ∈ ctx_addrs c → n ≠ x ∧ n ≠ g)
    at hne
  change ∀ n ∈ b.addrs, n ∉ a.addrs ∧ n ∉ cc.addrs ∧ n ∉ ctx_addrs c at hBd
  change ∀ n ∈ ctx_addrs c, n ∉ a.addrs ∧ n ∉ cc.addrs at hKd
  change (ctx_addrs c).Nodup at hK
  simp only [TreeAt] at ht
  obtain ⟨-, hg0, hgp, ⟨hgl, hx0, hxp, hta, htb⟩, htc⟩ := ht
  have hbp := treeAt_root htb
  have hpar := ctxAt_par hc
  have hgx : g ≠ x := Ne.symm hxg
  have hbg : s.mem.read (x + off_right) ≠ g := fun e =>
    hbp.elim (fun h => hg0 (e ▸ h)) (fun h => (hne _ (Or.inr (Or.inl h))).2 e)
  have hbx : s.mem.read (x + off_right) ≠ x := fun e =>
    hbp.elim (fun h => hx0 (e ▸ h)) (fun h => (hne _ (Or.inr (Or.inl h))).1 e)
  have hpg : par ≠ g := fun e =>
    hpar.elim (fun h => hg0 (e ▸ h)) (fun h => (hne _ (Or.inr (Or.inr (Or.inr h)))).2 e)
  have hpx : par ≠ x := fun e =>
    hpar.elim (fun h => hx0 (e ▸ h)) (fun h => (hne _ (Or.inr (Or.inr (Or.inr h)))).1 e)
  have hpb : par ≠ 0 → par ≠ s.mem.read (x + off_right) := fun hp e =>
    hbp.elim (fun h => hp (e ▸ h)) (fun h => (hBd _ h).2.2 (e ▸ hpar.resolve_left hp))
  have hgl2 : g ∈ l := (hmem g).2 (by simp)
  have hxl2 : x ∈ l := (hmem x).2 (by simp)
  obtain ⟨s2, hs2, hroot, hf⟩ := rotate_node_right_fields s l g x (s.mem.read (x + off_right))
    par (s.mem.read (par + off_left)) hl h0 hgl2 hxl2
    (fun h => (hmem _).2 (Or.inr (Or.inl (hbp.resolve_left h))))
    (fun h => (hmem _).2 (Or.inr (Or.inr (Or.inr (Or.inl (hpar.resolve_left h))))))
    hgx hbg hbx hpg hpx hpb hgl rfl hgp rfl
  have hframe : ∀ n ∈ l, n ≠ g → n ≠ x → n ≠ par →
      s2.mem.read (n + off_left) = s.mem.read (n + off_left) ∧
      s2.mem.read (n + off_right) = s.mem.read (n + off_right) ∧
      (n ≠ s.mem.read (x + off_right) →
        s2.mem.read (n + off_parent) = s.mem.read (n + off_parent)) := by
    intro n hn h1 h2 h3
    obtain ⟨e1, e2, e3, -⟩ := hf n hn
    rw [e1, e2, e3]
    simp only [h1, h2, h3, and_false, if_false, true_and]
    intro h4
    simp only [h4, and_false, if_false]
  have hfx := hf x hxl2
  have hfg := hf g hgl2
  simp only [hxg, Ne.symm hpx, Ne.symm hbx, and_false, if_false, if_true] at hfx
  simp only [hgx, Ne.symm hpg, Ne.symm hbg, and_false, if_false, if_true] at hfg
  have hA : ∀ n ∈ a.addrs, n ∈ l ∧ n ≠ g ∧ n ≠ x ∧ n ≠ par ∧ n ≠ s.mem.read (x + off_right) := by
    intro n hn
    have hnl : n ∈ l := (hmem n).2 (Or.inl hn)
    refine ⟨hnl, (hne n (Or.inl hn)).2, (hne n (Or.inl hn)).1, ?_, ?_⟩
    · exact fun e => hpar.elim (fun h => h0 n hnl (e ▸ h)) (fun h => (hKd _ h).1 (e ▸ hn))
    · exact fun e => hbp.elim (fun h => h0 n hnl (e ▸ h)) (fun h => (hBd _ h).1 (e ▸ hn))
  have hC : ∀ n ∈ cc.addrs, n ∈ l ∧ n ≠ g ∧ n ≠ x ∧ n ≠ par ∧
      n ≠ s.mem.read (x + off_right) := by
    intro n hn
    have hnl : n ∈ l := (hmem n).2 (Or.inr (Or.inr (Or.inl hn)))
    refine ⟨hnl, (hne n (Or.inr (Or.inr (Or.inl hn)))).2,
      (hne n (Or.inr (Or.inr (Or.inl hn)))).1, ?_, ?_⟩
    · exact fun e => hpar.elim (fun h => h0 n hnl (e ▸ h)) (fun h => (hKd _ h).2 (e ▸ hn))
    · exact fun e => hbp.elim (fun h => h0 n hnl (e ▸ h)) (fun h => (hBd _ h).2.1 (e ▸ hn))
  have hBB : ∀ n ∈ b.addrs, n ∈ l ∧ n ≠ g ∧ n ≠ x ∧ n ≠ par := by
    intro n hn
    have hnl : n ∈ l := (hmem n).2 (Or.inr (Or.inl hn))
    refine ⟨hnl, (hne n (Or.inr (Or.inl hn))).2, (hne n (Or.inr (Or.inl hn))).1, ?_⟩
    exact fun e => hpar.elim (fun h => h0 n hnl (e ▸ h)) (fun h => (hBd _ hn).2.2 (e ▸ h))
  have hKK : ∀ n ∈ ctx_addrs c, n ∈ l ∧ n ≠ g ∧ n ≠ x ∧ n ≠ s.mem.read (x + off_right) := by
    intro n hn
    have hnl : n ∈ l := (hmem n).2 (Or.inr (Or.inr (Or.inr (Or.inl hn))))
    refine ⟨hnl, (hne n (Or.inr (Or.inr (Or.inr hn)))).2,
      (hne n (Or.inr (Or.inr (Or.inr hn)))).1, ?_⟩
    exact fun e => hbp.elim (fun h => h0 n hnl (e ▸ h)) (fun h => (hBd _ h).2.2 (e ▸ hn))
  refine ⟨s2, hs2, ?_, ?_, ?_, ?_, hroot⟩
  · simp only [TreeAt]
    refine ⟨trivial, hx0, hfx.2.2.1, ?_, hfx.2.1, hg0, hfg.2.2.1, ?_, ?_⟩
    · rw [hfx.1]
      refine treeAt_congr (fun n hn => ?_) hta
      obtain ⟨k1, k2, k3, k4, k5⟩ := hA n hn
      obtain ⟨e1, e2, e3⟩ := hframe n k1 k2 k3 k4
      exact ⟨e1, e2, e3 k5⟩
    · rw [hfg.1]
      refine treeAt_reparent htb (fun n hn => ?_) (fun n hn hnb => ?_) hB (fun hb0 => ?_)
      · obtain ⟨k1, k2, k3, k4⟩ := hBB n hn
        obtain ⟨e1, e2, -⟩ := hframe n k1 k2 k3 k4
        exact ⟨e1, e2⟩
      · obtain ⟨k1, k2, k3, k4⟩ := hBB n hn
        exact (hframe n k1 k2 k3 k4).2.2 hnb
      · have hbl : s.mem.read (x + off_right) ∈ l :=
          (hmem _).2 (Or.inr (Or.inl (hbp.resolve_left hb0)))
        have e := (hf _ hbl).2.2.1
        simp only [hbg, hbx, hb0, ne_eq, not_false_eq_true, and_self, if_false, if_true] at e
        exact e
    · rw [hfg.2.1]
      refine treeAt_congr (fun n hn => ?_) htc
      obtain ⟨k1, k2, k3, k4, k5⟩ := hC n hn
      obtain ⟨e1, e2, e3⟩ := hframe n k1 k2 k3 k4
      exact ⟨e1, e2, e3 k5⟩
  · refine ctxAt_replace hc hK (fun n hn hnp => ?_) hroot ?_
    · obtain ⟨k1, k2, k3, k4⟩ := hKK n hn
      obtain ⟨e1, e2, e3⟩ := hframe n k1 k2 k3 hnp
      exact ⟨e1, e2, e3 k4⟩
    · rintro d p sib c2 rfl
      have hpl : p ∈ l := (hmem p).2 (Or.inr (Or.inr (Or.inr (Or.inl
        (by cases d <;> simp [ctx_addrs, ctx_before, ctx_after])))))
      obtain ⟨e1, e2, e3, -⟩ := hf p hpl
      cases d with
      | left =>
        simp only [CtxAt] at hc
        obtain ⟨h1, h2, h3, h4, h5⟩ := hc
        subst h1
        simp only [hpg, hpx, hpb h2, h3, h2, ne_eq, not_false_eq_true, not_true_eq_false,
          and_self, and_false, false_and, if_false, if_true] at e1 e2 e3
        exact ⟨e3, fun _ => ⟨e1, e2⟩, fun h => Dir.noConfusion h⟩
      | right =>
        simp only [CtxAt] at hc
        obtain ⟨h1, h2, h3, h4, h5⟩ := hc
        subst h1
        have hplg : s.mem.read (par + off_left) ≠ g := fun e =>
          (treeAt_root h4).elim (fun h => hg0 (e ▸ h)) (fun h =>
            (hne g (Or.inr (Or.inr (Or.inr
              (by simp [ctx_addrs, ctx_before, ctx_after, ← e, h]))))).2 rfl)
        simp only [hpg, hpx, hpb h2, hplg, h2, ne_eq, not_false_eq_true, not_true_eq_false,
          and_self, and_false, false_and, if_false, if_true] at e1 e2 e3
        exact ⟨e3, fun h => Dir.noConfusion h, fun _ => ⟨e2, e1⟩⟩
  · rw [← haddr, plug_addrs, plug_addrs]
    simp only [Tree.addrs, List.append_assoc, List.cons_append]
  · intro n hn
    exact (hf n hn).2.2.2

theorem rotate_node_left_tree (s : FreeList) (l : List Nat) (c : Ctx) (a b cc : Tree)
    (x g par : Nat) (hl : Separated l) (h0 : ∀ n ∈ l, n ≠ 0)
    (haddr : (plug c (.node cc g (.node b x a))).addrs = l)
    (ht : TreeAt s (.node cc g (.node b x a)) g par) (hc : CtxAt s c g par s.m_root) :
    ∃ s2, rotate_node_left s g = .ok s2 ∧ TreeAt s2 (.node (.node cc g b) x a) x par ∧
      CtxAt s2 c x par s2.m_root ∧ (plug c (.node (.node cc g b) x a)).addrs = l ∧
      DataAgree s s2 l ∧ s2.m_root = (if par = 0 then x else s.m_root) := by
  have hnd : l.Nodup := List.Pairwise.imp far_ne hl
  have hmem : ∀ n, n ∈ l ↔ n ∈ a.addrs ∨ n ∈ b.addrs ∨ n ∈ cc.addrs ∨ n ∈ ctx_addrs c ∨
      n = x ∨ n = g := by
    intro n
    rw [← haddr, plug_addrs]
    simp only [Tree.addrs, ctx_addrs, List.mem_append, List.mem_cons]
    tauto
  rw [← haddr, plug_addrs] at hnd
  simp only [Tree.addrs, List.append_assoc, List.cons_append] at hnd
  obtain ⟨hgx2, hK, hB, hne2, hBd2, hKd2⟩ := nodup_parts hnd
  change (∀ n, n ∈ cc.addrs ∨ n ∈ b.addrs ∨ n ∈ a.addrs ∨ n ∈ ctx_addrs c → n ≠ g ∧ n ≠ x)
    at hne2
  change ∀ n ∈ b.addrs, n ∉ cc.addrs ∧ n ∉ a.addrs ∧ n ∉ ctx_addrs c at hBd2
  change ∀ n ∈ ctx_addrs c, n ∉ cc.addrs ∧ n ∉ a.addrs at hKd2
  change (ctx_addrs c).Nodup at hK
  have hxg : x ≠ g := Ne.symm hgx2
  have hne : ∀ n, n ∈ a.addrs ∨ n ∈ b.addrs ∨ n ∈ cc.addrs ∨ n ∈ ctx_addrs c →
      n ≠ x ∧ n ≠ g := fun n h => ⟨(hne2 n (by tauto)).2, (hne2 n (by tauto)).1⟩
  have hBd : ∀ n ∈ b.addrs, n ∉ a.addrs ∧ n ∉ cc.addrs ∧ n ∉ ctx_addrs c :=
    fun n h => ⟨(hBd2 n h).2.1, (hBd2 n h).1, (hBd2 n h).2.2⟩
  have hKd : ∀ n ∈ ctx_addrs c, n ∉ a.addrs ∧ n ∉ cc.addrs :=
    fun n h => ⟨(hKd2 n h).2, (hKd2 n h).1⟩
  simp only [TreeAt] at ht
  obtain ⟨-, hg0, hgp, htc, ⟨hgl, hx0, hxp, htb, hta⟩⟩ := ht
  have hbp := treeAt_root htb
  have hpar := ctxAt_par hc
  have hgx : g ≠ x := Ne.symm hxg
  have hbg : s.mem.read (x + off_left) ≠ g := fun e =>
    hbp.elim (fun h => hg0 (e ▸ h)) (fun h => (hne _ (Or.inr (Or.inl h))).2 e)
  have hbx : s.mem.read (x + off_left) ≠ x := fun e =>
    hbp.elim (fun h => hx0 (e ▸ h)) (fun h => (hne _ (Or.inr (Or.inl h))).1 e)
  have hpg : par ≠ g := fun e =>
    hpar.elim (fun h => hg0 (e ▸ h)) (fun h => (hne _ (Or.inr (Or.inr (Or.inr h)))).2 e)
  have hpx : par ≠ x := fun e =>
    hpar.elim (fun h => hx0 (e ▸ h)) (fun h => (hne _ (Or.inr (Or.inr (Or.inr h)))).1 e)
  have hpb : par ≠ 0 → par ≠ s.mem.read (x + off_left) := fun hp e =>
    hbp.elim (fun h => hp (e ▸ h)) (fun h => (hBd _ h).2.2 (e ▸ hpar.resolve_left hp))
  have hgl2 : g ∈ l := (hmem g).2 (by simp)
  have hxl2 : x ∈ l := (hmem x).2 (by simp)
  obtain ⟨s2, hs2, hroot, hf⟩ := rotate_node_left_fields s l g x (s.mem.read (x + off_left))
    par (s.mem.read (par + off_left)) hl h0 hgl2 hxl2
    (fun h => (hmem _).2 (Or.inr (Or.inl (hbp.resolve_left h))))
    (fun h => (hmem _).2 (Or.inr (Or.inr (Or.inr (Or.inl (hpar.resolve_left h))))))
    hgx hbg hbx hpg hpx hpb hgl rfl hgp rfl
  have hframe : ∀ n ∈ l, n ≠ g → n ≠ x → n ≠ par →
      s2.mem.read (n + off_left) = s.mem.read (n + off_left) ∧
      s2.mem.read (n + off_right) = s.mem.read (n + off_right) ∧
      (n ≠ s.mem.read (x + off_left) →
        s2.mem.read (n + off_parent) = s.mem.read (n + off_parent)) := by
    intro n hn h1 h2 h3
    obtain ⟨e1, e2, e3, -⟩ := hf n hn
    rw [e1, e2, e3]
    simp only [h1, h2, h3, and_false, if_false, true_and]
    intro h4
    simp only [h4, and_false, if_false]
  have hfx := hf x hxl2
  have hfg := hf g hgl2
  simp only [hxg, Ne.symm hpx, Ne.symm hbx, and_false, if_false, if_true] at hfx
  simp only [hgx, Ne.symm hpg, Ne.symm hbg, and_false, if_false, if_true] at hfg
  have hA : ∀ n ∈ a.addrs, n ∈ l ∧ n ≠ g ∧ n ≠ x ∧ n ≠ par ∧ n ≠ s.mem.read (x + off_left) := by
    intro n hn
    have hnl : n ∈ l := (hmem n).2 (Or.inl hn)
    refine ⟨hnl, (hne n (Or.inl hn)).2, (hne n (Or.inl hn)).1, ?_, ?_⟩
    · exact fun e => hpar.elim (fun h => h0 n hnl (e ▸ h)) (fun h => (hKd _ h).1 (e ▸ hn))
    · exact fun e => hbp.elim (fun h => h0 n hnl (e ▸ h)) (fun h => (hBd _ h).1 (e ▸ hn))
  have hC : ∀ n ∈ cc.addrs, n ∈ l ∧ n ≠ g ∧ n ≠ x ∧ n ≠ par ∧
      n ≠ s.mem.read (x + off_left) := by
    intro n hn
    have hnl : n ∈ l := (hmem n).2 (Or.inr (Or.inr (Or.inl hn)))
    refine ⟨hnl, (hne n (Or.inr (Or.inr (Or.inl hn)))).2,
      (hne n (Or.inr (Or.inr (Or.inl hn)))).1, ?_, ?_⟩
    · exact fun e => hpar.elim (fun h => h0 n hnl (e ▸ h)) (fun h => (hKd _ h).2 (e ▸ hn))
    · exact fun e => hbp.elim (fun h => h0 n hnl (e ▸ h)) (fun h => (hBd _ h).2.1 (e ▸ hn))
  have hBB : ∀ n ∈ b.addrs, n ∈ l ∧ n ≠ g ∧ n ≠ x ∧ n ≠ par := by
    intro n hn
    have hnl : n ∈ l := (hmem n).2 (Or.inr (Or.inl hn))
    refine ⟨hnl, (hne n (Or.inr (Or.inl hn))).2, (hne n (Or.inr (Or.inl hn))).1, ?_⟩
    exact fun e => hpar.elim (fun h => h0 n hnl (e ▸ h)) (fun h => (hBd _ hn).2.2 (e ▸ h))
  have hKK : ∀ n ∈ ctx_addrs c, n ∈ l ∧ n ≠ g ∧ n ≠ x ∧ n ≠ s.mem.read (x + off_left) := by
    intro n hn
    have hnl : n ∈ l := (hmem n).2 (Or.inr (Or.inr (Or.inr (Or.inl hn))))
    refine ⟨hnl, (hne n (Or.inr (Or.inr (Or.inr hn)))).2,
      (hne n (Or.inr (Or.inr (Or.inr hn)))).1, ?_⟩
    exact fun e => hbp.elim (fun h => h0 n hnl (e ▸ h)) (fun h => (hBd _ h).2.2 (e ▸ hn))
  refine ⟨s2, hs2, ?_, ?_, ?_, ?_, hroot⟩
  · simp only [TreeAt]
    refine ⟨trivial, hx0, hfx.2.2.1, ⟨hfx.1, hg0, hfg.2.2.1, ?_, ?_⟩, ?_⟩
    rotate_left
    · rw [hfg.2.1]
      refine treeAt_reparent htb (fun n hn => ?_) (fun n hn hnb => ?_) hB (fun hb0 => ?_)
      · obtain ⟨k1, k2, k3, k4⟩ := hBB n hn
        obtain ⟨e1, e2, -⟩ := hframe n k1 k2 k3 k4
        exact ⟨e1, e2⟩
      · obtain ⟨k1, k2, k3, k4⟩ := hBB n hn
        exact (hframe n k1 k2 k3 k4).2.2 hnb
      · have hbl : s.mem.read (x + off_left) ∈ l :=
          (hmem _).2 (Or.inr (Or.inl (hbp.resolve_left hb0)))
        have e := (hf _ hbl).2.2.1
        simp only [hbg, hbx, hb0, ne_eq, not_false_eq_true, and_self, if_false, if_true] at e
        exact e
    · rw [hfx.2.1]
      refine treeAt_congr (fun n hn => ?_) hta
      obtain ⟨k1, k2, k3, k4, k5⟩ := hA n hn
      obtain ⟨e1, e2, e3⟩ := hframe n k1 k2 k3 k4
      exact ⟨e1, e2, e3 k5⟩
    · rw [hfg.1]
      refine treeAt_congr (fun n hn => ?_) htc
      obtain ⟨k1, k2, k3, k4, k5⟩ := hC n hn
      obtain ⟨e1, e2, e3⟩ := hframe n k1 k2 k3 k4
      exact ⟨e1, e2, e3 k5⟩
  · refine ctxAt_replace hc hK (fun n hn hnp => ?_) hroot ?_
    · obtain ⟨k1, k2, k3, k4⟩ := hKK n hn
      obtain ⟨e1, e2, e3⟩ := hframe n k1 k2 k3 hnp
      exact ⟨e1, e2, e3 k4⟩
    · rintro d p sib c2 rfl
      have hpl : p ∈ l := (hmem p).2 (Or.inr (Or.inr (Or.inr (Or.inl
        (by cases d <;> simp [ctx_addrs, ctx_before, ctx_after])))))
      obtain ⟨e1, e2, e3, -⟩ := hf p hpl
      cases d with
      | left =>
        simp only [CtxAt] at hc
        obtain ⟨h1, h2, h3, h4, h5⟩ := hc
        subst h1
        simp only [hpg, hpx, hpb h2, h3, h2, ne_eq, not_false_eq_true, not_true_eq_false,
          and_self, and_false, false_and, if_false, if_true] at e1 e2 e3
        exact ⟨e3, fun _ => ⟨e1, e2⟩, fun h => Dir.noConfusion h⟩
      | right =>
        simp only [CtxAt] at hc
        obtain ⟨h1, h2, h3, h4, h5⟩ := hc
        subst h1
        have hplg : s.mem.read (par + off_left) ≠ g := fun e =>
          (treeAt_root h4).elim (fun h => hg0 (e ▸ h)) (fun h =>
            (hne g (Or.inr (Or.inr (Or.inr
              (by simp [ctx_addrs, ctx_before, ctx_after, ← e, h]))))).2 rfl)
        simp only [hpg, hpx, hpb h2, hplg, h2, ne_eq, not_false_eq_true, not_true_eq_false,
          and_self, and_false, false_and, if_false, if_true] at e1 e2 e3
        exact ⟨e3, fun h => Dir.noConfusion h, fun _ => ⟨e2, e1⟩⟩
  · rw [← haddr, plug_addrs, plug_addrs]
    simp only [Tree.addrs, List.append_assoc, List.cons_append]
  · intro n hn
    exact (hf n hn).2.2.2

/-! ## Writing one field of a node -/

/-- What a write to field `i` of the node `p` does to the fields of the nodes of
a separated list. -/
theorem set_fields (s : FreeList) (l : List Nat) (p i v : Nat) (hl : Separated l)
    (hp : p ∈ l) (h0 : p ≠ 0) (hi : i < 40) :
    ∃ s2, s.set p i v = .ok s2 ∧ s2.m_root = s.m_root ∧
      ∀ n ∈ l, ∀ j, j < 40 →
        s2.mem.read (n + j) = if n = p ∧ j = i then v else s.mem.read (n + j) := by
  refine ⟨_, set_ok s i v h0, rfl, ?_⟩
  intro n hn j hj
  have hnp := separated_far hl hn hp
  simp only [read_write]
  unfold far sizeofNode at hnp
  by_cases h : n = p ∧ j = i
  · rw [if_pos h, if_pos (by omega)]
  · rw [if_neg h, if_neg (by omega)]

theorem off_lt : off_left < 40 ∧ off_right < 40 ∧ off_parent < 40 ∧ off_value < 40 ∧
    off_color < 40 := by decide

theorem off_ne : off_left ≠ off_color ∧ off_right ≠ off_color ∧ off_parent ≠ off_color ∧
    off_value ≠ off_color ∧ off_left ≠ off_parent ∧ off_right ≠ off_parent ∧
    off_value ≠ off_parent ∧ off_color ≠ off_parent ∧ off_left ≠ off_right ∧
    off_value ≠ off_left ∧ off_value ≠ off_right := by decide

/-- Setting the colour of a node of a separated list. -/
theorem set_color_fields (s : FreeList) (l : List Nat) (p v : Nat) (hl : Separated l)
    (hp : p ∈ l) (h0 : p ≠ 0) :
    ∃ s2, s.set p off_color v = .ok s2 ∧ s2.m_root = s.m_root ∧ LinksAgree s s2 l ∧
      ∀ n ∈ l, s2.value n = s.value n ∧ s2.color n = if n = p then v else s.color n := by
  obtain ⟨s2, h1, h2, h3⟩ := set_fields s l p off_color v hl hp h0 off_lt.2.2.2.2
  refine ⟨s2, h1, h2, fun n hn => ⟨?_, ?_, ?_⟩, fun n hn => ⟨?_, ?_⟩⟩
  · rw [h3 n hn _ off_lt.1, if_neg (fun h => off_ne.1 h.2)]
  · rw [h3 n hn _ off_lt.2.1, if_neg (fun h => off_ne.2.1 h.2)]
  · rw [h3 n hn _ off_lt.2.2.1, if_neg (fun h => off_ne.2.2.1 h.2)]
  · unfold FreeList.value
    rw [h3 n hn _ off_lt.2.2.2.1, if_neg (fun h => off_ne.2.2.2.1 h.2)]
  · unfold FreeList.color
    rw [h3 n hn _ off_lt.2.2.2.2]
    simp only [and_true]

/-! ## Colours in a changed memory -/

theorem root_color_congr {s s2 : FreeList} {t : Tree} (h : ColorsAgree s s2 t.addrs) :
    root_color s2 t = root_color s t := by
  cases t with
  | nil => rfl
  | node l a r => exact h a (by simp [Tree.addrs])

theorem noRedRed_congr {s s2 : FreeList} : ∀ {t : Tree}, ColorsAgree s s2 t.addrs →
    NoRedRed s t → NoRedRed s2 t := by
  intro t
  induction t with
  | nil => intro _ h; exact h
  | node l a r ihl ihr =>
    intro hag h
    have hl : ColorsAgree s s2 l.addrs := fun n hn => hag n (by simp [Tree.addrs, hn])
    have hr : ColorsAgree s s2 r.addrs := fun n hn => hag n (by simp [Tree.addrs, hn])
    simp only [NoRedRed] at h ⊢
    rw [hag a (by simp [Tree.addrs]), root_color_congr hl, root_color_congr hr]
    exact ⟨h.1, ihl hl h.2.1, ihr hr h.2.2⟩

theorem black_height_congr {s s2 : FreeList} : ∀ {t : Tree}, ColorsAgree s s2 t.addrs →
    black_height s2 t = black_height s t := by
  intro t
  induction t with
  | nil => intro _; rfl
  | node l a r ihl ihr =>
    intro hag
    have hl : ColorsAgree s s2 l.addrs := fun n hn => hag n (by simp [Tree.addrs, hn])
    have hr : ColorsAgree s s2 r.addrs := fun n hn => hag n (by simp [Tree.addrs, hn])
    simp only [black_height]
    rw [hag a (by simp [Tree.addrs]), ihl hl, ihr hr]

theorem ctx_color_congr {s s2 : FreeList} {c : Ctx} (h : ColorsAgree s s2 (ctx_addrs c)) :
    ctx_color s2 c = ctx_color s c := by
  cases c with
  | nil => rfl
  | cons f c =>
    obtain ⟨d, a, sib⟩ := f
    exact h a (by cases d <;> simp [ctx_addrs, ctx_before, ctx_after])

theorem ctx_addrs_cons {f : Frame} {c : Ctx} {n : Nat} :
    n ∈ ctx_addrs (f :: c) ↔ n = f.a ∨ n ∈ f.sib.addrs ∨ n ∈ ctx_addrs c := by
  obtain ⟨d, a, sib⟩ := f
  cases d <;> simp only [ctx_addrs, ctx_before, ctx_after, List.mem_append, List.mem_cons,
    List.cons_append, List.mem_singleton] <;> tauto

theorem ctxNoRedRed_congr {s s2 : FreeList} : ∀ {c : Ctx}, ColorsAgree s s2 (ctx_addrs c) →
    CtxNoRedRed s c → CtxNoRedRed s2 c := by
  intro c
  induction c with
  | nil => intro _ h; exact h
  | cons f c ih =>
    intro hag h
    have hs : ColorsAgree s s2 f.sib.addrs :=
      fun n hn => hag n (ctx_addrs_cons.2 (Or.inr (Or.inl hn)))
    have hc : ColorsAgree s s2 (ctx_addrs c) :=
      fun n hn => hag n (ctx_addrs_cons.2 (Or.inr (Or.inr hn)))
    simp only [CtxNoRedRed] at h ⊢
    rw [hag f.a (ctx_addrs_cons.2 (Or.inl rfl)), root_color_congr hs, ctx_color_congr hc]
    exact ⟨noRedRed_congr hs h.1, h.2.1, ih hc h.2.2⟩

theorem ctxBalanced_congr {s s2 : FreeList} : ∀ {c : Ctx} {h : Nat},
    ColorsAgree s s2 (ctx_addrs c) → CtxBalanced s c h → CtxBalanced s2 c h := by
  intro c
  induction c with
  | nil => intro _ _ h; exact h
  | cons f c ih =>
    intro k hag h
    have hs : ColorsAgree s s2 f.sib.addrs :=
      fun n hn => hag n (ctx_addrs_cons.2 (Or.inr (Or.inl hn)))
    have hc : ColorsAgree s s2 (ctx_addrs c) :=
      fun n hn => hag n (ctx_addrs_cons.2 (Or.inr (Or.inr hn)))
    simp only [CtxBalanced] at h ⊢
    rw [hag f.a (ctx_addrs_cons.2 (Or.inl rfl)), black_height_congr hs]
    refine ⟨h.1, ?_⟩
    rcases h.2 with ⟨h1, h2⟩ | ⟨h1, h2⟩
    · exact Or.inl ⟨h1, ih hc h2⟩
    · exact Or.inr ⟨h1, ih hc h2⟩

/-! ## The nodes around the hole are distinct -/

theorem plug_cons_addrs_perm (f : Frame) (c : Ctx) (t : Tree) :
    (plug (f :: c) t).addrs.Perm (f.a :: (t.addrs ++ f.sib.addrs ++ ctx_addrs c)) := by
  obtain ⟨d, a, sib⟩ := f
  rw [List.perm_iff_count]
  intro n
  cases d <;>
    simp only [plug, plug_addrs, Tree.addrs, ctx_addrs, List.count_append, List.count_cons,
      List.count_nil]
  all_goals omega

theorem plug_addrs_perm (c : Ctx) (t : Tree) :
    (plug c t).addrs.Perm (t.addrs ++ ctx_addrs c) := by
  rw [List.perm_iff_count]
  intro n
  simp only [plug_addrs, ctx_addrs, List.count_append]
  omega

theorem ctx_addrs_cons_perm (f : Frame) (c : Ctx) :
    (ctx_addrs (f :: c)).Perm (f.a :: (f.sib.addrs ++ ctx_addrs c)) := by
  obtain ⟨d, a, sib⟩ := f
  rw [List.perm_iff_count]
  intro n
  cases d <;>
    simp only [ctx_addrs, ctx_before, ctx_after, List.count_append, List.count_cons,
      List.count_nil]
  all_goals omega

/-- The node above the hole is none of the others, and the subtree in the hole,
the subtree beside it and the rest of the path share no node. -/
theorem plug_cons_nodup {f : Frame} {c : Ctx} {t : Tree}
    (h : (plug (f :: c) t).addrs.Nodup) :
    t.addrs.Nodup ∧ f.sib.addrs.Nodup ∧ (ctx_addrs c).Nodup ∧
      f.a ∉ t.addrs ∧ f.a ∉ f.sib.addrs ∧ f.a ∉ ctx_addrs c ∧
      (∀ n ∈ t.addrs, n ∉ f.sib.addrs ∧ n ∉ ctx_addrs c) ∧
      (∀ n ∈ f.sib.addrs, n ∉ ctx_addrs c) := by
  have h2 := (plug_cons_addrs_perm f c t).nodup_iff.1 h
  simp only [List.nodup_append, List.nodup_cons, List.mem_append, List.disjoint_left,
    not_or] at h2
  obtain ⟨⟨⟨h1, h2⟩, h3⟩, ⟨h4, h5, h6⟩, h7, h8⟩ := h2
  exact ⟨h4, h5, h7, h1, h2, h3, fun n hn => ⟨h6 hn, (h8 (Or.inl hn))⟩,
    fun n hn => h8 (Or.inr hn)⟩

theorem plug_cons_mem {f : Frame} {c : Ctx} {t : Tree} {n : Nat} :
    n ∈ (plug (f :: c) t).addrs ↔ n = f.a ∨ n ∈ t.addrs ∨ n ∈ f.sib.addrs ∨ n ∈ ctx_addrs c := by
  rw [(plug_cons_addrs_perm f c t).mem_iff]
  simp only [List.mem_cons, List.mem_append]
  tauto

theorem plug_mem {c : Ctx} {t : Tree} {n : Nat} :
    n ∈ (plug c t).addrs ↔ n ∈ t.addrs ∨ n ∈ ctx_addrs c := by
  rw [(plug_addrs_perm c t).mem_iff]
  simp only [List.mem_append]

theorem plug_nodup {c : Ctx} {t : Tree} (h : (plug c t).addrs.Nodup) :
    t.addrs.Nodup ∧ (ctx_addrs c).Nodup ∧ ∀ n ∈ t.addrs, n ∉ ctx_addrs c := by
  have h2 := (plug_addrs_perm c t).nodup_iff.1 h
  simp only [List.nodup_append, List.disjoint_left] at h2
  exact ⟨h2.1, h2.2.1, fun n hn => h2.2.2 hn⟩

theorem ctxAt_root_mem {s : FreeList} : ∀ {c : Ctx} {p par root : Nat},
    CtxAt s c p par root → c ≠ [] → root ∈ ctx_addrs c := by
  intro c
  induction c with
  | nil => intro p par root _ h; exact absurd rfl h
  | cons f c ih =>
    intro p par root h _
    have h5 : CtxAt s c f.a (s.mem.read (f.a + off_parent)) root := by
      obtain ⟨d, a, sib⟩ := f
      cases d <;> exact h.2.2.2.2
    rw [ctx_addrs_cons]
    cases c with
    | nil => exact Or.inl h5.2
    | cons f2 c2 => exact Or.inr (Or.inr (ih h5 (by simp)))

theorem plug_single_mem {f : Frame} {t : Tree} {n : Nat} :
    n ∈ (plug [f] t).addrs ↔ n = f.a ∨ n ∈ t.addrs ∨ n ∈ f.sib.addrs := by
  rw [plug_cons_mem]
  simp [ctx_addrs, ctx_before, ctx_after]

theorem plug_two_addrs_perm (f1 f2 : Frame) (c : Ctx) (t : Tree) :
    (plug (f1 :: f2 :: c) t).addrs.Perm
      (f1.a :: f2.a :: (t.addrs ++ (f1.sib.addrs ++ (f2.sib.addrs ++ ctx_addrs c)))) := by
  obtain ⟨d1, a1, sib1⟩ := f1
  obtain ⟨d2, a2, sib2⟩ := f2
  rw [List.perm_iff_count]
  intro n
  cases d1 <;> cases d2 <;>
    simp only [plug, plug_addrs, Tree.addrs, ctx_addrs, List.count_append, List.count_cons,
      List.count_nil]
  all_goals omega

/-- The two nodes above the hole are distinct from each other and from every
other node, and the uncle subtree shares no node with the rest. -/
theorem two_frames_nodup {f1 f2 : Frame} {c : Ctx} {t : Tree}
    (h : (plug (f1 :: f2 :: c) t).addrs.Nodup) :
    f1.a ≠ f2.a ∧ t.addrs.Nodup ∧ f2.sib.addrs.Nodup ∧
      (∀ n, n ∈ t.addrs ∨ n ∈ f1.sib.addrs ∨ n ∈ ctx_addrs c →
        n ≠ f1.a ∧ n ≠ f2.a ∧ n ∉ f2.sib.addrs) ∧
      (∀ n ∈ f2.sib.addrs, n ≠ f1.a ∧ n ≠ f2.a) ∧
      (∀ n ∈ t.addrs, n ∉ f1.sib.addrs ∧ n ∉ ctx_addrs c) := by
  have h2 := (plug_two_addrs_perm f1 f2 c t).nodup_iff.1 h
  simp only [List.nodup_append, List.nodup_cons, List.mem_append, List.mem_cons,
    List.disjoint_left, not_or] at h2
  obtain ⟨⟨h1, h2, h3, h4, h5⟩, ⟨h6, h7, h8, h9⟩, h10, ⟨h11, ⟨h12, h13, h14⟩, h15⟩, h16⟩ := h2
  refine ⟨h1, h10, h12, ?_, ?_, ?_⟩
  · rintro n (hn | hn | hn)
    · exact ⟨fun e => h2 (e ▸ hn), fun e => h6 (e ▸ hn), (h16 hn).2.1⟩
    · exact ⟨fun e => h3 (e ▸ hn), fun e => h7 (e ▸ hn), (h15 hn).1⟩
    · exact ⟨fun e => h5 (e ▸ hn), fun e => h9 (e ▸ hn), fun e => h14 e hn⟩
  · intro n hn
    exact ⟨fun e => h4 (e ▸ hn), fun e => h8 (e ▸ hn)⟩
  · intro n hn
    exact ⟨(h16 hn).1, (h16 hn).2.2⟩

theorem black_height_node {s : FreeList} {l r : Tree} {a k : Nat} :
    black_height s (.node l a r) = some k ↔
      ∃ x, black_height s l = some x ∧ black_height s r = some x ∧
        ((s.color a = BLACK ∧ k = x + 1) ∨ (s.color a = RED ∧ k = x)) := by
  simp only [black_height]
  cases hl : black_height s l with
  | none => simp
  | some x =>
    cases hr : black_height s r with
    | none => simp
    | some y =>
      simp only [Option.some.injEq]
      by_cases hxy : x = y
      · subst hxy
        simp only [if_true]
        by_cases hb : s.color a = BLACK
        · have hr2 : s.color a ≠ RED := by rw [hb]; decide
          simp only [hb, if_true, Option.some.injEq]
          constructor
          · rintro rfl; exact ⟨x, rfl, rfl, Or.inl ⟨trivial, rfl⟩⟩
          · rintro ⟨z, rfl, -, h | h⟩
            · exact h.2.symm
            · exact absurd h.1 (by decide)
        · simp only [hb, if_false]
          by_cases hr2 : s.color a = RED
          · simp only [hr2, if_true, Option.some.injEq]
            constructor
            · rintro rfl; exact ⟨x, rfl, rfl, Or.inr ⟨trivial, rfl⟩⟩
            · rintro ⟨z, rfl, -, h | h⟩
              · exact absurd h.1 (by decide)
              · exact h.2.symm
          · simp only [hr2, if_false, false_and, or_self, and_false, exists_false]
            simp
      · simp only [if_neg hxy]
        constructor
        · intro h; cases h
        · rintro ⟨z, rfl, h, -⟩; exact absurd h.symm hxy

theorem plug_two_mem {f1 f2 : Frame} {c : Ctx} {t : Tree} {n : Nat} :
    n ∈ (plug (f1 :: f2 :: c) t).addrs ↔ n = f1.a ∨ n = f2.a ∨ n ∈ t.addrs ∨
      n ∈ f1.sib.addrs ∨ n ∈ f2.sib.addrs ∨ n ∈ ctx_addrs c := by
  rw [(plug_two_addrs_perm f1 f2 c t).mem_iff]
  simp only [List.mem_cons, List.mem_append]

theorem plug_two_eq (f1 f2 : Frame) (c : Ctx) (t : Tree) :
    plug (f1 :: f2 :: c) t = plug c (plug [f1, f2] t) := by
  obtain ⟨d1, a1, sib1⟩ := f1
  obtain ⟨d2, a2, sib2⟩ := f2
  cases d1 <;> cases d2 <;> rfl

theorem plug_pair_mem {f1 f2 : Frame} {t : Tree} {n : Nat} :
    n ∈ (plug [f1, f2] t).addrs ↔ n = f1.a ∨ n = f2.a ∨ n ∈ t.addrs ∨
      n ∈ f1.sib.addrs ∨ n ∈ f2.sib.addrs := by
  rw [plug_two_mem]
  simp [ctx_addrs, ctx_before, ctx_after]

theorem linksAgree_trans {s s2 s3 : FreeList} {l : List Nat} (h1 : LinksAgree s s2 l)
    (h2 : LinksAgree s2 s3 l) : LinksAgree s s3 l := by
  intro n hn
  obtain ⟨a1, a2, a3⟩ := h1 n hn
  obtain ⟨b1, b2, b3⟩ := h2 n hn
  exact ⟨b1.trans a1, b2.trans a2, b3.trans a3⟩

theorem linksAgree_mono {s s2 : FreeList} {l l2 : List Nat} (h : LinksAgree s s2 l)
    (hsub : ∀ n ∈ l2, n ∈ l) : LinksAgree s s2 l2 :=
  fun n hn => h n (hsub n hn)

/-! ## The loop of `fix_insert_node_violations` -/

theorem treeAt_zoom {s : FreeList} {f : Frame} {c : Ctx} {t : Tree} {cur par root : Nat}
    (ht : TreeAt s t cur par) (hc : CtxAt s (f :: c) cur par root) :
    TreeAt s (plug [f] t) f.a (s.mem.read (f.a + off_parent)) ∧
      CtxAt s c f.a (s.mem.read (f.a + off_parent)) root := by
  obtain ⟨d, a, sib⟩ := f
  cases d with
  | left =>
    simp only [CtxAt] at hc
    obtain ⟨h1, h2, h3, h4, h5⟩ := hc
    subst h1
    refine ⟨?_, h5⟩
    simp only [plug, TreeAt]
    exact ⟨trivial, h2, trivial, h3 ▸ ht, h4⟩
  | right =>
    simp only [CtxAt] at hc
    obtain ⟨h1, h2, h3, h4, h5⟩ := hc
    subst h1
    refine ⟨?_, h5⟩
    simp only [plug, TreeAt]
    exact ⟨trivial, h2, trivial, h4, h3 ▸ ht⟩

theorem treeAt_parent {s : FreeList} {t : Tree} {cur par : Nat} (ht : TreeAt s t cur par)
    (h : cur ≠ 0) : s.mem.read (cur + off_parent) = par ∧ cur ∈ t.addrs := by
  cases t with
  | nil => exact absurd ht h
  | node l a r =>
    simp only [TreeAt] at ht
    obtain ⟨h1, -, h3, -⟩ := ht
    subst h1
    exact ⟨h3, by simp [Tree.addrs]⟩

theorem ctxAt_head {s : FreeList} {f : Frame} {c : Ctx} {cur par root : Nat}
    (hc : CtxAt s (f :: c) cur par root) : par = f.a ∧ f.a ≠ 0 := by
  obtain ⟨d, a, sib⟩ := f
  cases d <;> exact ⟨hc.1, hc.2.1⟩

/-- The loop condition holds exactly when `current_node` is not the root and it
and its parent are both RED. -/
theorem fix_insert_cond_eq {s : FreeList} {l : List Nat} {c : Ctx} {t : Tree} {cur : Nat}
    (hl : Separated l) (h : FixShape s l c t cur) :
    fix_insert_cond s cur =
      .ok (decide (c ≠ [] ∧ s.color cur = RED ∧ ctx_color s c = RED)) := by
  obtain ⟨hcur, ⟨par, ht, hc⟩, haddr, -⟩ := h
  have hnd : l.Nodup := List.Pairwise.imp far_ne hl
  rw [← haddr] at hnd
  unfold fix_insert_cond
  cases c with
  | nil =>
    simp only [CtxAt] at hc
    rw [if_pos hc.2.symm]
    simp only [ne_eq, not_true_eq_false, false_and, decide_False]
    rfl
  | cons f c =>
    have hroot := ctxAt_root_mem hc (by simp)
    have hcm := (treeAt_parent ht hcur).2
    have hne : cur ≠ s.m_root := fun e => (plug_nodup hnd).2.2 cur hcm (e ▸ hroot)
    obtain ⟨hp1, hp2⟩ := ctxAt_head hc
    rw [if_neg hne]
    simp only [get_ok _ _ hcur, bind, Except.bind, (treeAt_parent ht hcur).1, hp1,
      get_ok _ _ hp2, pure, Except.pure, ctx_color, FreeList.color]
    by_cases h1 : s.mem.read (cur + off_color) = RED
    · simp [h1]
    · simp [h1]

/-! ## One round of the loop: the uncle is RED -/

theorem is_red_eq (s : FreeList) (n : Nat) :
    is_red s n = .ok (decide (n ≠ 0 ∧ s.color n = RED)) := by
  unfold is_red
  by_cases h : n = 0
  · simp [h]; rfl
  · simp [h, get_ok, FreeList.color, bind, Except.bind, pure, Except.pure]

theorem plug_pair_eq (f1 f2 : Frame) (t : Tree) :
    plug [f2] (plug [f1] t) = plug [f1, f2] t := by
  obtain ⟨d1, a1, sib1⟩ := f1
  cases d1 <;> rfl

theorem root_color_plug_single (s : FreeList) (f : Frame) (t : Tree) :
    root_color s (plug [f] t) = s.color f.a := by
  obtain ⟨d, a, sib⟩ := f
  cases d <;> rfl

theorem noRedRed_plug_single {s : FreeList} {f : Frame} {t : Tree} :
    NoRedRed s (plug [f] t) ↔
      (s.color f.a = RED → root_color s t ≠ RED ∧ root_color s f.sib ≠ RED) ∧
        NoRedRed s t ∧ NoRedRed s f.sib := by
  obtain ⟨d, a, sib⟩ := f
  cases d
  · simp only [plug, NoRedRed]
  · simp only [plug, NoRedRed]
    tauto

theorem black_height_plug_single {s : FreeList} {f : Frame} {t : Tree} {k : Nat} :
    black_height s (plug [f] t) = some k ↔
      ∃ x, black_height s t = some x ∧ black_height s f.sib = some x ∧
        ((s.color f.a = BLACK ∧ k = x + 1) ∨ (s.color f.a = RED ∧ k = x)) := by
  obtain ⟨d, a, sib⟩ := f
  cases d <;> simp only [plug, black_height_node]
  constructor
  · rintro ⟨x, h1, h2, h3⟩; exact ⟨x, h2, h1, h3⟩
  · rintro ⟨x, h1, h2, h3⟩; exact ⟨x, h2, h1, h3⟩

theorem red_ne_black : RED ≠ BLACK := by decide

theorem fix_step_left_red (s : FreeList) (l : List Nat) (fuel : Nat) (c2 : Ctx) (t : Tree)
    (cur : Nat) (f1 : Frame) (G : Nat) (ul : Tree) (u : Nat) (ur : Tree)
    (hl : Separated l)
    (hsh : FixShape s l (f1 :: ⟨.left, G, .node ul u ur⟩ :: c2) t cur)
    (hcur : s.color cur = RED) (hP : s.color f1.a = RED) (hu : s.color u = RED) :
    ∃ s2, fix_insert_loop (fuel + 1) s cur = fix_insert_loop fuel s2 G ∧
      FixShape s2 l c2 (plug [f1, ⟨.left, G, .node ul u ur⟩] t) G ∧
      (∀ n ∈ l, s2.value n = s.value n) ∧
      (∀ h, FixColors s (f1 :: ⟨.left, G, .node ul u ur⟩ :: c2) t h →
        FixColors s2 c2 (plug [f1, ⟨.left, G, .node ul u ur⟩] t) (h + 1)) := by
  have hcond := fix_insert_cond_eq hl hsh
  obtain ⟨hcur0, ⟨par, ht, hc⟩, haddr, hrb⟩ := hsh
  have hnd : l.Nodup := List.Pairwise.imp far_ne hl
  rw [← haddr] at hnd
  obtain ⟨hPG, htnd, hUnd, hout, hU, htd⟩ := two_frames_nodup hnd
  obtain ⟨hz1t, hz1c⟩ := treeAt_zoom ht hc
  obtain ⟨hpar, hP0⟩ := ctxAt_head hc
  obtain ⟨hG1, hG0⟩ := ctxAt_head hz1c
  obtain ⟨hz2t, hz2c⟩ := treeAt_zoom hz1t hz1c
  rw [plug_pair_eq] at hz2t
  have hcp := (treeAt_parent ht hcur0).1
  simp only [CtxAt, TreeAt] at hz1c
  obtain ⟨-, -, hGl, ⟨hGr, hu0, -⟩, -⟩ := hz1c
  have hml : ∀ n, n ∈ l ↔ n = f1.a ∨ n = G ∨ n ∈ t.addrs ∨ n ∈ f1.sib.addrs ∨
      n ∈ (Tree.node ul u ur).addrs ∨ n ∈ ctx_addrs c2 := by
    intro n
    rw [← haddr, plug_two_mem]
  have hGl2 : G ∈ l := (hml G).2 (Or.inr (Or.inl rfl))
  have hPl : f1.a ∈ l := (hml _).2 (Or.inl rfl)
  have huU : u ∈ (Tree.node ul u ur).addrs := by simp [Tree.addrs]
  have hul : u ∈ l := (hml u).2 (Or.inr (Or.inr (Or.inr (Or.inr (Or.inl huU)))))
  obtain ⟨s1, hs1, hr1, hk1, hd1⟩ := set_color_fields s l G RED hl hGl2 hG0
  obtain ⟨s2, hs2, hr2, hk2, hd2⟩ := set_color_fields s1 l f1.a BLACK hl hPl hP0
  obtain ⟨s3, hs3, hr3, hk3, hd3⟩ := set_color_fields s2 l u BLACK hl hul hu0
  have hlinks : LinksAgree s s3 l := linksAgree_trans (linksAgree_trans hk1 hk2) hk3
  have hroot : s3.m_root = s.m_root := by rw [hr3, hr2, hr1]
  have hcol : ∀ n ∈ l, s3.color n =
      if n = u then BLACK else if n = f1.a then BLACK else if n = G then RED else s.color n := by
    intro n hn
    rw [(hd3 n hn).2, (hd2 n hn).2, (hd1 n hn).2]
  have hval : ∀ n ∈ l, s3.value n = s.value n := by
    intro n hn
    rw [(hd3 n hn).1, (hd2 n hn).1, (hd1 n hn).1]
  have hPu : f1.a ≠ u := fun e => (hU u huU).1 e.symm
  rw [fix_insert_loop, hcond]
  simp only [ne_eq, not_false_eq_true, hcur, ctx_color, hP, and_self, decide_True,
    reduceCtorEq, bind, Except.bind, if_true, get_ok _ _ hcur0, hcp, hpar, get_ok _ _ hP0, hG1,
    get_ok _ _ hG0, hGl, hGr, is_red_eq, hu0, hu, hs1, hs2, hs3, hPu, if_false]
  refine ⟨s3, rfl, ⟨hG0, ⟨s.mem.read (G + off_parent), ?_, ?_⟩, ?_, ?_⟩, hval, ?_⟩
  · exact treeAt_congr (linksAgree_mono hlinks (fun n hn => by
      rw [← haddr, plug_two_eq, plug_mem]; exact Or.inl hn)) hz2t
  · rw [hroot]
    exact ctxAt_congr (linksAgree_mono hlinks (fun n hn => by
      rw [← haddr, plug_two_eq, plug_mem]; exact Or.inr hn)) hz2c
  · rw [← plug_two_eq]; exact haddr
  · intro hc2
    have hrm := ctxAt_root_mem hz2c hc2
    obtain ⟨k1, k2, k3⟩ := hout _ (Or.inr (Or.inr hrm))
    rw [hroot, hcol _ ((hml _).2 (Or.inr (Or.inr (Or.inr (Or.inr (Or.inr hrm)))))),
      if_neg (fun e : s.m_root = u => k3 (e ▸ huU)), if_neg k1, if_neg k2]
    exact hrb (by simp)
  · have hagree : ∀ n ∈ l, n ≠ u → n ≠ f1.a → n ≠ G → s3.color n = s.color n := by
      intro n hn k1 k2 k3
      rw [hcol n hn, if_neg k1, if_neg k2, if_neg k3]
    have hcT : ColorsAgree s s3 t.addrs := fun n hn =>
      hagree n ((hml n).2 (Or.inr (Or.inr (Or.inl hn))))
        (fun e => (hout n (Or.inl hn)).2.2 (e ▸ huU)) (hout n (Or.inl hn)).1
        (hout n (Or.inl hn)).2.1
    have hcS : ColorsAgree s s3 f1.sib.addrs := fun n hn =>
      hagree n ((hml n).2 (Or.inr (Or.inr (Or.inr (Or.inl hn)))))
        (fun e => (hout n (Or.inr (Or.inl hn))).2.2 (e ▸ huU)) (hout n (Or.inr (Or.inl hn))).1
        (hout n (Or.inr (Or.inl hn))).2.1
    have hcK : ColorsAgree s s3 (ctx_addrs c2) := fun n hn =>
      hagree n ((hml n).2 (Or.inr (Or.inr (Or.inr (Or.inr (Or.inr hn))))))
        (fun e => (hout n (Or.inr (Or.inr hn))).2.2 (e ▸ huU)) (hout n (Or.inr (Or.inr hn))).1
        (hout n (Or.inr (Or.inr hn))).2.1
    have hUnd2 : (ul.addrs ++ u :: ur.addrs).Nodup := hUnd
    simp only [List.nodup_append, List.nodup_cons, List.mem_cons, List.disjoint_left,
      not_or] at hUnd2
    have hcul : ColorsAgree s s3 ul.addrs := fun n hn => by
      have hnU : n ∈ (Tree.node ul u ur).addrs := by simp [Tree.addrs, hn]
      exact hagree n ((hml n).2 (Or.inr (Or.inr (Or.inr (Or.inr (Or.inl hnU))))))
        (fun e => (hUnd2.2.2 hn).1 e) (hU n hnU).1 (hU n hnU).2
    have hcur2 : ColorsAgree s s3 ur.addrs := fun n hn => by
      have hnU : n ∈ (Tree.node ul u ur).addrs := by simp [Tree.addrs, hn]
      exact hagree n ((hml n).2 (Or.inr (Or.inr (Or.inr (Or.inr (Or.inl hnU))))))
        (fun e => hUnd2.2.1.1 (e ▸ hn)) (hU n hnU).1 (hU n hnU).2
    have h3u : s3.color u = BLACK := by rw [hcol u hul, if_pos rfl]
    have h3P : s3.color f1.a = BLACK := by
      rw [hcol _ hPl, if_neg (fun e => (hU u huU).1 e.symm), if_pos rfl]
    have h3G : s3.color G = RED := by
      rw [hcol _ hGl2, if_neg (fun e => (hU u huU).2 e.symm), if_neg (Ne.symm hPG), if_pos rfl]
    rintro h ⟨hnr, hbh, hcn, hcb⟩
    simp only [CtxNoRedRed, CtxBalanced, ctx_color, hP, true_and, red_ne_black, false_and,
      or_false, NoRedRed, black_height_node, hu, forall_const] at hcn hcb
    obtain ⟨hnS, ⟨hrS, hGnr⟩, ⟨-, hnul, hnur⟩, -, hcn2⟩ := hcn
    obtain ⟨hbS, ⟨x, hbul, hbur, hx⟩, hG⟩ := hcb
    have hx2 : h = x := hx.resolve_left id
    subst hx2
    have hGb : CtxBalanced s c2 (h + 1) := by
      rcases hG with ⟨e, -⟩ | ⟨-, k⟩
      · exact absurd e hGnr
      · exact k
    have hbr : BLACK ≠ RED := Ne.symm red_ne_black
    unfold FixColors
    rw [← plug_pair_eq]
    refine ⟨?_, ?_, ctxNoRedRed_congr hcK hcn2, ctxBalanced_congr hcK hGb⟩
    · rw [noRedRed_plug_single, noRedRed_plug_single]
      simp only [root_color_plug_single]
      simp only [root_color, NoRedRed, h3P, h3u, h3G]
      exact ⟨fun _ => ⟨hbr, hbr⟩, ⟨fun e => absurd e hbr, noRedRed_congr hcT hnr,
        noRedRed_congr hcS hnS⟩, fun e => absurd e hbr, noRedRed_congr hcul hnul,
        noRedRed_congr hcur2 hnur⟩
    · rw [black_height_plug_single]
      refine ⟨h + 1, ?_, ?_, Or.inr ⟨h3G, rfl⟩⟩
      · rw [black_height_plug_single]
        exact ⟨h, by rw [black_height_congr hcT]; exact hbh,
          by rw [black_height_congr hcS]; exact hbS, Or.inl ⟨h3P, rfl⟩⟩
      · show black_height s3 (.node ul u ur) = some (h + 1)
        rw [black_height_node]
        exact ⟨h, by rw [black_height_congr hcul]; exact hbul,
          by rw [black_height_congr hcur2]; exact hbur, Or.inl ⟨h3u, rfl⟩⟩

theorem fix_step_right_red (s : FreeList) (l : List Nat) (fuel : Nat) (c2 : Ctx) (t : Tree)
    (cur : Nat) (f1 : Frame) (G : Nat) (ul : Tree) (u : Nat) (ur : Tree)
    (hl : Separated l)
    (hsh : FixShape s l (f1 :: ⟨.right, G, .node ul u ur⟩ :: c2) t cur)
    (hcur : s.color cur = RED) (hP : s.color f1.a = RED) (hu : s.color u = RED) :
    ∃ s2, fix_insert_loop (fuel + 1) s cur = fix_insert_loop fuel s2 G ∧
      FixShape s2 l c2 (plug [f1, ⟨.right, G, .node ul u ur⟩] t) G ∧
      (∀ n ∈ l, s2.value n = s.value n) ∧
      (∀ h, FixColors s (f1 :: ⟨.right, G, .node ul u ur⟩ :: c2) t h →
        FixColors s2 c2 (plug [f1, ⟨.right, G, .node ul u ur⟩] t) (h + 1)) := by
  have hcond := fix_insert_cond_eq hl hsh
  obtain ⟨hcur0, ⟨par, ht, hc⟩, haddr, hrb⟩ := hsh
  have hnd : l.Nodup := List.Pairwise.imp far_ne hl
  rw [← haddr] at hnd
  obtain ⟨hPG, htnd, hUnd, hout, hU, htd⟩ := two_frames_nodup hnd
  obtain ⟨hz1t, hz1c⟩ := treeAt_zoom ht hc
  obtain ⟨hpar, hP0⟩ := ctxAt_head hc
  obtain ⟨hG1, hG0⟩ := ctxAt_head hz1c
  obtain ⟨hz2t, hz2c⟩ := treeAt_zoom hz1t hz1c
  rw [plug_pair_eq] at hz2t
  have hcp := (treeAt_parent ht hcur0).1
  simp only [CtxAt, TreeAt] at hz1c
  obtain ⟨-, -, hGl, ⟨hGr, hu0, -⟩, -⟩ := hz1c
  have hml : ∀ n, n ∈ l ↔ n = f1.a ∨ n = G ∨ n ∈ t.addrs ∨ n ∈ f1.sib.addrs ∨
      n ∈ (Tree.node ul u ur).addrs ∨ n ∈ ctx_addrs c2 := by
    intro n
    rw [← haddr, plug_two_mem]
  have hGl2 : G ∈ l := (hml G).2 (Or.inr (Or.inl rfl))
  have hPl : f1.a ∈ l := (hml _).2 (Or.inl rfl)
  have huU : u ∈ (Tree.node ul u ur).addrs := by simp [Tree.addrs]
  have hul : u ∈ l := (hml u).2 (Or.inr (Or.inr (Or.inr (Or.inr (Or.inl huU)))))
  obtain ⟨s1, hs1, hr1, hk1, hd1⟩ := set_color_fields s l G RED hl hGl2 hG0
  obtain ⟨s2, hs2, hr2, hk2, hd2⟩ := set_color_fields s1 l f1.a BLACK hl hPl hP0
  obtain ⟨s3, hs3, hr3, hk3, hd3⟩ := set_color_fields s2 l u BLACK hl hul hu0
  have hlinks : LinksAgree s s3 l := linksAgree_trans (linksAgree_trans hk1 hk2) hk3
  have hroot : s3.m_root = s.m_root := by rw [hr3, hr2, hr1]
  have hcol : ∀ n ∈ l, s3.color n =
      if n = u then BLACK else if n = f1.a then BLACK else if n = G then RED else s.color n := by
    intro n hn
    rw [(hd3 n hn).2, (hd2 n hn).2, (hd1 n hn).2]
  have hval : ∀ n ∈ l, s3.value n = s.value n := by
    intro n hn
    rw [(hd3 n hn).1, (hd2 n hn).1, (hd1 n hn).1]
  have hPu : f1.a ≠ u := fun e => (hU u huU).1 e.symm
  rw [fix_insert_loop, hcond]
  simp only [ne_eq, not_false_eq_true, hcur, ctx_color, hP, and_self, decide_True,
    reduceCtorEq, bind, Except.bind, if_true, get_ok _ _ hcur0, hcp, hpar, get_ok _ _ hP0, hG1,
    get_ok _ _ hG0, hGl, hGr, is_red_eq, hu0, hu, hs1, hs2, hs3, hPu, if_false]
  refine ⟨s3, rfl, ⟨hG0, ⟨s.mem.read (G + off_parent), ?_, ?_⟩, ?_, ?_⟩, hval, ?_⟩
  · exact treeAt_congr (linksAgree_mono hlinks (fun n hn => by
      rw [← haddr, plug_two_eq, plug_mem]; exact Or.inl hn)) hz2t
  · rw [hroot]
    exact ctxAt_congr (linksAgree_mono hlinks (fun n hn => by
      rw [← haddr, plug_two_eq, plug_mem]; exact Or.inr hn)) hz2c
  · rw [← plug_two_eq]; exact haddr
  · intro hc2
    have hrm := ctxAt_root_mem hz2c hc2
    obtain ⟨k1, k2, k3⟩ := hout _ (Or.inr (Or.inr hrm))
    rw [hroot, hcol _ ((hml _).2 (Or.inr (Or.inr (Or.inr (Or.inr (Or.inr hrm)))))),
      if_neg (fun e : s.m_root = u => k3 (e ▸ huU)), if_neg k1, if_neg k2]
    exact hrb (by simp)
  · have hagree : ∀ n ∈ l, n ≠ u → n ≠ f1.a → n ≠ G → s3.color n = s.color n := by
      intro n hn k1 k2 k3
      rw [hcol n hn, if_neg k1, if_neg k2, if_neg k3]
    have hcT : ColorsAgree s s3 t.addrs := fun n hn =>
      hagree n ((hml n).2 (Or.inr (Or.inr (Or.inl hn))))
        (fun e => (hout n (Or.inl hn)).2.2 (e ▸ huU)) (hout n (Or.inl hn)).1
        (hout n (Or.inl hn)).2.1
    have hcS : ColorsAgree s s3 f1.sib.addrs := fun n hn =>
      hagree n ((hml n).2 (Or.inr (Or.inr (Or.inr (Or.inl hn)))))
        (fun e => (hout n (Or.inr (Or.inl hn))).2.2 (e ▸ huU)) (hout n (Or.inr (Or.inl hn))).1
        (hout n (Or.inr (Or.inl hn))).2.1
    have hcK : ColorsAgree s s3 (ctx_addrs c2) := fun n hn =>
      hagree n ((hml n).2 (Or.inr (Or.inr (Or.inr (Or.inr (Or.inr hn))))))
        (fun e => (hout n (Or.inr (Or.inr hn))).2.2 (e ▸ huU)) (hout n (Or.inr (Or.inr hn))).1
        (hout n (Or.inr (Or.inr hn))).2.1
    have hUnd2 : (ul.addrs ++ u :: ur.addrs).Nodup := hUnd
    simp only [List.nodup_append, List.nodup_cons, List.mem_cons, List.disjoint_left,
      not_or] at hUnd2
    have hcul : ColorsAgree s s3 ul.addrs := fun n hn => by
      have hnU : n ∈ (Tree.node ul u ur).addrs := by simp [Tree.addrs, hn]
      exact hagree n ((hml n).2 (Or.inr (Or.inr (Or.inr (Or.inr (Or.inl hnU))))))
        (fun e => (hUnd2.2.2 hn).1 e) (hU n hnU).1 (hU n hnU).2
    have hcur2 : ColorsAgree s s3 ur.addrs := fun n hn => by
      have hnU : n ∈ (Tree.node ul u ur).addrs := by simp [Tree.addrs, hn]
      exact hagree n ((hml n).2 (Or.inr (Or.inr (Or.inr (Or.inr (Or.inl hnU))))))
        (fun e => hUnd2.2.1.1 (e ▸ hn)) (hU n hnU).1 (hU n hnU).2
    have h3u : s3.color u = BLACK := by rw [hcol u hul, if_pos rfl]
    have h3P : s3.color f1.a = BLACK := by
      rw [hcol _ hPl, if_neg (fun e => (hU u huU).1 e.symm), if_pos rfl]
    have h3G : s3.color G = RED := by
      rw [hcol _ hGl2, if_neg (fun e => (hU u huU).2 e.symm), if_neg (Ne.symm hPG), if_pos rfl]
    rintro h ⟨hnr, hbh, hcn, hcb⟩
    simp only [CtxNoRedRed, CtxBalanced, ctx_color, hP, true_and, red_ne_black, false_and,
      or_false, NoRedRed, black_height_node, hu, forall_const] at hcn hcb
    obtain ⟨hnS, ⟨hrS, hGnr⟩, ⟨-, hnul, hnur⟩, -, hcn2⟩ := hcn
    obtain ⟨hbS, ⟨x, hbul, hbur, hx⟩, hG⟩ := hcb
    have hx2 : h = x := hx.resolve_left id
    subst hx2
    have hGb : CtxBalanced s c2 (h + 1) := by
      rcases hG with ⟨e, -⟩ | ⟨-, k⟩
      · exact absurd e hGnr
      · exact k
    have hbr : BLACK ≠ RED := Ne.symm red_ne_black
    unfold FixColors
    rw [← plug_pair_eq]
    refine ⟨?_, ?_, ctxNoRedRed_congr hcK hcn2, ctxBalanced_congr hcK hGb⟩
    · rw [noRedRed_plug_single, noRedRed_plug_single]
      simp only [root_color_plug_single]
      simp only [root_color, NoRedRed, h3P, h3u, h3G]
      exact ⟨fun _ => ⟨hbr, hbr⟩, ⟨fun e => absurd e hbr, noRedRed_congr hcT hnr,
        noRedRed_congr hcS hnS⟩, fun e => absurd e hbr, noRedRed_congr hcul hnul,
        noRedRed_congr hcur2 hnur⟩
    · rw [black_height_plug_single]
      refine ⟨h + 1, ?_, ?_, Or.inr ⟨h3G, rfl⟩⟩
      · rw [black_height_plug_single]
        exact ⟨h, by rw [black_height_congr hcT]; exact hbh,
          by rw [black_height_congr hcS]; exact hbS, Or.inl ⟨h3P, rfl⟩⟩
      · show black_height s3 (.node ul u ur) = some (h + 1)
        rw [black_height_node]
        exact ⟨h, by rw [black_height_congr hcul]; exact hbul,
          by rw [black_height_congr hcur2]; exact hbur, Or.inl ⟨h3u, rfl⟩⟩

/-! ## One round of the loop: the uncle is not RED -/

theorem swap_color_fields (s : FreeList) (l : List Nat) (a b : Nat) (hl : Separated l)
    (ha : a ∈ l) (hb : b ∈ l) (ha0 : a ≠ 0) (hb0 : b ≠ 0) :
    ∃ s2, swap_color s a b = .ok s2 ∧ s2.m_root = s.m_root ∧ LinksAgree s s2 l ∧
      ∀ n ∈ l, s2.value n = s.value n ∧
        s2.color n = if n = b then s.color a else if n = a then s.color b else s.color n := by
  obtain ⟨s1, hs1, hr1, hk1, hd1⟩ := set_color_fields s l a (s.color b) hl ha ha0
  obtain ⟨s2, hs2, hr2, hk2, hd2⟩ := set_color_fields s1 l b (s.color a) hl hb hb0
  refine ⟨s2, ?_, by rw [hr2, hr1], linksAgree_trans hk1 hk2, fun n hn => ?_⟩
  · unfold swap_color
    simp only [get_ok _ _ ha0, get_ok _ _ hb0, bind, Except.bind]
    unfold FreeList.color at hs1 hs2
    rw [hs1]
    exact hs2
  · rw [(hd2 n hn).1, (hd1 n hn).1, (hd2 n hn).2, (hd1 n hn).2]
    exact ⟨rfl, rfl⟩

theorem is_red_uncle {s : FreeList} {U : Tree} {up G : Nat} (ht : TreeAt s U up G)
    (hu : root_color s U ≠ RED) : is_red s up = .ok false := by
  rw [is_red_eq]
  cases U with
  | nil =>
    have : up = 0 := ht
    simp [this]
  | node ul u ur =>
    simp only [TreeAt] at ht
    simp only [root_color] at hu
    simp [ht.1, hu]

theorem fix_step_left_left (s : FreeList) (l : List Nat) (fuel : Nat) (c2 : Ctx) (t : Tree)
    (cur P : Nat) (S : Tree) (G : Nat) (U : Tree)
    (hl : Separated l) (h0 : ∀ n ∈ l, n ≠ 0)
    (hsh : FixShape s l (⟨.left, P, S⟩ :: ⟨.left, G, U⟩ :: c2) t cur)
    (hcur : s.color cur = RED) (hP : s.color P = RED) (hu : root_color s U ≠ RED) :
    ∃ s2, fix_insert_loop (fuel + 1) s cur = fix_insert_loop fuel s2 P ∧
      FixShape s2 l c2 (.node t P (.node S G U)) P ∧
      (∀ n ∈ l, s2.value n = s.value n) ∧
      (∀ h, FixColors s (⟨.left, P, S⟩ :: ⟨.left, G, U⟩ :: c2) t h →
        FixColors s2 c2 (.node t P (.node S G U)) (h + 1)) := by
  have hcond := fix_insert_cond_eq hl hsh
  obtain ⟨hcur0, ⟨par, ht, hc⟩, haddr, hrb⟩ := hsh
  have hnd : l.Nodup := List.Pairwise.imp far_ne hl
  rw [← haddr] at hnd
  obtain ⟨hPG, htnd, hUnd, hout, hU, htd⟩ := two_frames_nodup hnd
  obtain ⟨hz1t, hz1c⟩ := treeAt_zoom ht hc
  obtain ⟨hpar, hP0⟩ := ctxAt_head hc
  obtain ⟨hG1, hG0⟩ := ctxAt_head hz1c
  obtain ⟨hz2t, hz2c⟩ := treeAt_zoom hz1t hz1c
  rw [plug_pair_eq] at hz2t
  have hcp := (treeAt_parent ht hcur0).1
  have hcm := (treeAt_parent ht hcur0).2
  have hml : ∀ n, n ∈ l ↔ n = P ∨ n = G ∨ n ∈ t.addrs ∨ n ∈ S.addrs ∨
      n ∈ U.addrs ∨ n ∈ ctx_addrs c2 := by
    intro n
    rw [← haddr, plug_two_mem]
  have hGl2 : G ∈ l := (hml G).2 (Or.inr (Or.inl rfl))
  have hPl : P ∈ l := (hml _).2 (Or.inl rfl)
  simp only [CtxAt] at hc hz1c
  obtain ⟨-, -, hPl3, hSt, -⟩ := hc
  obtain ⟨-, -, hGl, hUt, -⟩ := hz1c
  have hpr : cur ≠ s.mem.read (P + off_right) := fun e =>
    (treeAt_root hSt).elim (fun h => hcur0 (e ▸ h)) (fun h => (htd cur hcm).1 (e ▸ h))
  obtain ⟨s1, hs1, ht1, hc1, ha1, hd1, hr1⟩ :=
    rotate_node_right_tree s l c2 t S U P G _ hl h0 haddr hz2t hz2c
  obtain ⟨s2, hs2, hr2, hk2, hd2⟩ := swap_color_fields s1 l P G hl hPl hGl2 hP0 hG0
  rw [fix_insert_loop, hcond]
  simp only [ne_eq, not_false_eq_true, hcur, ctx_color, hP, and_self, decide_True,
    reduceCtorEq, bind, Except.bind, if_true, get_ok _ _ hcur0, hcp, hpar, get_ok _ _ hP0, hG1,
    get_ok _ _ hG0, hGl, is_red_uncle hUt hu, hpr, if_false, pure, Except.pure, hs1, hs2,
    Bool.false_eq_true]
  have hsub : ∀ n, n ∈ (Tree.node t P (.node S G U)).addrs ∨ n ∈ ctx_addrs c2 → n ∈ l := by
    intro n hn
    rw [← ha1, plug_mem]
    exact hn
  have hcol : ∀ n ∈ l, s2.color n =
      if n = G then s.color P else if n = P then s.color G else s.color n := by
    intro n hn
    rw [(hd2 n hn).2, (hd1 n hn).2, (hd1 _ hPl).2, (hd1 _ hGl2).2]
  refine ⟨s2, rfl, ⟨hP0, ⟨s.mem.read (G + off_parent), ?_, ?_⟩, ha1, ?_⟩, ?_, ?_⟩
  · exact treeAt_congr (linksAgree_mono hk2 (fun n hn => hsub n (Or.inl hn))) ht1
  · rw [hr2]
    exact ctxAt_congr (linksAgree_mono hk2 (fun n hn => hsub n (Or.inr hn))) hc1
  · intro hc2
    have hrm := ctxAt_root_mem hz2c hc2
    obtain ⟨k1, k2, -⟩ := hout _ (Or.inr (Or.inr hrm))
    have hpg : s.mem.read (G + off_parent) ≠ 0 := by
      cases c2 with
      | nil => exact absurd rfl hc2
      | cons f3 c3 =>
        obtain ⟨e1, e2⟩ := ctxAt_head hz2c
        change s.mem.read (G + off_parent) = f3.a at e1
        rw [e1]; exact e2
    rw [hr2, hr1, if_neg hpg, hcol _ (hsub _ (Or.inr hrm)), if_neg k2, if_neg k1]
    exact hrb (by simp)
  · intro n hn
    rw [(hd2 n hn).1, (hd1 n hn).1]
  · have hagree : ∀ n ∈ l, n ≠ P → n ≠ G → s2.color n = s.color n := by
      intro n hn k1 k2
      rw [hcol n hn, if_neg k2, if_neg k1]
    have hcT : ColorsAgree s s2 t.addrs := fun n hn =>
      hagree n ((hml n).2 (Or.inr (Or.inr (Or.inl hn)))) (hout n (Or.inl hn)).1
        (hout n (Or.inl hn)).2.1
    have hcS : ColorsAgree s s2 S.addrs := fun n hn =>
      hagree n ((hml n).2 (Or.inr (Or.inr (Or.inr (Or.inl hn)))))
        (hout n (Or.inr (Or.inl hn))).1 (hout n (Or.inr (Or.inl hn))).2.1
    have hcK : ColorsAgree s s2 (ctx_addrs c2) := fun n hn =>
      hagree n ((hml n).2 (Or.inr (Or.inr (Or.inr (Or.inr (Or.inr hn))))))
        (hout n (Or.inr (Or.inr hn))).1 (hout n (Or.inr (Or.inr hn))).2.1
    have hcU : ColorsAgree s s2 U.addrs := fun n hn =>
      hagree n ((hml n).2 (Or.inr (Or.inr (Or.inr (Or.inr (Or.inl hn)))))) (hU n hn).1
        (hU n hn).2
    rintro h ⟨hnr, hbh, hcn, hcb⟩
    simp only [CtxNoRedRed, CtxBalanced, ctx_color, hP, true_and, red_ne_black, false_and,
      or_false, forall_const] at hcn hcb
    obtain ⟨hnS, ⟨hrS, hGnr⟩, hnU, -, hcn2⟩ := hcn
    obtain ⟨hbS, hbU, hG⟩ := hcb
    obtain ⟨hGb, hGc⟩ : s.color G = BLACK ∧ CtxBalanced s c2 (h + 1) := by
      rcases hG with ⟨e, -⟩ | k
      · exact absurd e hGnr
      · exact k
    have h2P : s2.color P = BLACK := by rw [hcol _ hPl, if_neg hPG, if_pos rfl, hGb]
    have h2G : s2.color G = RED := by rw [hcol _ hGl2, if_pos rfl, hP]
    have hbr : BLACK ≠ RED := Ne.symm red_ne_black
    refine ⟨?_, ?_, ctxNoRedRed_congr hcK hcn2, ctxBalanced_congr hcK hGc⟩
    · simp only [NoRedRed, h2P, h2G, root_color_congr hcS, root_color_congr hcU]
      exact ⟨fun e => absurd e hbr, noRedRed_congr hcT hnr, fun _ => ⟨hrS, hu⟩,
        noRedRed_congr hcS hnS, noRedRed_congr hcU hnU⟩
    · rw [black_height_node]
      refine ⟨h, by rw [black_height_congr hcT]; exact hbh, ?_, Or.inl ⟨h2P, rfl⟩⟩
      rw [black_height_node]
      exact ⟨h, by rw [black_height_congr hcS]; exact hbS,
        by rw [black_height_congr hcU]; exact hbU, Or.inr ⟨h2G, rfl⟩⟩

theorem fix_step_left_right (s : FreeList) (l : List Nat) (fuel : Nat) (c2 : Ctx)
    (tl tr : Tree) (cur P : Nat) (S : Tree) (G : Nat) (U : Tree)
    (hl : Separated l) (h0 : ∀ n ∈ l, n ≠ 0)
    (hsh : FixShape s l (⟨.right, P, S⟩ :: ⟨.left, G, U⟩ :: c2) (.node tl cur tr) cur)
    (hcur : s.color cur = RED) (hP : s.color P = RED) (hu : root_color s U ≠ RED) :
    ∃ s2, fix_insert_loop (fuel + 1) s cur = fix_insert_loop fuel s2 cur ∧
      FixShape s2 l c2 (.node (.node S P tl) cur (.node tr G U)) cur ∧
      (∀ n ∈ l, s2.value n = s.value n) ∧
      (∀ h, FixColors s (⟨.right, P, S⟩ :: ⟨.left, G, U⟩ :: c2) (.node tl cur tr) h →
        FixColors s2 c2 (.node (.node S P tl) cur (.node tr G U)) (h + 1)) := by
  have hcond := fix_insert_cond_eq hl hsh
  obtain ⟨hcur0, ⟨par, ht, hc⟩, haddr, hrb⟩ := hsh
  have hnd : l.Nodup := List.Pairwise.imp far_ne hl
  rw [← haddr] at hnd
  obtain ⟨hPG, htnd, hUnd, hout, hU, htd⟩ := two_frames_nodup hnd
  obtain ⟨hz1t, hz1c⟩ := treeAt_zoom ht hc
  obtain ⟨hpar, hP0⟩ := ctxAt_head hc
  obtain ⟨hG1, hG0⟩ := ctxAt_head hz1c
  have hcp := (treeAt_parent ht hcur0).1
  have hcm := (treeAt_parent ht hcur0).2
  have hml : ∀ n, n ∈ l ↔ n = P ∨ n = G ∨ n ∈ (Tree.node tl cur tr).addrs ∨ n ∈ S.addrs ∨
      n ∈ U.addrs ∨ n ∈ ctx_addrs c2 := by
    intro n
    rw [← haddr, plug_two_mem]
  have hGl2 : G ∈ l := (hml G).2 (Or.inr (Or.inl rfl))
  have hPl : P ∈ l := (hml _).2 (Or.inl rfl)
  have hcl : cur ∈ l := (hml _).2 (Or.inr (Or.inr (Or.inl hcm)))
  have hUt : TreeAt s U (s.mem.read (G + off_right)) G := hz1c.2.2.2.1
  have hGl : s.mem.read (G + off_left) = P := hz1c.2.2.1
  have hPr : s.mem.read (P + off_right) = cur := hc.2.2.1
  change s.mem.read (P + off_parent) = G at hG1
  change G ≠ 0 at hG0
  change P ≠ 0 at hP0
  change par = P at hpar
  rw [hG1] at hz1t hz1c
  obtain ⟨s1, hs1, ht1, hc1, ha1, hd1, hr1⟩ :=
    rotate_node_left_tree s l (⟨.left, G, U⟩ :: c2) tr tl S cur P G hl h0 haddr hz1t hz1c
  have hPp1 : s1.mem.read (P + off_parent) = cur := by
    simp only [TreeAt] at ht1
    exact ht1.2.2.2.1.2.2.1
  obtain ⟨hz2t, hz2c⟩ := treeAt_zoom ht1 hc1
  obtain ⟨s2, hs2, ht2, hc2, ha2, hd2, hr2⟩ :=
    rotate_node_right_tree s1 l c2 (.node S P tl) tr U cur G _ hl h0 ha1 hz2t hz2c
  obtain ⟨s3, hs3, hr3, hk3, hd3⟩ := swap_color_fields s2 l cur G hl hcl hGl2 hcur0 hG0
  rw [fix_insert_loop, hcond]
  simp only [ne_eq, not_false_eq_true, hcur, ctx_color, hP, and_self, decide_True,
    reduceCtorEq, bind, Except.bind, if_true, get_ok _ _ hcur0, hcp, hpar, get_ok _ _ hP0, hG1,
    get_ok _ _ hG0, hGl, is_red_uncle hUt hu, hPr, if_false, pure, Except.pure, hs1, hs2, hs3,
    hPp1, Bool.false_eq_true]
  have hsub : ∀ n, n ∈ (Tree.node (.node S P tl) cur (.node tr G U)).addrs ∨
      n ∈ ctx_addrs c2 → n ∈ l := by
    intro n hn
    rw [← ha2, plug_mem]
    exact hn
  have hcol : ∀ n ∈ l, s3.color n =
      if n = G then s.color cur else if n = cur then s.color G else s.color n := by
    intro n hn
    rw [(hd3 n hn).2, (hd2 n hn).2, (hd2 _ hcl).2, (hd2 _ hGl2).2, (hd1 n hn).2,
      (hd1 _ hcl).2, (hd1 _ hGl2).2]
  have hcG : cur ≠ G := (hout cur (Or.inl hcm)).2.1
  have hcP : cur ≠ P := (hout cur (Or.inl hcm)).1
  refine ⟨s3, rfl, ⟨hcur0, ⟨s1.mem.read (G + off_parent), ?_, ?_⟩, ha2, ?_⟩, ?_, ?_⟩
  · exact treeAt_congr (linksAgree_mono hk3 (fun n hn => hsub n (Or.inl hn))) ht2
  · rw [hr3]
    exact ctxAt_congr (linksAgree_mono hk3 (fun n hn => hsub n (Or.inr hn))) hc2
  · intro hne
    have hrm := ctxAt_root_mem hc1 (by simp)
    have hpg : s1.mem.read (G + off_parent) ≠ 0 := by
      cases c2 with
      | nil => exact absurd rfl hne
      | cons f3 c3 =>
        obtain ⟨e1, e2⟩ := ctxAt_head hz2c
        change s1.mem.read (G + off_parent) = f3.a at e1
        rw [e1]; exact e2
    have hrm2 := ctxAt_root_mem hz2c hne
    rw [hr1, if_neg hG0] at hrm2
    obtain ⟨k1, k2, -⟩ := hout _ (Or.inr (Or.inr hrm2))
    have k3 : s.m_root ≠ cur := fun e => (htd cur hcm).2 (e ▸ hrm2)
    rw [hr3, hr2, if_neg hpg, hr1, if_neg hG0, hcol _ (hsub _ (Or.inr hrm2)), if_neg k2,
      if_neg k3]
    exact hrb (by simp)
  · intro n hn
    rw [(hd3 n hn).1, (hd2 n hn).1, (hd1 n hn).1]
  · have hagree : ∀ n ∈ l, n ≠ cur → n ≠ G → s3.color n = s.color n := by
      intro n hn k1 k2
      rw [hcol n hn, if_neg k2, if_neg k1]
    have htnd2 : (tl.addrs ++ cur :: tr.addrs).Nodup := htnd
    simp only [List.nodup_append, List.nodup_cons, List.mem_cons, List.disjoint_left,
      not_or] at htnd2
    have hctl : ColorsAgree s s3 tl.addrs := fun n hn => by
      have hnt : n ∈ (Tree.node tl cur tr).addrs := by simp [Tree.addrs, hn]
      exact hagree n ((hml n).2 (Or.inr (Or.inr (Or.inl hnt)))) (htnd2.2.2 hn).1
        (hout n (Or.inl hnt)).2.1
    have hctr : ColorsAgree s s3 tr.addrs := fun n hn => by
      have hnt : n ∈ (Tree.node tl cur tr).addrs := by simp [Tree.addrs, hn]
      exact hagree n ((hml n).2 (Or.inr (Or.inr (Or.inl hnt))))
        (fun e => htnd2.2.1.1 (e ▸ hn)) (hout n (Or.inl hnt)).2.1
    have hcS : ColorsAgree s s3 S.addrs := fun n hn =>
      hagree n ((hml n).2 (Or.inr (Or.inr (Or.inr (Or.inl hn)))))
        (fun e => (htd cur hcm).1 (e ▸ hn)) (hout n (Or.inr (Or.inl hn))).2.1
    have hcK : ColorsAgree s s3 (ctx_addrs c2) := fun n hn =>
      hagree n ((hml n).2 (Or.inr (Or.inr (Or.inr (Or.inr (Or.inr hn))))))
        (fun e => (htd cur hcm).2 (e ▸ hn)) (hout n (Or.inr (Or.inr hn))).2.1
    have hcU : ColorsAgree s s3 U.addrs := fun n hn =>
      hagree n ((hml n).2 (Or.inr (Or.inr (Or.inr (Or.inr (Or.inl hn))))))
        (fun e => (hout cur (Or.inl hcm)).2.2 (e ▸ hn)) (hU n hn).2
    rintro h ⟨hnr, hbh, hcn, hcb⟩
    simp only [CtxNoRedRed, CtxBalanced, ctx_color, hP, true_and, red_ne_black, false_and,
      or_false, forall_const] at hcn hcb
    simp only [NoRedRed, hcur, forall_const] at hnr
    rw [black_height_node] at hbh
    simp only [hcur, red_ne_black, false_and, false_or, true_and] at hbh
    obtain ⟨⟨hrtl, hrtr⟩, hntl, hntr⟩ := hnr
    obtain ⟨x, hbtl, hbtr, hx⟩ := hbh
    subst hx
    obtain ⟨hnS, ⟨hrS, hGnr⟩, hnU, -, hcn2⟩ := hcn
    obtain ⟨hbS, hbU, hG⟩ := hcb
    obtain ⟨hGb, hGc⟩ : s.color G = BLACK ∧ CtxBalanced s c2 (h + 1) := by
      rcases hG with ⟨e, -⟩ | k
      · exact absurd e hGnr
      · exact k
    have h3c : s3.color cur = BLACK := by rw [hcol _ hcl, if_neg hcG, if_pos rfl, hGb]
    have h3G : s3.color G = RED := by rw [hcol _ hGl2, if_pos rfl, hcur]
    have h3P : s3.color P = RED := by rw [hagree _ hPl (Ne.symm hcP) hPG, hP]
    have hbr : BLACK ≠ RED := Ne.symm red_ne_black
    refine ⟨?_, ?_, ctxNoRedRed_congr hcK hcn2, ctxBalanced_congr hcK hGc⟩
    · simp only [NoRedRed, h3c, h3G, h3P, root_color_congr hcS, root_color_congr hcU,
        root_color_congr hctl, root_color_congr hctr]
      exact ⟨fun e => absurd e hbr, ⟨fun _ => ⟨hrS, hrtl⟩, noRedRed_congr hcS hnS,
        noRedRed_congr hctl hntl⟩, fun _ => ⟨hrtr, hu⟩, noRedRed_congr hctr hntr,
        noRedRed_congr hcU hnU⟩
    · rw [black_height_node]
      refine ⟨h, ?_, ?_, Or.inl ⟨h3c, rfl⟩⟩
      · rw [black_height_node]
        exact ⟨h, by rw [black_height_congr hcS]; exact hbS,
          by rw [black_height_congr hctl]; exact hbtl, Or.inr ⟨h3P, rfl⟩⟩
      · rw [black_height_node]
        exact ⟨h, by rw [black_height_congr hctr]; exact hbtr,
          by rw [black_height_congr hcU]; exact hbU, Or.inr ⟨h3G, rfl⟩⟩

theorem fix_step_right_right (s : FreeList) (l : List Nat) (fuel : Nat) (c2 : Ctx) (t : Tree)
    (cur P : Nat) (S : Tree) (G : Nat) (U : Tree)
    (hl : Separated l) (h0 : ∀ n ∈ l, n ≠ 0)
    (hsh : FixShape s l (⟨.right, P, S⟩ :: ⟨.right, G, U⟩ :: c2) t cur)
    (hcur : s.color cur = RED) (hP : s.color P = RED) (hu : root_color s U ≠ RED) :
    ∃ s2, fix_insert_loop (fuel + 1) s cur = fix_insert_loop fuel s2 P ∧
      FixShape s2 l c2 (.node (.node U G S) P t) P ∧
      (∀ n ∈ l, s2.value n = s.value n) ∧
      (∀ h, FixColors s (⟨.right, P, S⟩ :: ⟨.right, G, U⟩ :: c2) t h →
        FixColors s2 c2 (.node (.node U G S) P t) (h + 1)) := by
  have hcond := fix_insert_cond_eq hl hsh
  obtain ⟨hcur0, ⟨par, ht, hc⟩, haddr, hrb⟩ := hsh
  have hnd : l.Nodup := List.Pairwise.imp far_ne hl
  rw [← haddr] at hnd
  obtain ⟨hPG, htnd, hUnd, hout, hU, htd⟩ := two_frames_nodup hnd
  obtain ⟨hz1t, hz1c⟩ := treeAt_zoom ht hc
  obtain ⟨hpar, hP0⟩ := ctxAt_head hc
  obtain ⟨hG1, hG0⟩ := ctxAt_head hz1c
  obtain ⟨hz2t, hz2c⟩ := treeAt_zoom hz1t hz1c
  rw [plug_pair_eq] at hz2t
  have hcp := (treeAt_parent ht hcur0).1
  have hcm := (treeAt_parent ht hcur0).2
  have hml : ∀ n, n ∈ l ↔ n = P ∨ n = G ∨ n ∈ t.addrs ∨ n ∈ S.addrs ∨
      n ∈ U.addrs ∨ n ∈ ctx_addrs c2 := by
    intro n
    rw [← haddr, plug_two_mem]
  have hGl2 : G ∈ l := (hml G).2 (Or.inr (Or.inl rfl))
  have hPl : P ∈ l := (hml _).2 (Or.inl rfl)
  simp only [CtxAt] at hc hz1c
  obtain ⟨-, -, hPl3, hSt, -⟩ := hc
  obtain ⟨-, -, hGl, hUt, -⟩ := hz1c
  have hPgl : P ≠ s.mem.read (G + off_left) := fun e =>
    (treeAt_root hUt).elim (fun h => hP0 (e ▸ h)) (fun h => (hU _ h).1 e.symm)
  have hpr : cur ≠ s.mem.read (P + off_left) := fun e =>
    (treeAt_root hSt).elim (fun h => hcur0 (e ▸ h)) (fun h => (htd cur hcm).1 (e ▸ h))
  obtain ⟨s1, hs1, ht1, hc1, ha1, hd1, hr1⟩ :=
    rotate_node_left_tree s l c2 t S U P G _ hl h0 haddr hz2t hz2c
  obtain ⟨s2, hs2, hr2, hk2, hd2⟩ := swap_color_fields s1 l P G hl hPl hGl2 hP0 hG0
  rw [fix_insert_loop, hcond]
  simp only [ne_eq, not_false_eq_true, hcur, ctx_color, hP, and_self, decide_True,
    reduceCtorEq, bind, Except.bind, if_true, get_ok _ _ hcur0, hcp, hpar, get_ok _ _ hP0, hG1,
    get_ok _ _ hG0, hPgl, is_red_uncle hUt hu, hpr, if_false, pure, Except.pure, hs1, hs2,
    Bool.false_eq_true]
  have hsub : ∀ n, n ∈ (Tree.node (.node U G S) P t).addrs ∨ n ∈ ctx_addrs c2 → n ∈ l := by
    intro n hn
    rw [← ha1, plug_mem]
    exact hn
  have hcol : ∀ n ∈ l, s2.color n =
      if n = G then s.color P else if n = P then s.color G else s.color n := by
    intro n hn
    rw [(hd2 n hn).2, (hd1 n hn).2, (hd1 _ hPl).2, (hd1 _ hGl2).2]
  refine ⟨s2, rfl, ⟨hP0, ⟨s.mem.read (G + off_parent), ?_, ?_⟩, ha1, ?_⟩, ?_, ?_⟩
  · exact treeAt_congr (linksAgree_mono hk2 (fun n hn => hsub n (Or.inl hn))) ht1
  · rw [hr2]
    exact ctxAt_congr (linksAgree_mono hk2 (fun n hn => hsub n (Or.inr hn))) hc1
  · intro hc2
    have hrm := ctxAt_root_mem hz2c hc2
    obtain ⟨k1, k2, -⟩ := hout _ (Or.inr (Or.inr hrm))
    have hpg : s.mem.read (G + off_parent) ≠ 0 := by
      cases c2 with
      | nil => exact absurd rfl hc2
      | cons f3 c3 =>
        obtain ⟨e1, e2⟩ := ctxAt_head hz2c
        change s.mem.read (G + off_parent) = f3.a at e1
        rw [e1]; exact e2
    rw [hr2, hr1, if_neg hpg, hcol _ (hsub _ (Or.inr hrm)), if_neg k2, if_neg k1]
    exact hrb (by simp)
  · intro n hn
    rw [(hd2 n hn).1, (hd1 n hn).1]
  · have hagree : ∀ n ∈ l, n ≠ P → n ≠ G → s2.color n = s.color n := by
      intro n hn k1 k2
      rw [hcol n hn, if_neg k2, if_neg k1]
    have hcT : ColorsAgree s s2 t.addrs := fun n hn =>
      hagree n ((hml n).2 (Or.inr (Or.inr (Or.inl hn)))) (hout n (Or.inl hn)).1
        (hout n (Or.inl hn)).2.1
    have hcS : ColorsAgree s s2 S.addrs := fun n hn =>
      hagree n ((hml n).2 (Or.inr (Or.inr (Or.inr (Or.inl hn)))))
        (hout n (Or.inr (Or.inl hn))).1 (hout n (Or.inr (Or.inl hn))).2.1
    have hcK : ColorsAgree s s2 (ctx_addrs c2) := fun n hn =>
      hagree n ((hml n).2 (Or.inr (Or.inr (Or.inr (Or.inr (Or.inr hn))))))
        (hout n (Or.inr (Or.inr hn))).1 (hout n (Or.inr (Or.inr hn))).2.1
    have hcU : ColorsAgree s s2 U.addrs := fun n hn =>
      hagree n ((hml n).2 (Or.inr (Or.inr (Or.inr (Or.inr (Or.inl hn)))))) (hU n hn).1
        (hU n hn).2
    rintro h ⟨hnr, hbh, hcn, hcb⟩
    simp only [CtxNoRedRed, CtxBalanced, ctx_color, hP, true_and, red_ne_black, false_and,
      or_false, forall_const] at hcn hcb
    obtain ⟨hnS, ⟨hrS, hGnr⟩, hnU, -, hcn2⟩ := hcn
    obtain ⟨hbS, hbU, hG⟩ := hcb
    obtain ⟨hGb, hGc⟩ : s.color G = BLACK ∧ CtxBalanced s c2 (h + 1) := by
      rcases hG with ⟨e, -⟩ | k
      · exact absurd e hGnr
      · exact k
    have h2P : s2.color P = BLACK := by rw [hcol _ hPl, if_neg hPG, if_pos rfl, hGb]
    have h2G : s2.color G = RED := by rw [hcol _ hGl2, if_pos rfl, hP]
    have hbr : BLACK ≠ RED := Ne.symm red_ne_black
    refine ⟨?_, ?_, ctxNoRedRed_congr hcK hcn2, ctxBalanced_congr hcK hGc⟩
    · simp only [NoRedRed, h2P, h2G, root_color_congr hcS, root_color_congr hcU]
      exact ⟨fun e => absurd e hbr, ⟨fun _ => ⟨hu, hrS⟩, noRedRed_congr hcU hnU,
        noRedRed_congr hcS hnS⟩, noRedRed_congr hcT hnr⟩
    · rw [black_height_node]
      refine ⟨h, ?_, by rw [black_height_congr hcT]; exact hbh, Or.inl ⟨h2P, rfl⟩⟩
      rw [black_height_node]
      exact ⟨h, by rw [black_height_congr hcU]; exact hbU,
        by rw [black_height_congr hcS]; exact hbS, Or.inr ⟨h2G, rfl⟩⟩


theorem fix_step_right_left (s : FreeList) (l : List Nat) (fuel : Nat) (c2 : Ctx)
    (tl tr : Tree) (cur P : Nat) (S : Tree) (G : Nat) (U : Tree)
    (hl : Separated l) (h0 : ∀ n ∈ l, n ≠ 0)
    (hsh : FixShape s l (⟨.left, P, S⟩ :: ⟨.right, G, U⟩ :: c2) (.node tl cur tr) cur)
    (hcur : s.color cur = RED) (hP : s.color P = RED) (hu : root_color s U ≠ RED) :
    ∃ s2, fix_insert_loop (fuel + 1) s cur = fix_insert_loop fuel s2 cur ∧
      FixShape s2 l c2 (.node (.node U G tl) cur (.node tr P S)) cur ∧
      (∀ n ∈ l, s2.value n = s.value n) ∧
      (∀ h, FixColors s (⟨.left, P, S⟩ :: ⟨.right, G, U⟩ :: c2) (.node tl cur tr) h →
        FixColors s2 c2 (.node (.node U G tl) cur (.node tr P S)) (h + 1)) := by
  have hcond := fix_insert_cond_eq hl hsh
  obtain ⟨hcur0, ⟨par, ht, hc⟩, haddr, hrb⟩ := hsh
  have hnd : l.Nodup := List.Pairwise.imp far_ne hl
  rw [← haddr] at hnd
  obtain ⟨hPG, htnd, hUnd, hout, hU, htd⟩ := two_frames_nodup hnd
  obtain ⟨hz1t, hz1c⟩ := treeAt_zoom ht hc
  obtain ⟨hpar, hP0⟩ := ctxAt_head hc
  obtain ⟨hG1, hG0⟩ := ctxAt_head hz1c
  have hcp := (treeAt_parent ht hcur0).1
  have hcm := (treeAt_parent ht hcur0).2
  have hml : ∀ n, n ∈ l ↔ n = P ∨ n = G ∨ n ∈ (Tree.node tl cur tr).addrs ∨ n ∈ S.addrs ∨
      n ∈ U.addrs ∨ n ∈ ctx_addrs c2 := by
    intro n
    rw [← haddr, plug_two_mem]
  have hGl2 : G ∈ l := (hml G).2 (Or.inr (Or.inl rfl))
  have hPl : P ∈ l := (hml _).2 (Or.inl rfl)
  have hcl : cur ∈ l := (hml _).2 (Or.inr (Or.inr (Or.inl hcm)))
  have hUt : TreeAt s U (s.mem.read (G + off_left)) G := hz1c.2.2.2.1
  have hPr : s.mem.read (P + off_left) = cur := hc.2.2.1
  have hPgl : P ≠ s.mem.read (G + off_left) := fun e =>
    (treeAt_root hUt).elim (fun h => hP0 (e ▸ h)) (fun h => (hU _ h).1 e.symm)
  change s.mem.read (P + off_parent) = G at hG1
  change G ≠ 0 at hG0
  change P ≠ 0 at hP0
  change par = P at hpar
  rw [hG1] at hz1t hz1c
  obtain ⟨s1, hs1, ht1, hc1, ha1, hd1, hr1⟩ :=
    rotate_node_right_tree s l (⟨.right, G, U⟩ :: c2) tl tr S cur P G hl h0 haddr hz1t hz1c
  have hPp1 : s1.mem.read (P + off_parent) = cur := by
    simp only [TreeAt] at ht1
    exact ht1.2.2.2.2.2.2.1
  obtain ⟨hz2t, hz2c⟩ := treeAt_zoom ht1 hc1
  obtain ⟨s2, hs2, ht2, hc2, ha2, hd2, hr2⟩ :=
    rotate_node_left_tree s1 l c2 (.node tr P S) tl U cur G _ hl h0 ha1 hz2t hz2c
  obtain ⟨s3, hs3, hr3, hk3, hd3⟩ := swap_color_fields s2 l cur G hl hcl hGl2 hcur0 hG0
  rw [fix_insert_loop, hcond]
  simp only [ne_eq, not_false_eq_true, hcur, ctx_color, hP, and_self, decide_True,
    reduceCtorEq, bind, Except.bind, if_true, get_ok _ _ hcur0, hcp, hpar, get_ok _ _ hP0, hG1,
    get_ok _ _ hG0, hPgl, is_red_uncle hUt hu, hPr, if_false, pure, Except.pure, hs1, hs2, hs3,
    hPp1, Bool.false_eq_true]
  have hsub : ∀ n, n ∈ (Tree.node (.node U G tl) cur (.node tr P S)).addrs ∨
      n ∈ ctx_addrs c2 → n ∈ l := by
    intro n hn
    rw [← ha2, plug_mem]
    exact hn
  have hcol : ∀ n ∈ l, s3.color n =
      if n = G then s.color cur else if n = cur then s.color G else s.color n := by
    intro n hn
    rw [(hd3 n hn).2, (hd2 n hn).2, (hd2 _ hcl).2, (hd2 _ hGl2).2, (hd1 n hn).2,
      (hd1 _ hcl).2, (hd1 _ hGl2).2]
  have hcG : cur ≠ G := (hout cur (Or.inl hcm)).2.1
  have hcP : cur ≠ P := (hout cur (Or.inl hcm)).1
  refine ⟨s3, rfl, ⟨hcur0, ⟨s1.mem.read (G + off_parent), ?_, ?_⟩, ha2, ?_⟩, ?_, ?_⟩
  · exact treeAt_congr (linksAgree_mono hk3 (fun n hn => hsub n (Or.inl hn))) ht2
  · rw [hr3]
    exact ctxAt_congr (linksAgree_mono hk3 (fun n hn => hsub n (Or.inr hn))) hc2
  · intro hne
    have hrm := ctxAt_root_mem hc1 (by simp)
    have hpg : s1.mem.read (G + off_parent) ≠ 0 := by
      cases c2 with
      | nil => exact absurd rfl hne
      | cons f3 c3 =>
        obtain ⟨e1, e2⟩ := ctxAt_head hz2c
        change s1.mem.read (G + off_parent) = f3.a at e1
        rw [e1]; exact e2
    have hrm2 := ctxAt_root_mem hz2c hne
    rw [hr1, if_neg hG0] at hrm2
    obtain ⟨k1, k2, -⟩ := hout _ (Or.inr (Or.inr hrm2))
    have k3 : s.m_root ≠ cur := fun e => (htd cur hcm).2 (e ▸ hrm2)
    rw [hr3, hr2, if_neg hpg, hr1, if_neg hG0, hcol _ (hsub _ (Or.inr hrm2)), if_neg k2,
      if_neg k3]
    exact hrb (by simp)
  · intro n hn
    rw [(hd3 n hn).1, (hd2 n hn).1, (hd1 n hn).1]
  · have hagree : ∀ n ∈ l, n ≠ cur → n ≠ G → s3.color n = s.color n := by
      intro n hn k1 k2
      rw [hcol n hn, if_neg k2, if_neg k1]
    have htnd2 : (tl.addrs ++ cur :: tr.addrs).Nodup := htnd
    simp only [List.nodup_append, List.nodup_cons, List.mem_cons, List.disjoint_left,
      not_or] at htnd2
    have hctl : ColorsAgree s s3 tl.addrs := fun n hn => by
      have hnt : n ∈ (Tree.node tl cur tr).addrs := by simp [Tree.addrs, hn]
      exact hagree n ((hml n).2 (Or.inr (Or.inr (Or.inl hnt)))) (htnd2.2.2 hn).1
        (hout n (Or.inl hnt)).2.1
    have hctr : ColorsAgree s s3 tr.addrs := fun n hn => by
      have hnt : n ∈ (Tree.node tl cur tr).addrs := by simp [Tree.addrs, hn]
      exact hagree n ((hml n).2 (Or.inr (Or.inr (Or.inl hnt))))
        (fun e => htnd2.2.1.1 (e ▸ hn)) (hout n (Or.inl hnt)).2.1
    have hcS : ColorsAgree s s3 S.addrs := fun n hn =>
      hagree n ((hml n).2 (Or.inr (Or.inr (Or.inr (Or.inl hn)))))
        (fun e => (htd cur hcm).1 (e ▸ hn)) (hout n (Or.inr (Or.inl hn))).2.1
    have hcK : ColorsAgree s s3 (ctx_addrs c2) := fun n hn =>
      hagree n ((hml n).2 (Or.inr (Or.inr (Or.inr (Or.inr (Or.inr hn))))))
        (fun e => (htd cur hcm).2 (e ▸ hn)) (hout n (Or.inr (Or.inr hn))).2.1
    have hcU : ColorsAgree s s3 U.addrs := fun n hn =>
      hagree n ((hml n).2 (Or.inr (Or.inr (Or.inr (Or.inr (Or.inl hn))))))
        (fun e => (hout cur (Or.inl hcm)).2.2 (e ▸ hn)) (hU n hn).2
    rintro h ⟨hnr, hbh, hcn, hcb⟩
    simp only [CtxNoRedRed, CtxBalanced, ctx_color, hP, true_and, red_ne_black, false_and,
      or_false, forall_const] at hcn hcb
    simp only [NoRedRed, hcur, forall_const] at hnr
    rw [black_height_node] at hbh
    simp only [hcur, red_ne_black, false_and, false_or, true_and] at hbh
    obtain ⟨⟨hrtl, hrtr⟩, hntl, hntr⟩ := hnr
    obtain ⟨x, hbtl, hbtr, hx⟩ := hbh
    subst hx
    obtain ⟨hnS, ⟨hrS, hGnr⟩, hnU, -, hcn2⟩ := hcn
    obtain ⟨hbS, hbU, hG⟩ := hcb
    obtain ⟨hGb, hGc⟩ : s.color G = BLACK ∧ CtxBalanced s c2 (h + 1) := by
      rcases hG with ⟨e, -⟩ | k
      · exact absurd e hGnr
      · exact k
    have h3c : s3.color cur = BLACK := by rw [hcol _ hcl, if_neg hcG, if_pos rfl, hGb]
    have h3G : s3.color G = RED := by rw [hcol _ hGl2, if_pos rfl, hcur]
    have h3P : s3.color P = RED := by rw [hagree _ hPl (Ne.symm hcP) hPG, hP]
    have hbr : BLACK ≠ RED := Ne.symm red_ne_black
    refine ⟨?_, ?_, ctxNoRedRed_congr hcK hcn2, ctxBalanced_congr hcK hGc⟩
    · simp only [NoRedRed, h3c, h3G, h3P, root_color_congr hcS, root_color_congr hcU,
        root_color_congr hctl, root_color_congr hctr]
      exact ⟨fun e => absurd e hbr, ⟨fun _ => ⟨hu, hrtl⟩, noRedRed_congr hcU hnU,
        noRedRed_congr hctl hntl⟩, fun _ => ⟨hrtr, hrS⟩, noRedRed_congr hctr hntr,
        noRedRed_congr hcS hnS⟩
    · rw [black_height_node]
      refine ⟨h, ?_, ?_, Or.inl ⟨h3c, rfl⟩⟩
      · rw [black_height_node]
        exact ⟨h, by rw [black_height_congr hcU]; exact hbU,
          by rw [black_height_congr hctl]; exact hbtl, Or.inr ⟨h3G, rfl⟩⟩
      · rw [black_height_node]
        exact ⟨h, by rw [black_height_congr hctr]; exact hbtr,
          by rw [black_height_congr hcS]; exact hbS, Or.inr ⟨h3P, rfl⟩⟩

/-! ## The whole loop -/

theorem root_color_red_node {s : FreeList} {U : Tree} (h : root_color s U = RED) :
    ∃ ul u ur, U = .node ul u ur ∧ s.color u = RED := by
  cases U with
  | nil => exact absurd h.symm red_ne_black
  | node ul u ur => exact ⟨ul, u, ur, rfl, h⟩

theorem treeAt_node_of_ne {s : FreeList} {t : Tree} {cur par : Nat} (ht : TreeAt s t cur par)
    (h : cur ≠ 0) : ∃ tl tr, t = .node tl cur tr := by
  cases t with
  | nil => exact absurd ht h
  | node tl a tr =>
    simp only [TreeAt] at ht
    exact ⟨tl, tr, by rw [ht.1]⟩

/-- One round of the loop of `fix_insert_node_violations`: when the loop
condition holds, the round ends in a state that satisfies the loop invariant
again, with a path two nodes shorter. -/
theorem fix_insert_round (s : FreeList) (l : List Nat) (fuel : Nat) (c : Ctx) (t : Tree)
    (cur : Nat) (hl : Separated l) (h0 : ∀ n ∈ l, n ≠ 0) (hsh : FixShape s l c t cur)
    (hc : c ≠ []) (hcur : s.color cur = RED) (hP : ctx_color s c = RED) :
    ∃ s2 c2 t2 cur2, fix_insert_loop (fuel + 1) s cur = fix_insert_loop fuel s2 cur2 ∧
      FixShape s2 l c2 t2 cur2 ∧ c2.length + 2 = c.length ∧
      (∀ n ∈ l, s2.value n = s.value n) ∧
      (∀ h, FixColors s c t h → FixColors s2 c2 t2 (h + 1)) := by
  cases c with
  | nil => exact absurd rfl hc
  | cons f1 c1 =>
    cases c1 with
    | nil =>
      exfalso
      obtain ⟨-, ⟨par, ht, hcx⟩, -, hrb⟩ := hsh
      obtain ⟨-, hz⟩ := treeAt_zoom ht hcx
      have e : s.m_root = f1.a := hz.2
      have := hrb (by simp)
      rw [e] at this
      change s.color f1.a = RED at hP
      rw [this] at hP
      exact red_ne_black hP.symm
    | cons f2 c2 =>
      obtain ⟨d1, P, S⟩ := f1
      obtain ⟨d2, G, U⟩ := f2
      change s.color P = RED at hP
      obtain ⟨tl, tr, rfl⟩ := treeAt_node_of_ne hsh.2.1.choose_spec.1 hsh.1
      by_cases hU : root_color s U = RED
      · obtain ⟨ul, u, ur, rfl, hu⟩ := root_color_red_node hU
        cases d2 with
        | left =>
          obtain ⟨s2, h1, h2, h3, h4⟩ :=
            fix_step_left_red s l fuel c2 _ cur ⟨d1, P, S⟩ G ul u ur hl hsh hcur hP hu
          exact ⟨s2, c2, _, G, h1, h2, rfl, h3, h4⟩
        | right =>
          obtain ⟨s2, h1, h2, h3, h4⟩ :=
            fix_step_right_red s l fuel c2 _ cur ⟨d1, P, S⟩ G ul u ur hl hsh hcur hP hu
          exact ⟨s2, c2, _, G, h1, h2, rfl, h3, h4⟩
      · cases d2 with
        | left =>
          cases d1 with
          | left =>
            obtain ⟨s2, h1, h2, h3, h4⟩ :=
              fix_step_left_left s l fuel c2 _ cur P S G U hl h0 hsh hcur hP hU
            exact ⟨s2, c2, _, P, h1, h2, rfl, h3, h4⟩
          | right =>
            obtain ⟨s2, h1, h2, h3, h4⟩ :=
              fix_step_left_right s l fuel c2 tl tr cur P S G U hl h0 hsh hcur hP hU
            exact ⟨s2, c2, _, cur, h1, h2, rfl, h3, h4⟩
        | right =>
          cases d1 with
          | left =>
            obtain ⟨s2, h1, h2, h3, h4⟩ :=
              fix_step_right_left s l fuel c2 tl tr cur P S G U hl h0 hsh hcur hP hU
            exact ⟨s2, c2, _, cur, h1, h2, rfl, h3, h4⟩
          | right =>
            obtain ⟨s2, h1, h2, h3, h4⟩ :=
              fix_step_right_right s l fuel c2 _ cur P S G U hl h0 hsh hcur hP hU
            exact ⟨s2, c2, _, P, h1, h2, rfl, h3, h4⟩

/-- The loop of `fix_insert_node_violations` ends, with enough fuel, in a state
that satisfies the loop invariant and in which the loop condition is false. -/
theorem fix_insert_loop_spec (l : List Nat) (hl : Separated l) (h0 : ∀ n ∈ l, n ≠ 0) :
    ∀ (fuel : Nat) (s : FreeList) (c : Ctx) (t : Tree) (cur : Nat),
      c.length < 2 * fuel → FixShape s l c t cur →
      ∃ s2 c2 t2 cur2, fix_insert_loop fuel s cur = .ok s2 ∧ FixShape s2 l c2 t2 cur2 ∧
        ¬(c2 ≠ [] ∧ s2.color cur2 = RED ∧ ctx_color s2 c2 = RED) ∧
        (∀ n ∈ l, s2.value n = s.value n) ∧
        (∀ h, FixColors s c t h → ∃ h2, FixColors s2 c2 t2 h2) := by
  intro fuel
  induction fuel with
  | zero => intro s c t cur h; omega
  | succ fuel ih =>
    intro s c t cur hlen hsh
    by_cases hcond : c ≠ [] ∧ s.color cur = RED ∧ ctx_color s c = RED
    · obtain ⟨s2, c2, t2, cur2, h1, h2, h3, h4, h5⟩ :=
        fix_insert_round s l fuel c t cur hl h0 hsh hcond.1 hcond.2.1 hcond.2.2
      obtain ⟨s3, c3, t3, cur3, k1, k2, k3, k4, k5⟩ := ih s2 c2 t2 cur2 (by omega) h2
      refine ⟨s3, c3, t3, cur3, by rw [h1, k1], k2, k3, ?_, ?_⟩
      · intro n hn
        rw [k4 n hn, h4 n hn]
      · intro h hf
        exact k5 _ (h5 h hf)
    · refine ⟨s, c, t, cur, ?_, hsh, hcond, fun _ _ => rfl, fun h hf => ⟨h, hf⟩⟩
      rw [fix_insert_loop, fix_insert_cond_eq hl hsh]
      simp only [hcond, decide_False, bind, Except.bind]
      rfl

/-! ## The colours and the order of a tree with a hole -/

theorem plug_cons (f : Frame) (c : Ctx) (t : Tree) : plug (f :: c) t = plug c (plug [f] t) := by
  obtain ⟨d, a, sib⟩ := f
  cases d <;> rfl

theorem noRedRed_plug {s : FreeList} : ∀ (c : Ctx) (t : Tree), NoRedRed s t →
    CtxNoRedRed s c → (ctx_color s c = RED → root_color s t ≠ RED) → NoRedRed s (plug c t) := by
  intro c
  induction c with
  | nil => intro t h _ _; exact h
  | cons f c ih =>
    intro t ht hc hr
    simp only [CtxNoRedRed] at hc
    rw [plug_cons]
    refine ih _ ?_ hc.2.2 ?_
    · rw [noRedRed_plug_single]
      exact ⟨fun e => ⟨hr e, (hc.2.1 e).1⟩, ht, hc.1⟩
    · intro e1 e2
      rw [root_color_plug_single] at e2
      exact (hc.2.1 e2).2 e1

theorem black_height_plug {s : FreeList} : ∀ (c : Ctx) (t : Tree) (h : Nat),
    black_height s t = some h → CtxBalanced s c h →
    (black_height s (plug c t)).isSome = true := by
  intro c
  induction c with
  | nil => intro t h ht _; simp [plug, ht]
  | cons f c ih =>
    intro t h ht hc
    simp only [CtxBalanced] at hc
    rw [plug_cons]
    rcases hc.2 with ⟨e, hc2⟩ | ⟨e, hc2⟩
    · exact ih _ h (black_height_plug_single.2 ⟨h, ht, hc.1, Or.inr ⟨e, rfl⟩⟩) hc2
    · exact ih _ (h + 1) (black_height_plug_single.2 ⟨h, ht, hc.1, Or.inl ⟨e, rfl⟩⟩) hc2

theorem insert_path_noRedRed {s : FreeList} (v : Nat) : ∀ (t : Tree) (c : Ctx), NoRedRed s t →
    CtxNoRedRed s c → (ctx_color s c = RED → root_color s t ≠ RED) →
    CtxNoRedRed s (insert_path s v t c) := by
  intro t
  induction t with
  | nil => intro c _ hc _; exact hc
  | node l a r ihl ihr =>
    intro c ht hc hr
    simp only [NoRedRed] at ht
    simp only [root_color] at hr
    simp only [insert_path]
    split_ifs with hv
    · refine ihl _ ht.2.1 ?_ (fun e => (ht.1 e).1)
      exact ⟨ht.2.2, fun e => ⟨(ht.1 e).2, fun e2 => hr e2 e⟩, hc⟩
    · refine ihr _ ht.2.2 ?_ (fun e => (ht.1 e).2)
      exact ⟨ht.2.1, fun e => ⟨(ht.1 e).1, fun e2 => hr e2 e⟩, hc⟩

theorem insert_path_balanced {s : FreeList} (v : Nat) : ∀ (t : Tree) (c : Ctx) (h : Nat),
    black_height s t = some h → CtxBalanced s c h → CtxBalanced s (insert_path s v t c) 0 := by
  intro t
  induction t with
  | nil =>
    intro c h ht hc
    simp only [black_height, Option.some.injEq] at ht
    subst ht
    exact hc
  | node l a r ihl ihr =>
    intro c h ht hc
    rw [black_height_node] at ht
    obtain ⟨x, hbl, hbr, hx⟩ := ht
    simp only [insert_path]
    split_ifs with hv
    · refine ihl _ x hbl ⟨hbr, ?_⟩
      rcases hx with ⟨e, rfl⟩ | ⟨e, rfl⟩
      · exact Or.inr ⟨e, hc⟩
      · exact Or.inl ⟨e, hc⟩
    · refine ihr _ x hbr ⟨hbl, ?_⟩
      rcases hx with ⟨e, rfl⟩ | ⟨e, rfl⟩
      · exact Or.inr ⟨e, hc⟩
      · exact Or.inl ⟨e, hc⟩

theorem insert_path_plug (s : FreeList) (v : Nat) : ∀ (t : Tree) (c : Ctx),
    plug (insert_path s v t c) .nil = plug c t := by
  intro t
  induction t with
  | nil => intro c; rfl
  | node l a r ihl ihr =>
    intro c
    simp only [insert_path]
    split_ifs with hv
    · rw [ihl]; rfl
    · rw [ihr]; rfl

theorem insert_path_length (s : FreeList) (v : Nat) : ∀ (t : Tree) (c : Ctx),
    (insert_path s v t c).length ≤ t.height + c.length := by
  intro t
  induction t with
  | nil => intro c; simp [insert_path]
  | node l a r ihl ihr =>
    intro c
    simp only [insert_path, Tree.height]
    split_ifs with hv
    · have := ihl (⟨.left, a, r⟩ :: c)
      simp only [List.length_cons] at this
      omega
    · have := ihr (⟨.right, a, l⟩ :: c)
      simp only [List.length_cons] at this
      omega

theorem insert_path_bounds {s : FreeList} (v : Nat) : ∀ (t : Tree) (c : Ctx), Ordered s t →
    (∀ x ∈ ctx_before c, s.value x ≤ v) → (∀ y ∈ ctx_after c, v ≤ s.value y) →
    (∀ x ∈ ctx_before (insert_path s v t c), s.value x ≤ v) ∧
      (∀ y ∈ ctx_after (insert_path s v t c), v ≤ s.value y) := by
  intro t
  induction t with
  | nil => intro c _ h1 h2; exact ⟨h1, h2⟩
  | node l a r ihl ihr =>
    intro c ho h1 h2
    simp only [Ordered] at ho
    obtain ⟨hol, hor, hl, hr⟩ := ho
    simp only [insert_path]
    split_ifs with hv
    · refine ihl _ hl h1 ?_
      intro y hy
      simp only [ctx_after, List.cons_append, List.mem_cons, List.mem_append] at hy
      rcases hy with rfl | hy | hy
      · omega
      · have := hor y hy; omega
      · exact h2 y hy
    · refine ihr _ hr ?_ h2
      intro x hx
      simp only [ctx_before, List.mem_append, List.mem_cons, List.mem_singleton,
        List.not_mem_nil, or_false] at hx
      rcases hx with hx | hx | rfl
      · exact h1 x hx
      · have := hol x hx; omega
      · omega

theorem ordered_iff_pairwise {s : FreeList} : ∀ (t : Tree),
    Ordered s t ↔ t.addrs.Pairwise (fun x y => s.value x ≤ s.value y) := by
  intro t
  induction t with
  | nil => simp [Ordered, Tree.addrs]
  | node l a r ihl ihr =>
    simp only [Ordered, Tree.addrs, List.pairwise_append, List.pairwise_cons, List.mem_cons,
      ihl, ihr]
    constructor
    · rintro ⟨h1, h2, h3, h4⟩
      refine ⟨h3, ⟨h2, h4⟩, ?_⟩
      rintro x hx y (rfl | hy)
      · exact h1 x hx
      · exact le_trans (h1 x hx) (h2 y hy)
    · rintro ⟨h3, ⟨h2, h4⟩, h5⟩
      exact ⟨fun x hx => h5 x hx a (Or.inl rfl), h2, h3, h4⟩

/-! ## The descent of `insert_node` -/

theorem ctxAt_par_eq {s : FreeList} {c : Ctx} {p par root : Nat} (h : CtxAt s c p par root) :
    par = ctx_head_addr c := by
  cases c with
  | nil => exact h.1
  | cons f c => exact (ctxAt_head h).1

theorem insert_path_ctxAt {s : FreeList} (v : Nat) : ∀ (t : Tree) (c : Ctx) (cur par root : Nat),
    TreeAt s t cur par → CtxAt s c cur par root →
    CtxAt s (insert_path s v t c) 0 (ctx_head_addr (insert_path s v t c)) root := by
  intro t
  induction t with
  | nil =>
    intro c cur par root ht hc
    have h0 : cur = 0 := ht
    subst h0
    show CtxAt s c 0 (ctx_head_addr c) root
    rw [← ctxAt_par_eq hc]
    exact hc
  | node l a r ihl ihr =>
    intro c cur par root ht hc
    simp only [TreeAt] at ht
    obtain ⟨h1, h2, h3, h4, h5⟩ := ht
    subst h1
    simp only [insert_path]
    split_ifs with hv
    · exact ihl _ _ _ _ h4 ⟨rfl, h2, rfl, h5, h3 ▸ hc⟩
    · exact ihr _ _ _ _ h5 ⟨rfl, h2, rfl, h4, h3 ▸ hc⟩

theorem insert_descend_spec {s : FreeList} {n : Nat} (hn : n ≠ 0) : ∀ (t : Tree) (c : Ctx)
    (cur fuel : Nat), TreeAt s t cur (ctx_head_addr c) → t.height < fuel →
    insert_descend fuel s n cur (ctx_head_addr c) =
      .ok (ctx_head_addr (insert_path s (s.value n) t c)) := by
  intro t
  induction t with
  | nil =>
    intro c cur fuel ht hf
    have h0 : cur = 0 := ht
    subst h0
    cases fuel with
    | zero => omega
    | succ fuel => simp [insert_descend, insert_path]; rfl
  | node l a r ihl ihr =>
    intro c cur fuel ht hf
    simp only [TreeAt] at ht
    obtain ⟨h1, h2, h3, h4, h5⟩ := ht
    subst h1
    simp only [Tree.height] at hf
    cases fuel with
    | zero => omega
    | succ fuel =>
      rw [insert_descend_succ]
      simp only [ne_eq, h2, not_false_eq_true, if_true, get_ok _ _ hn, get_ok _ _ h2, bind,
        Except.bind, insert_path]
      change (if s.value n < s.value cur then _ else _) = _
      split_ifs with hv
      · exact ihl (⟨.left, cur, r⟩ :: c) _ fuel h4 (by omega)
      · exact ihr (⟨.right, cur, l⟩ :: c) _ fuel h5 (by omega)

theorem insert_path_congr {s s2 : FreeList} (v : Nat) : ∀ (t : Tree) (c : Ctx),
    (∀ a ∈ t.addrs, s2.value a = s.value a) → insert_path s2 v t c = insert_path s v t c := by
  intro t
  induction t with
  | nil => intro c _; rfl
  | node l a r ihl ihr =>
    intro c h
    simp only [insert_path]
    rw [h a (by simp [Tree.addrs]), ihl _ (fun x hx => h x (by simp [Tree.addrs, hx])),
      ihr _ (fun x hx => h x (by simp [Tree.addrs, hx]))]

theorem insert_path_dir {s : FreeList} (v : Nat) : ∀ (t : Tree) (c : Ctx),
    ∀ f ∈ insert_path s v t c, f ∈ c ∨ (f.dir = .left ↔ v < s.value f.a) := by
  intro t
  induction t with
  | nil => intro c f hf; exact Or.inl hf
  | node l a r ihl ihr =>
    intro c f hf
    simp only [insert_path] at hf
    split_ifs at hf with hv
    · rcases ihl _ f hf with h | h
      · rcases List.mem_cons.1 h with rfl | h
        · exact Or.inr ⟨fun _ => hv, fun _ => rfl⟩
        · exact Or.inl h
      · exact Or.inr h
    · rcases ihr _ f hf with h | h
      · rcases List.mem_cons.1 h with rfl | h
        · exact Or.inr ⟨fun e => Dir.noConfusion e, fun e => absurd e hv⟩
        · exact Or.inl h
      · exact Or.inr h

/-! ## The whole of `fix_insert_node_violations` -/

/-- Painting the root BLACK turns a tree with no RED-RED pair and agreeing black
heights into a red-black tree. -/
theorem blacken_root {s s2 : FreeList} {tl tr : Tree} {r : Nat}
    (hnd : (Tree.node tl r tr).addrs.Nodup) (hnr : NoRedRed s (.node tl r tr))
    (hbh : (black_height s (.node tl r tr)).isSome = true)
    (hcol : ∀ n ∈ (Tree.node tl r tr).addrs,
      s2.color n = if n = r then BLACK else s.color n) :
    RedBlack s2 (.node tl r tr) := by
  have hnd2 : (tl.addrs ++ r :: tr.addrs).Nodup := hnd
  simp only [List.nodup_append, List.nodup_cons, List.mem_cons, List.disjoint_left,
    not_or] at hnd2
  have hr : s2.color r = BLACK := by rw [hcol r (by simp [Tree.addrs]), if_pos rfl]
  have hl : ColorsAgree s s2 tl.addrs := fun n hn => by
    rw [hcol n (by simp [Tree.addrs, hn]), if_neg (hnd2.2.2 hn).1]
  have hrr : ColorsAgree s s2 tr.addrs := fun n hn => by
    rw [hcol n (by simp [Tree.addrs, hn]), if_neg (fun e : n = r => hnd2.2.1.1 (e ▸ hn))]
  simp only [NoRedRed] at hnr
  obtain ⟨k, hk⟩ := Option.isSome_iff_exists.1 hbh
  rw [black_height_node] at hk
  obtain ⟨x, hx1, hx2, -⟩ := hk
  refine ⟨hr, ?_, ?_⟩
  · simp only [NoRedRed, hr]
    exact ⟨fun e => absurd e.symm red_ne_black, noRedRed_congr hl hnr.2.1,
      noRedRed_congr hrr hnr.2.2⟩
  · have : black_height s2 (.node tl r tr) = some (x + 1) := by
      rw [black_height_node]
      exact ⟨x, by rw [black_height_congr hl]; exact hx1,
        by rw [black_height_congr hrr]; exact hx2, Or.inl ⟨hr, rfl⟩⟩
    rw [this]
    rfl

/-- From the loop invariant, `fix_insert_node_violations` ends in a well-linked
tree over the same nodes with the same values; when the colour invariant holds
too, the tree is red-black. -/
theorem fix_insert_node_violations_spec (s : FreeList) (l : List Nat) (fuel : Nat) (c : Ctx)
    (t : Tree) (cur : Nat) (hl : Separated l) (h0 : ∀ n ∈ l, n ≠ 0)
    (hlen : c.length < 2 * fuel) (hsh : FixShape s l c t cur) :
    ∃ s3 t3, fix_insert_node_violations fuel s cur = .ok s3 ∧ TreeAt s3 t3 s3.m_root 0 ∧
      t3.addrs = l ∧ (∀ n ∈ l, s3.value n = s.value n) ∧
      (∀ h, FixColors s c t h → RedBlack s3 t3) := by
  obtain ⟨s2, c2, t2, cur2, h1, h2, h3, h4, h5⟩ :=
    fix_insert_loop_spec l hl h0 fuel s c t cur hlen hsh
  obtain ⟨hcur0, ⟨par, ht, hc⟩, haddr, hrb⟩ := h2
  have hT : TreeAt s2 (plug c2 t2) s2.m_root 0 := (treeAt_plug s2 _ c2 t2).2 ⟨cur2, par, ht, hc⟩
  have hrl : s2.m_root ∈ l := by
    rw [← haddr, plug_mem]
    cases c2 with
    | nil =>
      left
      have e : s2.m_root = cur2 := hc.2
      rw [e]
      exact (treeAt_parent ht hcur0).2
    | cons f c3 => exact Or.inr (ctxAt_root_mem hc (by simp))
  have hr0 := h0 _ hrl
  obtain ⟨s3, hs3, hr3, hk3, hd3⟩ := set_color_fields s2 l s2.m_root BLACK hl hrl hr0
  refine ⟨s3, plug c2 t2, ?_, ?_, haddr, ?_, ?_⟩
  · unfold fix_insert_node_violations
    rw [if_neg hsh.1]
    simp only [h1, bind, Except.bind, hs3]
  · rw [hr3]
    exact treeAt_congr (linksAgree_mono hk3 (fun n hn => haddr ▸ hn)) hT
  · intro n hn
    rw [(hd3 n hn).1, h4 n hn]
  · intro h hf
    obtain ⟨h2, hnr, hbh, hcn, hcb⟩ := h5 h hf
    have hexit : ctx_color s2 c2 = RED → root_color s2 t2 ≠ RED := by
      intro e1 e2
      apply h3
      refine ⟨?_, ?_, e1⟩
      · rintro rfl
        exact red_ne_black e1.symm
      · obtain ⟨tl, tr, rfl⟩ := treeAt_node_of_ne ht hcur0
        exact e2
    have hnr2 := noRedRed_plug c2 t2 hnr hcn hexit
    have hbh2 := black_height_plug c2 t2 h2 hbh hcb
    obtain ⟨tl, tr, hT2⟩ := treeAt_node_of_ne hT hr0
    have hnd : l.Nodup := List.Pairwise.imp far_ne hl
    rw [hT2] at hnr2 hbh2 haddr ⊢
    rw [← haddr] at hnd
    exact blacken_root hnd hnr2 hbh2 (fun n hn => (hd3 n (haddr ▸ hn)).2)

/-! ## The whole of `insert_node` -/

theorem separated_perm {l l2 : List Nat} (h : l.Perm l2) (hl : Separated l) : Separated l2 :=
  (h.pairwise_iff (fun h => far_symm h)).1 hl

theorem off_ne_all :
    off_left ≠ off_right ∧
    off_left ≠ off_parent ∧
    off_left ≠ off_value ∧
    off_left ≠ off_color ∧
    off_right ≠ off_left ∧
    off_right ≠ off_parent ∧
    off_right ≠ off_value ∧
    off_right ≠ off_color ∧
    off_parent ≠ off_left ∧
    off_parent ≠ off_right ∧
    off_parent ≠ off_value ∧
    off_parent ≠ off_color ∧
    off_value ≠ off_left ∧
    off_value ≠ off_right ∧
    off_value ≠ off_parent ∧
    off_value ≠ off_color ∧
    off_color ≠ off_left ∧
    off_color ≠ off_right ∧
    off_color ≠ off_parent ∧
    off_color ≠ off_value := by decide

theorem ctx_head_addr_mem {s : FreeList} {c : Ctx} {p par root : Nat}
    (h : CtxAt s c p par root) : ctx_head_addr c = 0 ∨ ctx_head_addr c ∈ ctx_addrs c := by
  rw [← ctxAt_par_eq h]
  exact ctxAt_par h

/-- The first half of `insert_node`: the new node is made a RED leaf and hung at
the end of the search path. -/
theorem insert_node_link (fuel : Nat) (s : FreeList) (t : Tree) (n : Nat)
    (ht : TreeAt s t s.m_root 0) (hsep : Separated (n :: t.addrs)) (hn : n ≠ 0)
    (hfuel : t.height < fuel) :
    ∃ s3, insert_node fuel s n = fix_insert_node_violations fuel s3 n ∧
      Hung s s3 t n (ctx_head_addr (insert_path s (s.value n) t [])) := by
  have hnl : n ∈ n :: t.addrs := List.mem_cons_self _ _
  have hnd0 : (n :: t.addrs).Nodup := List.Pairwise.imp far_ne hsep
  have hnt : ∀ m ∈ t.addrs, m ≠ n := fun m hm e => (List.nodup_cons.1 hnd0).1 (e ▸ hm)
  obtain ⟨sa, hsa, hra, hfa⟩ := set_fields s _ n off_left 0 hsep hnl hn off_lt.1
  obtain ⟨sb, hsb, hrb, hfb⟩ := set_fields sa _ n off_right 0 hsep hnl hn off_lt.2.1
  obtain ⟨s1, hs1, hr1, hf1⟩ := set_fields sb _ n off_color RED hsep hnl hn off_lt.2.2.2.2
  have hF1 : ∀ m ∈ t.addrs, ∀ j, j < 40 → s1.mem.read (m + j) = s.mem.read (m + j) := by
    intro m hm j hj
    have hml : m ∈ n :: t.addrs := List.mem_cons_of_mem _ hm
    rw [hf1 m hml j hj, hfb m hml j hj, hfa m hml j hj]
    simp only [hnt m hm, false_and, if_false]
  have hN1 : ∀ j, j < 40 → s1.mem.read (n + j) =
      if j = off_color then RED else if j = off_right then 0 else if j = off_left then 0
      else s.mem.read (n + j) := by
    intro j hj
    rw [hf1 n hnl j hj, hfb n hnl j hj, hfa n hnl j hj]
    simp only [true_and]
  have hv1 : s1.value n = s.value n := by
    unfold FreeList.value
    rw [hN1 _ off_lt.2.2.2.1]
    simp only [off_ne.2.2.2.1, off_ne.2.2.2.2.2.2.2.2.2.1, off_ne.2.2.2.2.2.2.2.2.2.2,
      if_false]
  have hlinks1 : LinksAgree s s1 t.addrs := fun m hm =>
    ⟨hF1 m hm _ off_lt.1, hF1 m hm _ off_lt.2.1, hF1 m hm _ off_lt.2.2.1⟩
  have hval1 : ∀ m ∈ t.addrs, s1.value m = s.value m := fun m hm => hF1 m hm _ off_lt.2.2.2.1
  have hroot1 : s1.m_root = s.m_root := by rw [hr1, hrb, hra]
  have ht1 : TreeAt s1 t s1.m_root 0 := hroot1 ▸ treeAt_congr hlinks1 ht
  have hpath : insert_path s1 (s1.value n) t [] = insert_path s (s.value n) t [] := by
    rw [hv1]
    exact insert_path_congr _ t [] hval1
  have hdesc := insert_descend_spec (s := s1) hn t [] s1.m_root fuel ht1 hfuel
  have hctx := insert_path_ctxAt (s := s) (s.value n) t [] s.m_root 0 s.m_root ht ⟨rfl, rfl⟩
  have hplug := insert_path_plug s (s.value n) t []
  rw [hpath] at hdesc
  have hsub : ∀ m ∈ ctx_addrs (insert_path s (s.value n) t []), m ∈ t.addrs := by
    intro m hm
    have : m ∈ (plug (insert_path s (s.value n) t []) .nil).addrs := plug_mem.2 (Or.inr hm)
    rw [hplug] at this
    exact this
  have hpar := ctx_head_addr_mem hctx
  generalize ctx_head_addr (insert_path s (s.value n) t []) = par at hdesc hpar ⊢
  change insert_descend fuel s1 n s1.m_root 0 = .ok par at hdesc
  obtain ⟨s2, hs2, hr2, hf2⟩ := set_fields s1 _ n off_parent par hsep hnl hn off_lt.2.2.1
  have hF2 : ∀ m ∈ t.addrs, ∀ j, j < 40 → s2.mem.read (m + j) = s.mem.read (m + j) := by
    intro m hm j hj
    rw [hf2 m (List.mem_cons_of_mem _ hm) j hj, hF1 m hm j hj]
    simp only [hnt m hm, false_and, if_false]
  have hN2 : ∀ j, j < 40 → s2.mem.read (n + j) =
      if j = off_parent then par else if j = off_color then RED else if j = off_right then 0
      else if j = off_left then 0 else s.mem.read (n + j) := by
    intro j hj
    rw [hf2 n hnl j hj, hN1 j hj]
    simp only [true_and]
  have hroot2 : s2.m_root = s.m_root := by rw [hr2, hroot1]
  unfold insert_node
  rw [if_neg hn]
  simp only [hsa, hsb, hs1, hdesc, hs2, bind, Except.bind, pure, Except.pure]
  by_cases hp : par = 0
  · simp only [hp, if_true]
    refine ⟨_, rfl, rfl, fun m hm => ⟨?_, ?_, ?_⟩, fun m hm _ => ⟨?_, ?_⟩, ⟨?_, ?_, ?_, ?_, ?_⟩,
      fun h => absurd rfl h⟩
    · exact hF2 m hm _ off_lt.2.2.2.1
    · exact hF2 m hm _ off_lt.2.2.2.2
    · exact hF2 m hm _ off_lt.2.2.1
    · exact hF2 m hm _ off_lt.1
    · exact hF2 m hm _ off_lt.2.1
    · show s2.mem.read (n + off_left) = 0
      rw [hN2 _ off_lt.1]
      simp only [off_ne_all, if_false, if_true]
    · show s2.mem.read (n + off_right) = 0
      rw [hN2 _ off_lt.2.1]
      simp only [off_ne_all, if_false, if_true]
    · show s2.mem.read (n + off_parent) = 0
      rw [hN2 _ off_lt.2.2.1, if_pos rfl, hp]
    · show s2.mem.read (n + off_color) = RED
      rw [hN2 _ off_lt.2.2.2.2]
      simp only [off_ne_all, if_false, if_true]
    · show s2.mem.read (n + off_value) = s.mem.read (n + off_value)
      rw [hN2 _ off_lt.2.2.2.1]
      simp only [off_ne_all, if_false, if_true]
  · have hpt : par ∈ t.addrs := hsub _ (hpar.resolve_left hp)
    have hpl : par ∈ n :: t.addrs := List.mem_cons_of_mem _ hpt
    have hpn : par ≠ n := hnt par hpt
    have e1 : s2.mem.read (n + off_value) = s.value n := by
      rw [hN2 _ off_lt.2.2.2.1]
      simp only [off_ne_all, if_false]
      rfl
    have e2 : s2.mem.read (par + off_value) = s.value par := hF2 par hpt _ off_lt.2.2.2.1
    simp only [hp, if_false, get_ok _ _ hn, get_ok _ _ hp, e1, e2]
    by_cases hv : s.value n < s.value par
    · obtain ⟨s3, hs3, hr3, hf3⟩ := set_fields s2 _ par off_left n hsep hpl hp off_lt.1
      have hF3 : ∀ m ∈ t.addrs, ∀ j, j < 40 → s3.mem.read (m + j) =
          if m = par ∧ j = off_left then n else s.mem.read (m + j) := by
        intro m hm j hj
        rw [hf3 m (List.mem_cons_of_mem _ hm) j hj, hF2 m hm j hj]
      have hN3 : ∀ j, j < 40 → s3.mem.read (n + j) = s2.mem.read (n + j) := by
        intro j hj
        rw [hf3 n hnl j hj]
        simp only [Ne.symm hpn, false_and, if_false]
      simp only [if_pos hv, hs3]
      refine ⟨s3, rfl, by rw [hr3, hroot2, if_neg hp], fun m hm => ⟨?_, ?_, ?_⟩,
        fun m hm hmp => ⟨?_, ?_⟩, ⟨?_, ?_, ?_, ?_, ?_⟩, fun _ => ⟨fun h => ?_, fun h => ?_⟩⟩
      · show s3.mem.read (m + off_value) = s.mem.read (m + off_value)
        rw [hF3 m hm _ off_lt.2.2.2.1]
        simp only [off_ne_all, and_false, if_false]
      · show s3.mem.read (m + off_color) = s.mem.read (m + off_color)
        rw [hF3 m hm _ off_lt.2.2.2.2]
        simp only [off_ne_all, and_false, if_false]
      · rw [hF3 m hm _ off_lt.2.2.1]
        simp only [off_ne_all, and_false, if_false]
      · rw [hF3 m hm _ off_lt.1]
        simp only [hmp, false_and, if_false]
      · rw [hF3 m hm _ off_lt.2.1]
        simp only [hmp, false_and, if_false]
      · rw [hN3 _ off_lt.1, hN2 _ off_lt.1]
        simp only [off_ne_all, if_false, if_true]
      · rw [hN3 _ off_lt.2.1, hN2 _ off_lt.2.1]
        simp only [off_ne_all, if_false, if_true]
      · rw [hN3 _ off_lt.2.2.1, hN2 _ off_lt.2.2.1, if_pos rfl]
      · show s3.mem.read (n + off_color) = RED
        rw [hN3 _ off_lt.2.2.2.2, hN2 _ off_lt.2.2.2.2]
        simp only [off_ne_all, if_false, if_true]
      · show s3.mem.read (n + off_value) = s.mem.read (n + off_value)
        rw [hN3 _ off_lt.2.2.2.1, hN2 _ off_lt.2.2.2.1]
        simp only [off_ne_all, if_false, if_true]
      · rw [hF3 par hpt _ off_lt.1, hF3 par hpt _ off_lt.2.1]
        simp only [off_ne_all, and_false, and_self, if_false, if_true]
      · exact absurd hv h
    · obtain ⟨s3, hs3, hr3, hf3⟩ := set_fields s2 _ par off_right n hsep hpl hp off_lt.2.1
      have hF3 : ∀ m ∈ t.addrs, ∀ j, j < 40 → s3.mem.read (m + j) =
          if m = par ∧ j = off_right then n else s.mem.read (m + j) := by
        intro m hm j hj
        rw [hf3 m (List.mem_cons_of_mem _ hm) j hj, hF2 m hm j hj]
      have hN3 : ∀ j, j < 40 → s3.mem.read (n + j) = s2.mem.read (n + j) := by
        intro j hj
        rw [hf3 n hnl j hj]
        simp only [Ne.symm hpn, false_and, if_false]
      simp only [if_neg hv, hs3]
      refine ⟨s3, rfl, by rw [hr3, hroot2, if_neg hp], fun m hm => ⟨?_, ?_, ?_⟩,
        fun m hm hmp => ⟨?_, ?_⟩, ⟨?_, ?_, ?_, ?_, ?_⟩, fun _ => ⟨fun h => ?_, fun h => ?_⟩⟩
      · show s3.mem.read (m + off_value) = s.mem.read (m + off_value)
        rw [hF3 m hm _ off_lt.2.2.2.1]
        simp only [off_ne_all, and_false, if_false]
      · show s3.mem.read (m + off_color) = s.mem.read (m + off_color)
        rw [hF3 m hm _ off_lt.2.2.2.2]
        simp only [off_ne_all, and_false, if_false]
      · rw [hF3 m hm _ off_lt.2.2.1]
        simp only [off_ne_all, and_false, if_false]
      · rw [hF3 m hm _ off_lt.1]
        simp only [hmp, false_and, if_false]
      · rw [hF3 m hm _ off_lt.2.1]
        simp only [hmp, false_and, if_false]
      · rw [hN3 _ off_lt.1, hN2 _ off_lt.1]
        simp only [off_ne_all, if_false, if_true]
      · rw [hN3 _ off_lt.2.1, hN2 _ off_lt.2.1]
        simp only [off_ne_all, if_false, if_true]
      · rw [hN3 _ off_lt.2.2.1, hN2 _ off_lt.2.2.1, if_pos rfl]
      · show s3.mem.read (n + off_color) = RED
        rw [hN3 _ off_lt.2.2.2.2, hN2 _ off_lt.2.2.2.2]
        simp only [off_ne_all, if_false, if_true]
      · show s3.mem.read (n + off_value) = s.mem.read (n + off_value)
        rw [hN3 _ off_lt.2.2.2.1, hN2 _ off_lt.2.2.2.1]
        simp only [off_ne_all, if_false, if_true]
      · exact absurd h hv
      · rw [hF3 par hpt _ off_lt.1, hF3 par hpt _ off_lt.2.1]
        simp only [off_ne_all, and_false, and_self, if_false, if_true]

/-- Method `insert_node` on a well-linked tree whose root is BLACK: the new node
is hung at the end of the search path and the repair loop ends; the tree keeps
its nodes in order around the new one, the values stay, and a red-black tree
stays red-black. -/
theorem insert_node_spec (fuel : Nat) (s : FreeList) (t : Tree) (n : Nat)
    (ht : TreeAt s t s.m_root 0) (hsep : Separated (n :: t.addrs)) (hn : n ≠ 0)
    (hblack : root_color s t = BLACK) (hfuel : t.height < fuel) :
    ∃ s2 t2, insert_node fuel s n = .ok s2 ∧ TreeAt s2 t2 s2.m_root 0 ∧
      t2.addrs = ctx_before (insert_path s (s.value n) t []) ++
        n :: ctx_after (insert_path s (s.value n) t []) ∧
      t.addrs = ctx_before (insert_path s (s.value n) t []) ++
        ctx_after (insert_path s (s.value n) t []) ∧
      (∀ m ∈ n :: t.addrs, s2.value m = s.value m) ∧
      (RedBlack s t → RedBlack s2 t2) := by
  obtain ⟨s3, hrun, hroot3, hT3, hL3, hN3, hP3⟩ := insert_node_link fuel s t n ht hsep hn hfuel
  have hnd0 : (n :: t.addrs).Nodup := List.Pairwise.imp far_ne hsep
  have ht0 := treeAt_addr_ne_zero s t _ _ ht
  have hctx := insert_path_ctxAt (s := s) (s.value n) t [] s.m_root 0 s.m_root ht ⟨rfl, rfl⟩
  have hplug : plug (insert_path s (s.value n) t []) .nil = t :=
    insert_path_plug s (s.value n) t []
  have hlen := insert_path_length s (s.value n) t []
  have hdir := insert_path_dir (s := s) (s.value n) t []
  have hcnr : NoRedRed s t → CtxNoRedRed s (insert_path s (s.value n) t []) := fun h =>
    insert_path_noRedRed (s.value n) t [] h trivial (fun e => absurd e.symm red_ne_black)
  have hcbal : ∀ h, black_height s t = some h →
      CtxBalanced s (insert_path s (s.value n) t []) 0 := fun h hb =>
    insert_path_balanced (s.value n) t [] h hb trivial
  generalize insert_path s (s.value n) t [] = cI at *
  have haddr_t : t.addrs = ctx_before cI ++ ctx_after cI := by
    rw [← hplug, plug_addrs]
    simp [Tree.addrs]
  have hladdr : (plug cI (.node .nil n .nil)).addrs = ctx_before cI ++ n :: ctx_after cI := by
    rw [plug_addrs]
    simp [Tree.addrs]
  have hperm : (ctx_before cI ++ n :: ctx_after cI).Perm (n :: t.addrs) := by
    rw [haddr_t]
    exact List.perm_middle
  have hl : Separated (ctx_before cI ++ n :: ctx_after cI) := separated_perm hperm.symm hsep
  have hKt : ctx_addrs cI = t.addrs := haddr_t.symm
  have h0l : ∀ m ∈ ctx_before cI ++ n :: ctx_after cI, m ≠ 0 := by
    intro m hm
    rcases List.mem_cons.1 (hperm.mem_iff.1 hm) with rfl | hm
    · exact hn
    · exact ht0 m hm
  have hsh : FixShape s3 (ctx_before cI ++ n :: ctx_after cI) cI (.node .nil n .nil) n := by
    refine ⟨hn, ⟨ctx_head_addr cI, ?_, ?_⟩, hladdr, ?_⟩
    · simp only [TreeAt]
      exact ⟨trivial, hn, hN3.2.2.1, hN3.1, hN3.2.1⟩
    · refine ctxAt_replace hctx (hKt ▸ (List.nodup_cons.1 hnd0).2) (fun m hm hmp => ?_) hroot3 ?_
      · rw [hKt] at hm
        exact ⟨(hL3 m hm hmp).1, (hL3 m hm hmp).2, (hT3 m hm).2.2⟩
      · rintro d a sib c2 rfl
        have ha0 : a ≠ 0 := (ctxAt_head hctx).2
        have hat : a ∈ t.addrs := by
          rw [← hKt]
          exact ctx_addrs_cons.2 (Or.inl rfl)
        have hd := (hdir ⟨d, a, sib⟩ (List.mem_cons_self _ _)).resolve_left (by simp)
        change (d = .left ↔ s.value n < s.value a) at hd
        change a ≠ 0 →
          (s.value n < s.value a → s3.mem.read (a + off_left) = n ∧
            s3.mem.read (a + off_right) = s.mem.read (a + off_right)) ∧
          (¬ s.value n < s.value a → s3.mem.read (a + off_right) = n ∧
            s3.mem.read (a + off_left) = s.mem.read (a + off_left)) at hP3
        refine ⟨(hT3 a hat).2.2, fun e => (hP3 ha0).1 (hd.1 e), fun e => (hP3 ha0).2 ?_⟩
        intro hv
        rw [hd.2 hv] at e
        exact Dir.noConfusion e
    · intro hne
      have hrm := ctxAt_root_mem hctx hne
      rw [hKt] at hrm
      have hp0 : ctx_head_addr cI ≠ 0 := by
        cases cI with
        | nil => exact absurd rfl hne
        | cons f c => exact (ctxAt_head hctx).2
      rw [hroot3, if_neg hp0, (hT3 _ hrm).2.1]
      obtain ⟨tl, tr, rfl⟩ := treeAt_node_of_ne ht (ht0 _ hrm)
      exact hblack
  obtain ⟨s4, t4, hrun4, hT4, ha4, hv4, hrb4⟩ :=
    fix_insert_node_violations_spec s3 _ fuel cI _ n hl h0l
      (by simp only [List.length_nil] at hlen; omega) hsh
  refine ⟨s4, t4, hrun.trans hrun4, hT4, ha4, haddr_t, ?_, ?_⟩
  · intro m hm
    rw [hv4 m (hperm.mem_iff.2 hm)]
    rcases List.mem_cons.1 hm with rfl | hm
    · exact hN3.2.2.2.2
    · exact (hT3 m hm).1
  · rintro ⟨-, hnr, hbh⟩
    obtain ⟨h, hh⟩ := Option.isSome_iff_exists.1 hbh
    have hcK : ColorsAgree s s3 (ctx_addrs cI) := fun m hm => (hT3 m (hKt ▸ hm)).2.1
    refine hrb4 0 ⟨?_, ?_, ctxNoRedRed_congr hcK (hcnr hnr), ctxBalanced_congr hcK (hcbal h hh)⟩
    · simp only [NoRedRed, root_color]
      exact ⟨fun _ => ⟨Ne.symm red_ne_black, Ne.symm red_ne_black⟩, trivial, trivial⟩
    · rw [black_height_node]
      exact ⟨0, rfl, rfl, Or.inr ⟨hN3.2.2.2.1, rfl⟩⟩

/-! ## `insert_node`: the red-black properties and the order -/

/-- C13: for every tree `t` that satisfies the red-black properties (`RedBlack`:
root BLACK, no RED node with a RED child, the same number of BLACK nodes on every
path from the root to a null link), rooted at `m_root` with consistent parent
links (`TreeAt`), and every non-null node `n` that is a `Node` object of its own
(`Separated`: it overlaps no node of the tree), `insert_node(n)` returns, given
fuel above the height of the tree, and the tree then reachable from `m_root` is
made of the old nodes and `n` and satisfies the red-black properties again. -/
theorem insert_node_keeps_red_black (fuel : Nat) (s : FreeList) (t : Tree) (n : Nat)
    (ht : TreeAt s t s.m_root 0) (hrb : RedBlack s t) (hsep : Separated (n :: t.addrs))
    (hn : n ≠ 0) (hfuel : t.height < fuel) :
    ∃ s2 t2, insert_node fuel s n = .ok s2 ∧ TreeAt s2 t2 s2.m_root 0 ∧
      t2.addrs.Perm (n :: t.addrs) ∧ RedBlack s2 t2 := by
  obtain ⟨s2, t2, h1, h2, h3, h4, -, h6⟩ := insert_node_spec fuel s t n ht hsep hn hrb.1 hfuel
  refine ⟨s2, t2, h1, h2, ?_, h6 hrb⟩
  rw [h3, h4]
  exact List.perm_middle

theorem insert_node_keeps_red_black_witness :
    TreeAt tree_of_four_and_fresh shape_of_four tree_of_four_and_fresh.m_root 0 ∧
      RedBlack tree_of_four_and_fresh shape_of_four ∧
      Separated (200 :: shape_of_four.addrs) ∧ 200 ≠ 0 ∧ shape_of_four.height < 10 ∧
      ∃ s2 t2, insert_node 10 tree_of_four_and_fresh 200 = .ok s2 ∧
        TreeAt s2 t2 s2.m_root 0 ∧ t2.addrs.Perm (200 :: shape_of_four.addrs) ∧
        RedBlack s2 t2 :=
  ⟨by decide, by decide, by decide, by decide, by decide,
    insert_node_keeps_red_black 10 tree_of_four_and_fresh shape_of_four 200 (by decide)
      (by decide) (by decide) (by decide) (by decide)⟩

/-- The last statement of `insert_node` is that of `fix_insert_node_violations`,
`m_root->color = BLACK`: whenever `insert_node` returns, the root is BLACK. -/
theorem insert_node_root_black {fuel : Nat} {s s2 : FreeList} {n : Nat} (hn : n ≠ 0)
    (h : insert_node fuel s n = .ok s2) : s2.color s2.m_root = BLACK := by
  unfold insert_node at h
  rw [if_neg hn] at h
  obtain ⟨s1, -, h⟩ := bind_eq_ok h
  obtain ⟨s1, -, h⟩ := bind_eq_ok h
  obtain ⟨s1, -, h⟩ := bind_eq_ok h
  obtain ⟨pn, -, h⟩ := bind_eq_ok h
  obtain ⟨s1, -, h⟩ := bind_eq_ok h
  obtain ⟨s1, -, h⟩ := bind_eq_ok h
  unfold fix_insert_node_violations at h
  rw [if_neg hn] at h
  obtain ⟨s1, -, h⟩ := bind_eq_ok h
  unfold FreeList.set at h
  split at h
  · exact absurd h (by simp)
  · simp only [Except.ok.injEq] at h
    subst h
    simp [FreeList.color, read_write_eq]

/-- The root colour that `insert_node` relies on.  A RED root is not a state the
tree code leaves behind (`insert_node` and `fix_remove_node_violations` both end
by colouring the root BLACK), but written into memory by hand it makes
`insert_node` fault: in the tree of the single RED node 1000, `insert_node(2000)`
sees a RED node below a RED parent and reads `grandparent_node->left` through
the null grandparent. -/
theorem insert_node_below_red_root_null_dereference :
    TreeAt red_root (.node .nil 1000 .nil) red_root.m_root 0 ∧
      Ordered red_root (.node .nil 1000 .nil) ∧
      Separated (2000 :: (Tree.node .nil 1000 .nil).addrs) ∧
      insert_node 10 red_root 2000 = .error .null_deref := by
  decide

/-- C16: `insert_node` keeps the tree a binary search tree by `value`.  For every
tree `t` in order by value (`Ordered`), rooted at `m_root` with consistent parent
links (`TreeAt`), and every non-null node `n` that is a `Node` object of its own
(`Separated`), `insert_node(n)` returns, given fuel above the height of the tree,
and the tree then reachable from `m_root` has consistent parent links, is in
order by value, and its nodes are the old nodes and `n`.  The root of `t` is
BLACK, as it is in the empty tree and after every `insert_node`: the tree after
the call has a BLACK root again. -/
theorem insert_node_keeps_order (fuel : Nat) (s : FreeList) (t : Tree) (n : Nat)
    (ht : TreeAt s t s.m_root 0) (hord : Ordered s t) (hblack : root_color s t = BLACK)
    (hsep : Separated (n :: t.addrs)) (hn : n ≠ 0) (hfuel : t.height < fuel) :
    ∃ s2 t2, insert_node fuel s n = .ok s2 ∧ TreeAt s2 t2 s2.m_root 0 ∧ Ordered s2 t2 ∧
      t2.addrs.Perm (n :: t.addrs) ∧ root_color s2 t2 = BLACK := by
  obtain ⟨s2, t2, h1, h2, h3, h4, h5, -⟩ := insert_node_spec fuel s t n ht hsep hn hblack hfuel
  have hb := insert_path_bounds (s.value n) t [] hord (fun x hx => by simp [ctx_before] at hx)
    (fun y hy => by simp [ctx_after] at hy)
  have hperm : t2.addrs.Perm (n :: t.addrs) := by
    rw [h3, h4]
    exact List.perm_middle
  have hroot : root_color s2 t2 = BLACK := by
    cases t2 with
    | nil => rfl
    | node l a r =>
      have ha : s2.m_root = a := h2.1
      simp only [root_color, ← ha]
      exact insert_node_root_black hn h1
  refine ⟨s2, t2, h1, h2, ?_, hperm, hroot⟩
  rw [ordered_iff_pairwise] at hord ⊢
  have hs : t2.addrs.Pairwise (fun x y => s.value x ≤ s.value y) := by
    rw [h4] at hord
    rw [h3]
    rw [List.pairwise_append] at hord ⊢
    refine ⟨hord.1, List.pairwise_cons.2 ⟨fun y hy => hb.2 y hy, hord.2.1⟩, ?_⟩
    intro x hx y hy
    rcases List.mem_cons.1 hy with rfl | hy
    · exact hb.1 x hx
    · exact hord.2.2 x hx y hy
  refine hs.imp_of_mem ?_
  intro x y hx hy hxy
  rw [h5 x (hperm.mem_iff.1 hx), h5 y (hperm.mem_iff.1 hy)]
  exact hxy

theorem insert_node_keeps_order_witness :
    TreeAt tree_of_four_and_fresh shape_of_four tree_of_four_and_fresh.m_root 0 ∧
      Ordered tree_of_four_and_fresh shape_of_four ∧
      root_color tree_of_four_and_fresh shape_of_four = BLACK ∧
      Separated (200 :: shape_of_four.addrs) ∧ 200 ≠ 0 ∧ shape_of_four.height < 10 ∧
      ∃ s2 t2, insert_node 10 tree_of_four_and_fresh 200 = .ok s2 ∧
        TreeAt s2 t2 s2.m_root 0 ∧ Ordered s2 t2 ∧
        t2.addrs.Perm (200 :: shape_of_four.addrs) ∧ root_color s2 t2 = BLACK :=
  ⟨by decide, by decide, by decide, by decide, by decide, by decide,
    insert_node_keeps_order 10 tree_of_four_and_fresh shape_of_four 200 (by decide)
      (by decide) (by decide) (by decide) (by decide) (by decide)⟩

/-! ## C29 and C26: `align_to_natural` and `get_header_placement_from_ptr` -/

/-- C29: for a size `d ≥ 1`, an address `a` and a `std::size_t` space `s ≥ d`,
`align_to_natural d a s` returns the address `a - a % d + d`, a multiple of `d`
that lies in `(a, a + d]` (it is `a + d` when `a` is already a multiple of `d`),
and the space `s` minus the advance of the address. -/
theorem align_to_natural_advances (d a s : Nat) (hd : 1 ≤ d) (hs : d ≤ s) (hmax : s ≤ SIZE_MAX) :
    (align_to_natural d a s).1 = a - a % d + d ∧
      d ∣ (align_to_natural d a s).1 ∧
      a < (align_to_natural d a s).1 ∧ (align_to_natural d a s).1 ≤ a + d ∧
      (a % d = 0 → (align_to_natural d a s).1 = a + d) ∧
      (align_to_natural d a s).2 = s - ((align_to_natural d a s).1 - a) := by
  have hlt : a % d < d := Nat.mod_lt a hd
  have hle : a % d ≤ a := Nat.mod_le a d
  have hs2 : s < SIZE_MOD := by
    have : s ≤ 2 ^ 64 - 1 := hmax
    show s < 2 ^ 64
    omega
  have hw : wsub d (a % d) = d - a % d := wsub_of_le d _ (by omega) (by omega)
  refine ⟨rfl, Nat.dvd_of_mod_eq_zero (align_to_natural_mod d a s), ?_, ?_, ?_, ?_⟩
  · rw [align_to_natural_fst]; omega
  · rw [align_to_natural_fst]; omega
  · intro h0
    rw [align_to_natural_fst, h0]; omega
  · show wsub s (wsub d (a % d)) = s - (a - a % d + d - a)
    rw [hw, wsub_of_le s _ hs2 (by omega)]
    congr 1
    omega

/-- C29 at a concrete call: header alignment of the already aligned address 1200
with 768 bytes of space. -/
theorem align_to_natural_advances_witness :
    (align_to_natural 24 1200 768).1 = 1200 - 1200 % 24 + 24 ∧
      24 ∣ (align_to_natural 24 1200 768).1 ∧
      1200 < (align_to_natural 24 1200 768).1 ∧ (align_to_natural 24 1200 768).1 ≤ 1200 + 24 ∧
      (1200 % 24 = 0 → (align_to_natural 24 1200 768).1 = 1200 + 24) ∧
      (align_to_natural 24 1200 768).2 = 768 - ((align_to_natural 24 1200 768).1 - 1200) :=
  align_to_natural_advances 24 1200 768 (by decide) (by decide) (by decide)

theorem sub_mod_eq_and_mask (x k : Nat) (hx : x < 2 ^ 64) (hk : k < 64) :
    x - x % 2 ^ k = x &&& (2 ^ 64 - 1 - (2 ^ k - 1)) := by
  have hpos : 0 < 2 ^ k := Nat.two_pow_pos k
  have hkl : 2 ^ k < 2 ^ 64 := Nat.pow_lt_pow_right (by decide) hk
  have e1 : x - x % 2 ^ k = 2 ^ k * (x / 2 ^ k) := by
    have := Nat.div_add_mod x (2 ^ k)
    omega
  have e2 : 2 ^ 64 - 1 - (2 ^ k - 1) = 2 ^ 64 - (2 ^ k - 1 + 1) := by omega
  rw [e1, e2]
  apply Nat.eq_of_testBit_eq
  intro i
  rw [Nat.testBit_mul_pow_two, Nat.testBit_and,
    Nat.testBit_two_pow_sub_succ (by omega), Nat.testBit_two_pow_sub_one,
    ← Nat.shiftRight_eq_div_pow, Nat.testBit_shiftRight]
  by_cases hik : k ≤ i
  · have e3 : k + (i - k) = i := by omega
    rw [e3]
    by_cases hi : i < 64
    · have : ¬ i < k := by omega
      simp [hik, hi, this]
    · have hxi : x.testBit i = false :=
        Nat.testBit_lt_two_pow (Nat.lt_of_lt_of_le hx
          (Nat.pow_le_pow_right (by decide) (by omega)))
      simp [hxi]
  · have : i < k := by omega
    simp [hik, this]

/-- C26: `get_header_placement_from_ptr` is the function below at
`H = sizeof(Header)`; it returns null for null; for a non-null address `p ≥ H`
the result is the largest multiple `h` of `H` with `h ≤ p - H`, so
`h + H ≤ p < h + 2 * H`; and when `H` is a power of two the result is
`(p - H) & ~(H - 1)` in 64-bit arithmetic. -/
theorem get_header_placement_from_ptr_floor (H p : Nat) (hH : 0 < H) (hp : H ≤ p) :
    get_header_placement_from_ptr p = get_header_placement_sized sizeofHeader p ∧
      get_header_placement_sized H 0 = 0 ∧
      H ∣ get_header_placement_sized H p ∧
      get_header_placement_sized H p ≤ p - H ∧
      (∀ h, H ∣ h → h ≤ p - H → h ≤ get_header_placement_sized H p) ∧
      get_header_placement_sized H p + H ≤ p ∧
      p < get_header_placement_sized H p + 2 * H ∧
      (∀ k, H = 2 ^ k → p < SIZE_MOD →
        get_header_placement_sized H p = (p - H) &&& (SIZE_MAX - (H - 1))) := by
  have hp0 : p ≠ 0 := by omega
  have hval : get_header_placement_sized H p = (p - H) - (p - H) % H := by
    simp [get_header_placement_sized, hp0]
  have hlt : (p - H) % H < H := Nat.mod_lt _ hH
  have hle : (p - H) % H ≤ p - H := Nat.mod_le _ _
  refine ⟨rfl, rfl, ?_, ?_, ?_, ?_, ?_, ?_⟩
  · rw [hval]; exact Nat.dvd_sub_mod _
  · rw [hval]; omega
  · intro h hdiv hh
    rw [hval]
    obtain ⟨c, rfl⟩ := hdiv
    have h1 : c ≤ (p - H) / H := (Nat.le_div_iff_mul_le hH).2 (by rw [Nat.mul_comm]; exact hh)
    have h2 : (p - H) - (p - H) % H = H * ((p - H) / H) := by
      have := Nat.div_add_mod (p - H) H
      omega
    rw [h2]
    exact Nat.mul_le_mul_left H h1
  · rw [hval]; omega
  · rw [hval]; omega
  · intro k hk hlt2
    subst hk
    rw [hval]
    have hp2 : p < 2 ^ 64 := hlt2
    have hk64 : k < 64 := by
      by_contra hge
      have : 2 ^ 64 ≤ 2 ^ k := Nat.pow_le_pow_right (by decide) (by omega)
      omega
    exact sub_mod_eq_and_mask (p - 2 ^ k) k (by omega) hk64

/-- C26 at concrete inputs: the node address 1040 with `sizeof(Header) = 24`, and
the same address with a header size of 32, a power of two. -/
theorem get_header_placement_from_ptr_floor_witness :
    (get_header_placement_from_ptr 1040 = get_header_placement_sized sizeofHeader 1040 ∧
      get_header_placement_sized sizeofHeader 0 = 0 ∧
      sizeofHeader ∣ get_header_placement_sized sizeofHeader 1040 ∧
      get_header_placement_sized sizeofHeader 1040 ≤ 1040 - sizeofHeader ∧
      (∀ h, sizeofHeader ∣ h → h ≤ 1040 - sizeofHeader →
        h ≤ get_header_placement_sized sizeofHeader 1040) ∧
      get_header_placement_sized sizeofHeader 1040 + sizeofHeader ≤ 1040 ∧
      1040 < get_header_placement_sized sizeofHeader 1040 + 2 * sizeofHeader ∧
      (∀ k, sizeofHeader = 2 ^ k → 1040 < SIZE_MOD →
        get_header_placement_sized sizeofHeader 1040 =
          (1040 - sizeofHeader) &&& (SIZE_MAX - (sizeofHeader - 1)))) ∧
      get_header_placement_sized 32 1040 = (1040 - 32) &&& (SIZE_MAX - (32 - 1)) :=
  ⟨get_header_placement_from_ptr_floor sizeofHeader 1040 (by decide) (by decide),
    (get_header_placement_from_ptr_floor 32 1040 (by decide) (by decide)).2.2.2.2.2.2.2 5
      (by decide) (by decide)⟩

/-! ## C21: the first allocation of half the arena -/

/-- The state the constructor returns for a non-null base `B` and a size `S` of
at least `MIN_INIT_SIZE`: one free block, whose node is the whole tree. -/
theorem construct_state (fuel : Nat) (mem : Mem) (uninit B S : Nat)
    (hf : 0 < fuel) (hB : B ≠ 0) (hS : MIN_INIT_SIZE ≤ S) (hmax : S ≤ SIZE_MAX) :
    ∃ s, FreeList.construct fuel mem uninit B S = .ok s ∧
      s.m_end_of_memory = B + S ∧
      (∀ k, block_list s (k + 1) (header_placement B) = [header_placement B]) ∧
      s.mem.read (header_placement B + off_prev) = 0 ∧
      s.mem.read (header_placement B + off_next) = B + S ∧
      s.mem.read (header_placement B + off_node) = node_placement B ∧
      TreeAt s (.node .nil (node_placement B) .nil) s.m_root 0 ∧
      s.mem.read (node_placement B + off_color) = BLACK ∧
      s.value (node_placement B) = S - (header_placement B - B) - sizeofHeader ∧
      header_placement B = get_header_placement_from_ptr (node_placement B) ∧
      B < header_placement B ∧ node_placement B + sizeofNode ≤ B + S := by
  obtain ⟨f, rfl⟩ : ∃ f, fuel = f + 1 := ⟨fuel - 1, by omega⟩
  obtain ⟨h1, h2, h3, h4⟩ := placement_bounds B
  have hS2 : 128 ≤ S := hS
  have hmax2 : S < 2 ^ 64 := by unfold SIZE_MAX at hmax; omega
  have hinv : start_or_size_is_invalid B S = false := by
    have : ¬ S < MIN_INIT_SIZE := by omega
    simp [start_or_size_is_invalid, this, hB]
  have hsz : wsub (B + S) B = S := wsub_add_left B S hmax2
  have hsp : ¬ wsub (B + S) B < HEADER_MAX_PADDING + NODE_MAX_PADDING := by
    rw [hsz]
    show ¬ S < 2 * 24 + 2 * 40
    omega
  obtain ⟨s2, hs2, hroot, hend, hnext, hprev, hnode, hl, hr, hp, hc, hv⟩ :=
    create_first_block f
      { mem := mem, m_root := 0, m_end_of_memory := B + S, m_memory_location := B,
        m_memory_maxsize := S } B rfl (by show B + S ≠ 0; omega) hsp
  have hn0 : node_placement B ≠ 0 := by unfold sizeofHeader at h3; omega
  refine ⟨s2, ?_, hend, ?_, hprev, hnext, hnode, ?_, hc, ?_, rfl, h1, ?_⟩
  · simp only [FreeList.construct, hinv, Bool.false_eq_true, if_false]
    exact hs2
  · intro k
    have hne : header_placement B ≠ s2.m_end_of_memory := by
      rw [hend]; show header_placement B ≠ B + S; unfold sizeofHeader at h3; omega
    have hend2 : s2.mem.read (header_placement B + off_next) = s2.m_end_of_memory := by
      rw [hnext, hend]
    cases k with
    | zero => simp [block_list, hne]
    | succ k => simp [block_list, hne, hend2]
  · rw [hroot]
    exact ⟨rfl, hn0, hp, hl, hr⟩
  · show s2.mem.read (node_placement B + off_value) = _
    rw [hv]
    show wsub (wsub (wsub (B + S) B) (wsub (header_placement B) B)) sizeofHeader = _
    have hk : wsub (header_placement B) B = header_placement B - B := by
      have e : header_placement B = B + (header_placement B - B) := by omega
      have hlt : header_placement B - B < SIZE_MOD := by
        show header_placement B - B < 2 ^ 64
        omega
      conv_lhs => rw [e]
      exact wsub_add_left B _ hlt
    rw [hsz, hk, wsub_of_le S _ hmax2 (by omega),
      wsub_of_le _ _ (by show _ < 2 ^ 64; omega) (by unfold sizeofHeader; omega)]
  · show node_placement B + 40 ≤ B + S
    omega


set_option maxRecDepth 100000 in
/-- C21 (as the code behaves): on the arena `[1000, 2000)` the first call
`allocate_raw_ptr 500`, half the arena size, returns null and leaves the state
as it was. -/
theorem first_half_allocation_fails_on_arena_1000 :
    FreeList.construct 10 [] 0 1000 1000 = .ok arena_1000 ∧
      allocate_raw_ptr 10 arena_1000 (1000 / 2) = .ok (arena_1000, 0) := by
  decide

/-- C21, amended: for a non-null base `B` and an arena size `S` with
`MIN_INIT_SIZE ≤ S` and `S + 2 * sizeof(Header) ≤ SIZE_MAX`, the constructor
returns and the first call `allocate_raw_ptr (S / 2)` returns null and leaves
the state unchanged: the value of the only free node is below the size the call
searches for, `2 * (S / 2) + 2 * sizeof(Header)`. -/
theorem first_half_allocation_returns_null (fuel : Nat) (mem : Mem) (uninit B S : Nat)
    (hf : 1 < fuel) (hB : B ≠ 0) (hS : MIN_INIT_SIZE ≤ S)
    (hmax : S + 2 * sizeofHeader ≤ SIZE_MAX) :
    ∃ s, FreeList.construct fuel mem uninit B S = .ok s ∧
      s.value (node_placement B) < 2 * (S / 2) + 2 * sizeofHeader ∧
      allocate_raw_ptr fuel s (S / 2) = .ok (s, 0) := by
  have hS2 : 128 ≤ S := hS
  have hmax2 : S + 48 ≤ SIZE_MAX := hmax
  obtain ⟨s, hs, -, -, -, -, -, ht, -, hval, -, hlt, -⟩ :=
    construct_state fuel mem uninit B S (by omega) hB hS (by omega)
  have hd : 0 < S / 2 := by omega
  have hov : 2 * (S / 2) + 2 * sizeofHeader ≤ SIZE_MAX := by
    show 2 * (S / 2) + 2 * 24 ≤ SIZE_MAX
    omega
  have hv := data_size_valid (S / 2) hd hov
  have hvlt : s.value (node_placement B) < 2 * (S / 2) + 2 * sizeofHeader := by
    rw [hval]
    show S - (header_placement B - B) - 24 < 2 * (S / 2) + 2 * 24
    omega
  have hss : s.value (node_placement B) < search_size (S / 2) := by
    rw [search_size_eq _ hov]
    exact lt_of_lt_of_le hvlt (le_max_right _ _)
  have hn := search_best_fit_eq s (.node .nil (node_placement B) .nil) (search_size (S / 2))
    fuel ht (by show max 0 0 + 1 < fuel; omega)
  have hb : best_fit_in s (search_size (S / 2)) (.node .nil (node_placement B) .nil) 0 = 0 := by
    have h1 : ¬ search_size (S / 2) = s.value (node_placement B) := by omega
    have h2 : ¬ search_size (S / 2) < s.value (node_placement B) := by omega
    simp [best_fit_in, h1, h2]
  rw [hb] at hn
  refine ⟨s, hs, hvlt, ?_⟩
  unfold allocate_raw_ptr
  rw [hv]
  simp only [Bool.false_eq_true, if_false]
  have hn2 : search_best_fit fuel s
      (if wadd HEADER_MAX_PADDING (wmul (S / 2) 2) < MIN_INIT_SIZE then MIN_INIT_SIZE
        else wadd HEADER_MAX_PADDING (wmul (S / 2) 2)) = .ok 0 := hn
  rw [hn2]
  rfl

/-- C21, amended, at a concrete arena: base 4096 and size 65536. -/
theorem first_half_allocation_returns_null_witness :
    ∃ s, FreeList.construct 10 [] 0 4096 65536 = .ok s ∧
      s.value (node_placement 4096) < 2 * (65536 / 2) + 2 * sizeofHeader ∧
      allocate_raw_ptr 10 s (65536 / 2) = .ok (s, 0) :=
  first_half_allocation_returns_null 10 [] 0 4096 65536 (by decide) (by decide) (by decide)
    (by decide)

/-! ## C24: the spans of the blocks -/

/-- Along a block list that ascends to the end sentinel the spans add up to the
distance from the first header to the end sentinel. -/
theorem span_sum_telescopes (s : FreeList) :
    ∀ fuel h, ascends_to_end s fuel h = true →
      h ≤ s.m_end_of_memory ∧ span_sum s fuel h = s.m_end_of_memory - h := by
  intro fuel
  induction fuel with
  | zero =>
    intro h hasc
    have e : h = s.m_end_of_memory := by simpa [ascends_to_end] using hasc
    subst e
    exact ⟨le_refl _, by simp [span_sum, block_list]⟩
  | succ fuel ih =>
    intro h hasc
    by_cases he : h = s.m_end_of_memory
    · subst he
      exact ⟨le_refl _, by simp [span_sum, block_list]⟩
    · simp only [ascends_to_end, if_neg he, Bool.and_eq_true, decide_eq_true_eq] at hasc
      obtain ⟨hlt, hrest⟩ := hasc
      obtain ⟨hle, hsum⟩ := ih _ hrest
      refine ⟨by omega, ?_⟩
      have e : span_sum s (fuel + 1) h =
          (s.mem.read (h + off_next) - h) + span_sum s fuel (s.mem.read (h + off_next)) := by
        simp [span_sum, block_list, he]
      rw [e, hsum]
      omega

/-- The constructor `Node(value)` at an address `n` that overlaps no node of `l`
leaves the fields of the nodes of `l` as they were. -/
theorem new_Node_frame (s : FreeList) (l : List Nat) (n v : Nat) (hn : n ≠ 0)
    (hsep : Separated (n :: l)) :
    ∃ s1, new_Node s n v = .ok s1 ∧ s1.m_root = s.m_root ∧
      s1.m_end_of_memory = s.m_end_of_memory ∧ s1.value n = v ∧
      (∀ m ∈ l, ∀ j, j < 40 → s1.mem.read (m + j) = s.mem.read (m + j)) := by
  refine ⟨_, new_Node_ok s n v hn, rfl, rfl, ?_, ?_⟩
  · show Mem.read _ (n + off_value) = v
    unfold off_left off_right off_parent off_value off_color
    rw [read_write_ne _ _ _ _ (by omega), read_write_eq]
  · intro m hm j hj
    have hf : far n m := (List.pairwise_cons.1 hsep).1 m hm
    unfold far sizeofNode at hf
    show Mem.read _ (m + j) = _
    unfold off_left off_right off_parent off_value off_color
    rw [read_write_ne _ _ _ _ (by omega), read_write_ne _ _ _ _ (by omega),
      read_write_ne _ _ _ _ (by omega), read_write_ne _ _ _ _ (by omega),
      read_write_ne _ _ _ _ (by omega)]

theorem linksAgree_of_fields {s s1 : FreeList} {l : List Nat}
    (h : ∀ m ∈ l, ∀ j, j < 40 → s1.mem.read (m + j) = s.mem.read (m + j)) :
    LinksAgree s s1 l :=
  fun m hm => ⟨h m hm _ off_lt.1, h m hm _ off_lt.2.1, h m hm _ off_lt.2.2.1⟩

theorem colorsAgree_of_fields {s s1 : FreeList} {l : List Nat}
    (h : ∀ m ∈ l, ∀ j, j < 40 → s1.mem.read (m + j) = s.mem.read (m + j)) :
    ColorsAgree s s1 l :=
  fun m hm => h m hm _ off_lt.2.2.2.2

theorem value_of_fields {s s1 : FreeList} {l : List Nat}
    (h : ∀ m ∈ l, ∀ j, j < 40 → s1.mem.read (m + j) = s.mem.read (m + j)) :
    ∀ m ∈ l, s1.value m = s.value m :=
  fun m hm => h m hm _ off_lt.2.2.2.1

/-- Method `create_new_memory_block` on a well-linked tree with a BLACK root, for
free memory `[ptr, next)` of at least `MIN_INIT_SIZE` bytes whose left neighbour
`prev`, if any, has its header before `ptr`: the call returns, the new header
points to `next`, `prev` and the new node, and the node holds the number of
bytes between the end of the header and `next`. -/
theorem create_new_memory_block_spec (fuel : Nat) (s : FreeList) (t : Tree)
    (prev next ptr : Nat) (ht : TreeAt s t s.m_root 0)
    (hsep : Separated (node_placement ptr :: t.addrs)) (hblack : root_color s t = BLACK)
    (hfuel : t.height < fuel) (hprev : prev = 0 ∨ prev + sizeofHeader ≤ ptr)
    (hspace : ptr + MIN_INIT_SIZE ≤ next) (hnext : next < SIZE_MOD) :
    ∃ s2, create_new_memory_block fuel s prev next ptr = .ok s2 ∧
      s2.mem.read (header_placement ptr + off_next) = next ∧
      s2.mem.read (header_placement ptr + off_prev) = prev ∧
      s2.mem.read (header_placement ptr + off_node) = node_placement ptr ∧
      s2.value (node_placement ptr) = next - header_placement ptr - sizeofHeader := by
  obtain ⟨h1, h2, h3, h4⟩ := placement_bounds ptr
  have hsp : ptr + 128 ≤ next := hspace
  have hnx : next < 2 ^ 64 := hnext
  have hpv : prev = 0 ∨ prev + 24 ≤ ptr := hprev
  have h3b : header_placement ptr + 24 ≤ node_placement ptr := h3
  have hn : node_placement ptr ≠ 0 := by omega
  have hh : header_placement ptr ≠ 0 := by omega
  have hE : next ≠ 0 := by omega
  have hsz : wsub next ptr = next - ptr := wsub_of_le next ptr hnext (by omega)
  have hns : ¬ wsub next ptr < HEADER_MAX_PADDING + NODE_MAX_PADDING := by
    rw [hsz]
    show ¬ next - ptr < 2 * 24 + 2 * 40
    omega
  have hk : wsub (header_placement ptr) ptr = header_placement ptr - ptr :=
    wsub_of_le _ _ (by show _ < 2 ^ 64; omega) (by omega)
  have hval : wsub (wsub (wsub next ptr) (wsub (header_placement ptr) ptr)) sizeofHeader =
      next - header_placement ptr - sizeofHeader := by
    rw [hsz, hk, wsub_of_le (next - ptr) _ (by show _ < 2 ^ 64; omega) (by omega),
      wsub_of_le _ _ (by show _ < 2 ^ 64; omega) (by unfold sizeofHeader; omega)]
    omega
  obtain ⟨s1, hs1, hroot1, -, hv1, hF1⟩ := new_Node_frame s t.addrs (node_placement ptr)
    (wsub (wsub (wsub next ptr) (wsub (header_placement ptr) ptr)) sizeofHeader) hn hsep
  have ht1 : TreeAt s1 t s1.m_root 0 := by
    rw [hroot1]
    exact treeAt_congr (linksAgree_of_fields hF1) ht
  have hb1 : root_color s1 t = BLACK := by
    rw [root_color_congr (colorsAgree_of_fields hF1)]
    exact hblack
  obtain ⟨s2, t2, hs2, -, -, -, hv2, -⟩ :=
    insert_node_spec fuel s1 t (node_placement ptr) ht1 hsep hn hb1 hfuel
  have hv2n : s2.value (node_placement ptr) = next - header_placement ptr - sizeofHeader := by
    rw [hv2 _ (List.mem_cons_self _ _), hv1, hval]
  unfold create_new_memory_block
  rw [if_neg hE, if_neg hns]
  have e1 : (align_to_natural sizeofNode
      ((align_to_natural sizeofHeader ptr (wsub next ptr)).1 + sizeofHeader)
      (align_to_natural sizeofHeader ptr (wsub next ptr)).2).1 = node_placement ptr := rfl
  simp only [e1]
  have e2 : get_header_placement_from_ptr (node_placement ptr) = header_placement ptr := rfl
  simp only [e2]
  simp only [hs1, hs2, bind, Except.bind]
  unfold FreeList.value at hv2n
  generalize header_placement ptr = h at *
  generalize node_placement ptr = n at *
  clear hs1 hs2 hv2 hF1 ht1 hb1 hv1 ht hsep hblack e1 e2
  by_cases hp0 : prev = 0
  · subst hp0
    by_cases hne : next ≠ s2.m_end_of_memory
    · simp only [new_Header, FreeList.set, hh, hE, hne, if_false, if_true, bind, Except.bind,
        pure, Except.pure, ne_eq, not_true_eq_false, not_false_eq_true, and_self]
      refine ⟨_, rfl, ?_, ?_, ?_, ?_⟩ <;>
        unfold FreeList.value off_next off_prev off_node off_value at * <;>
        repeat (first | rw [read_write_eq] | rw [read_write_ne _ _ _ _ (by omega)])
      exact hv2n
    · simp only [new_Header, FreeList.set, hh, hE, hne, if_false, if_true, bind, Except.bind,
        pure, Except.pure, ne_eq, not_true_eq_false, not_false_eq_true, and_false]
      refine ⟨_, rfl, ?_, ?_, ?_, ?_⟩ <;>
        unfold FreeList.value off_next off_prev off_node off_value at * <;>
        repeat (first | rw [read_write_eq] | rw [read_write_ne _ _ _ _ (by omega)])
      exact hv2n
  · have hpv2 : prev + 24 ≤ ptr := by omega
    by_cases hne : next ≠ s2.m_end_of_memory
    · simp only [new_Header, FreeList.set, hh, hE, hne, hp0, if_false, if_true, bind,
        Except.bind, pure, Except.pure, ne_eq, not_true_eq_false, not_false_eq_true, and_self]
      refine ⟨_, rfl, ?_, ?_, ?_, ?_⟩ <;>
        unfold FreeList.value off_next off_prev off_node off_value at * <;>
        repeat (first | rw [read_write_eq] | rw [read_write_ne _ _ _ _ (by omega)])
      exact hv2n
    · simp only [new_Header, FreeList.set, hh, hE, hne, hp0, if_false, if_true, bind,
        Except.bind, pure, Except.pure, ne_eq, not_true_eq_false, not_false_eq_true, and_false]
      refine ⟨_, rfl, ?_, ?_, ?_, ?_⟩ <;>
        unfold FreeList.value off_next off_prev off_node off_value at * <;>
        repeat (first | rw [read_write_eq] | rw [read_write_ne _ _ _ _ (by omega)])
      exact hv2n

/-! ## C23: what the value of a free node measures -/

set_option maxRecDepth 100000 in
/-- C22 (as the code behaves): on the arena `[1008, 2008)` the second call,
`allocate_raw_ptr 84`, takes the free block with header 1248 and node 1280,
returns 1344 and moves the header to 1320, clear of the node; the block split
off behind the payload gets its header at 1440, only 120 bytes after 1320.
After a third allocation both neighbours are in use (their `node` fields are
null).  `free_raw_ptr 1344` then returns and changes nothing: the block keeps
a null `node` field and the tree keeps its single node 1640. -/
theorem freed_block_below_min_size_stays_used :
    FreeList.construct 10 [] 0 1008 1000 = .ok arena_1008 ∧
      (Client.run 20 ⟨arena_1008, []⟩ [.allocate 4]).map (fun c =>
        (c.live, block_list c.allocator 10 1056,
          (block_list c.allocator 10 1056).map
            (fun h => c.allocator.mem.read (h + off_node)))) =
        .ok ([(1084, 4)], [1056, 1248], [0, 1280]) ∧
      (Client.run 20 ⟨arena_1008, []⟩ calls_short_block).map (fun c =>
        (c.live, block_list c.allocator 10 1056,
          (block_list c.allocator 10 1056).map
            (fun h => c.allocator.mem.read (h + off_node)),
          tree_nodes c.allocator 10 c.allocator.m_root)) =
        .ok ([(1084, 4), (1344, 84), (1468, 4)], [1056, 1320, 1440, 1608],
          [0, 0, 0, 1640], [1640]) ∧
      get_header_placement_from_ptr 1344 = 1320 ∧
      1440 - 1320 < MIN_INIT_SIZE ∧
      Client.frees_live 20 ⟨arena_1008, []⟩ (calls_short_block ++ [.free 1344]) = true ∧
      (Client.run 20 ⟨arena_1008, []⟩ (calls_short_block ++ [.free 1344])).map (fun c =>
        (c.live, block_list c.allocator 10 1056,
          (block_list c.allocator 10 1056).map
            (fun h => c.allocator.mem.read (h + off_node)),
          tree_nodes c.allocator 10 c.allocator.m_root)) =
        .ok ([(1084, 4), (1468, 4)], [1056, 1320, 1440, 1608], [0, 0, 0, 1640], [1640]) := by
  decide

/-! ## C25: a header written over the node of its block -/

set_option maxRecDepth 100000 in
/-- C25 (as the code behaves): on the arena `[1000, 2000)`, after two 4-byte
allocations the free block has its header at 1368 and its node at 1400.  The
call `allocate_raw_ptr 24` moves the header to 1392, onto the first words of
that node, and afterwards the tree root is 1200, the header of the second
payload.  After `free_raw_ptr 1228` the payloads 1036 and 1416 are live, the
list from the first block is `1008, 1248, 1392, 1560`, and the header 1008 of
the live payload 1036 holds the node 1280, which belongs to the header 1248.
Every word written lies inside the arena. -/
theorem header_names_node_of_other_block :
    FreeList.construct 10 [] 0 1000 1000 = .ok arena_1000 ∧
      Client.frees_live 20 ⟨arena_1000, []⟩ calls_header_on_node = true ∧
      (Client.run 20 ⟨arena_1000, []⟩ [.allocate 4, .allocate 4]).map (fun c =>
        (block_list c.allocator 10 1008,
          (block_list c.allocator 10 1008).map
            (fun h => c.allocator.mem.read (h + off_node)))) =
        .ok ([1008, 1200, 1368], [0, 0, 1400]) ∧
      get_header_placement_from_ptr
        (align_to_natural 24 (1368 + sizeofHeader) 0).1 = 1392 ∧
      (Client.run 20 ⟨arena_1000, []⟩ [.allocate 4, .allocate 4, .allocate 24]).map (fun c =>
        (c.live, c.allocator.m_root, block_list c.allocator 10 1008)) =
        .ok ([(1036, 4), (1228, 4), (1416, 24)], 1200, [1008, 1200, 1392, 1560]) ∧
      (Client.run 20 ⟨arena_1000, []⟩ calls_header_on_node).map (fun c =>
        (c.live, block_list c.allocator 10 1008,
          (block_list c.allocator 10 1008).map
            (fun h => c.allocator.mem.read (h + off_node)))) =
        .ok ([(1036, 4), (1416, 24)], [1008, 1248, 1392, 1560], [1280, 1280, 0, 1600]) ∧
      (Client.run 20 ⟨arena_1000, []⟩ calls_header_on_node).map (fun c =>
        c.allocator.mem.all (fun w => decide (1000 ≤ w.1 ∧ w.1 + 8 ≤ 2000))) = .ok true ∧
      get_header_placement_from_ptr 1036 = 1008 ∧
      get_header_placement_from_ptr 1280 = 1248 := by
  decide

/-! ## C27: the height of the tree -/

set_option maxRecDepth 100000 in
/-- C27 (as the code behaves): the ten calls of `calls_to_chain` on the empty
tree all return, inserting fresh nodes and removing nodes of the tree; they
leave six nodes hanging below one another, a tree of height 6, more than
`2 * log2 (6 + 1)` since `(6 + 1) ^ 2 < 2 ^ 6`.  Four more insertions leave ten
nodes and a path of eight, with `(10 + 1) ^ 2 < 2 ^ (8 - 1)`. -/
theorem tree_height_exceeds_logarithmic_bound :
    tree_calls_valid 20 empty_tree calls_to_long_path = true ∧
      (run_tree_calls 20 empty_tree calls_to_chain).map (fun s =>
        decide (TreeAt s shape_chain s.m_root 0)) = .ok true ∧
      shape_chain.addrs.length = 6 ∧ shape_chain.height = 6 ∧
      (6 + 1) ^ 2 < 2 ^ 6 ∧
      (run_tree_calls 20 empty_tree calls_to_long_path).map (fun s =>
        decide (TreeAt s shape_long_path s.m_root 0)) = .ok true ∧
      shape_long_path.addrs.length = 10 ∧ shape_long_path.height = 8 ∧
      (10 + 1) ^ 2 < 2 ^ (8 - 1) := by
  decide

/-! ## C30: nodes of equal value -/

theorem insert_path_after_strict {s : FreeList} (v : Nat) : ∀ (t : Tree) (c : Ctx),
    Ordered s t → (∀ y ∈ ctx_after c, v < s.value y) →
    ∀ y ∈ ctx_after (insert_path s v t c), v < s.value y := by
  intro t
  induction t with
  | nil => intro c _ h2; exact h2
  | node l a r ihl ihr =>
    intro c ho h2
    simp only [Ordered] at ho
    obtain ⟨-, hor, hl, hr⟩ := ho
    simp only [insert_path]
    split_ifs with hv
    · refine ihl _ hl ?_
      intro y hy
      simp only [ctx_after, List.cons_append, List.mem_cons, List.mem_append] at hy
      rcases hy with rfl | hy | hy
      · exact hv
      · have := hor y hy; omega
      · exact h2 y hy
    · exact ihr _ hr h2

theorem height_le_length : ∀ (t : Tree), t.height ≤ t.addrs.length := by
  intro t
  induction t with
  | nil => simp [Tree.height, Tree.addrs]
  | node l a r ihl ihr =>
    simp only [Tree.height, Tree.addrs, List.length_append, List.length_cons]
    omega

theorem place_by_value_split (x : Nat × Nat) : ∀ (B A : List (Nat × Nat)),
    (∀ y ∈ B, y.2 ≤ x.2) → (∀ y ∈ A, x.2 < y.2) →
    place_by_value x (B ++ A) = B ++ x :: A := by
  intro B
  induction B with
  | nil =>
    intro A _ hA
    cases A with
    | nil => rfl
    | cons y ys =>
      have := hA y (List.mem_cons_self _ _)
      simp [place_by_value, this]
  | cons b B ih =>
    intro A hB hA
    have hb : ¬ x.2 < b.2 := by
      have := hB b (List.mem_cons_self _ _)
      omega
    simp only [List.cons_append, place_by_value, if_neg hb]
    exact congrArg (List.cons b) (ih A (fun y hy => hB y (List.mem_cons_of_mem _ hy)) hA)

theorem place_by_value_perm (x : Nat × Nat) : ∀ (l : List (Nat × Nat)),
    (place_by_value x l).Perm (x :: l) := by
  intro l
  induction l with
  | nil => exact List.Perm.refl _
  | cons y ys ih =>
    simp only [place_by_value]
    split_ifs
    · exact List.Perm.refl _
    · exact (List.Perm.cons y ih).trans (List.Perm.swap x y ys)

theorem redBlack_congr {s s2 : FreeList} {t : Tree} (h : ColorsAgree s s2 t.addrs)
    (hrb : RedBlack s t) : RedBlack s2 t := by
  obtain ⟨h1, h2, h3⟩ := hrb
  refine ⟨?_, noRedRed_congr h h2, ?_⟩
  · rw [root_color_congr h]; exact h1
  · rw [black_height_congr h]; exact h3

/-- One step of `insert_each`: the constructor and `insert_node` for the pair
`(n, v)` put the node behind the nodes whose value is at most `v`. -/
theorem insert_pair_spec (fuel : Nat) (s : FreeList) (t : Tree) (acc : List (Nat × Nat))
    (n v : Nat) (hinv : HoldsInOrder s t acc) (hn : n ≠ 0)
    (hsep : Separated (n :: acc.map Prod.fst)) (hfuel : acc.length < fuel) :
    ∃ s1 s2 t2, new_Node s n v = .ok s1 ∧ insert_node fuel s1 n = .ok s2 ∧
      HoldsInOrder s2 t2 (place_by_value (n, v) acc) := by
  obtain ⟨ht, hrb, hord, haddr, hval⟩ := hinv
  rw [← haddr] at hsep
  obtain ⟨s1, hs1, hroot1, -, hv1, hF1⟩ := new_Node_frame s t.addrs n v hn hsep
  have ht1 : TreeAt s1 t s1.m_root 0 := by
    rw [hroot1]
    exact treeAt_congr (linksAgree_of_fields hF1) ht
  have hrb1 : RedBlack s1 t := redBlack_congr (colorsAgree_of_fields hF1) hrb
  have hvs1 := value_of_fields hF1
  have hord1 : Ordered s1 t := by
    rw [ordered_iff_pairwise] at hord ⊢
    refine hord.imp_of_mem ?_
    intro x y hx hy hxy
    rw [hvs1 x hx, hvs1 y hy]
    exact hxy
  have hlen : t.addrs.length = acc.length := by rw [haddr, List.length_map]
  have hh := height_le_length t
  obtain ⟨s2, t2, hs2, ht2, ha2, ha, hv2, hrb2⟩ :=
    insert_node_spec fuel s1 t n ht1 hsep hn hrb1.1 (by omega)
  rw [hv1] at ha2 ha
  have hb := insert_path_bounds (s := s1) v t [] hord1
    (fun x hx => by simp [ctx_before] at hx) (fun y hy => by simp [ctx_after] at hy)
  have hst := insert_path_after_strict (s := s1) v t [] hord1
    (fun y hy => by simp [ctx_after] at hy)
  generalize insert_path s1 v t [] = cI at *
  have hperm : t2.addrs.Perm (n :: t.addrs) := by
    rw [ha2, ha]
    exact List.perm_middle
  refine ⟨s1, s2, t2, hs1, hs2, ht2, hrb2 hrb1, ?_, ?_, ?_⟩
  · rw [ordered_iff_pairwise] at hord1 ⊢
    have hs : t2.addrs.Pairwise (fun x y => s1.value x ≤ s1.value y) := by
      rw [ha] at hord1
      rw [ha2]
      rw [List.pairwise_append] at hord1 ⊢
      refine ⟨hord1.1, List.pairwise_cons.2 ⟨fun y hy => ?_, hord1.2.1⟩, ?_⟩
      · rw [hv1]; exact hb.2 y hy
      · intro x hx y hy
        rcases List.mem_cons.1 hy with rfl | hy
        · rw [hv1]; exact hb.1 x hx
        · exact hord1.2.2 x hx y hy
    refine hs.imp_of_mem ?_
    intro x y hx hy hxy
    rw [hv2 x (hperm.mem_iff.1 hx), hv2 y (hperm.mem_iff.1 hy)]
    exact hxy
  · -- the in-order walk
    have hsplit : acc.map Prod.fst = ctx_before cI ++ ctx_after cI := by rw [← haddr, ha]
    obtain ⟨B, A, hacc, hB, hA⟩ := List.map_eq_append_iff.1 hsplit
    have hvacc : ∀ x ∈ acc, s1.value x.1 = x.2 := by
      intro x hx
      rw [hvs1 x.1 (by rw [haddr]; exact List.mem_map_of_mem _ hx)]
      exact hval x hx
    have hBle : ∀ y ∈ B, y.2 ≤ v := by
      intro y hy
      have hy1 : y.1 ∈ ctx_before cI := by rw [← hB]; exact List.mem_map_of_mem _ hy
      have := hb.1 y.1 hy1
      rw [hvacc y (by rw [hacc]; exact List.mem_append_left _ hy)] at this
      exact this
    have hAlt : ∀ y ∈ A, v < y.2 := by
      intro y hy
      have hy1 : y.1 ∈ ctx_after cI := by rw [← hA]; exact List.mem_map_of_mem _ hy
      have := hst y.1 hy1
      rw [hvacc y (by rw [hacc]; exact List.mem_append_right _ hy)] at this
      exact this
    rw [ha2, hacc, place_by_value_split (n, v) B A hBle hAlt, List.map_append, List.map_cons,
      hB, hA]
  · intro x hx
    rcases List.mem_cons.1 ((place_by_value_perm (n, v) acc).mem_iff.1 hx) with rfl | hx
    · rw [hv2 _ (List.mem_cons_self _ _)]
      exact hv1
    · have hxt : x.1 ∈ t.addrs := by rw [haddr]; exact List.mem_map_of_mem _ hx
      rw [hv2 _ (List.mem_cons_of_mem _ hxt), hvs1 _ hxt]
      exact hval x hx

/-- The calls of `insert_each` on a tree that holds the pairs of `acc` in order. -/
theorem insert_each_spec (fuel : Nat) : ∀ (rest : List (Nat × Nat)) (s : FreeList) (t : Tree)
    (acc : List (Nat × Nat)), HoldsInOrder s t acc →
    Separated (acc.map Prod.fst ++ rest.map Prod.fst) → (∀ x ∈ rest, x.1 ≠ 0) →
    acc.length + rest.length ≤ fuel →
    ∃ s2 t2, insert_each fuel s rest = .ok s2 ∧
      HoldsInOrder s2 t2 (rest.foldl (fun acc x => place_by_value x acc) acc) := by
  intro rest
  induction rest with
  | nil =>
    intro s t acc hinv _ _ _
    exact ⟨s, t, rfl, hinv⟩
  | cons x rest ih =>
    intro s t acc hinv hsep h0 hfuel
    obtain ⟨n, v⟩ := x
    simp only [List.length_cons] at hfuel
    have hsepn : Separated (n :: acc.map Prod.fst) := by
      have hp : (acc.map Prod.fst ++ ((n, v) :: rest).map Prod.fst).Perm
          (n :: (acc.map Prod.fst ++ rest.map Prod.fst)) := by
        simp only [List.map_cons]
        exact List.perm_middle
      have h1 := separated_perm hp hsep
      unfold Separated at h1 ⊢
      rw [List.pairwise_cons] at h1 ⊢
      exact ⟨fun a ha => h1.1 a (List.mem_append_left _ ha),
        (List.pairwise_append.1 h1.2).1⟩
    obtain ⟨s1, s2, t2, hs1, hs2, hinv2⟩ :=
      insert_pair_spec fuel s t acc n v hinv (h0 _ (List.mem_cons_self _ _)) hsepn (by omega)
    have hperm := place_by_value_perm (n, v) acc
    have hsep2 : Separated ((place_by_value (n, v) acc).map Prod.fst ++ rest.map Prod.fst) := by
      refine separated_perm ?_ hsep
      simp only [List.map_cons]
      refine List.perm_middle.trans ?_
      exact List.Perm.append_right _ (hperm.map Prod.fst).symm
    obtain ⟨s3, t3, hs3, hinv3⟩ := ih s2 t2 _ hinv2 hsep2
      (fun y hy => h0 y (List.mem_cons_of_mem _ hy))
      (by rw [hperm.length_eq]; simp only [List.length_cons]; omega)
    refine ⟨s3, t3, ?_, hinv3⟩
    simp only [insert_each, hs1, hs2, bind, Except.bind]
    exact hs3

set_option maxRecDepth 100000 in
/-- C30 (as the code behaves): three nodes of value 10 inserted into the empty
tree at 40, 80 and 120.  The third insertion rotates the chain: the root is the
second node 80, and the first node 40, of the same value, is its left child. -/
theorem equal_value_in_left_subtree :
    (insert_each 10 empty_tree [(40, 10), (80, 10), (120, 10)]).map (fun s =>
      (decide (TreeAt s (.node (.node .nil 40 .nil) 80 (.node .nil 120 .nil)) s.m_root 0),
        s.value 40, s.value 80,
        decide (TiesLeanRight s (.node (.node .nil 40 .nil) 80 (.node .nil 120 .nil))))) =
      .ok (true, 10, 10, false) := by
  decide

/-- C30, amended: for every list of pairs `(node, value)` of non-null nodes that
do not overlap, the calls `new(node) Node(value)` and `insert_node(node)` in the
order of the list, starting from the empty tree, all return, and leave a
well-linked tree that is in order by value (nothing in a left subtree exceeds
the node, nothing in a right subtree is below it) and whose in-order walk is the
list sorted by value with the nodes of equal value in their order of insertion. -/
theorem insert_each_keeps_insertion_order (fuel : Nat) (l : List (Nat × Nat))
    (hsep : Separated (l.map Prod.fst)) (h0 : ∀ x ∈ l, x.1 ≠ 0) (hfuel : l.length ≤ fuel) :
    ∃ s t, insert_each fuel empty_tree l = .ok s ∧ TreeAt s t s.m_root 0 ∧ Ordered s t ∧
      t.addrs = (sorted_by_value l).map Prod.fst ∧ (∀ x ∈ l, s.value x.1 = x.2) := by
  have hinv : HoldsInOrder empty_tree .nil [] := by
    refine ⟨rfl, ⟨rfl, trivial, rfl⟩, trivial, rfl, ?_⟩
    intro x hx
    simp at hx
  obtain ⟨s, t, hs, ht, -, hord, haddr, hval⟩ :=
    insert_each_spec fuel l empty_tree .nil [] hinv (by simpa using hsep) h0 (by simpa using hfuel)
  refine ⟨s, t, hs, ht, hord, haddr, ?_⟩
  intro x hx
  refine hval x ?_
  have : ∀ (rest acc : List (Nat × Nat)), x ∈ rest ∨ x ∈ acc →
      x ∈ rest.foldl (fun acc x => place_by_value x acc) acc := by
    intro rest
    induction rest with
    | nil => intro acc h; simpa using h
    | cons y ys ih =>
      intro acc h
      simp only [List.foldl_cons]
      refine ih _ ?_
      rcases h with h | h
      · rcases List.mem_cons.1 h with rfl | h
        · exact Or.inr ((place_by_value_perm _ acc).mem_iff.2 (List.mem_cons_self _ _))
        · exact Or.inl h
      · exact Or.inr ((place_by_value_perm y acc).mem_iff.2 (List.mem_cons_of_mem _ h))
  exact this l [] (Or.inl hx)

/-- C30, amended, at the three nodes of value 10: the in-order walk is 40, 80,
120, the order of insertion. -/
theorem insert_each_keeps_insertion_order_witness :
    (∃ s t, insert_each 10 empty_tree [(40, 10), (80, 10), (120, 10)] = .ok s ∧
      TreeAt s t s.m_root 0 ∧ Ordered s t ∧
      t.addrs = (sorted_by_value [(40, 10), (80, 10), (120, 10)]).map Prod.fst ∧
      (∀ x ∈ [(40, 10), (80, 10), (120, 10)], s.value x.1 = x.2)) ∧
      (sorted_by_value [(40, 10), (80, 10), (120, 10)]).map Prod.fst = [40, 80, 120] :=
  ⟨insert_each_keeps_insertion_order 10 [(40, 10), (80, 10), (120, 10)] (by decide)
    (by decide) (by decide), by decide⟩

/-! ## C28: the block an allocation is carved from -/

/-- A returning call of `allocate_raw_ptr` that hands out a pointer: the pointer
is the aligned address computed from the node its search found. -/
theorem allocate_raw_ptr_from_search {fuel : Nat} {s s2 : FreeList} {d p : Nat}
    (h : allocate_raw_ptr fuel s d = .ok (s2, p)) (hp : p ≠ 0) :
    d ≠ 0 ∧ ∃ n v, search_best_fit fuel s (search_size d) = .ok n ∧ n ≠ 0 ∧
      p = (align_to_natural d (get_header_placement_from_ptr n + sizeofHeader) v).1 := by
  unfold allocate_raw_ptr at h
  split at h
  · simp [pure, Except.pure] at h
    exact absurd h.2.symm hp
  · rename_i hv
    have hd : d ≠ 0 := by
      intro h0; subst h0; simp [data_size_is_invalid] at hv
    obtain ⟨n, hn, h⟩ := bind_eq_ok h
    split at h
    · simp [pure, Except.pure] at h
      exact absurd h.2.symm hp
    · rename_i hn0
      refine ⟨hd, n, ?_⟩
      obtain ⟨v, hv1, h⟩ := bind_eq_ok h
      refine ⟨v, hn, hn0, ?_⟩
      obtain ⟨a1, -, h⟩ := bind_eq_ok h
      obtain ⟨a2, -, h⟩ := bind_eq_ok h
      obtain ⟨a3, -, h⟩ := bind_eq_ok h
      obtain ⟨a4, -, h⟩ := bind_eq_ok h
      obtain ⟨a5, -, h⟩ := bind_eq_ok h
      obtain ⟨a6, -, h⟩ := bind_eq_ok h
      obtain ⟨a7, -, h⟩ := bind_eq_ok h
      obtain ⟨a8, -, h⟩ := bind_eq_ok h
      simp [pure, Except.pure] at h
      exact h.2.symm

/-- C28: the block a successful allocation is carved from.  On a tree in order
by value with consistent parent links, a call `allocate_raw_ptr d` that returns
a non-null `p` has taken a free node `n` of least value among those of at least
`max (MIN_INIT_SIZE, 2*d + 2*sizeof(Header))`; the payload starts behind the
header of `n`, the relocated header `get_header_placement_from_ptr p` ends at or
before `p`, and `p + d` does not pass any `next` that lies at least the value of
`n` behind the end of the header of `n`: when the value of `n` does not exceed
the bytes between the end of its header and its next header, `[p, p + d)` lies
between the relocated header and that next header.  The size `d` is one whose
doubled, header-padded value `2*d + 2*sizeof(Header)` fits `std::size_t`, that
is `d < 2^63 - 24`: a larger `d` makes the payload start at or beyond
`2^63 - 24`, where a process owns no memory to place the relocated header in. -/
theorem allocate_raw_ptr_carves_best_fit (s s2 : FreeList) (t : Tree) (d p fuel : Nat)
    (hd : 0 < d) (hov : 2 * d + 2 * sizeofHeader ≤ SIZE_MAX)
    (ht : TreeAt s t s.m_root 0) (ho : Ordered s t) (hf : t.height < fuel)
    (h : allocate_raw_ptr fuel s d = .ok (s2, p)) (hp : p ≠ 0) :
    ∃ n ∈ t.addrs, max MIN_INIT_SIZE (2 * d + 2 * sizeofHeader) ≤ s.value n ∧
      (∀ a ∈ t.addrs, max MIN_INIT_SIZE (2 * d + 2 * sizeofHeader) ≤ s.value a →
        s.value n ≤ s.value a) ∧
      get_header_placement_from_ptr n + sizeofHeader < p ∧
      get_header_placement_from_ptr p + sizeofHeader ≤ p ∧
      ∀ next, s.value n ≤ next - (get_header_placement_from_ptr n + sizeofHeader) →
        p + d ≤ next := by
  obtain ⟨-, n, v, hn, hn0, hpe⟩ := allocate_raw_ptr_from_search h hp
  rw [search_best_fit_eq s t (search_size d) fuel ht hf] at hn
  have hne : best_fit_in s (search_size d) t 0 = n := by
    simpa using hn
  have hss := search_size_eq d hov
  rcases best_fit_in_spec s (search_size d) t 0 ho with ⟨-, hb⟩ | ⟨hin, hge, hmin⟩
  · exact absurd (hne ▸ hb) hn0
  · rw [hne] at hin hge hmin
    rw [hss] at hge hmin
    rw [align_to_natural_fst] at hpe
    have hmod : (get_header_placement_from_ptr n + sizeofHeader) % d < d := Nat.mod_lt _ hd
    have hmle : (get_header_placement_from_ptr n + sizeofHeader) % d ≤
        get_header_placement_from_ptr n + sizeofHeader := Nat.mod_le _ _
    have hge2 : 2 * d + 2 * sizeofHeader ≤ s.value n := le_trans (le_max_right _ _) hge
    have hp24 : sizeofHeader ≤ p := by omega
    have hhp : get_header_placement_from_ptr p =
        (p - sizeofHeader) - (p - sizeofHeader) % sizeofHeader := by
      simp [get_header_placement_from_ptr, hp]
    refine ⟨n, hin, hge, hmin, by omega, ?_, ?_⟩
    · rw [hhp]
      have := Nat.mod_le (p - sizeofHeader) sizeofHeader
      omega
    · intro next hnext
      unfold sizeofHeader at *
      omega

set_option maxRecDepth 100000 in
theorem allocate_raw_ptr_carves_best_fit_witness :
    0 < 4 ∧ 2 * 4 + 2 * sizeofHeader ≤ SIZE_MAX ∧
      TreeAt arena_1000 (.node .nil 1040 .nil) arena_1000.m_root 0 ∧
      Ordered arena_1000 (.node .nil 1040 .nil) ∧
      (Tree.node .nil 1040 .nil).height < 10 ∧
      allocate_raw_ptr 10 arena_1000 4 = .ok (arena_1000_one_used, 1036) ∧ 1036 ≠ 0 ∧
      ∃ n ∈ (Tree.node .nil 1040 .nil).addrs,
        max MIN_INIT_SIZE (2 * 4 + 2 * sizeofHeader) ≤ arena_1000.value n ∧
        (∀ a ∈ (Tree.node .nil 1040 .nil).addrs,
          max MIN_INIT_SIZE (2 * 4 + 2 * sizeofHeader) ≤ arena_1000.value a →
            arena_1000.value n ≤ arena_1000.value a) ∧
        get_header_placement_from_ptr n + sizeofHeader < 1036 ∧
        get_header_placement_from_ptr 1036 + sizeofHeader ≤ 1036 ∧
        ∀ next, arena_1000.value n ≤ next - (get_header_placement_from_ptr n + sizeofHeader) →
          1036 + 4 ≤ next :=
  ⟨by decide, by decide, by decide, by decide, by decide, by decide, by decide,
    allocate_raw_ptr_carves_best_fit arena_1000 arena_1000_one_used (.node .nil 1040 .nil)
      4 1036 10 (by decide) (by decide) (by decide) (by decide) (by decide) (by decide)
      (by decide)⟩

/-! ## C31: the relocated header and the node of the block -/

/-- A request below `sizeof(Header)` leaves the header of the block where it is. -/
theorem relocated_header_small (h d : Nat) (hh : h % sizeofHeader = 0) (hd : 0 < d)
    (hlt : d < sizeofHeader) : relocated_header h d = h := by
  unfold relocated_header
  rw [align_to_natural_fst]
  have hm : (h + sizeofHeader) % d < d := Nat.mod_lt _ hd
  have hle : (h + sizeofHeader) % d ≤ h + sizeofHeader := Nat.mod_le _ _
  unfold sizeofHeader at *
  generalize (h + 24) % d = m at *
  have hp : h + 24 - m + d ≠ 0 := by omega
  simp only [get_header_placement_from_ptr, if_neg hp, sizeofHeader]
  omega

/-- A request of exactly `sizeof(Header)` bytes moves the header of every free
block by `sizeof(Header)`, onto the first words of the node of the block. -/
theorem relocated_header_meets_node (h n : Nat) (hh : h % sizeofHeader = 0) (hn : n ≠ 0)
    (hhn : get_header_placement_from_ptr n = h) (hge : sizeofHeader ≤ n) :
    relocated_header h sizeofHeader = h + sizeofHeader ∧
      ranges_meet (h + sizeofHeader) sizeofHeader n sizeofNode = true := by
  have hv : get_header_placement_from_ptr n =
      (n - sizeofHeader) - (n - sizeofHeader) % sizeofHeader := by
    simp [get_header_placement_from_ptr, hn]
  rw [hv] at hhn
  unfold sizeofHeader at *
  constructor
  · unfold relocated_header
    rw [align_to_natural_fst]
    have hp : h + 24 - (h + 24) % 24 + 24 ≠ 0 := by omega
    simp only [get_header_placement_from_ptr, if_neg hp, sizeofHeader]
    omega
  · simp only [ranges_meet, sizeofNode, Bool.and_eq_true, decide_eq_true_eq]
    omega

set_option maxRecDepth 100000 in
/-- C31 (as the code behaves): the free block of the arena `[1000, 2000)` has its
header at 1008 and its node at 1040.  For a request of 24 bytes the header moves
to 1032 and covers the `left` and `right` words of the node; for 64 bytes it
moves to 1056 and covers `parent`, `value` and `color`: after
`allocate_raw_ptr 64` the value of the node reads 0 and the node is still the
root of the tree.  After two 4-byte allocations the free block has header 1368
and node 1400; a request of 24 bytes moves the header to 1392, the `left` word of
the node then holds the `prev` pointer 1200, and the call leaves the header 1200
as the root of the tree. -/
theorem relocated_header_overlaps_node :
    FreeList.construct 10 [] 0 1000 1000 = .ok arena_1000 ∧
      1008 % sizeofHeader = 0 ∧ 1040 % sizeofNode = 0 ∧
      get_header_placement_from_ptr 1040 = 1008 ∧
      arena_1000.mem.read (1008 + off_node) = 1040 ∧
      relocated_header 1008 24 = 1032 ∧
      ranges_meet 1032 sizeofHeader 1040 sizeofNode = true ∧
      relocated_header 1008 64 = 1056 ∧
      ranges_meet 1056 sizeofHeader 1040 sizeofNode = true ∧
      (allocate_raw_ptr 10 arena_1000 64).map (fun r =>
        (r.2, r.1.m_root, r.1.value 1040, get_header_placement_from_ptr r.2)) =
        .ok (1088, 1040, 0, 1056) ∧
      (Client.run 20 ⟨arena_1000, []⟩ [.allocate 4, .allocate 4]).map (fun c =>
        (block_list c.allocator 10 1008,
          (block_list c.allocator 10 1008).map
            (fun h => c.allocator.mem.read (h + off_node)),
          c.allocator.mem.read (1400 + off_left), c.allocator.m_root)) =
        .ok ([1008, 1200, 1368], [0, 0, 1400], 0, 1400) ∧
      get_header_placement_from_ptr 1400 = 1368 ∧
      relocated_header 1368 24 = 1392 ∧
      ranges_meet 1392 sizeofHeader 1400 sizeofNode = true ∧
      (Client.run 20 ⟨arena_1000, []⟩ [.allocate 4, .allocate 4, .allocate 24]).map (fun c =>
        (c.live, c.allocator.mem.read (1392 + off_prev),
          c.allocator.mem.read (1400 + off_left), c.allocator.m_root)) =
        .ok ([(1036, 4), (1228, 4), (1416, 24)], 1200, 1200, 1200) := by
  decide

/-! ## C32: `fix_remove_node_violations` and its mirror image -/

set_option maxRecDepth 100000 in
/-- C32 (as the code behaves): after the first nine calls of `calls_to_chain`,
`remove_node(200)` puts the BLACK node 120 in the place of 200 and runs
`fix_remove_node_violations(120)` on `double_black_tree`.  There 120 is a left
child and its sibling 80 has a RED left child: the call ends with a right
rotation of the parent 280 and leaves the six nodes in a chain below 120.  On
the mirror image of the tree, where 120 is a right child, the call leaves the
tree `shape_mirror_fixed` of height 4 with the root 320, which is not the mirror
image of the chain. -/
theorem fix_remove_node_violations_not_mirror_symmetric :
    (run_tree_calls 20 empty_tree (calls_to_chain.take 9)).bind
        (fun s => transplant_node s 200 120) = .ok double_black_tree ∧
      run_tree_calls 20 empty_tree calls_to_chain =
        fix_remove_node_violations 20 double_black_tree 120 ∧
      TreeAt double_black_tree shape_double_black double_black_tree.m_root 0 ∧
      TreeAt (mirror_nodes double_black_tree shape_double_black.addrs)
        shape_double_black.mirror
        (mirror_nodes double_black_tree shape_double_black.addrs).m_root 0 ∧
      shape_double_black.addrs.map double_black_tree.color =
        shape_double_black.addrs.map
          (mirror_nodes double_black_tree shape_double_black.addrs).color ∧
      (fix_remove_node_violations 20 double_black_tree 120).map (fun s =>
        (decide (TreeAt s shape_chain s.m_root 0), shape_chain.addrs.map s.color)) =
        .ok (true, [0, 0, 0, 0, 0, 1]) ∧
      (fix_remove_node_violations 20
          (mirror_nodes double_black_tree shape_double_black.addrs) 120).map (fun s =>
        (decide (TreeAt s shape_mirror_fixed s.m_root 0),
          shape_mirror_fixed.addrs.map s.color)) =
        .ok (true, [1, 0, 0, 0, 0, 0]) ∧
      shape_mirror_fixed ≠ shape_chain.mirror ∧
      shape_mirror_fixed.height = 4 ∧ shape_chain.mirror.height = 6 := by
  decide

/-! ## C33: the placement inside the free memory -/

/-- A call of `create_new_memory_block` for fewer than `MIN_INIT_SIZE` bytes
returns at once. -/
theorem create_new_memory_block_too_small (fuel : Nat) (s : FreeList) (prev a space : Nat)
    (hsp : space < MIN_INIT_SIZE) :
    create_new_memory_block fuel s prev (a + space) a = .ok s := by
  have hsp2 : space < 128 := hsp
  have hsz : wsub (a + space) a = space := wsub_add_left a space (by show space < 2 ^ 64; omega)
  unfold create_new_memory_block
  by_cases h0 : a + space = 0
  · rw [if_pos h0]; rfl
  · rw [if_neg h0]
    have hlt : wsub (a + space) a < HEADER_MAX_PADDING + NODE_MAX_PADDING := by
      rw [hsz]; exact hsp
    simp only [hlt, if_true]
    rfl

/-- C33: for every start address `a` and every space of at least `MIN_INIT_SIZE`
bytes (with `a + space` an address), the header placement `header_placement a`
starts after `a` and ends at or before the node placement `node_placement a`,
and the node ends at or before `a + space`; the call
`create_new_memory_block(prev, a + space, a)` on a well-linked tree with a BLACK
root returns, puts the header and the node at these addresses, and records in
the node the value `space - (header - a) - sizeof(Header)`, which is at least
`sizeof(Node)`.  For every smaller space the call returns without placing
anything, and from the start address 1032 the node would end beyond
`a + space`. -/
theorem create_new_memory_block_fits (a space : Nat) (hspace : MIN_INIT_SIZE ≤ space)
    (hnext : a + space < SIZE_MOD) :
    a < header_placement a ∧
    header_placement a + sizeofHeader ≤ node_placement a ∧
    node_placement a + sizeofNode ≤ a + space ∧
    (∀ (fuel : Nat) (s : FreeList) (t : Tree) (prev : Nat), TreeAt s t s.m_root 0 →
      Separated (node_placement a :: t.addrs) → root_color s t = BLACK → t.height < fuel →
      (prev = 0 ∨ prev + sizeofHeader ≤ a) →
      ∃ s2, create_new_memory_block fuel s prev (a + space) a = .ok s2 ∧
        s2.mem.read (header_placement a + off_next) = a + space ∧
        s2.mem.read (header_placement a + off_prev) = prev ∧
        s2.mem.read (header_placement a + off_node) = node_placement a ∧
        s2.value (node_placement a) = space - (header_placement a - a) - sizeofHeader ∧
        sizeofNode ≤ s2.value (node_placement a)) ∧
    (∀ space2, space2 < MIN_INIT_SIZE →
      1032 + space2 < node_placement 1032 + sizeofNode ∧
      ∀ (fuel2 : Nat) (s3 : FreeList) (prev2 a2 : Nat),
        create_new_memory_block fuel2 s3 prev2 (a2 + space2) a2 = .ok s3) := by
  obtain ⟨h1, h2, h3, h4⟩ := placement_bounds a
  have hsp : 128 ≤ space := hspace
  have h3b : header_placement a + 24 ≤ node_placement a := h3
  refine ⟨h1, h3, ?_, ?_, ?_⟩
  · unfold sizeofNode; omega
  · intro fuel s t prev ht hsep hblack hfuel hprev
    obtain ⟨s2, hs2, hn, hp, hnode, hval⟩ :=
      create_new_memory_block_spec fuel s t prev (a + space) a ht hsep hblack hfuel hprev
        (by show a + 128 ≤ a + space; omega) hnext
    refine ⟨s2, hs2, hn, hp, hnode, ?_, ?_⟩
    · rw [hval]; unfold sizeofHeader; omega
    · rw [hval]; unfold sizeofHeader sizeofNode; omega
  · intro space2 hs
    refine ⟨?_, fun fuel2 s3 prev2 a2 =>
      create_new_memory_block_too_small fuel2 s3 prev2 a2 space2 hs⟩
    have e : node_placement 1032 = 1120 := by decide
    have hs2 : space2 < 128 := hs
    rw [e]
    unfold sizeofNode
    omega

/-- C33 at a concrete call: the constructor's call for the arena `[1000, 2000)`
on the empty tree. -/
theorem create_new_memory_block_fits_witness :
    1000 < header_placement 1000 ∧
    header_placement 1000 + sizeofHeader ≤ node_placement 1000 ∧
    node_placement 1000 + sizeofNode ≤ 1000 + 1000 ∧
    (∃ s2, create_new_memory_block 10 empty_tree 0 (1000 + 1000) 1000 = .ok s2 ∧
      s2.mem.read (header_placement 1000 + off_next) = 1000 + 1000 ∧
      s2.mem.read (header_placement 1000 + off_prev) = 0 ∧
      s2.mem.read (header_placement 1000 + off_node) = node_placement 1000 ∧
      s2.value (node_placement 1000) = 1000 - (header_placement 1000 - 1000) - sizeofHeader ∧
      sizeofNode ≤ s2.value (node_placement 1000)) ∧
    1032 + 127 < node_placement 1032 + sizeofNode :=
  ⟨(create_new_memory_block_fits 1000 1000 (by decide) (by decide)).1,
    (create_new_memory_block_fits 1000 1000 (by decide) (by decide)).2.1,
    (create_new_memory_block_fits 1000 1000 (by decide) (by decide)).2.2.1,
    (create_new_memory_block_fits 1000 1000 (by decide) (by decide)).2.2.2.1 10 empty_tree .nil 0
      (by decide) (by decide) (by decide) (by decide) (by decide),
    ((create_new_memory_block_fits 1000 1000 (by decide) (by decide)).2.2.2.2 127
      (by decide)).1⟩

/-! ## C34: the value written by a merge to the left -/

set_option maxRecDepth 100000 in
/-- C34 (as the code behaves): on the arena `[1000, 2000)`, after two 4-byte
allocations and the release of the first payload the block 1008 is free again
with the value 168, the number of bytes between the end of its header and the
next header 1200.  `free_raw_ptr 1228` then merges the second block and the free
block behind it into the block 1008: its next header becomes the end sentinel
2000 and its node 1040 gets the value 992, while only 968 bytes lie between the
end of the header and 2000, the value the constructor recorded for the same
header and the same next. -/
theorem merge_left_value_exceeds_block :
    FreeList.construct 10 [] 0 1000 1000 = .ok arena_1000 ∧
      arena_1000.mem.read (1008 + off_next) = 2000 ∧
      arena_1000.mem.read (1008 + off_node) = 1040 ∧
      arena_1000.value 1040 = 968 ∧
      Client.frees_live 20 ⟨arena_1000, []⟩ calls_merge_left = true ∧
      (Client.run 20 ⟨arena_1000, []⟩ [.allocate 4, .allocate 4, .free 1036]).map (fun c =>
        (block_list c.allocator 10 1008,
          (block_list c.allocator 10 1008).map
            (fun h => c.allocator.mem.read (h + off_node)),
          c.allocator.value 1040, c.allocator.value 1400)) =
        .ok ([1008, 1200, 1368], [1040, 0, 1400], 168, 608) ∧
      1200 - 1008 - sizeofHeader = 168 ∧
      (Client.run 20 ⟨arena_1000, []⟩ calls_merge_left).map (fun c =>
        (c.live, block_list c.allocator 10 1008,
          tree_nodes c.allocator 10 c.allocator.m_root)) = .ok ([], [1008], [1040]) ∧
      (Client.run 20 ⟨arena_1000, []⟩ calls_merge_left).map (fun c =>
        (c.allocator.mem.read (1008 + off_next), c.allocator.mem.read (1008 + off_node),
          c.allocator.value 1040)) = .ok (2000, 1040, 992) ∧
      2000 - 1008 - sizeofHeader = 968 := by
  decide

/-! ## C35: an allocation and its release -/

set_option maxRecDepth 100000 in
/-- C35 (as the code behaves): on the fresh arena `[1000, 2000)`, whose tree is
the single BLACK root 1040 of value 968, `allocate_raw_ptr 64` returns 1088 and
`free_raw_ptr 1088` returns.  Afterwards the list holds the block 1008 with the
node 1040 of value 968 again, but the node is its own right child and its own
parent: the tree is not the single root.  The same happens when the word at the
end sentinel 2000, which the allocation reads, holds 1040.  With a request of 4
bytes, which leaves the header in place, the fresh state is restored. -/
theorem allocate_then_free_leaves_cycle :
    FreeList.construct 10 [] 0 1000 1000 = .ok arena_1000 ∧
      block_list arena_1000 10 1008 = [1008] ∧
      arena_1000.mem.read (1008 + off_node) = 1040 ∧
      arena_1000.value 1040 = 968 ∧
      TreeAt arena_1000 (.node .nil 1040 .nil) arena_1000.m_root 0 ∧
      (allocate_raw_ptr 10 arena_1000 64).map Prod.snd = .ok 1088 ∧
      Client.frees_live 20 ⟨arena_1000, []⟩ [.allocate 64, .free 1088] = true ∧
      (Client.run 20 ⟨arena_1000, []⟩ [.allocate 64, .free 1088]).map (fun c =>
        (c.live, block_list c.allocator 10 1008, c.allocator.mem.read (1008 + off_node),
          c.allocator.value 1040)) = .ok ([], [1008], 1040, 968) ∧
      (Client.run 20 ⟨arena_1000, []⟩ [.allocate 64, .free 1088]).map (fun c =>
        (c.allocator.m_root, c.allocator.mem.read (1040 + off_right),
          c.allocator.mem.read (1040 + off_parent),
          decide (TreeAt c.allocator (.node .nil 1040 .nil) c.allocator.m_root 0))) =
        .ok (1040, 1040, 1040, false) ∧
      ((FreeList.construct 10 [(2000, 1040)] 0 1000 1000).bind (fun s =>
        Client.run 20 ⟨s, []⟩ [.allocate 64, .free 1088])).map (fun c =>
        (c.allocator.m_root, c.allocator.mem.read (1040 + off_right),
          c.allocator.mem.read (1040 + off_parent),
          decide (TreeAt c.allocator (.node .nil 1040 .nil) c.allocator.m_root 0))) =
        .ok (1040, 1040, 1040, false) ∧
      (Client.run 20 ⟨arena_1000, []⟩ [.allocate 4, .free 1036]).map (fun c =>
        (block_list c.allocator 10 1008, c.allocator.value 1040, c.allocator.color 1040,
          decide (TreeAt c.allocator (.node .nil 1040 .nil) c.allocator.m_root 0))) =
        .ok ([1008], 968, BLACK, true) := by
  decide

/-! ## The tree code stays inside the tree -/

theorem post_bind {α β : Type} {x : Except Fault α} {f : α → Except Fault β}
    {Q : α → Prop} {R : β → Prop} (hx : Post x Q) (hf : ∀ a, Q a → Post (f a) R) :
    Post (x >>= f) R := by
  intro b hb
  obtain ⟨a, ha, hb⟩ := bind_eq_ok hb
  exact hf a (hx a ha) b hb

theorem post_bind_any {α β : Type} {x : Except Fault α} {f : α → Except Fault β}
    {R : β → Prop} (hf : ∀ a, Post (f a) R) : Post (x >>= f) R := by
  intro b hb
  obtain ⟨a, -, hb⟩ := bind_eq_ok hb
  exact hf a b hb

theorem post_pure {α : Type} {a : α} {Q : α → Prop} (h : Q a) :
    Post (pure a : Except Fault α) Q := by
  intro b hb
  simp only [pure, Except.pure, Except.ok.injEq] at hb
  exact hb ▸ h

theorem post_mono {α : Type} {x : Except Fault α} {Q R : α → Prop} (hx : Post x Q)
    (h : ∀ a, Q a → R a) : Post x R :=
  fun a ha => h a (hx a ha)

theorem keeps_refl {L : List Nat} {s : FreeList} (h : LinksClosed s L) : Keeps L s s :=
  ⟨h, fun _ _ => rfl, fun _ _ => rfl, rfl, rfl, rfl⟩

theorem nodeOrNull_zero (L : List Nat) : NodeOrNull L 0 := Or.inl rfl

theorem nodeOrNull_mem {L : List Nat} {x : Nat} (h : x ∈ L) : NodeOrNull L x := Or.inr h

/-- Writing a field other than `value` of a node of `L`, a link only with a
pointer that stays inside `L`. -/
theorem keeps_write {L : List Nat} {s0 s : FreeList} {p off v : Nat} (hS : Separated L)
    (hK : Keeps L s0 s) (hp : p ∈ L) (hoff : off < sizeofNode) (hval : off ≠ off_value)
    (hv : IsLink off → NodeOrNull L v) :
    Keeps L s0 { s with mem := s.mem.write (p + off) v } := by
  obtain ⟨⟨hr, hc⟩, ho, hvl, he, hl, hm⟩ := hK
  have key : ∀ m ∈ L, ∀ off2, off2 < sizeofNode → off2 ≠ off →
      (s.mem.write (p + off) v).read (m + off2) = s.mem.read (m + off2) := by
    intro m hm off2 h2 hne
    apply read_write_ne
    have := separated_far hS hm hp
    unfold far sizeofNode at *
    omega
  have key2 : ∀ m ∈ L, ∀ off2, off2 < sizeofNode →
      NodeOrNull L (s.mem.read (m + off2)) → IsLink off2 →
      NodeOrNull L ((s.mem.write (p + off) v).read (m + off2)) := by
    intro m hm off2 h2 hn hl2
    by_cases he : m + off2 = p + off
    · rw [he, read_write_eq]
      have := separated_far hS hm hp
      have e : off2 = off := by
        unfold far sizeofNode at *
        omega
      exact hv (e ▸ hl2)
    · rw [read_write_ne _ _ _ _ he]
      exact hn
  refine ⟨⟨hr, ?_⟩, ?_, ?_, he, hl, hm⟩
  · intro m hm
    obtain ⟨h0, h1, h2, h3⟩ := hc m hm
    exact ⟨h0, key2 m hm _ (by decide) h1 (Or.inl rfl), key2 m hm _ (by decide) h2 (Or.inr (Or.inl rfl)),
      key2 m hm _ (by decide) h3 (Or.inr (Or.inr rfl))⟩
  · intro w hw
    show (s.mem.write (p + off) v).read w = _
    rw [read_write_ne, ho w hw]
    have := hw p hp
    omega
  · intro m hm
    show (s.mem.write (p + off) v).read (m + off_value) = _
    rw [key m hm off_value (by decide) (fun h => hval h.symm)]
    exact hvl m hm

theorem post_get {L : List Nat} {s0 s : FreeList} {p off : Nat} (hK : Keeps L s0 s)
    (hp : NodeOrNull L p) (ho : IsLink off) : Post (s.get p off) (NodeOrNull L) := by
  intro a ha
  unfold FreeList.get at ha
  split at ha
  · exact absurd ha (by simp)
  · rename_i h0
    simp only [Except.ok.injEq] at ha
    subst ha
    have hm : p ∈ L := hp.resolve_left h0
    obtain ⟨-, h1, h2, h3⟩ := hK.1.2 p hm
    rcases ho with rfl | rfl | rfl
    · exact h1
    · exact h2
    · exact h3

theorem post_set {L : List Nat} {s0 s : FreeList} {p off v : Nat} (hS : Separated L)
    (hK : Keeps L s0 s) (hp : NodeOrNull L p) (hv : NodeOrNull L v) (ho : IsLink off) :
    Post (s.set p off v) (Keeps L s0) := by
  intro a ha
  unfold FreeList.set at ha
  split at ha
  · exact absurd ha (by simp)
  · rename_i h0
    simp only [Except.ok.injEq] at ha
    subst ha
    refine keeps_write hS hK (hp.resolve_left h0) ?_ ?_ (fun _ => hv)
    · rcases ho with rfl | rfl | rfl <;> decide
    · rcases ho with rfl | rfl | rfl <;> decide

theorem post_set_color {L : List Nat} {s0 s : FreeList} {p v : Nat} (hS : Separated L)
    (hK : Keeps L s0 s) (hp : NodeOrNull L p) :
    Post (s.set p off_color v) (Keeps L s0) := by
  intro a ha
  unfold FreeList.set at ha
  split at ha
  · exact absurd ha (by simp)
  · rename_i h0
    simp only [Except.ok.injEq] at ha
    subst ha
    refine keeps_write hS hK (hp.resolve_left h0) (by decide) (by decide) ?_
    intro h
    rcases h with h | h | h <;> exact absurd h (by decide)

theorem keeps_root {L : List Nat} {s0 s : FreeList} {v : Nat} (hK : Keeps L s0 s)
    (hv : NodeOrNull L v) : Keeps L s0 { s with m_root := v } := by
  obtain ⟨⟨-, hc⟩, ho, hvl, he, hl, hm⟩ := hK
  exact ⟨⟨hv, hc⟩, ho, hvl, he, hl, hm⟩

theorem keeps_root_mem {L : List Nat} {s0 s : FreeList} (hK : Keeps L s0 s) :
    NodeOrNull L s.m_root := hK.1.1

theorem isLink_left : IsLink off_left := Or.inl rfl

theorem isLink_right : IsLink off_right := Or.inr (Or.inl rfl)

theorem isLink_parent : IsLink off_parent := Or.inr (Or.inr rfl)

theorem rotate_node_left_keeps {L : List Nat} {s0 s : FreeList} {t : Nat} (hS : Separated L)
    (hK : Keeps L s0 s) (ht : NodeOrNull L t) : Post (rotate_node_left s t) (Keeps L s0) := by
  unfold rotate_node_left
  split
  · exact post_pure hK
  refine post_bind (post_get hK ht isLink_right) ?_
  intro rc hrc
  refine post_bind (post_get hK hrc isLink_left) ?_
  intro rl hrl
  refine post_bind (post_set hS hK ht hrl isLink_right) ?_
  intro s1 hK1
  refine post_bind (post_get hK1 ht isLink_right) ?_
  intro tr htr
  refine post_bind (Q := Keeps L s0) ?_ ?_
  · split
    · exact post_set hS hK1 htr ht isLink_parent
    · exact post_pure hK1
  intro s2 hK2
  refine post_bind (post_get hK2 ht isLink_parent) ?_
  intro tp0 htp0
  refine post_bind (post_set hS hK2 hrc htp0 isLink_parent) ?_
  intro s3 hK3
  refine post_bind (post_get hK3 ht isLink_parent) ?_
  intro tp htp
  refine post_bind (Q := Keeps L s0) ?_ ?_
  · split
    · exact post_pure (keeps_root hK3 hrc)
    · refine post_bind (post_get hK3 htp isLink_left) ?_
      intro tpl _
      split
      · exact post_set hS hK3 htp hrc isLink_left
      · exact post_set hS hK3 htp hrc isLink_right
  intro s4 hK4
  refine post_bind (post_set hS hK4 hrc ht isLink_left) ?_
  intro s5 hK5
  exact post_set hS hK5 ht hrc isLink_parent

theorem rotate_node_right_keeps {L : List Nat} {s0 s : FreeList} {t : Nat} (hS : Separated L)
    (hK : Keeps L s0 s) (ht : NodeOrNull L t) : Post (rotate_node_right s t) (Keeps L s0) := by
  unfold rotate_node_right
  split
  · exact post_pure hK
  refine post_bind (post_get hK ht isLink_left) ?_
  intro rc hrc
  refine post_bind (post_get hK hrc isLink_right) ?_
  intro rl hrl
  refine post_bind (post_set hS hK ht hrl isLink_left) ?_
  intro s1 hK1
  refine post_bind (post_get hK1 ht isLink_left) ?_
  intro tr htr
  refine post_bind (Q := Keeps L s0) ?_ ?_
  · split
    · exact post_set hS hK1 htr ht isLink_parent
    · exact post_pure hK1
  intro s2 hK2
  refine post_bind (post_get hK2 ht isLink_parent) ?_
  intro tp0 htp0
  refine post_bind (post_set hS hK2 hrc htp0 isLink_parent) ?_
  intro s3 hK3
  refine post_bind (post_get hK3 ht isLink_parent) ?_
  intro tp htp
  refine post_bind (Q := Keeps L s0) ?_ ?_
  · split
    · exact post_pure (keeps_root hK3 hrc)
    · refine post_bind (post_get hK3 htp isLink_left) ?_
      intro tpl _
      split
      · exact post_set hS hK3 htp hrc isLink_left
      · exact post_set hS hK3 htp hrc isLink_right
  intro s4 hK4
  refine post_bind (post_set hS hK4 hrc ht isLink_right) ?_
  intro s5 hK5
  exact post_set hS hK5 ht hrc isLink_parent

theorem transplant_node_keeps {L : List Nat} {s0 s : FreeList} {d src : Nat} (hS : Separated L)
    (hK : Keeps L s0 s) (hd : NodeOrNull L d) (hsrc : NodeOrNull L src) :
    Post (transplant_node s d src) (Keeps L s0) := by
  unfold transplant_node
  split
  · exact post_pure hK
  refine post_bind (post_get hK hd isLink_parent) ?_
  intro dp hdp
  refine post_bind (Q := Keeps L s0) ?_ ?_
  · split
    · exact post_pure (keeps_root hK hsrc)
    · refine post_bind_any ?_
      intro dpl
      split
      · exact post_set hS hK hdp hsrc isLink_left
      · exact post_set hS hK hdp hsrc isLink_right
  intro s1 hK1
  split
  · refine post_bind (post_get hK1 hd isLink_parent) ?_
    intro dp2 hdp2
    exact post_set hS hK1 hsrc hdp2 isLink_parent
  · exact post_pure hK1

theorem get_smallest_loop_keeps {L : List Nat} {s0 s : FreeList} (hK : Keeps L s0 s) :
    ∀ fuel t, NodeOrNull L t → Post (get_smallest_loop fuel s t) (NodeOrNull L) := by
  intro fuel
  induction fuel with
  | zero =>
    intro t _ a ha
    exact absurd ha (by simp [get_smallest_loop])
  | succ fuel ih =>
    intro t ht
    unfold get_smallest_loop
    refine post_bind_any ?_
    intro tl
    split
    · refine post_bind (post_get hK ht isLink_left) ?_
      intro t2 ht2
      exact ih t2 ht2
    · exact post_pure ht

theorem get_smallest_in_subtree_keeps {L : List Nat} {s0 s : FreeList} (hK : Keeps L s0 s)
    (fuel : Nat) {t : Nat} (ht : NodeOrNull L t) :
    Post (get_smallest_in_subtree fuel s t) (NodeOrNull L) := by
  unfold get_smallest_in_subtree
  split
  · exact post_pure (nodeOrNull_zero L)
  · exact get_smallest_loop_keeps hK fuel t ht

theorem swap_color_keeps {L : List Nat} {s0 s : FreeList} {a b : Nat} (hS : Separated L)
    (hK : Keeps L s0 s) (ha : NodeOrNull L a) (hb : NodeOrNull L b) :
    Post (swap_color s a b) (Keeps L s0) := by
  unfold swap_color
  refine post_bind_any ?_
  intro ca
  refine post_bind_any ?_
  intro cb
  refine post_bind (post_set_color hS hK ha) ?_
  intro s1 hK1
  exact post_set_color hS hK1 hb

theorem fix_insert_loop_keeps {L : List Nat} {s0 : FreeList} (hS : Separated L) :
    ∀ fuel s c, Keeps L s0 s → NodeOrNull L c → Post (fix_insert_loop fuel s c) (Keeps L s0) := by
  intro fuel
  induction fuel with
  | zero =>
    intro s c _ _ a ha
    exact absurd ha (by simp [fix_insert_loop])
  | succ fuel ih =>
    intro s c hK hc
    unfold fix_insert_loop
    refine post_bind_any ?_
    intro cont
    split
    · refine post_bind (post_get hK hc isLink_parent) ?_
      intro pn hpn
      refine post_bind (post_get hK hpn isLink_parent) ?_
      intro g hg
      refine post_bind_any ?_
      intro gl
      split
      · refine post_bind (post_get hK hg isLink_right) ?_
        intro u hu
        refine post_bind_any ?_
        intro ured
        split
        · refine post_bind (post_set_color hS hK hg) ?_
          intro s1 hK1
          refine post_bind (post_set_color hS hK1 hpn) ?_
          intro s2 hK2
          refine post_bind (post_set_color hS hK2 hu) ?_
          intro s3 hK3
          exact ih s3 g hK3 hg
        · refine post_bind_any ?_
          intro pr
          refine post_bind (Q := fun r => Keeps L s0 r.1 ∧ NodeOrNull L r.2) ?_ ?_
          · split
            · refine post_bind (rotate_node_left_keeps hS hK hpn) ?_
              intro s1 hK1
              refine post_bind (post_get hK1 hpn isLink_parent) ?_
              intro p2 hp2
              exact post_pure ⟨hK1, hp2⟩
            · exact post_pure ⟨hK, hpn⟩
          rintro ⟨s1, p1⟩ ⟨hK1, hp1⟩
          dsimp only
          refine post_bind (rotate_node_right_keeps hS hK1 hg) ?_
          intro s2 hK2
          refine post_bind (swap_color_keeps hS hK2 hp1 hg) ?_
          intro s3 hK3
          exact ih s3 p1 hK3 hp1
      · refine post_bind (post_get hK hg isLink_left) ?_
        intro u hu
        refine post_bind_any ?_
        intro ured
        split
        · refine post_bind (post_set_color hS hK hg) ?_
          intro s1 hK1
          refine post_bind (post_set_color hS hK1 hpn) ?_
          intro s2 hK2
          refine post_bind (post_set_color hS hK2 hu) ?_
          intro s3 hK3
          exact ih s3 g hK3 hg
        · refine post_bind_any ?_
          intro pr
          refine post_bind (Q := fun r => Keeps L s0 r.1 ∧ NodeOrNull L r.2) ?_ ?_
          · split
            · refine post_bind (rotate_node_right_keeps hS hK hpn) ?_
              intro s1 hK1
              refine post_bind (post_get hK1 hpn isLink_parent) ?_
              intro p2 hp2
              exact post_pure ⟨hK1, hp2⟩
            · exact post_pure ⟨hK, hpn⟩
          rintro ⟨s1, p1⟩ ⟨hK1, hp1⟩
          dsimp only
          refine post_bind (rotate_node_left_keeps hS hK1 hg) ?_
          intro s2 hK2
          refine post_bind (swap_color_keeps hS hK2 hp1 hg) ?_
          intro s3 hK3
          exact ih s3 p1 hK3 hp1
    · exact post_pure hK

theorem fix_insert_node_violations_keeps {L : List Nat} {s0 s : FreeList} (hS : Separated L)
    (fuel : Nat) {c : Nat} (hK : Keeps L s0 s) (hc : NodeOrNull L c) :
    Post (fix_insert_node_violations fuel s c) (Keeps L s0) := by
  unfold fix_insert_node_violations
  split
  · exact post_pure hK
  refine post_bind (fix_insert_loop_keeps hS fuel s c hK hc) ?_
  intro s1 hK1
  exact post_set_color hS hK1 (keeps_root_mem hK1)

theorem insert_descend_keeps {L : List Nat} {s0 s : FreeList} (hK : Keeps L s0 s) (n : Nat) :
    ∀ fuel c par, NodeOrNull L c → NodeOrNull L par →
      Post (insert_descend fuel s n c par) (NodeOrNull L) := by
  intro fuel
  induction fuel with
  | zero =>
    intro c par _ _ a ha
    exact absurd ha (by simp [insert_descend])
  | succ fuel ih =>
    intro c par hc hpar
    unfold insert_descend
    split
    · refine post_bind_any ?_
      intro nv
      refine post_bind_any ?_
      intro cv
      split
      · refine post_bind (post_get hK hc isLink_left) ?_
        intro l hl
        exact ih l c hl hc
      · refine post_bind (post_get hK hc isLink_right) ?_
        intro r hr
        exact ih r c hr hc
    · exact post_pure hpar

/-- The call `insert_node n` for a node `n` of `L` stays inside `L`. -/
theorem insert_node_keeps {L : List Nat} {s0 s : FreeList} (hS : Separated L) (fuel : Nat)
    {n : Nat} (hK : Keeps L s0 s) (hn : NodeOrNull L n) :
    Post (insert_node fuel s n) (Keeps L s0) := by
  unfold insert_node
  split
  · exact post_pure hK
  refine post_bind (post_set hS hK hn (nodeOrNull_zero L) isLink_left) ?_
  intro s1 hK1
  refine post_bind (post_set hS hK1 hn (nodeOrNull_zero L) isLink_right) ?_
  intro s2 hK2
  refine post_bind (post_set_color hS hK2 hn) ?_
  intro s3 hK3
  refine post_bind (insert_descend_keeps hK3 n fuel _ _ (keeps_root_mem hK3) (nodeOrNull_zero L)) ?_
  intro par hpar
  refine post_bind (post_set hS hK3 hn hpar isLink_parent) ?_
  intro s4 hK4
  refine post_bind (Q := Keeps L s0) ?_ ?_
  · split
    · exact post_pure (keeps_root hK4 hn)
    · refine post_bind_any ?_
      intro nv
      refine post_bind_any ?_
      intro pv
      split
      · exact post_set hS hK4 hpar hn isLink_left
      · exact post_set hS hK4 hpar hn isLink_right
  intro s5 hK5
  exact fix_insert_node_violations_keeps hS fuel hK5 hn

/-! ## Removal stays inside the tree -/

theorem fix_remove_left_keeps {L : List Nat} {s0 s : FreeList} {c : Nat} (hS : Separated L)
    (hK : Keeps L s0 s) (hc : NodeOrNull L c) :
    Post (fix_remove_left s c) (fun r => Keeps L s0 r.1 ∧ NodeOrNull L r.2) := by
  unfold fix_remove_left
  refine post_bind (post_get hK hc isLink_parent) ?_
  intro cp hcp
  refine post_bind (post_get hK hcp isLink_right) ?_
  intro sib hsib
  refine post_bind_any ?_
  intro sc
  refine post_bind (Q := fun r => Keeps L s0 r.1 ∧ NodeOrNull L r.2) ?_ ?_
  · split
    · refine post_bind (post_set_color hS hK hsib) ?_
      intro s1 hK1
      refine post_bind (post_get hK1 hc isLink_parent) ?_
      intro cp1 hcp1
      refine post_bind (post_set_color hS hK1 hcp1) ?_
      intro s2 hK2
      refine post_bind (post_get hK2 hc isLink_parent) ?_
      intro cp2 hcp2
      refine post_bind (rotate_node_left_keeps hS hK2 hcp2) ?_
      intro s3 hK3
      refine post_bind (post_get hK3 hc isLink_parent) ?_
      intro cp3 hcp3
      refine post_bind (post_get hK3 hcp3 isLink_right) ?_
      intro sib3 hsib3
      exact post_pure ⟨hK3, hsib3⟩
    · exact post_pure ⟨hK, hsib⟩
  rintro ⟨s1, sib1⟩ ⟨hK1, hsib1⟩
  dsimp only
  refine post_bind_any ?_
  intro bb
  split
  · refine post_bind (post_set_color hS hK1 hsib1) ?_
    intro s2 hK2
    refine post_bind (post_get hK2 hc isLink_parent) ?_
    intro cp2 hcp2
    exact post_pure ⟨hK2, hcp2⟩
  · refine post_bind (post_get hK1 hsib1 isLink_right) ?_
    intro sr hsr
    refine post_bind_any ?_
    intro rb
    refine post_bind (Q := fun r => Keeps L s0 r.1 ∧ NodeOrNull L r.2) ?_ ?_
    · split
      · refine post_bind (post_get hK1 hsib1 isLink_left) ?_
        intro sl hsl
        refine post_bind (Q := Keeps L s0) ?_ ?_
        · split
          · exact post_set_color hS hK1 hsl
          · exact post_pure hK1
        intro s2 hK2
        refine post_bind (post_set_color hS hK2 hsib1) ?_
        intro s3 hK3
        refine post_bind (rotate_node_right_keeps hS hK3 hsib1) ?_
        intro s4 hK4
        refine post_bind (post_get hK4 hc isLink_parent) ?_
        intro cp4 hcp4
        refine post_bind (post_get hK4 hcp4 isLink_right) ?_
        intro sib4 hsib4
        exact post_pure ⟨hK4, hsib4⟩
      · exact post_pure ⟨hK1, hsib1⟩
    rintro ⟨s2, sib2⟩ ⟨hK2, hsib2⟩
    dsimp only
    refine post_bind (post_get hK2 hc isLink_parent) ?_
    intro cp2 hcp2
    refine post_bind_any ?_
    intro cpc
    refine post_bind (post_set_color hS hK2 hsib2) ?_
    intro s3 hK3
    refine post_bind (post_get hK3 hsib2 isLink_parent) ?_
    intro sp hsp
    refine post_bind (post_set_color hS hK3 hsp) ?_
    intro s4 hK4
    refine post_bind (post_get hK4 hsib2 isLink_right) ?_
    intro sr4 hsr4
    refine post_bind (Q := Keeps L s0) ?_ ?_
    · split
      · exact post_set_color hS hK4 hsr4
      · exact post_pure hK4
    intro s5 hK5
    refine post_bind (post_get hK5 hc isLink_parent) ?_
    intro cp5 hcp5
    refine post_bind (rotate_node_right_keeps hS hK5 hcp5) ?_
    intro s6 hK6
    exact post_pure ⟨hK6, keeps_root_mem hK6⟩

theorem fix_remove_right_keeps {L : List Nat} {s0 s : FreeList} {c : Nat} (hS : Separated L)
    (hK : Keeps L s0 s) (hc : NodeOrNull L c) :
    Post (fix_remove_right s c) (fun r => Keeps L s0 r.1 ∧ NodeOrNull L r.2) := by
  unfold fix_remove_right
  refine post_bind (post_get hK hc isLink_parent) ?_
  intro cp hcp
  refine post_bind (post_get hK hcp isLink_left) ?_
  intro sib hsib
  refine post_bind_any ?_
  intro sc
  refine post_bind (Q := fun r => Keeps L s0 r.1 ∧ NodeOrNull L r.2) ?_ ?_
  · split
    · refine post_bind (post_set_color hS hK hsib) ?_
      intro s1 hK1
      refine post_bind (post_get hK1 hc isLink_parent) ?_
      intro cp1 hcp1
      refine post_bind (post_set_color hS hK1 hcp1) ?_
      intro s2 hK2
      refine post_bind (post_get hK2 hc isLink_parent) ?_
      intro cp2 hcp2
      refine post_bind (rotate_node_right_keeps hS hK2 hcp2) ?_
      intro s3 hK3
      refine post_bind (post_get hK3 hc isLink_parent) ?_
      intro cp3 hcp3
      refine post_bind (post_get hK3 hcp3 isLink_left) ?_
      intro sib3 hsib3
      exact post_pure ⟨hK3, hsib3⟩
    · exact post_pure ⟨hK, hsib⟩
  rintro ⟨s1, sib1⟩ ⟨hK1, hsib1⟩
  dsimp only
  refine post_bind_any ?_
  intro bb
  split
  · refine post_bind (post_set_color hS hK1 hsib1) ?_
    intro s2 hK2
    refine post_bind (post_get hK2 hc isLink_parent) ?_
    intro cp2 hcp2
    exact post_pure ⟨hK2, hcp2⟩
  · refine post_bind (post_get hK1 hsib1 isLink_left) ?_
    intro sl hsl
    refine post_bind_any ?_
    intro lb
    refine post_bind (Q := fun r => Keeps L s0 r.1 ∧ NodeOrNull L r.2) ?_ ?_
    · split
      · refine post_bind (post_get hK1 hsib1 isLink_right) ?_
        intro sr hsr
        refine post_bind (Q := Keeps L s0) ?_ ?_
        · split
          · exact post_set_color hS hK1 hsr
          · exact post_pure hK1
        intro s2 hK2
        refine post_bind (post_set_color hS hK2 hsib1) ?_
        intro s3 hK3
        refine post_bind (rotate_node_left_keeps hS hK3 hsib1) ?_
        intro s4 hK4
        refine post_bind (post_get hK4 hc isLink_parent) ?_
        intro cp4 hcp4
        refine post_bind (post_get hK4 hcp4 isLink_left) ?_
        intro sib4 hsib4
        exact post_pure ⟨hK4, hsib4⟩
      · exact post_pure ⟨hK1, hsib1⟩
    rintro ⟨s2, sib2⟩ ⟨hK2, hsib2⟩
    dsimp only
    refine post_bind (post_get hK2 hc isLink_parent) ?_
    intro cp2 hcp2
    refine post_bind_any ?_
    intro cpc
    refine post_bind (post_set_color hS hK2 hsib2) ?_
    intro s3 hK3
    refine post_bind (post_get hK3 hc isLink_parent) ?_
    intro cp3 hcp3
    refine post_bind (post_set_color hS hK3 hcp3) ?_
    intro s4 hK4
    refine post_bind (post_get hK4 hsib2 isLink_left) ?_
    intro sl4 hsl4
    refine post_bind (Q := Keeps L s0) ?_ ?_
    · split
      · exact post_set_color hS hK4 hsl4
      · exact post_pure hK4
    intro s5 hK5
    refine post_bind (post_get hK5 hc isLink_parent) ?_
    intro cp5 hcp5
    refine post_bind (rotate_node_right_keeps hS hK5 hcp5) ?_
    intro s6 hK6
    exact post_pure ⟨hK6, keeps_root_mem hK6⟩

theorem fix_remove_loop_keeps {L : List Nat} {s0 : FreeList} (hS : Separated L) :
    ∀ fuel s c, Keeps L s0 s → NodeOrNull L c →
      Post (fix_remove_loop fuel s c) (fun r => Keeps L s0 r.1 ∧ NodeOrNull L r.2) := by
  intro fuel
  induction fuel with
  | zero =>
    intro s c _ _ a ha
    exact absurd ha (by simp [fix_remove_loop])
  | succ fuel ih =>
    intro s c hK hc
    unfold fix_remove_loop
    split
    · exact post_pure ⟨hK, hc⟩
    refine post_bind_any ?_
    intro col
    split
    · refine post_bind (post_get hK hc isLink_parent) ?_
      intro cp hcp
      refine post_bind_any ?_
      intro cpl
      split
      · refine post_bind (fix_remove_left_keeps hS hK hc) ?_
        rintro ⟨s1, c1⟩ ⟨hK1, hc1⟩
        exact ih s1 c1 hK1 hc1
      · refine post_bind (fix_remove_right_keeps hS hK hc) ?_
        rintro ⟨s1, c1⟩ ⟨hK1, hc1⟩
        exact ih s1 c1 hK1 hc1
    · exact post_pure ⟨hK, hc⟩

theorem fix_remove_node_violations_keeps {L : List Nat} {s0 s : FreeList} (hS : Separated L)
    (fuel : Nat) {c : Nat} (hK : Keeps L s0 s) (hc : NodeOrNull L c) :
    Post (fix_remove_node_violations fuel s c) (Keeps L s0) := by
  unfold fix_remove_node_violations
  split
  · exact post_pure hK
  refine post_bind (fix_remove_loop_keeps hS fuel s c hK hc) ?_
  rintro ⟨s1, c1⟩ ⟨hK1, hc1⟩
  exact post_set_color hS hK1 hc1

theorem remove_node_both_keeps {L : List Nat} {s0 s : FreeList} (hS : Separated L)
    (fuel : Nat) {t : Nat} (hK : Keeps L s0 s) (ht : NodeOrNull L t) :
    Post (remove_node_both fuel s t) (fun r => Keeps L s0 r.1 ∧ NodeOrNull L r.2.2) := by
  unfold remove_node_both
  refine post_bind (post_get hK ht isLink_right) ?_
  intro tr htr
  refine post_bind (get_smallest_in_subtree_keeps hK fuel htr) ?_
  intro tmp htmp
  refine post_bind_any ?_
  intro oc
  refine post_bind (post_get hK htmp isLink_right) ?_
  intro rep hrep
  refine post_bind_any ?_
  intro tp
  refine post_bind (Q := Keeps L s0) ?_ ?_
  · split
    · exact post_set hS hK hrep htmp isLink_parent
    · refine post_bind (post_get hK htmp isLink_right) ?_
      intro r hr
      refine post_bind (transplant_node_keeps hS hK htmp hr) ?_
      intro s1 hK1
      refine post_bind (post_get hK1 ht isLink_right) ?_
      intro tr1 htr1
      refine post_bind (post_set hS hK1 htmp htr1 isLink_right) ?_
      intro s2 hK2
      refine post_bind (post_get hK2 htmp isLink_right) ?_
      intro r2 hr2
      split
      · exact post_set hS hK2 hr2 htmp isLink_parent
      · exact post_pure hK2
  intro s1 hK1
  refine post_bind (transplant_node_keeps hS hK1 ht htmp) ?_
  intro s2 hK2
  refine post_bind (post_get hK2 ht isLink_left) ?_
  intro tl htl
  refine post_bind (post_set hS hK2 htmp htl isLink_left) ?_
  intro s3 hK3
  refine post_bind (post_get hK3 htmp isLink_left) ?_
  intro l hl
  refine post_bind (Q := Keeps L s0) ?_ ?_
  · split
    · exact post_set hS hK3 hl htmp isLink_parent
    · exact post_pure hK3
  intro s4 hK4
  refine post_bind_any ?_
  intro tc
  refine post_bind (post_set_color hS hK4 htmp) ?_
  intro s5 hK5
  exact post_pure ⟨hK5, hrep⟩

/-- The call `remove_node t` for a node `t` of `L` stays inside `L`. -/
theorem remove_node_keeps {L : List Nat} {s0 s : FreeList} (hS : Separated L) (fuel : Nat)
    {t : Nat} (hK : Keeps L s0 s) (ht : NodeOrNull L t) :
    Post (remove_node fuel s t) (Keeps L s0) := by
  unfold remove_node
  split
  · exact post_pure hK
  refine post_bind_any ?_
  intro oc
  refine post_bind_any ?_
  intro tl
  refine post_bind (Q := fun r => Keeps L s0 r.1 ∧ NodeOrNull L r.2.2) ?_ ?_
  · split
    · refine post_bind (post_get hK ht isLink_right) ?_
      intro rep hrep
      refine post_bind (post_get hK ht isLink_right) ?_
      intro r hr
      refine post_bind (transplant_node_keeps hS hK ht hr) ?_
      intro s1 hK1
      exact post_pure ⟨hK1, hrep⟩
    · refine post_bind_any ?_
      intro tr
      split
      · refine post_bind (post_get hK ht isLink_left) ?_
        intro rep hrep
        refine post_bind (post_get hK ht isLink_left) ?_
        intro l hl
        refine post_bind (transplant_node_keeps hS hK ht hl) ?_
        intro s1 hK1
        exact post_pure ⟨hK1, hrep⟩
      · exact remove_node_both_keeps hS fuel hK ht
  rintro ⟨s1, oc1, rep1⟩ ⟨hK1, hrep1⟩
  dsimp only
  split
  · exact fix_remove_node_violations_keeps hS fuel hK1 hrep1
  · exact post_pure hK1

/-! ## The search stays inside the tree -/

theorem search_descend_keeps {L : List Nat} {s : FreeList} (hC : LinksClosed s L) (r : Nat) :
    ∀ fuel c par, NodeOrNull L c → NodeOrNull L par →
      Post (search_descend fuel s r c par) (NodeOrNull L) := by
  have hK := keeps_refl hC
  intro fuel
  induction fuel with
  | zero =>
    intro c par _ _ a ha
    exact absurd ha (by simp [search_descend])
  | succ fuel ih =>
    intro c par hc hpar
    unfold search_descend
    split
    · refine post_bind_any ?_
      intro v
      split
      · exact post_pure hc
      · split
        · refine post_bind (post_get hK hc isLink_left) ?_
          intro l hl
          exact ih l c hl hc
        · refine post_bind (post_get hK hc isLink_right) ?_
          intro l hl
          exact ih l c hl hc
    · exact post_pure hpar

theorem search_ascend_keeps {L : List Nat} {s : FreeList} (hC : LinksClosed s L) (r : Nat) :
    ∀ fuel par, NodeOrNull L par →
      Post (search_ascend fuel s r par) (fun n => NodeOrNull L n ∧ (n ≠ 0 → r ≤ s.value n)) := by
  have hK := keeps_refl hC
  intro fuel
  induction fuel with
  | zero =>
    intro par _ a ha
    exact absurd ha (by simp [search_ascend])
  | succ fuel ih =>
    intro par hpar
    unfold search_ascend
    split
    · rename_i hp0
      intro a ha
      rw [get_ok _ _ hp0] at ha
      simp only [bind, Except.bind] at ha
      split at ha
      · obtain ⟨p, hp, ha⟩ := bind_eq_ok ha
        rw [get_ok _ _ hp0] at hp
        simp only [Except.ok.injEq] at hp
        subst hp
        exact ih _ ((post_get hK hpar isLink_parent) _ (get_ok _ _ hp0)) a ha
      · rename_i hle
        simp only [pure, Except.pure, Except.ok.injEq] at ha
        subst ha
        exact ⟨hpar, fun _ => by unfold FreeList.value; omega⟩
    · rename_i h0
      have e : par = 0 := by
        by_contra h
        exact h0 h
      subst e
      exact post_pure ⟨nodeOrNull_zero L, fun h => absurd rfl h⟩

/-- The node `search_best_fit` returns is `NULL` or a node of `L` whose value is
at least the size searched for. -/
theorem search_best_fit_keeps {L : List Nat} {s : FreeList} (hC : LinksClosed s L)
    (fuel r : Nat) :
    Post (search_best_fit fuel s r) (fun n => NodeOrNull L n ∧ (n ≠ 0 → r ≤ s.value n)) := by
  unfold search_best_fit
  refine post_bind (search_descend_keeps hC r fuel _ _ hC.1 (nodeOrNull_zero L)) ?_
  intro par hpar
  exact search_ascend_keeps hC r fuel par hpar

/-! ## The block list -/

theorem seg_le (s : FreeList) : ∀ bs h e, Seg s bs h e → h ≤ e ∧ ∀ x ∈ bs, h ≤ x ∧ x < e := by
  intro bs
  induction bs with
  | nil =>
    intro h e hs
    exact ⟨le_of_eq hs, fun x hx => absurd hx (List.not_mem_nil x)⟩
  | cons b rest ih =>
    intro h e hs
    obtain ⟨rfl, hlt, hr⟩ := hs
    obtain ⟨h1, h2⟩ := ih _ _ hr
    refine ⟨by omega, ?_⟩
    intro x hx
    rcases List.mem_cons.1 hx with rfl | hx
    · exact ⟨le_refl _, by omega⟩
    · have := h2 x hx
      exact ⟨by omega, this.2⟩

theorem seg_append (s : FreeList) : ∀ xs ys h m e, Seg s xs h m → Seg s ys m e →
    Seg s (xs ++ ys) h e := by
  intro xs
  induction xs with
  | nil =>
    intro ys h m e h1 h2
    have e1 : h = m := h1
    subst e1
    exact h2
  | cons b rest ih =>
    intro ys h m e h1 h2
    obtain ⟨rfl, hlt, hr⟩ := h1
    exact ⟨rfl, hlt, ih ys _ m e hr h2⟩

/-- Rebuilding a chain of blocks in another state: every block `x` of the old
chain is replaced by the blocks `f x`, which lead from `g x` to `g` of the old
next header. -/
theorem seg_flatMap (s s2 : FreeList) (f : Nat → List Nat) (g : Nat → Nat) (e : Nat) :
    ∀ bs h, Seg s bs h e →
      (∀ x ∈ bs, Seg s2 (f x) (g x) (g (s.mem.read (x + off_next)))) →
      Seg s2 (bs.flatMap f) (g h) (g e) := by
  intro bs
  induction bs with
  | nil =>
    intro h hs _
    have e1 : h = e := hs
    subst e1
    exact rfl
  | cons b rest ih =>
    intro h hs hloc
    obtain ⟨rfl, hlt, hr⟩ := hs
    rw [List.flatMap_cons]
    exact seg_append s2 _ _ _ _ _ (hloc h (List.mem_cons_self _ _))
      (ih _ hr (fun x hx => hloc x (List.mem_cons_of_mem _ hx)))

/-- A chain of blocks up to the end sentinel is what the walk along `next`
finds. -/
theorem seg_walk (s : FreeList) : ∀ bs h, Seg s bs h s.m_end_of_memory →
    ∀ k, bs.length ≤ k → block_list s k h = bs ∧ ascends_to_end s k h = true := by
  intro bs
  induction bs with
  | nil =>
    intro h hs k _
    have e1 : h = s.m_end_of_memory := hs
    subst e1
    cases k with
    | zero => simp [block_list, ascends_to_end]
    | succ k => simp [block_list, ascends_to_end]
  | cons b rest ih =>
    intro h hs k hk
    have hlt := (seg_le s _ _ _ hs).2 b (List.mem_cons_self _ _)
    obtain ⟨rfl, hlt2, hr⟩ := hs
    cases k with
    | zero => simp at hk
    | succ k =>
      have hne : h ≠ s.m_end_of_memory := by omega
      obtain ⟨h1, h2⟩ := ih _ hr k (by simpa using hk)
      simp [block_list, ascends_to_end, hne, h1, h2, hlt2]

theorem linked_seg (s : FreeList) : ∀ bs h p, Linked s bs h p → Seg s bs h s.m_end_of_memory := by
  intro bs
  induction bs with
  | nil =>
    intro h p hl
    exact hl
  | cons b rest ih =>
    intro h p hl
    obtain ⟨rfl, h0, -, hn, hr⟩ := hl
    refine ⟨rfl, ?_, ih _ _ hr⟩
    unfold sizeofHeader at hn
    omega

theorem linked_mem (s : FreeList) : ∀ bs h p, Linked s bs h p →
    ∀ y ∈ bs, h ≤ y ∧ y ≠ 0 ∧ y + sizeofHeader ≤ s.mem.read (y + off_next) ∧
      s.mem.read (y + off_next) ≤ s.m_end_of_memory := by
  intro bs
  induction bs with
  | nil =>
    intro h p _ y hy
    exact absurd hy (List.not_mem_nil y)
  | cons b rest ih =>
    intro h p hl y hy
    have hs := linked_seg s _ _ _ hl
    obtain ⟨rfl, h0, -, hn, hr⟩ := hl
    obtain ⟨-, -, hs2⟩ := hs
    have hle := (seg_le s _ _ _ hs2).1
    rcases List.mem_cons.1 hy with rfl | hy
    · exact ⟨le_refl _, h0, hn, hle⟩
    · obtain ⟨h1, h2, h3, h4⟩ := ih _ _ hr y hy
      refine ⟨?_, h2, h3, h4⟩
      unfold sizeofHeader at hn
      omega

theorem linked_pairwise (s : FreeList) : ∀ bs h p, Linked s bs h p →
    bs.Pairwise (fun x y => s.mem.read (x + off_next) ≤ y) := by
  intro bs
  induction bs with
  | nil =>
    intro h p _
    exact List.Pairwise.nil
  | cons b rest ih =>
    intro h p hl
    obtain ⟨rfl, h0, -, hn, hr⟩ := hl
    refine List.pairwise_cons.2 ⟨?_, ih _ _ hr⟩
    intro y hy
    exact (linked_mem s _ _ _ hr y hy).1

/-- Two blocks of the list: the same block, or one lies behind the other. -/
theorem linked_apart {s : FreeList} {bs : List Nat} {h p : Nat} (hl : Linked s bs h p)
    {x y : Nat} (hx : x ∈ bs) (hy : y ∈ bs) :
    x = y ∨ s.mem.read (x + off_next) ≤ y ∨ s.mem.read (y + off_next) ≤ x := by
  by_cases hxy : x = y
  · exact Or.inl hxy
  · exact Or.inr (List.Pairwise.forall (R := fun x y => s.mem.read (x + off_next) ≤ y ∨
      s.mem.read (y + off_next) ≤ x) (fun _ _ h => h.symm)
      ((linked_pairwise s _ _ _ hl).imp (fun h => Or.inl h)) hx hy hxy)

/-- The block after a block of the list: the end sentinel, or the block whose
`prev` it is. -/
theorem linked_succ (s : FreeList) : ∀ bs h p, Linked s bs h p →
    ∀ x ∈ bs, s.mem.read (x + off_next) = s.m_end_of_memory ∨
      (s.mem.read (x + off_next) ∈ bs ∧
        s.mem.read (s.mem.read (x + off_next) + off_prev) = x) := by
  intro bs
  induction bs with
  | nil =>
    intro h p _ x hx
    exact absurd hx (List.not_mem_nil x)
  | cons b rest ih =>
    intro h p hl x hx
    obtain ⟨rfl, h0, -, hn, hr⟩ := hl
    rcases List.mem_cons.1 hx with rfl | hx
    · cases rest with
      | nil => exact Or.inl hr
      | cons c rest2 =>
        obtain ⟨e1, -, e2, -⟩ := hr
        refine Or.inr ⟨?_, ?_⟩
        · rw [e1]
          exact List.mem_cons_of_mem _ (List.mem_cons_self _ _)
        · rw [e1]
          exact e2
    · rcases ih _ _ hr x hx with h1 | ⟨h1, h2⟩
      · exact Or.inl h1
      · exact Or.inr ⟨List.mem_cons_of_mem _ h1, h2⟩

/-- The block before a block of the list: none for the first block, whose `prev`
is `p`, and else the block whose `next` it is. -/
theorem linked_pred (s : FreeList) : ∀ bs h p, Linked s bs h p →
    ∀ b ∈ bs, (b = h ∧ s.mem.read (b + off_prev) = p) ∨
      (s.mem.read (b + off_prev) ∈ bs ∧
        s.mem.read (s.mem.read (b + off_prev) + off_next) = b) := by
  intro bs
  induction bs with
  | nil =>
    intro h p _ x hx
    exact absurd hx (List.not_mem_nil x)
  | cons b rest ih =>
    intro h p hl x hx
    obtain ⟨rfl, h0, hp, hn, hr⟩ := hl
    rcases List.mem_cons.1 hx with rfl | hx
    · exact Or.inl ⟨rfl, hp⟩
    · rcases ih _ _ hr x hx with ⟨h1, h2⟩ | ⟨h1, h2⟩
      · refine Or.inr ⟨?_, ?_⟩
        · rw [h2]
          exact List.mem_cons_self _ _
        · rw [h2]
          exact h1.symm
      · exact Or.inr ⟨List.mem_cons_of_mem _ h1, h2⟩

/-! ## A free list in order -/

theorem mem_free_nodes {s : FreeList} {bs : List Nat} {m : Nat} :
    m ∈ free_nodes s bs ↔ m ≠ 0 ∧ ∃ y ∈ bs, s.mem.read (y + off_node) = m := by
  unfold free_nodes
  simp only [List.mem_filter, List.mem_map, decide_eq_true_eq]
  constructor
  · rintro ⟨⟨y, hy, e⟩, h0⟩
    exact ⟨h0, y, hy, e⟩
  · rintro ⟨h0, y, hy, e⟩
    exact ⟨⟨y, hy, e⟩, h0⟩

/-- A node whose header placement is the non-null header `b` lies right behind
it, and `b` is a multiple of `sizeof(Header)`. -/
theorem header_placement_bounds {n b : Nat} (h : get_header_placement_from_ptr n = b)
    (hb : b ≠ 0) : b + sizeofHeader ≤ n ∧ n < b + 2 * sizeofHeader ∧ b % sizeofHeader = 0 := by
  unfold get_header_placement_from_ptr at h
  split at h
  · exact absurd h.symm hb
  · simp only at h
    unfold sizeofHeader at *
    have h1 : (n - 24) % 24 < 24 := Nat.mod_lt _ (by decide)
    have h2 : (n - 24) % 24 ≤ n - 24 := Nat.mod_le _ _
    have h3 : 24 ∣ (n - 24) - (n - 24) % 24 := Nat.dvd_sub_mod _
    rw [h] at h3
    have h4 : b % 24 = 0 := Nat.mod_eq_zero_of_dvd h3
    omega

/-- Where the node of a free block lies. -/
theorem freeBlockOk_node {s : FreeList} {b : Nat} (hb : b ≠ 0) (h : FreeBlockOk s b)
    (hn : s.mem.read (b + off_node) ≠ 0) :
    b + sizeofHeader ≤ s.mem.read (b + off_node) ∧
      s.mem.read (b + off_node) < b + 2 * sizeofHeader ∧ b % sizeofHeader = 0 ∧
      s.mem.read (b + off_node) + sizeofNode ≤ s.mem.read (b + off_next) ∧
      s.value (s.mem.read (b + off_node)) = s.mem.read (b + off_next) - (b + sizeofHeader) := by
  rcases h with h | ⟨h1, h2, h3⟩
  · exact absurd h hn
  · obtain ⟨a1, a2, a3⟩ := header_placement_bounds h1 hb
    exact ⟨a1, a2, a3, h2, h3⟩

/-- Where the nodes of the free blocks lie, seen from a block `b` of the list:
a node is the node of `b`, or it ends before `b`, or it lies behind the header
after `b`. -/
theorem wellFormed_node_cases {s : FreeList} {bs : List Nat} (hW : WellFormed s bs) {b : Nat}
    (hb : b ∈ bs) : ∀ m ∈ free_nodes s bs,
      (m = s.mem.read (b + off_node) ∧ b + sizeofHeader ≤ m ∧
        m + sizeofNode ≤ s.mem.read (b + off_next)) ∨
      m + sizeofNode ≤ b ∨ s.mem.read (b + off_next) + sizeofHeader ≤ m := by
  intro m hm
  obtain ⟨h0, y, hy, e⟩ := mem_free_nodes.1 hm
  obtain ⟨hl, -, -, -, hok, -, -⟩ := hW
  have hy0 := (linked_mem s _ _ _ hl y hy).2.1
  obtain ⟨a1, a2, a3, a4, a5⟩ := freeBlockOk_node hy0 (hok y hy) (e ▸ h0)
  rw [e] at a1 a2 a4
  rcases linked_apart hl hy hb with rfl | h1 | h1
  · exact Or.inl ⟨e.symm, a1, a4⟩
  · exact Or.inr (Or.inl (by omega))
  · exact Or.inr (Or.inr (by omega))

/-- Every node of a free block lies behind the first header. -/
theorem wellFormed_node_above {s : FreeList} {bs : List Nat} (hW : WellFormed s bs) :
    ∀ m ∈ free_nodes s bs, bs.headD s.m_end_of_memory + sizeofHeader ≤ m := by
  intro m hm
  obtain ⟨h0, y, hy, e⟩ := mem_free_nodes.1 hm
  obtain ⟨hl, -, -, -, hok, -, -⟩ := hW
  obtain ⟨hy1, hy0, -, -⟩ := linked_mem s _ _ _ hl y hy
  obtain ⟨a1, -⟩ := freeBlockOk_node hy0 (hok y hy) (e ▸ h0)
  rw [e] at a1
  omega

/-- The nodes of the free blocks are `Node` objects of their own. -/
theorem wellFormed_separated {s : FreeList} {bs : List Nat} (hW : WellFormed s bs) :
    Separated (free_nodes s bs) := by
  obtain ⟨hl, -, -, -, hok, -, -⟩ := hW
  have hp := linked_pairwise s _ _ _ hl
  have h1 : bs.Pairwise (fun x y => s.mem.read (x + off_node) ≠ 0 →
      s.mem.read (y + off_node) ≠ 0 →
      far (s.mem.read (x + off_node)) (s.mem.read (y + off_node))) := by
    refine hp.imp_of_mem ?_
    intro x y hx hy hxy hx0 hy0
    have hxn := (linked_mem s _ _ _ hl x hx).2.1
    have hyn := (linked_mem s _ _ _ hl y hy).2.1
    obtain ⟨a1, a2, a3, a4, -⟩ := freeBlockOk_node hxn (hok x hx) hx0
    obtain ⟨b1, b2, b3, b4, -⟩ := freeBlockOk_node hyn (hok y hy) hy0
    left
    omega
  have h2 := (List.pairwise_map (f := fun b => s.mem.read (b + off_node))
    (R := fun m m2 => m ≠ 0 → m2 ≠ 0 → far m m2)).2 h1
  have h3 := h2.filter (fun n => decide (n ≠ 0))
  unfold Separated free_nodes
  refine h3.imp_of_mem ?_
  intro a c ha hc hac
  simp only [List.mem_filter, decide_eq_true_eq] at ha hc
  exact hac ha.2 hc.2

/-- Two neighbouring blocks of a free list in order are not both free. -/
theorem chain_neighbours (s : FreeList) : ∀ bs h p, Linked s bs h p →
    bs.Chain' (NotBothFree s) → ∀ x ∈ bs, s.mem.read (x + off_next) ∈ bs →
      NotBothFree s x (s.mem.read (x + off_next)) := by
  intro bs
  induction bs with
  | nil =>
    intro h p _ _ x hx
    exact absurd hx (List.not_mem_nil x)
  | cons b rest ih =>
    intro h p hl hc x hx hnx
    have hapart := fun y hy => linked_mem s _ _ _ hl y hy
    obtain ⟨rfl, h0, -, hn, hr⟩ := hl
    rcases List.mem_cons.1 hx with rfl | hx
    · cases rest with
      | nil =>
        have e : s.mem.read (x + off_next) = x := by simpa using hnx
        unfold sizeofHeader at hn
        omega
      | cons c rest2 =>
        obtain ⟨e1, -⟩ := hr
        rw [e1]
        exact (List.chain'_cons.1 hc).1
    · have hc2 : rest.Chain' (NotBothFree s) := (List.chain'_cons'.1 hc).2
      have hxr := linked_mem s _ _ _ hr x hx
      refine ih _ _ hr hc2 x hx ?_
      rcases List.mem_cons.1 hnx with e | hm
      · exfalso
        have := hxr.1
        have := hxr.2.2.1
        unfold sizeofHeader at *
        omega
      · exact hm

/-- A free list in order is tiled by its blocks. -/
theorem wellFormed_tiled {s : FreeList} {bs : List Nat} (hW : WellFormed s bs) (hne : bs ≠ []) :
    Tiled s bs (bs.headD s.m_end_of_memory) := by
  obtain ⟨hl, -, -, -, hok, -, -⟩ := hW
  have hs := linked_seg s _ _ _ hl
  constructor
  · cases bs with
    | nil => exact absurd rfl hne
    | cons b rest => exact hl.2.2.1
  · intro k hk
    obtain ⟨h1, h2⟩ := seg_walk s _ _ hs k hk
    refine ⟨h1, h2, (span_sum_telescopes s k _ h2).2, ?_⟩
    rw [h1]
    intro b hb
    have hb0 := (linked_mem s _ _ _ hl b hb).2.1
    unfold measured
    by_cases hn : s.mem.read (b + off_node) = 0
    · simp [hn]
    · obtain ⟨-, -, -, -, a5⟩ := freeBlockOk_node hb0 (hok b hb) hn
      simp [a5]

/-- Two blocks of the list are the same block or their headers are apart. -/
theorem linked_apart_headers {s : FreeList} {bs : List Nat} {h p : Nat} (hl : Linked s bs h p)
    {x y : Nat} (hx : x ∈ bs) (hy : y ∈ bs) :
    x = y ∨ (x + sizeofHeader ≤ y ∧ s.mem.read (x + off_next) ≤ y) ∨
      (y + sizeofHeader ≤ x ∧ s.mem.read (y + off_next) ≤ x) := by
  have h1 := (linked_mem s _ _ _ hl x hx).2.2.1
  have h2 := (linked_mem s _ _ _ hl y hy).2.2.1
  rcases linked_apart hl hx hy with e | e | e
  · exact Or.inl e
  · exact Or.inr (Or.inl ⟨by omega, e⟩)
  · exact Or.inr (Or.inr ⟨by omega, e⟩)

/-- The header of a block of the list lies in no node of a free block. -/
theorem wellFormed_header_outside {s : FreeList} {bs : List Nat} (hW : WellFormed s bs)
    {y : Nat} (hy : y ∈ bs) :
    ∀ off, off < sizeofHeader → OutsideNodes (free_nodes s bs) (y + off) := by
  intro off ho m hm
  have h1 := (linked_mem s _ _ _ hW.1 y hy).2.2.1
  rcases wellFormed_node_cases hW hy m hm with ⟨-, h, -⟩ | h | h
  · left
    omega
  · right
    omega
  · left
    omega

/-- The block before `b`: `b` is the first block and its `prev` is `NULL`, or
its `prev` is a block of the list that ends where `b` begins. -/
theorem wellFormed_prev {s : FreeList} {bs : List Nat} (hW : WellFormed s bs) {b : Nat}
    (hb : b ∈ bs) :
    (b = bs.headD s.m_end_of_memory ∧ s.mem.read (b + off_prev) = 0) ∨
      (s.mem.read (b + off_prev) ≠ 0 ∧ s.mem.read (b + off_prev) ∈ bs ∧
        s.mem.read (s.mem.read (b + off_prev) + off_next) = b ∧
        s.mem.read (b + off_prev) + sizeofHeader ≤ b) := by
  rcases linked_pred s _ _ _ hW.1 b hb with h | ⟨h1, h2⟩
  · exact Or.inl h
  · obtain ⟨-, a0, a1, -⟩ := linked_mem s _ _ _ hW.1 _ h1
    rw [h2] at a1
    exact Or.inr ⟨a0, h1, h2, a1⟩

/-- The block after `b`: the end sentinel, or a block of the list whose `prev`
is `b`. -/
theorem wellFormed_next {s : FreeList} {bs : List Nat} (hW : WellFormed s bs) {b : Nat}
    (hb : b ∈ bs) :
    s.mem.read (b + off_next) = s.m_end_of_memory ∨
      (s.mem.read (b + off_next) ≠ s.m_end_of_memory ∧ s.mem.read (b + off_next) ∈ bs ∧
        s.mem.read (s.mem.read (b + off_next) + off_prev) = b) := by
  rcases linked_succ s _ _ _ hW.1 b hb with h | ⟨h1, h2⟩
  · exact Or.inl h
  · by_cases e : s.mem.read (b + off_next) = s.m_end_of_memory
    · exact Or.inl e
    · exact Or.inr ⟨e, h1, h2⟩

/-! ## Constructing a header and a node -/

/-- The three statements that construct a header and link it in. -/
theorem relink_spec {s s1 s2 s3 : FreeList} {h nxt prv : Nat}
    (h1 : new_Header s h nxt prv = .ok s1)
    (h2 : (if prv ≠ 0 then s1.set prv off_next h else pure s1) = .ok s2)
    (h3 : (if nxt ≠ s2.m_end_of_memory then s2.set nxt off_prev h else pure s2) = .ok s3) :
    h ≠ 0 ∧ s3.m_root = s.m_root ∧ s3.m_end_of_memory = s.m_end_of_memory ∧
      s3.m_memory_location = s.m_memory_location ∧
      s3.m_memory_maxsize = s.m_memory_maxsize ∧
      ∀ w, s3.mem.read w = relinked s h nxt prv w := by
  have hh : h ≠ 0 := by
    intro e
    subst e
    simp [new_Header, FreeList.set, bind, Except.bind] at h1
  simp only [new_Header, set_ok _ _ _ hh, bind, Except.bind, Except.ok.injEq] at h1
  subst h1
  by_cases hp : prv = 0
  · simp only [hp, ne_eq, not_true_eq_false, if_false, pure, Except.pure, Except.ok.injEq] at h2
    subst h2
    by_cases hn : nxt = s.m_end_of_memory
    · simp only [hn, ne_eq, not_true_eq_false, if_false, pure, Except.pure,
        Except.ok.injEq] at h3
      subst h3
      refine ⟨hh, rfl, rfl, rfl, rfl, ?_⟩
      intro w
      simp only [relinked, read_write, hn, hp, ne_eq, not_true_eq_false, false_and, if_false]
    · have hn0 : nxt ≠ 0 := by
        intro e
        subst e
        simp [FreeList.set, hn] at h3
      simp only [ne_eq, hn, not_false_eq_true, if_true, set_ok _ _ _ hn0,
        Except.ok.injEq] at h3
      subst h3
      refine ⟨hh, rfl, rfl, rfl, rfl, ?_⟩
      intro w
      simp only [relinked, read_write, hn, hp, ne_eq, not_true_eq_false, not_false_eq_true,
        false_and, true_and, if_false]
  · simp only [ne_eq, hp, not_false_eq_true, if_true, set_ok _ _ _ hp, Except.ok.injEq] at h2
    subst h2
    by_cases hn : nxt = s.m_end_of_memory
    · simp only [hn, ne_eq, not_true_eq_false, if_false, pure, Except.pure,
        Except.ok.injEq] at h3
      subst h3
      refine ⟨hh, rfl, rfl, rfl, rfl, ?_⟩
      intro w
      simp only [relinked, read_write, hn, hp, ne_eq, not_true_eq_false, not_false_eq_true,
        false_and, true_and, if_false]
    · have hn0 : nxt ≠ 0 := by
        intro e
        subst e
        simp [FreeList.set, hn] at h3
      simp only [ne_eq, hn, not_false_eq_true, if_true, set_ok _ _ _ hn0,
        Except.ok.injEq] at h3
      subst h3
      refine ⟨hh, rfl, rfl, rfl, rfl, ?_⟩
      intro w
      simp only [relinked, read_write, hn, hp, ne_eq, not_true_eq_false, not_false_eq_true,
        false_and, true_and, if_false]

theorem outsideNodes_cons {L : List Nat} {n w : Nat} :
    OutsideNodes (n :: L) w ↔ (w < n ∨ n + sizeofNode ≤ w) ∧ OutsideNodes L w := by
  unfold OutsideNodes
  simp only [List.mem_cons, forall_eq_or_imp]

theorem linksClosed_congr {L : List Nat} {s s2 : FreeList} (hC : LinksClosed s L)
    (hr : s2.m_root = s.m_root)
    (h : ∀ m ∈ L, ∀ off, off < sizeofNode → s2.mem.read (m + off) = s.mem.read (m + off)) :
    LinksClosed s2 L := by
  refine ⟨hr ▸ hC.1, ?_⟩
  intro m hm
  obtain ⟨h0, h1, h2, h3⟩ := hC.2 m hm
  rw [h m hm off_left (by decide), h m hm off_right (by decide), h m hm off_parent (by decide)]
  exact ⟨h0, h1, h2, h3⟩

/-- Constructing a node `n` apart from the nodes `L` and inserting it into the
tree: links stay inside `n :: L`, memory outside these nodes and the values of
`L` are kept, and the value of `n` is the one it was constructed with. -/
theorem place_node_spec {L : List Nat} {s s1 s2 : FreeList} {n v fuel : Nat}
    (hS : Separated (n :: L)) (hC : LinksClosed s L)
    (h1 : new_Node s n v = .ok s1) (h2 : insert_node fuel s1 n = .ok s2) :
    n ≠ 0 ∧ LinksClosed s2 (n :: L) ∧
      (∀ w, OutsideNodes (n :: L) w → s2.mem.read w = s.mem.read w) ∧
      (∀ m ∈ L, s2.value m = s.value m) ∧ s2.value n = v ∧
      s2.m_end_of_memory = s.m_end_of_memory ∧
      s2.m_memory_location = s.m_memory_location ∧
      s2.m_memory_maxsize = s.m_memory_maxsize := by
  have hn : n ≠ 0 := by
    intro e
    subst e
    simp [new_Node, FreeList.set, bind, Except.bind] at h1
  rw [new_Node_ok s n v hn, Except.ok.injEq] at h1
  have hfar : ∀ m ∈ L, far n m := (List.pairwise_cons.1 hS).1
  have hC1 : LinksClosed s1 (n :: L) := by
    subst h1
    refine ⟨?_, ?_⟩
    · rcases hC.1 with h | h
      · exact Or.inl h
      · exact Or.inr (List.mem_cons_of_mem _ h)
    · intro m hm
      rcases List.mem_cons.1 hm with rfl | hm
      · refine ⟨hn, Or.inl ?_, Or.inl ?_, Or.inl ?_⟩ <;>
          simp [read_write, off_left, off_right, off_parent, off_value, off_color]
      · obtain ⟨h0, a1, a2, a3⟩ := hC.2 m hm
        have hf := hfar m hm
        have e : ∀ off, off < sizeofNode →
            ((((((s.mem.write (n + off_left) 0).write (n + off_right) 0).write
              (n + off_parent) 0).write (n + off_value) v).write (n + off_color) BLACK).read
              (m + off)) = s.mem.read (m + off) := by
          intro off ho
          unfold far sizeofNode at *
          simp only [off_left, off_right, off_parent, off_value, off_color]
          rw [read_write_ne, read_write_ne, read_write_ne, read_write_ne, read_write_ne] <;>
            omega
        have up : ∀ x, NodeOrNull L x → NodeOrNull (n :: L) x := by
          intro x hx
          rcases hx with h | h
          · exact Or.inl h
          · exact Or.inr (List.mem_cons_of_mem _ h)
        refine ⟨h0, ?_, ?_, ?_⟩
        · show NodeOrNull _ (Mem.read _ _)
          rw [e off_left (by decide)]
          exact up _ a1
        · show NodeOrNull _ (Mem.read _ _)
          rw [e off_right (by decide)]
          exact up _ a2
        · show NodeOrNull _ (Mem.read _ _)
          rw [e off_parent (by decide)]
          exact up _ a3
  obtain ⟨hc2, ho2, hv2, he2, hl2, hm2⟩ :=
    insert_node_keeps hS fuel (keeps_refl hC1) (Or.inr (List.mem_cons_self _ _)) s2 h2
  subst h1
  refine ⟨hn, hc2, ?_, ?_, ?_, he2, hl2, hm2⟩
  · intro w hw
    rw [ho2 w hw]
    have hw1 := (outsideNodes_cons.1 hw).1
    unfold sizeofNode at hw1
    show (Mem.write _ _ _).read w = _
    simp only [off_left, off_right, off_parent, off_value, off_color]
    rw [read_write_ne, read_write_ne, read_write_ne, read_write_ne, read_write_ne] <;> omega
  · intro m hm
    rw [hv2 m (List.mem_cons_of_mem _ hm)]
    have hf := hfar m hm
    unfold far sizeofNode at hf
    show (Mem.write _ _ _).read (m + off_value) = s.mem.read (m + off_value)
    simp only [off_left, off_right, off_parent, off_value, off_color]
    rw [read_write_ne, read_write_ne, read_write_ne, read_write_ne, read_write_ne] <;> omega
  · rw [hv2 n (List.mem_cons_self _ _)]
    show (Mem.write _ _ _).read (n + off_value) = v
    simp [read_write, off_left, off_right, off_parent, off_value, off_color]

theorem ok_bind {α β : Type} (a : α) (f : α → Except Fault β) :
    ((Except.ok a : Except Fault α) >>= f) = f a := rfl

theorem get_ne_zero {s : FreeList} {p off v : Nat} (h : s.get p off = .ok v) :
    p ≠ 0 ∧ v = s.mem.read (p + off) := by
  unfold FreeList.get at h
  split at h
  · exact absurd h (by simp)
  · rename_i h0
    simp only [Except.ok.injEq] at h
    exact ⟨h0, h.symm⟩

theorem set_ne_zero {s s2 : FreeList} {p off v : Nat} (h : s.set p off v = .ok s2) :
    p ≠ 0 ∧ s2 = { s with mem := s.mem.write (p + off) v } := by
  unfold FreeList.set at h
  split at h
  · exact absurd h (by simp)
  · rename_i h0
    simp only [Except.ok.injEq] at h
    exact ⟨h0, h.symm⟩

/-- Linking a header in leaves the nodes `L` alone when the words written lie
outside them. -/
theorem relinked_outside {L : List Nat} (s : FreeList) {h nxt prv : Nat}
    (hh : ∀ off, off < sizeofHeader → OutsideNodes L (h + off))
    (hp : prv ≠ 0 → OutsideNodes L (prv + off_next))
    (hn : nxt ≠ s.m_end_of_memory → OutsideNodes L (nxt + off_prev)) :
    ∀ m ∈ L, ∀ off, off < sizeofNode →
      relinked s h nxt prv (m + off) = s.mem.read (m + off) := by
  intro m hm off ho
  unfold relinked
  have h0 := hh off_next (by decide) m hm
  have h1 := hh off_prev (by decide) m hm
  have h2 := hh off_node (by decide) m hm
  rw [if_neg, if_neg, if_neg, if_neg, if_neg]
  · omega
  · omega
  · omega
  · rintro ⟨a, b⟩
    have := hp a m hm
    omega
  · rintro ⟨a, b⟩
    have := hn a m hm
    omega

/-- What `split_extra_memory_into_new_block` does when it makes a block: the node
`n2` placed for `extra` is constructed and inserted, and the header `h2` placed
for `extra` is linked in behind `h`. -/
theorem split_state {L : List Nat} {s s2 : FreeList} {fuel sl h extra : Nat}
    (hC : LinksClosed s L) (hS : Separated (node_placement extra :: L))
    (hsl : ¬ sl < HEADER_MAX_PADDING + NODE_MAX_PADDING)
    (ho1 : OutsideNodes (node_placement extra :: L) (h + off_next))
    (ho2 : ∀ off, off < sizeofHeader → OutsideNodes L (header_placement extra + off))
    (hsp : split_extra_memory_into_new_block fuel s sl h extra = .ok s2) :
    LinksClosed s2 (node_placement extra :: L) ∧
      (∀ m ∈ L, s2.value m = s.value m) ∧
      s2.value (node_placement extra) =
        wsub (wsub sl (wsub (header_placement extra) extra)) sizeofHeader ∧
      s2.m_end_of_memory = s.m_end_of_memory ∧
      s2.m_memory_location = s.m_memory_location ∧
      s2.m_memory_maxsize = s.m_memory_maxsize ∧
      ∀ w, OutsideNodes (node_placement extra :: L) w →
        s2.mem.read w = split_linked h (header_placement extra) (node_placement extra)
          (s.mem.read (h + off_next)) w (s.mem.read w) := by
  obtain ⟨p1, p2, p3, p4⟩ := placement_bounds extra
  unfold split_extra_memory_into_new_block at hsp
  rw [if_neg hsl] at hsp
  have e1 : (align_to_natural sizeofNode
      ((align_to_natural sizeofHeader extra sl).1 + sizeofHeader)
      (align_to_natural sizeofHeader extra sl).2).1 = node_placement extra := rfl
  simp only [e1] at hsp
  have e2 : get_header_placement_from_ptr (node_placement extra) = header_placement extra := rfl
  simp only [e2] at hsp
  generalize header_placement extra = h2 at *
  generalize node_placement extra = n2 at *
  obtain ⟨s1, h1, hsp⟩ := bind_eq_ok hsp
  obtain ⟨s6, h6, hsp⟩ := bind_eq_ok hsp
  obtain ⟨hn0, hc6, ho6, hv6, hvn6, he6, hl6, hm6⟩ := place_node_spec hS hC h1 h6
  obtain ⟨pn, h3, hsp⟩ := bind_eq_ok hsp
  obtain ⟨hh0, hpn⟩ := get_ne_zero h3
  have hh2 : h2 ≠ 0 := by omega
  simp only [new_Header, set_ok _ _ _ hh2, set_ok _ _ _ hh0, ok_bind, Except.ok.injEq] at hsp
  subst hsp
  rw [ho6 _ ho1] at hpn
  subst hpn
  have hfar : ∀ m ∈ L, far n2 m := (List.pairwise_cons.1 hS).1
  have ho2c : ∀ off, off < sizeofHeader → OutsideNodes (n2 :: L) (h2 + off) := by
    intro off ho
    refine outsideNodes_cons.2 ⟨?_, ho2 off ho⟩
    unfold sizeofHeader at *
    omega
  have key : ∀ m ∈ n2 :: L, ∀ off, off < sizeofNode →
      Mem.read (((((s6.mem.write (h2 + off_next) (s.mem.read (h + off_next))).write
        (h2 + off_prev) h).write (h2 + off_node) 0).write (h + off_next) h2).write
        (h2 + off_node) n2) (m + off) = s6.mem.read (m + off) := by
    intro m hm off ho
    have a0 := ho2c off_next (by decide) m hm
    have a1 := ho2c off_prev (by decide) m hm
    have a2 := ho2c off_node (by decide) m hm
    have a3 := ho1 m hm
    rw [read_write_ne, read_write_ne, read_write_ne, read_write_ne, read_write_ne] <;> omega
  refine ⟨?_, ?_, ?_, he6, hl6, hm6, ?_⟩
  · exact linksClosed_congr hc6 rfl key
  · intro m hm
    rw [← hv6 m hm]
    exact key m (List.mem_cons_of_mem _ hm) off_value (by decide)
  · rw [← hvn6]
    exact key n2 (List.mem_cons_self _ _) off_value (by decide)
  · intro w hw
    show (Mem.write _ _ _).read w = _
    simp only [read_write, split_linked, ho6 w hw]
    split_ifs <;> rfl

/-- What `create_new_memory_block` does when it makes a block: the node `n`
placed for `ptr` is constructed and inserted, and the header placed for `ptr` is
linked in between `prev` and `next`. -/
theorem create_state {L : List Nat} {s s2 : FreeList} {fuel prev next ptr : Nat}
    (hC : LinksClosed s L) (hS : Separated (node_placement ptr :: L))
    (hnext : next ≠ 0) (hsp : ¬ wsub next ptr < HEADER_MAX_PADDING + NODE_MAX_PADDING)
    (ho2 : ∀ off, off < sizeofHeader → OutsideNodes L (header_placement ptr + off))
    (hop : prev ≠ 0 → OutsideNodes (node_placement ptr :: L) (prev + off_next))
    (hon : next ≠ s.m_end_of_memory →
      OutsideNodes (node_placement ptr :: L) (next + off_prev))
    (h : create_new_memory_block fuel s prev next ptr = .ok s2) :
    LinksClosed s2 (node_placement ptr :: L) ∧
      (∀ m ∈ L, s2.value m = s.value m) ∧
      s2.value (node_placement ptr) =
        wsub (wsub (wsub next ptr) (wsub (header_placement ptr) ptr)) sizeofHeader ∧
      s2.m_end_of_memory = s.m_end_of_memory ∧
      s2.m_memory_location = s.m_memory_location ∧
      s2.m_memory_maxsize = s.m_memory_maxsize ∧
      ∀ w, OutsideNodes (node_placement ptr :: L) w →
        s2.mem.read w = if w = header_placement ptr + off_node then node_placement ptr
          else relinked s (header_placement ptr) next prev w := by
  obtain ⟨p1, p2, p3, p4⟩ := placement_bounds ptr
  unfold create_new_memory_block at h
  rw [if_neg hnext, if_neg hsp] at h
  have e1 : (align_to_natural sizeofNode
      ((align_to_natural sizeofHeader ptr (wsub next ptr)).1 + sizeofHeader)
      (align_to_natural sizeofHeader ptr (wsub next ptr)).2).1 = node_placement ptr := rfl
  simp only [e1] at h
  have e2 : get_header_placement_from_ptr (node_placement ptr) = header_placement ptr := rfl
  simp only [e2] at h
  generalize header_placement ptr = h2 at *
  generalize node_placement ptr = n2 at *
  obtain ⟨s1, h1, h⟩ := bind_eq_ok h
  obtain ⟨s6, h6, h⟩ := bind_eq_ok h
  obtain ⟨hn0, hc6, ho6, hv6, hvn6, he6, hl6, hm6⟩ := place_node_spec hS hC h1 h6
  obtain ⟨s7, h7, h⟩ := bind_eq_ok h
  obtain ⟨s8, h8, h⟩ := bind_eq_ok h
  obtain ⟨s9, h9, h⟩ := bind_eq_ok h
  simp only [ne_eq, hnext, not_false_eq_true, true_and] at h9
  obtain ⟨hh2, hroot9, he9, hl9, hm9, hr9⟩ := relink_spec h7 h8 h9
  obtain ⟨-, hs2⟩ := set_ne_zero h
  subst hs2
  have ho2c : ∀ off, off < sizeofHeader → OutsideNodes (n2 :: L) (h2 + off) := by
    intro off ho
    refine outsideNodes_cons.2 ⟨?_, ho2 off ho⟩
    unfold sizeofHeader at *
    omega
  have hon6 : next ≠ s6.m_end_of_memory → OutsideNodes (n2 :: L) (next + off_prev) := by
    rw [he6]
    exact hon
  have key : ∀ m ∈ n2 :: L, ∀ off, off < sizeofNode →
      Mem.read (s9.mem.write (h2 + off_node) n2) (m + off) = s6.mem.read (m + off) := by
    intro m hm off ho
    have a2 := ho2c off_node (by decide) m hm
    rw [read_write_ne _ _ _ _ (by omega), hr9]
    exact relinked_outside s6 ho2c hop hon6 m hm off ho
  refine ⟨?_, ?_, ?_, he9.trans he6, hl9.trans hl6, hm9.trans hm6, ?_⟩
  · exact linksClosed_congr hc6 hroot9 key
  · intro m hm
    rw [← hv6 m hm]
    exact key m (List.mem_cons_of_mem _ hm) off_value (by decide)
  · rw [← hvn6]
    exact key n2 (List.mem_cons_self _ _) off_value (by decide)
  · intro w hw
    show (Mem.write _ _ _).read w = _
    rw [read_write, hr9]
    unfold relinked
    rw [he6, ho6 w hw]

/-! ## One allocation on a free list in order -/

/-- Rebuilding the block list after a call: every block `x` of the list before
is replaced by the blocks `f x`. -/
theorem rebuild_tiled {s s2 : FreeList} {bs : List Nat} (hW : WellFormed s bs)
    (f : Nat → List Nat) (g : Nat → Nat)
    (he : s2.m_end_of_memory = s.m_end_of_memory)
    (hge : g s.m_end_of_memory = s.m_end_of_memory)
    (hloc : ∀ x ∈ bs, Seg s2 (f x) (g x) (g (s.mem.read (x + off_next))))
    (hmeas : ∀ x ∈ bs, ∀ y ∈ f x, measured s2 y = true)
    (hprev : s2.mem.read (g (bs.headD s.m_end_of_memory) + off_prev) = 0) :
    Tiled s2 (bs.flatMap f) (g (bs.headD s.m_end_of_memory)) := by
  have hs := linked_seg s _ _ _ hW.1
  have hs2 := seg_flatMap s s2 f g _ bs _ hs hloc
  rw [hge] at hs2
  have hs3 : Seg s2 (bs.flatMap f) (g (bs.headD s.m_end_of_memory)) s2.m_end_of_memory := by
    rw [he]
    exact hs2
  clear hs2
  refine ⟨hprev, ?_⟩
  intro k hk
  obtain ⟨h1, h2⟩ := seg_walk s2 _ _ hs3 k hk
  refine ⟨h1, h2, (span_sum_telescopes s2 k _ h2).2, ?_⟩
  rw [h1]
  intro y hy
  obtain ⟨x, hx, hy⟩ := List.mem_flatMap.1 hy
  exact hmeas x hx y hy

/-- The sizes `allocate_raw_ptr` computes: `V` is the value of the node found,
`d - r` the padding in front of the payload, `D` the size the request is
inflated to. -/
theorem allocate_sizes {V r d NX b : Nat} (hr1 : r < d)
    (hov : 2 * d + 2 * sizeofHeader ≤ SIZE_MAX) (hV : V = NX - (b + sizeofHeader))
    (hge1 : MIN_INIT_SIZE ≤ V) (hge2 : 2 * d + 2 * sizeofHeader ≤ V) (hNX : NX < SIZE_MOD) :
    ∃ D, (if wadd (wsub V (wsub V (wsub d r))) d < MIN_INIT_SIZE then
          wsub MIN_INIT_SIZE (wsub V (wsub V (wsub d r))) else d) = D ∧
      d ≤ D ∧ MIN_INIT_SIZE ≤ (d - r) + D ∧ (d - r) + D ≤ V ∧
      wsub (wsub V (wsub d r)) D = V - (d - r) - D := by
  unfold SIZE_MAX at hov
  simp only [MIN_INIT_SIZE, NODE_MAX_PADDING, HEADER_MAX_PADDING, sizeofNode,
    sizeofHeader] at *
  have hNX2 : NX < 2 ^ 64 := hNX
  have w1 : wsub d r = d - r := wsub_of_le d r (by show d < 2 ^ 64; omega) (by omega)
  have w2 : wsub V (d - r) = V - (d - r) :=
    wsub_of_le V _ (by show V < 2 ^ 64; omega) (by omega)
  have w3 : wsub V (V - (d - r)) = d - r := by
    rw [wsub_of_le V _ (by show V < 2 ^ 64; omega) (by omega)]
    omega
  have w4 : wadd (d - r) d = d - r + d := by
    unfold wadd SIZE_MOD
    exact Nat.mod_eq_of_lt (by omega)
  rw [w1, w2, w3, w4]
  by_cases c : d - r + d < 128
  · have w5 : wsub 128 (d - r) = 128 - (d - r) :=
      wsub_of_le 128 _ (by decide) (by omega)
    refine ⟨128 - (d - r), by rw [if_pos c, w5], by omega, by omega, by omega, ?_⟩
    rw [wsub_of_le _ _ (by show _ < 2 ^ 64; omega) (by omega)]
  · refine ⟨d, by rw [if_neg c], le_refl _, by omega, by omega, ?_⟩
    rw [wsub_of_le _ _ (by show _ < 2 ^ 64; omega) (by omega)]

/-! ### The words `relinked` describes -/

theorem relinked_skip (s : FreeList) {h nxt prv w : Nat}
    (h1 : nxt = s.m_end_of_memory ∨ w ≠ nxt + off_prev)
    (h2 : prv = 0 ∨ w ≠ prv + off_next) (h3 : w < h ∨ h + sizeofHeader ≤ w) :
    relinked s h nxt prv w = s.mem.read w := by
  unfold relinked
  unfold sizeofHeader at h3
  unfold off_node
  unfold off_prev at *
  unfold off_next at *
  rw [if_neg (by omega), if_neg (by omega), if_neg (by omega), if_neg (by omega),
    if_neg (by omega)]

theorem relinked_at_prev_next (s : FreeList) {h nxt prv : Nat} (hp : prv ≠ 0)
    (h1 : nxt = s.m_end_of_memory ∨ prv + off_next ≠ nxt + off_prev) :
    relinked s h nxt prv (prv + off_next) = h := by
  unfold relinked
  rw [if_neg (by omega), if_pos ⟨hp, rfl⟩]

theorem relinked_at_next_prev (s : FreeList) {h nxt prv : Nat} (hn : nxt ≠ s.m_end_of_memory) :
    relinked s h nxt prv (nxt + off_prev) = h := by
  unfold relinked
  rw [if_pos ⟨hn, rfl⟩]

theorem relinked_at_next (s : FreeList) {h nxt prv : Nat}
    (h1 : nxt = s.m_end_of_memory ∨ h + off_next ≠ nxt + off_prev)
    (h2 : prv = 0 ∨ h ≠ prv) : relinked s h nxt prv (h + off_next) = nxt := by
  unfold relinked
  unfold off_node
  unfold off_prev at *
  unfold off_next at *
  rw [if_neg (by omega), if_neg (by omega), if_neg (by omega), if_neg (by omega), if_pos rfl]

theorem relinked_at_prev (s : FreeList) {h nxt prv : Nat}
    (h1 : nxt = s.m_end_of_memory ∨ h ≠ nxt)
    (h2 : prv = 0 ∨ h + off_prev ≠ prv + off_next) :
    relinked s h nxt prv (h + off_prev) = prv := by
  unfold relinked
  unfold off_node
  unfold off_prev at *
  unfold off_next at *
  rw [if_neg (by omega), if_neg (by omega), if_neg (by omega), if_pos rfl]

theorem relinked_at_node (s : FreeList) {h nxt prv : Nat}
    (h1 : nxt = s.m_end_of_memory ∨ h + off_node ≠ nxt + off_prev)
    (h2 : prv = 0 ∨ h + off_node ≠ prv + off_next) :
    relinked s h nxt prv (h + off_node) = 0 := by
  unfold relinked
  unfold off_node at *
  unfold off_prev at *
  unfold off_next at *
  rw [if_neg (by omega), if_neg (by omega), if_pos rfl]

theorem header_word_ne {x y i j : Nat}
    (hxy : x = y ∨ x + sizeofHeader ≤ y ∨ y + sizeofHeader ≤ x) (hi : i < sizeofHeader)
    (hj : j < sizeofHeader) (hij : i ≠ j) : x + i ≠ y + j := by
  unfold sizeofHeader at *
  omega

/-- The header words of two blocks of the list: a block `x` against a header `y`
that is `NULL`, the end sentinel or a block of the list. -/
theorem wellFormed_header_words {s : FreeList} {bs : List Nat} (hW : WellFormed s bs)
    {x y : Nat} (hx : x ∈ bs) (hy : y ∈ bs) :
    x = y ∨ x + sizeofHeader ≤ y ∨ y + sizeofHeader ≤ x := by
  rcases linked_apart_headers hW.1 hx hy with e | e | e
  · exact Or.inl e
  · exact Or.inr (Or.inl e.1)
  · exact Or.inr (Or.inr e.1)

/-- A block `x` other than the block `b` an allocation is carved from, after the
header of `b` has been moved to `h` inside `b` and linked in. -/
theorem relocated_other_block {s : FreeList} {bs : List Nat} {b x h : Nat}
    (hW : WellFormed s bs) (hb : b ∈ bs) (hx : x ∈ bs) (hxb : x ≠ b)
    (hn0 : s.mem.read (b + off_node) ≠ 0) (hg1 : b ≤ h)
    (hg2 : h + sizeofHeader ≤ s.mem.read (b + off_next)) :
    (x + sizeofHeader ≤ b ∨ s.mem.read (b + off_next) ≤ x) ∧
      relinked s h (s.mem.read (b + off_next)) (s.mem.read (b + off_prev)) (x + off_next) =
        (if s.mem.read (x + off_next) = b then h else s.mem.read (x + off_next)) ∧
      x < relinked s h (s.mem.read (b + off_next)) (s.mem.read (b + off_prev)) (x + off_next) ∧
      relinked s h (s.mem.read (b + off_next)) (s.mem.read (b + off_prev)) (x + off_node) =
        s.mem.read (x + off_node) ∧
      (x = bs.headD s.m_end_of_memory →
        relinked s h (s.mem.read (b + off_next)) (s.mem.read (b + off_prev)) (x + off_prev) =
          0) ∧
      (s.mem.read (x + off_node) ≠ 0 → s.mem.read (x + off_next) ≠ b) := by
  have o1 : off_next = 0 := rfl
  have o2 : off_prev = 8 := rfl
  have o3 : off_node = 16 := rfl
  have o4 : sizeofHeader = 24 := rfl
  have hl := hW.1
  obtain ⟨hxh, hx0, hx2, hx3⟩ := linked_mem s _ _ _ hl x hx
  obtain ⟨hbh, hb0, hb2, hb3⟩ := linked_mem s _ _ _ hl b hb
  have hpos : x + sizeofHeader ≤ b ∨ s.mem.read (b + off_next) ≤ x := by
    rcases linked_apart_headers hl hx hb with e | e | e
    · exact absurd e hxb
    · exact Or.inl e.1
    · exact Or.inr e.2
  have hin : ∀ off, off < sizeofHeader → x + off < h ∨ h + sizeofHeader ≤ x + off := by
    intro off ho
    rcases hpos with e | e
    · left
      omega
    · right
      omega
  have hN : ∀ off, off < sizeofHeader → off ≠ off_prev →
      s.mem.read (b + off_next) = s.m_end_of_memory ∨
        x + off ≠ s.mem.read (b + off_next) + off_prev := by
    intro off ho hne
    rcases wellFormed_next hW hb with e | ⟨-, hmem, -⟩
    · exact Or.inl e
    · exact Or.inr (header_word_ne (wellFormed_header_words hW hx hmem) ho (by decide) hne)
  have hP : ∀ off, off < sizeofHeader → off ≠ off_next →
      s.mem.read (b + off_prev) = 0 ∨ x + off ≠ s.mem.read (b + off_prev) + off_next := by
    intro off ho hne
    rcases wellFormed_prev hW hb with ⟨-, e⟩ | ⟨-, hmem, -, -⟩
    · exact Or.inl e
    · exact Or.inr (header_word_ne (wellFormed_header_words hW hx hmem) ho (by decide) hne)
  have hsucc : s.mem.read (x + off_next) = b → s.mem.read (b + off_prev) = x := by
    intro e
    rcases wellFormed_next hW hx with e2 | ⟨-, -, e3⟩
    · exfalso
      omega
    · rw [e] at e3
      exact e3
  have hfree : s.mem.read (x + off_node) ≠ 0 → s.mem.read (x + off_next) ≠ b := by
    intro hn0x e
    have hc := chain_neighbours s _ _ _ hl hW.2.2.2.2.2.1 x hx (e ▸ hb)
    rw [e] at hc
    rcases hc with c | c
    · exact hn0x c
    · exact hn0 c
  have hnext : relinked s h (s.mem.read (b + off_next)) (s.mem.read (b + off_prev))
      (x + off_next) = (if s.mem.read (x + off_next) = b then h else s.mem.read (x + off_next)) := by
    by_cases e : s.mem.read (x + off_next) = b
    · rw [if_pos e, hsucc e]
      exact relinked_at_prev_next s hx0 (hN off_next (by decide) (by decide))
    · rw [if_neg e]
      refine relinked_skip s (hN off_next (by decide) (by decide)) ?_ (hin off_next (by decide))
      rcases wellFormed_prev hW hb with ⟨-, e2⟩ | ⟨-, hmem, e3, -⟩
      · exact Or.inl e2
      · right
        intro c
        have c2 : x = s.mem.read (b + off_prev) := by omega
        rw [← c2] at e3
        exact e e3
  refine ⟨hpos, hnext, ?_, ?_, ?_, hfree⟩
  · rw [hnext]
    by_cases e : s.mem.read (x + off_next) = b
    · rw [if_pos e]
      omega
    · rw [if_neg e]
      omega
  · exact relinked_skip s (hN off_node (by decide) (by decide))
      (hP off_node (by decide) (by decide)) (hin off_node (by decide))
  · intro ehead
    have e0 : s.mem.read (x + off_prev) = 0 := by
      cases bs with
      | nil => exact absurd hx (List.not_mem_nil x)
      | cons c rest =>
        have e1 : x = c := ehead
        rw [e1]
        exact hl.2.2.1
    rw [← e0]
    refine relinked_skip s ?_ (hP off_prev (by decide) (by decide)) (hin off_prev (by decide))
    rcases wellFormed_next hW hb with e | ⟨-, hmem, -⟩
    · exact Or.inl e
    · right
      omega

/-- The header `h` the block `b` an allocation is carved from has been moved
to, after it has been linked in. -/
theorem relocated_own_block {s : FreeList} {bs : List Nat} {b h : Nat}
    (hW : WellFormed s bs) (hb : b ∈ bs) (hg1 : b ≤ h)
    (hg2 : h + sizeofHeader ≤ s.mem.read (b + off_next)) :
    relinked s h (s.mem.read (b + off_next)) (s.mem.read (b + off_prev)) (h + off_next) =
        s.mem.read (b + off_next) ∧
      relinked s h (s.mem.read (b + off_next)) (s.mem.read (b + off_prev)) (h + off_node) = 0 ∧
      relinked s h (s.mem.read (b + off_next)) (s.mem.read (b + off_prev)) (h + off_prev) =
        s.mem.read (b + off_prev) ∧
      b ≠ s.m_end_of_memory ∧ s.mem.read (b + off_next) ≠ b := by
  have o1 : off_next = 0 := rfl
  have o2 : off_prev = 8 := rfl
  have o3 : off_node = 16 := rfl
  have o4 : sizeofHeader = 24 := rfl
  have hl := hW.1
  obtain ⟨-, hb0, hb2, hb3⟩ := linked_mem s _ _ _ hl b hb
  have hP : s.mem.read (b + off_prev) = 0 ∨ s.mem.read (b + off_prev) + sizeofHeader ≤ b := by
    rcases wellFormed_prev hW hb with ⟨-, e⟩ | ⟨-, -, -, e⟩
    · exact Or.inl e
    · exact Or.inr e
  refine ⟨relinked_at_next s ?_ ?_, relinked_at_node s ?_ ?_, relinked_at_prev s ?_ ?_,
    by omega, by omega⟩
  · right
    omega
  · rcases hP with e | e
    · exact Or.inl e
    · right
      omega
  · right
    omega
  · rcases hP with e | e
    · exact Or.inl e
    · right
      omega
  · right
    omega
  · rcases hP with e | e
    · exact Or.inl e
    · right
      omega

/-- The blocks other than the block `b` an allocation is carved from are kept:
in a state `s2` whose header words are those of `relinked` and whose node values
are those of `s`, each of them leads to the next block, the relocated header `h`
for the block before `b`, and is measured as before. -/
theorem other_blocks_kept {s s2 : FreeList} {bs : List Nat} {b x h : Nat}
    (hW : WellFormed s bs) (hb : b ∈ bs) (hx : x ∈ bs) (hxb : x ≠ b)
    (hn0 : s.mem.read (b + off_node) ≠ 0) (hg1 : b ≤ h)
    (hg2 : h + sizeofHeader ≤ s.mem.read (b + off_next))
    (hread : ∀ off, off < sizeofHeader → s2.mem.read (x + off) =
      relinked s h (s.mem.read (b + off_next)) (s.mem.read (b + off_prev)) (x + off))
    (hval : ∀ m ∈ free_nodes s bs, s2.value m = s.value m) :
    Seg s2 [x] x (if s.mem.read (x + off_next) = b then h else s.mem.read (x + off_next)) ∧
      measured s2 x = true ∧
      (x = bs.headD s.m_end_of_memory → s2.mem.read (x + off_prev) = 0) := by
  obtain ⟨-, c1, c2, c3, c4, c5⟩ := relocated_other_block hW hb hx hxb hn0 hg1 hg2
  have hx0 := (linked_mem s _ _ _ hW.1 x hx).2.1
  refine ⟨⟨rfl, ?_, ?_⟩, ?_, ?_⟩
  · rw [hread off_next (by decide)]
    exact c2
  · rw [hread off_next (by decide)]
    exact c1
  · unfold measured
    rw [hread off_node (by decide), c3, hread off_next (by decide), c1]
    by_cases e : s.mem.read (x + off_node) = 0
    · simp [e]
    · have hm : s.mem.read (x + off_node) ∈ free_nodes s bs := mem_free_nodes.2 ⟨e, x, hx, rfl⟩
      obtain ⟨-, -, -, -, a5⟩ := freeBlockOk_node hx0 (hW.2.2.2.2.1 x hx) e
      rw [hval _ hm, a5, if_neg (c5 e)]
      simp
  · intro e
    rw [hread off_prev (by decide)]
    exact c4 e

/-- What a call of `allocate_raw_ptr` on a free list in order does before it
splits the block: it finds the node of a free block `b`, moves the header of the
block to `h`, links it in and removes the node from the tree. -/
theorem allocate_raw_ptr_state {s s2 : FreeList} {bs : List Nat} {d p fuel : Nat}
    (hW : WellFormed s bs) (hd : 0 < d)
    (hov : 2 * d + 2 * sizeofHeader ≤ SIZE_MAX)
    (hmeet : ∀ b ∈ bs, s.mem.read (b + off_node) ≠ 0 →
      max MIN_INIT_SIZE (2 * d + 2 * sizeofHeader) ≤ s.value (s.mem.read (b + off_node)) →
      relocated_header b d = b ∨
        s.mem.read (b + off_node) + sizeofNode ≤ relocated_header b d)
    (h : allocate_raw_ptr fuel s d = .ok (s2, p)) :
    (p = 0 ∧ s2 = s) ∨
      ∃ b h s4 sl extra, b ∈ bs ∧ s.mem.read (b + off_node) ≠ 0 ∧ b ≤ h ∧
        h + sizeofHeader ≤ p ∧ p < extra ∧ b + sizeofHeader + MIN_INIT_SIZE ≤ extra ∧
        extra + sl = s.mem.read (b + off_next) ∧
        (h = b ∨ s.mem.read (b + off_node) + sizeofNode ≤ h) ∧
        (∀ off, off < sizeofHeader → OutsideNodes (free_nodes s bs) (h + off)) ∧
        LinksClosed s4 (free_nodes s bs) ∧
        (∀ w, OutsideNodes (free_nodes s bs) w →
          s4.mem.read w =
            relinked s h (s.mem.read (b + off_next)) (s.mem.read (b + off_prev)) w) ∧
        (∀ m ∈ free_nodes s bs, s4.value m = s.value m) ∧
        s4.m_end_of_memory = s.m_end_of_memory ∧
        split_extra_memory_into_new_block fuel s4 sl h extra = .ok s2 := by
  have hS := wellFormed_separated hW
  have hC := hW.2.2.2.2.2.2
  have hl := hW.1
  unfold allocate_raw_ptr at h
  rw [data_size_valid d hd hov] at h
  simp only [Bool.false_eq_true, if_false] at h
  obtain ⟨n, hn, g1⟩ := bind_eq_ok h
  clear h
  change search_best_fit fuel s (search_size d) = _ at hn
  obtain ⟨hnL, hnv⟩ := search_best_fit_keeps hC fuel _ n hn
  by_cases hn0 : n = 0
  · rw [if_pos hn0] at g1
    simp only [pure, Except.pure, Except.ok.injEq, Prod.mk.injEq] at g1
    exact Or.inl ⟨g1.2.symm, g1.1.symm⟩
  right
  rw [if_neg hn0] at g1
  have hnv := hnv hn0
  rw [search_size_eq d hov] at hnv
  have hnL2 : n ∈ free_nodes s bs := hnL.resolve_left hn0
  obtain ⟨-, b, hb, hbn⟩ := mem_free_nodes.1 hnL2
  obtain ⟨hb1, hb0, hb2, hb3⟩ := linked_mem s _ _ _ hl b hb
  obtain ⟨a1, a2, a3, a4, a5⟩ := freeBlockOk_node hb0 (hW.2.2.2.2.1 b hb) (hbn ▸ hn0)
  have hhp : get_header_placement_from_ptr n = b := by
    rcases hW.2.2.2.2.1 b hb with h0 | ⟨h1, -⟩
    · exact absurd (hbn ▸ h0) hn0
    · rw [hbn] at h1
      exact h1
  have hm := hmeet b hb (hbn ▸ hn0) (by rw [hbn]; exact hnv)
  rw [hbn] at a1 a2 a4 a5 hm
  rw [hhp, get_ok _ _ hn0, get_ok _ _ hb0, get_ok _ _ hb0] at g1
  simp only [ok_bind] at g1
  obtain ⟨s1, e1, g2⟩ := bind_eq_ok g1
  clear g1
  obtain ⟨s1b, e2, g3⟩ := bind_eq_ok g2
  clear g2
  obtain ⟨s3, e3, g4⟩ := bind_eq_ok g3
  clear g3
  obtain ⟨hh0, hroot3, he3, hl3, hm3, hr3⟩ := relink_spec e1 e2 e3
  clear e1 e2 e3
  obtain ⟨fv, e4, g5⟩ := bind_eq_ok g4
  clear g4
  obtain ⟨s4, e5, g6⟩ := bind_eq_ok g5
  clear g5
  obtain ⟨s5, e6, g7⟩ := bind_eq_ok g6
  clear g6
  simp only [pure, Except.pure, Except.ok.injEq, Prod.mk.injEq] at g7
  obtain ⟨hs5, hpp⟩ := g7
  subst hs5
  simp only [align_to_natural] at e6 hpp hr3 hh0
  have hm2 : get_header_placement_from_ptr (b + sizeofHeader - (b + sizeofHeader) % d + d) = b ∨
      n + sizeofNode ≤
        get_header_placement_from_ptr (b + sizeofHeader - (b + sizeofHeader) % d + d) := hm
  clear hm hmeet hn
  -- the geometry of the payload and of the relocated header
  have hr1 : (b + sizeofHeader) % d < d := Nat.mod_lt _ hd
  have hr2 : (b + sizeofHeader) % d ≤ b + sizeofHeader := Nat.mod_le _ _
  generalize (b + sizeofHeader) % d = r at *
  have hP0 : b + sizeofHeader - r + d ≠ 0 := by omega
  have hh' : get_header_placement_from_ptr (b + sizeofHeader - r + d) =
      (b + sizeofHeader - r + d - sizeofHeader) -
        (b + sizeofHeader - r + d - sizeofHeader) % sizeofHeader := by
    simp [get_header_placement_from_ptr, hP0]
  have hV : s.mem.read (n + off_value) = s.mem.read (b + off_next) - (b + sizeofHeader) := a5
  have hlt := hW.2.2.2.1
  have hge1 : MIN_INIT_SIZE ≤ s.mem.read (n + off_value) := le_trans (le_max_left _ _) hnv
  have hge2 : 2 * d + 2 * sizeofHeader ≤ s.mem.read (n + off_value) :=
    le_trans (le_max_right _ _) hnv
  clear hnv a5
  have hgeo : b ≤ get_header_placement_from_ptr (b + sizeofHeader - r + d) ∧
      get_header_placement_from_ptr (b + sizeofHeader - r + d) + sizeofHeader ≤
        b + sizeofHeader - r + d := by
    rw [hh']
    unfold sizeofHeader at *
    omega
  clear hh'
  have hprev := wellFormed_prev hW hb
  have hnext := wellFormed_next hW hb
  generalize get_header_placement_from_ptr (b + sizeofHeader - r + d) = h' at *
  generalize hVdef : s.mem.read (n + off_value) = V at *
  generalize hNX : s.mem.read (b + off_next) = NX at *
  generalize hPV : s.mem.read (b + off_prev) = PV at *
  have hoh : ∀ off, off < sizeofHeader → OutsideNodes (free_nodes s bs) (h' + off) := by
    intro off ho m hm
    rcases wellFormed_node_cases hW hb m hm with ⟨e, c1, c2⟩ | c | c
    · rw [hbn] at e
      subst e
      rcases hm2 with e2 | e2
      · left
        omega
      · right
        omega
    · right
      omega
    · left
      rw [hNX] at c
      unfold sizeofHeader MIN_INIT_SIZE at *
      omega
  have hoP : PV ≠ 0 → OutsideNodes (free_nodes s bs) (PV + off_next) := by
    intro h0
    rcases hprev with ⟨-, e⟩ | ⟨-, hmem, -, -⟩
    · exact absurd e h0
    · exact wellFormed_header_outside hW hmem off_next (by decide)
  have hoN : NX ≠ s.m_end_of_memory → OutsideNodes (free_nodes s bs) (NX + off_prev) := by
    intro h0
    rcases hnext with e | ⟨-, hmem, -⟩
    · exact absurd e h0
    · exact wellFormed_header_outside hW hmem off_prev (by decide)
  have hrel := relinked_outside s hoh hoP hoN
  have hC3 : LinksClosed s3 (free_nodes s bs) :=
    linksClosed_congr hC hroot3 (fun m hm off ho => by rw [hr3]; exact hrel m hm off ho)
  have hfv : fv = V := by
    obtain ⟨-, e⟩ := get_ne_zero e4
    rw [e, hr3, hrel n hnL2 off_value (by decide), hVdef]
  subst hfv
  obtain ⟨hc4, ho4, hv4, he4, hl4, hm4⟩ :=
    remove_node_keeps hS fuel (keeps_refl hC3) hnL s4 e5
  have hNXlt : NX < SIZE_MOD := lt_of_le_of_lt hb3 hlt
  obtain ⟨D, eD, hD1, hD2, hD3, eSL⟩ := allocate_sizes hr1 hov hV hge1 hge2 hNXlt
  rw [eD, eSL] at e6
  clear eD eSL
  -- reading the state before the split
  have hread4 : ∀ w, OutsideNodes (free_nodes s bs) w →
      s4.mem.read w = relinked s h' NX PV w := by
    intro w hw
    rw [ho4 w hw, hr3]
  have hval4 : ∀ m ∈ free_nodes s bs, s4.value m = s.value m := by
    intro m hm
    rw [hv4 m hm]
    show s3.mem.read (m + off_value) = _
    rw [hr3, hrel m hm off_value (by decide)]
    rfl
  clear hprev hnext hoP hoN hrel hr3 ho4 hv4 e4 e5 hC3 hC hS
  subst hNX
  subst hPV
  refine ⟨b, h', s4, _, _, hb, hbn ▸ hn0, hgeo.1, ?_, ?_, ?_, ?_, hbn ▸ hm2, hoh, hc4, hread4,
    hval4, he4.trans he3, e6⟩
  · rw [← hpp]
    exact hgeo.2
  · rw [← hpp]
    omega
  · unfold MIN_INIT_SIZE NODE_MAX_PADDING HEADER_MAX_PADDING sizeofNode sizeofHeader at *
    omega
  · unfold MIN_INIT_SIZE NODE_MAX_PADDING HEADER_MAX_PADDING sizeofNode sizeofHeader at *
    omega

/-! ### The block list after the allocation -/

theorem split_linked_skip {h h2 n2 nxt w r : Nat} (h1 : w < h2 ∨ h2 + sizeofHeader ≤ w)
    (h3 : w ≠ h + off_next) : split_linked h h2 n2 nxt w r = r := by
  have o1 : off_next = 0 := rfl
  have o2 : off_prev = 8 := rfl
  have o3 : off_node = 16 := rfl
  have o4 : sizeofHeader = 24 := rfl
  unfold split_linked
  rw [if_neg (by omega), if_neg h3, if_neg (by omega), if_neg (by omega)]

theorem split_linked_at_next {h h2 n2 nxt r : Nat} (h1 : h + off_next ≠ h2 + off_node) :
    split_linked h h2 n2 nxt (h + off_next) r = h2 := by
  unfold split_linked
  rw [if_neg h1, if_pos rfl]

theorem split_linked_at_new_next {h h2 n2 nxt r : Nat} (h1 : h2 ≠ h) :
    split_linked h h2 n2 nxt (h2 + off_next) r = nxt := by
  have o1 : off_next = 0 := rfl
  have o2 : off_prev = 8 := rfl
  have o3 : off_node = 16 := rfl
  unfold split_linked
  rw [if_neg (by omega), if_neg (by omega), if_neg (by omega), if_pos rfl]

theorem split_linked_at_new_node {h h2 n2 nxt r : Nat} :
    split_linked h h2 n2 nxt (h2 + off_node) r = n2 := by
  unfold split_linked
  rw [if_pos rfl]

/-- The value `split_extra_memory_into_new_block` gives the new node. -/
theorem split_value {sl extra h2 : Nat} (hsl : MIN_INIT_SIZE ≤ sl) (h1 : extra < h2)
    (h2le : h2 ≤ extra + 64) (hlt : extra + sl < SIZE_MOD) :
    wsub (wsub sl (wsub h2 extra)) sizeofHeader = extra + sl - (h2 + sizeofHeader) := by
  have hsl2 : 128 ≤ sl := hsl
  have hlt2 : extra + sl < 2 ^ 64 := hlt
  have w1 : wsub h2 extra = h2 - extra :=
    wsub_of_le h2 extra (by show h2 < 2 ^ 64; omega) (by omega)
  have w2 : wsub sl (h2 - extra) = sl - (h2 - extra) :=
    wsub_of_le sl _ (by show sl < 2 ^ 64; omega) (by omega)
  rw [w1, w2, wsub_of_le _ _ (by show _ < 2 ^ 64; omega) (by unfold sizeofHeader; omega)]
  unfold sizeofHeader
  omega

theorem head_mem {bs : List Nat} (hne : bs ≠ []) (e : Nat) : bs.headD e ∈ bs := by
  cases bs with
  | nil => exact absurd rfl hne
  | cons c rest => exact List.mem_cons_self _ _

/-- One call of `allocate_raw_ptr` on a free list in order, for a size that does
not overflow and a relocated header that does not meet the node it replaces:
the blocks of the list after the call tile the arena from the first header to
the end sentinel, and the node of every free block gives the bytes behind its
header. -/
theorem allocate_raw_ptr_tiled {s s2 : FreeList} {bs : List Nat} {d p fuel : Nat}
    (hW : WellFormed s bs) (hne : bs ≠ []) (hd : 0 < d)
    (hov : 2 * d + 2 * sizeofHeader ≤ SIZE_MAX)
    (hmeet : ∀ b ∈ bs, s.mem.read (b + off_node) ≠ 0 →
      max MIN_INIT_SIZE (2 * d + 2 * sizeofHeader) ≤ s.value (s.mem.read (b + off_node)) →
      relocated_header b d = b ∨
        s.mem.read (b + off_node) + sizeofNode ≤ relocated_header b d)
    (h : allocate_raw_ptr fuel s d = .ok (s2, p)) :
    s2.m_end_of_memory = s.m_end_of_memory ∧
      ∃ bs2 h0, s.m_memory_location ≤ h0 ∧ Tiled s2 bs2 h0 := by
  rcases allocate_raw_ptr_state hW hd hov hmeet h with ⟨-, e⟩ |
    ⟨b, h', s4, sl, extra, hb, hn0, hg1, hg2, hg3, hg4, hg5, hm2, hoh, hc4, hread4, hval4, he4,
      hsp⟩
  · subst e
    exact ⟨rfl, _, _, hW.2.1 _ (head_mem hne _), wellFormed_tiled hW hne⟩
  clear hmeet h
  have o1 : off_next = 0 := rfl
  have o2 : off_prev = 8 := rfl
  have o3 : off_node = 16 := rfl
  have o4 : sizeofHeader = 24 := rfl
  have o5 : sizeofNode = 40 := rfl
  have o6 : MIN_INIT_SIZE = 128 := rfl
  have hg2b : h' + sizeofHeader ≤ s.mem.read (b + off_next) := by omega
  obtain ⟨w1, w2, w3, w4, w5⟩ := relocated_own_block hW hb hg1 hg2b
  have hhead := head_mem hne s.m_end_of_memory
  have hpv0 : b = bs.headD s.m_end_of_memory → s.mem.read (b + off_prev) = 0 := by
    intro e
    rcases wellFormed_prev hW hb with ⟨-, c⟩ | ⟨-, c1, -, c2⟩
    · exact c
    · have := (linked_mem s _ _ _ hW.1 _ c1).1
      omega
  have hloc0 : s.m_memory_location ≤
      (fun x => if x = b then h' else x) (bs.headD s.m_end_of_memory) := by
    show s.m_memory_location ≤ (if bs.headD s.m_end_of_memory = b then h' else _)
    have q1 := hW.2.1 _ hhead
    have q2 := hW.2.1 _ hb
    by_cases e : bs.headD s.m_end_of_memory = b
    · rw [if_pos e]
      omega
    · rw [if_neg e]
      exact q1
  by_cases c : sl < HEADER_MAX_PADDING + NODE_MAX_PADDING
  · unfold split_extra_memory_into_new_block at hsp
    rw [if_pos c] at hsp
    simp only [pure, Except.pure, Except.ok.injEq] at hsp
    subst hsp
    have hother : ∀ x ∈ bs, x ≠ b → ∀ off, off < sizeofHeader → s4.mem.read (x + off) =
        relinked s h' (s.mem.read (b + off_next)) (s.mem.read (b + off_prev)) (x + off) :=
      fun x hx _ off ho => hread4 _ (wellFormed_header_outside hW hx off ho)
    refine ⟨he4, _, _, ?_, rebuild_tiled hW (fun x => if x = b then [h'] else [x])
      (fun x => if x = b then h' else x) he4 ?_ ?_ ?_ ?_⟩
    · exact hloc0
    · show (if s.m_end_of_memory = b then h' else s.m_end_of_memory) = _
      rw [if_neg (Ne.symm w4)]
    · intro x hx
      show Seg s4 (if x = b then [h'] else [x]) (if x = b then h' else x)
        (if s.mem.read (x + off_next) = b then h' else s.mem.read (x + off_next))
      by_cases e : x = b
      · rw [if_pos e, if_pos e, e, if_neg w5]
        refine ⟨rfl, ?_, ?_⟩
        · rw [hread4 _ (hoh off_next (by decide)), w1]
          omega
        · rw [hread4 _ (hoh off_next (by decide)), w1]
          exact rfl
      · rw [if_neg e, if_neg e]
        exact (other_blocks_kept hW hb hx e hn0 hg1 hg2b (hother x hx e) hval4).1
    · intro x hx y hy
      by_cases e : x = b
      · have hy2 : y ∈ (if x = b then [h'] else [x]) := hy
        rw [if_pos e] at hy2
        have ey : y = h' := by simpa using hy2
        rw [ey]
        unfold measured
        rw [hread4 _ (hoh off_node (by decide)), w2]
        simp
      · have hy2 : y ∈ (if x = b then [h'] else [x]) := hy
        rw [if_neg e] at hy2
        have ey : y = x := by simpa using hy2
        rw [ey]
        exact (other_blocks_kept hW hb hx e hn0 hg1 hg2b (hother x hx e) hval4).2.1
    · show s4.mem.read ((if bs.headD s.m_end_of_memory = b then h' else
        bs.headD s.m_end_of_memory) + off_prev) = 0
      by_cases e : bs.headD s.m_end_of_memory = b
      · rw [if_pos e, hread4 _ (hoh off_prev (by decide)), w3]
        exact hpv0 e.symm
      · rw [if_neg e]
        exact (other_blocks_kept hW hb hhead e hn0 hg1 hg2b (hother _ hhead e) hval4).2.2 rfl
  · obtain ⟨p1, p2, p3, p4⟩ := placement_bounds extra
    have hslge : MIN_INIT_SIZE ≤ sl := by
      have : ¬ sl < 128 := c
      omega
    have hS2 : Separated (node_placement extra :: free_nodes s bs) := by
      refine List.pairwise_cons.2 ⟨?_, wellFormed_separated hW⟩
      intro m hm
      have hb0 := (linked_mem s _ _ _ hW.1 b hb).2.1
      obtain ⟨-, a2, -⟩ := freeBlockOk_node hb0 (hW.2.2.2.2.1 b hb) hn0
      unfold far
      rcases wellFormed_node_cases hW hb m hm with ⟨e, -, -⟩ | e | e
      · right
        omega
      · right
        omega
      · left
        omega
    have ho1 : OutsideNodes (node_placement extra :: free_nodes s bs) (h' + off_next) := by
      refine outsideNodes_cons.2 ⟨?_, hoh off_next (by decide)⟩
      left
      omega
    have ho2 : ∀ off, off < sizeofHeader →
        OutsideNodes (free_nodes s bs) (header_placement extra + off) := by
      intro off ho m hm
      have hb0 := (linked_mem s _ _ _ hW.1 b hb).2.1
      obtain ⟨-, a2, -⟩ := freeBlockOk_node hb0 (hW.2.2.2.2.1 b hb) hn0
      rcases wellFormed_node_cases hW hb m hm with ⟨e, -, -⟩ | e | e
      · right
        omega
      · right
        omega
      · left
        omega
    obtain ⟨-, hv5, hvn5, he5, -, -, hr5⟩ := split_state hc4 hS2 c ho1 ho2 hsp
    have hlt : extra + sl < SIZE_MOD := by
      have := (linked_mem s _ _ _ hW.1 b hb).2.2.2
      have := hW.2.2.2.1
      omega
    rw [split_value hslge p1 p2 hlt, hg5] at hvn5
    rw [hread4 _ (hoh off_next (by decide)), w1] at hr5
    clear hsp hc4
    generalize header_placement extra = h2 at *
    generalize node_placement extra = n2 at *
    have hval5 : ∀ m ∈ free_nodes s bs, s2.value m = s.value m :=
      fun m hm => (hv5 m hm).trans (hval4 m hm)
    have hown : ∀ off, off < sizeofHeader → OutsideNodes (n2 :: free_nodes s bs) (h' + off) := by
      intro off ho
      refine outsideNodes_cons.2 ⟨?_, hoh off ho⟩
      left
      omega
    have hnew : ∀ off, off < sizeofHeader → OutsideNodes (n2 :: free_nodes s bs) (h2 + off) := by
      intro off ho
      refine outsideNodes_cons.2 ⟨?_, ho2 off ho⟩
      left
      omega
    have hother : ∀ x ∈ bs, x ≠ b → ∀ off, off < sizeofHeader → s2.mem.read (x + off) =
        relinked s h' (s.mem.read (b + off_next)) (s.mem.read (b + off_prev)) (x + off) := by
      intro x hx e off ho
      have hpos := (relocated_other_block hW hb hx e hn0 hg1 hg2b).1
      have hout : OutsideNodes (n2 :: free_nodes s bs) (x + off) := by
        refine outsideNodes_cons.2 ⟨?_, wellFormed_header_outside hW hx off ho⟩
        rcases hpos with c1 | c1
        · left
          omega
        · right
          omega
      rw [hr5 _ hout, split_linked_skip, hread4 _ (wellFormed_header_outside hW hx off ho)]
      · rcases hpos with c1 | c1
        · left
          omega
        · right
          omega
      · rcases hpos with c1 | c1 <;> omega
    refine ⟨he5.trans he4, _, _, ?_, rebuild_tiled hW (fun x => if x = b then [h', h2] else [x])
      (fun x => if x = b then h' else x) (he5.trans he4) ?_ ?_ ?_ ?_⟩
    · exact hloc0
    · show (if s.m_end_of_memory = b then h' else s.m_end_of_memory) = _
      rw [if_neg (Ne.symm w4)]
    · intro x hx
      show Seg s2 (if x = b then [h', h2] else [x]) (if x = b then h' else x)
        (if s.mem.read (x + off_next) = b then h' else s.mem.read (x + off_next))
      by_cases e : x = b
      · rw [if_pos e, if_pos e, e, if_neg w5]
        have r1 : s2.mem.read (h' + off_next) = h2 := by
          rw [hr5 _ (hown off_next (by decide))]
          exact split_linked_at_next (by omega)
        have r2 : s2.mem.read (h2 + off_next) = s.mem.read (b + off_next) := by
          rw [hr5 _ (hnew off_next (by decide))]
          exact split_linked_at_new_next (by omega)
        refine ⟨rfl, ?_, ?_, ?_, ?_⟩
        · rw [r1]
          omega
        · exact r1
        · rw [r2]
          omega
        · exact r2
      · rw [if_neg e, if_neg e]
        exact (other_blocks_kept hW hb hx e hn0 hg1 hg2b (hother x hx e) hval5).1
    · intro x hx y hy
      by_cases e : x = b
      · have hy2 : y ∈ (if x = b then [h', h2] else [x]) := hy
        rw [if_pos e] at hy2
        have ey : y = h' ∨ y = h2 := by simpa using hy2
        rcases ey with ey | ey
        · rw [ey]
          unfold measured
          rw [hr5 _ (hown off_node (by decide)), split_linked_skip (by omega) (by omega),
            hread4 _ (hoh off_node (by decide)), w2]
          simp
        · rw [ey]
          unfold measured
          have r2 : s2.mem.read (h2 + off_next) = s.mem.read (b + off_next) := by
            rw [hr5 _ (hnew off_next (by decide))]
            exact split_linked_at_new_next (by omega)
          rw [hr5 _ (hnew off_node (by decide)), split_linked_at_new_node, hvn5, r2]
          simp
      · have hy2 : y ∈ (if x = b then [h', h2] else [x]) := hy
        rw [if_neg e] at hy2
        have ey : y = x := by simpa using hy2
        rw [ey]
        exact (other_blocks_kept hW hb hx e hn0 hg1 hg2b (hother x hx e) hval5).2.1
    · show s2.mem.read ((if bs.headD s.m_end_of_memory = b then h' else
        bs.headD s.m_end_of_memory) + off_prev) = 0
      by_cases e : bs.headD s.m_end_of_memory = b
      · rw [if_pos e, hr5 _ (hown off_prev (by decide)),
          split_linked_skip (by omega) (by omega), hread4 _ (hoh off_prev (by decide)), w3]
        exact hpv0 e.symm
      · rw [if_neg e]
        exact (other_blocks_kept hW hb hhead e hn0 hg1 hg2b (hother _ hhead e) hval5).2.2 rfl

/-! ## One release on a free list in order -/

/-- The right-neighbour step of `free_raw_ptr` for the used block `o` of a free
list in order: either the block on the right is used (or `o` is the last block)
and nothing changes, or it is free, its header is unlinked and its node removed
from the tree.  In both cases the links of the tree stay inside the nodes of the
free blocks, and memory changes at most in these nodes, in `o->next` and in the
`prev` of the new next header `NN`. -/
theorem free_merge_right_state {s s2 : FreeList} {bs : List Nat} {o rh NN fuel : Nat}
    (hW : WellFormed s bs) (ho : o ∈ bs)
    (h : free_merge_right fuel s o (s.mem.read (o + off_next)) (s.mem.read (o + off_next)) =
      .ok (s2, rh, NN)) :
    LinksClosed s2 (free_nodes s bs) ∧ (∀ m ∈ free_nodes s bs, s2.value m = s.value m) ∧
      s2.m_end_of_memory = s.m_end_of_memory ∧
      s2.m_memory_location = s.m_memory_location ∧
      (∀ w, OutsideNodes (free_nodes s bs) w → w ≠ o + off_next → w ≠ NN + off_prev →
        s2.mem.read w = s.mem.read w) ∧
      ((NN = s.mem.read (o + off_next) ∧ s2 = s ∧
          (s.mem.read (o + off_next) = s.m_end_of_memory ∨
            s.mem.read (s.mem.read (o + off_next) + off_node) = 0)) ∨
        (s.mem.read (o + off_next) ≠ s.m_end_of_memory ∧
          s.mem.read (s.mem.read (o + off_next) + off_node) ≠ 0 ∧
          NN = s.mem.read (s.mem.read (o + off_next) + off_next))) ∧
      s2.mem.read (o + off_next) = NN ∧
      (rh = 0 ∨ (rh = s.mem.read (o + off_next) ∧ NN = s.mem.read (o + off_next))) := by
  have hS := wellFormed_separated hW
  have hC := hW.2.2.2.2.2.2
  have same : LinksClosed s (free_nodes s bs) ∧
      (∀ m ∈ free_nodes s bs, s.value m = s.value m) ∧
      s.m_end_of_memory = s.m_end_of_memory ∧ s.m_memory_location = s.m_memory_location ∧
      (∀ w, OutsideNodes (free_nodes s bs) w → w ≠ o + off_next →
        w ≠ s.mem.read (o + off_next) + off_prev → s.mem.read w = s.mem.read w) :=
    ⟨hC, fun _ _ => rfl, rfl, rfl, fun _ _ _ _ => rfl⟩
  unfold free_merge_right at h
  rcases wellFormed_next hW ho with hend | ⟨hend, hmem, -⟩
  · rw [if_neg (by simpa using hend)] at h
    simp only [pure, Except.pure, ok_bind, Bool.false_eq_true, if_false, Except.ok.injEq,
      Prod.mk.injEq] at h
    obtain ⟨e1, e2, e3⟩ := h
    subst e1
    subst e3
    obtain ⟨c1, c2, c3, c4, c5⟩ := same
    exact ⟨c1, c2, c3, c4, c5, Or.inl ⟨rfl, rfl, Or.inl hend⟩, rfl, Or.inr ⟨e2.symm, rfl⟩⟩
  have hr0 := (linked_mem s _ _ _ hW.1 _ hmem).2.1
  have ho0 := (linked_mem s _ _ _ hW.1 _ ho).2.1
  rw [if_pos hend, get_ok _ _ hr0] at h
  simp only [pure, Except.pure, ok_bind] at h
  by_cases hfree : s.mem.read (s.mem.read (o + off_next) + off_node) = 0
  · simp only [hfree, ne_eq, not_true_eq_false, decide_False, Bool.false_eq_true, if_false,
      Except.ok.injEq, Prod.mk.injEq] at h
    obtain ⟨e1, e2, e3⟩ := h
    subst e1
    subst e3
    obtain ⟨c1, c2, c3, c4, c5⟩ := same
    exact ⟨c1, c2, c3, c4, c5, Or.inl ⟨rfl, rfl, Or.inr hfree⟩, rfl, Or.inr ⟨e2.symm, rfl⟩⟩
  clear same
  have o1 : off_next = 0 := rfl
  have o2 : off_prev = 8 := rfl
  have o3 : off_node = 16 := rfl
  have o4 : sizeofHeader = 24 := rfl
  obtain ⟨-, -, hon, -⟩ := linked_mem s _ _ _ hW.1 _ ho
  obtain ⟨-, -, hrn, -⟩ := linked_mem s _ _ _ hW.1 _ hmem
  simp only [hfree, ne_eq, not_false_eq_true, decide_True, if_true, get_ok _ _ hr0,
    set_ok _ _ _ ho0, ok_bind] at h
  have e1 : (s.mem.write (o + off_next) (s.mem.read (s.mem.read (o + off_next) + off_next))).read
      (s.mem.read (o + off_next) + off_next) =
      s.mem.read (s.mem.read (o + off_next) + off_next) := by
    rw [read_write_ne]
    omega
  simp only [e1] at h
  generalize hR : s.mem.read (o + off_next) = R at *
  generalize hN2 : s.mem.read (R + off_next) = N2 at *
  obtain ⟨sb, hsb, h⟩ := bind_eq_ok h
  have hsb2 : sb.m_root = s.m_root ∧ sb.m_end_of_memory = s.m_end_of_memory ∧
      sb.m_memory_location = s.m_memory_location ∧
      (∀ w, w ≠ o + off_next → w ≠ N2 + off_prev → sb.mem.read w = s.mem.read w) ∧
      sb.mem.read (o + off_next) = N2 := by
    by_cases c : N2 = s.m_end_of_memory
    · rw [if_neg (by simpa using c)] at hsb
      simp only [pure, Except.pure, Except.ok.injEq] at hsb
      subst hsb
      refine ⟨rfl, rfl, rfl, ?_, read_write_eq _ _ _⟩
      intro w hw1 _
      exact read_write_ne _ _ _ _ hw1
    · rw [if_pos (by simpa using c)] at hsb
      obtain ⟨-, e⟩ := set_ne_zero hsb
      subst e
      refine ⟨rfl, rfl, rfl, ?_, ?_⟩
      · intro w hw1 hw2
        show (Mem.write _ _ _).read w = _
        rw [read_write_ne _ _ _ _ hw2]
        exact read_write_ne _ _ _ _ hw1
      · show (Mem.write _ _ _).read (o + off_next) = _
        rw [read_write_ne _ _ _ _ (by omega)]
        exact read_write_eq _ _ _
  clear hsb
  obtain ⟨hroot, hend2, hloc2, hrd, hrdo⟩ := hsb2
  have hoo := wellFormed_header_outside hW ho off_next (by decide)
  have hN2out : N2 = s.m_end_of_memory ∨ OutsideNodes (free_nodes s bs) (N2 + off_prev) := by
    rcases wellFormed_next hW hmem with e | ⟨-, hm2, -⟩
    · rw [hN2] at e
      exact Or.inl e
    · rw [hN2] at hm2
      exact Or.inr (wellFormed_header_outside hW hm2 off_prev (by decide))
  have hN2lt : R < N2 := by omega
  have hnode : ∀ m ∈ free_nodes s bs, ∀ off, off < sizeofNode →
      sb.mem.read (m + off) = s.mem.read (m + off) := by
    intro m hm off hoff
    have q1 := hoo m hm
    have hmR := wellFormed_node_cases hW hmem m hm
    rw [hN2] at hmR
    have o5 : sizeofNode = 40 := rfl
    apply hrd
    · omega
    · rcases hmR with ⟨-, c1, c2⟩ | c | c <;> omega
  have hCb : LinksClosed sb (free_nodes s bs) := linksClosed_congr hC hroot hnode
  obtain ⟨sc, hsc, h⟩ := bind_eq_ok h
  rw [hrd _ (by omega) (by omega)] at hsc
  simp only [Except.ok.injEq, Prod.mk.injEq] at h
  obtain ⟨e1, e2, e3⟩ := h
  subst e1
  subst e3
  have hin : NodeOrNull (free_nodes s bs) (s.mem.read (R + off_node)) :=
    Or.inr (mem_free_nodes.2 ⟨hfree, R, hmem, rfl⟩)
  obtain ⟨hc4, ho4, hv4, he4, hl4, -⟩ := remove_node_keeps hS fuel (keeps_refl hCb) hin sc hsc
  refine ⟨hc4, ?_, he4.trans hend2, hl4.trans hloc2, ?_, Or.inr ⟨hend, hfree, rfl⟩, ?_,
    Or.inl e2.symm⟩
  · intro m hm
    rw [hv4 m hm]
    exact hnode m hm off_value (by decide)
  · intro w hw h1 h2
    rw [ho4 w hw]
    exact hrd w h1 h2
  · rw [ho4 _ hoo]
    exact hrdo

theorem header_words_apart {x y i j : Nat}
    (hxy : x + sizeofHeader ≤ y ∨ y + sizeofHeader ≤ x) (hi : i < sizeofHeader)
    (hj : j < sizeofHeader) : x + i ≠ y + j := by
  unfold sizeofHeader at *
  omega

/-- A block `x` other than the block `o` that is released (and than its right
neighbour when that one is merged), after the new header `h` and the new node
`n` have been made and linked in between the left neighbour and `NN`. -/
theorem freed_other_block {s s1 s2 : FreeList} {bs : List Nat} {o x h n NN : Nat}
    (hW : WellFormed s bs) (ho : o ∈ bs) (hx : x ∈ bs) (hxo : x ≠ o)
    (hpos : x + sizeofHeader ≤ o ∨ NN ≤ x)
    (hNN : NN = s.m_end_of_memory ∨ NN ∈ bs) (hoN : o < NN)
    (hg1 : o ≤ h ∨ o = bs.headD s.m_end_of_memory) (hg2 : h + sizeofHeader ≤ n)
    (hn2 : n + sizeofNode ≤ NN)
    (hleft : s.mem.read (o + off_prev) = 0 ∨
      s.mem.read (s.mem.read (o + off_prev) + off_node) = 0)
    (he1 : s1.m_end_of_memory = s.m_end_of_memory)
    (hbase : ∀ w, OutsideNodes (free_nodes s bs) w → w ≠ o + off_next → w ≠ NN + off_prev →
      s1.mem.read w = s.mem.read w)
    (hread : ∀ w, OutsideNodes (n :: free_nodes s bs) w →
      s2.mem.read w = if w = h + off_node then n
        else relinked s1 h NN (s.mem.read (o + off_prev)) w)
    (hval : ∀ m ∈ free_nodes s bs, s2.value m = s.value m) :
    Seg s2 [x] x (if s.mem.read (x + off_next) = o then h else s.mem.read (x + off_next)) ∧
      measured s2 x = true ∧
      (x = bs.headD s.m_end_of_memory → s2.mem.read (x + off_prev) = 0) := by
  have o1 : off_next = 0 := rfl
  have o2 : off_prev = 8 := rfl
  have o3 : off_node = 16 := rfl
  have o4 : sizeofHeader = 24 := rfl
  have o5 : sizeofNode = 40 := rfl
  have hl := hW.1
  obtain ⟨hxh, hx0, hx2, hx3⟩ := linked_mem s _ _ _ hl x hx
  obtain ⟨hoh, ho0, ho2, ho3⟩ := linked_mem s _ _ _ hl o ho
  have hxo2 : x + sizeofHeader ≤ o ∨ o + sizeofHeader ≤ x := by
    rcases wellFormed_header_words hW hx ho with e | e | e
    · exact absurd e hxo
    · exact Or.inl e
    · exact Or.inr e
  have hin : ∀ off, off < sizeofHeader → x + off < h ∨ NN ≤ x + off := by
    intro off hoff
    rcases hpos with e | e
    · rcases hg1 with c | c
      · left
        omega
      · exfalso
        omega
    · right
      omega
  have hout : ∀ off, off < sizeofHeader → OutsideNodes (n :: free_nodes s bs) (x + off) := by
    intro off hoff
    refine outsideNodes_cons.2 ⟨?_, wellFormed_header_outside hW hx off hoff⟩
    rcases hin off hoff with e | e
    · left
      omega
    · right
      omega
  have rd : ∀ off, off < sizeofHeader → s2.mem.read (x + off) =
      relinked s1 h NN (s.mem.read (o + off_prev)) (x + off) := by
    intro off hoff
    rw [hread _ (hout off hoff), if_neg]
    rcases hin off hoff with e | e <;> omega
  have hNc : ∀ off, off < sizeofHeader → off ≠ off_prev →
      NN = s1.m_end_of_memory ∨ x + off ≠ NN + off_prev := by
    intro off hoff hne
    rcases hNN with e | hmem
    · left
      rw [he1]
      exact e
    · exact Or.inr (header_word_ne (wellFormed_header_words hW hx hmem) hoff (by decide) hne)
  have hNc2 : ∀ off, off < sizeofHeader → off ≠ off_prev → x + off ≠ NN + off_prev := by
    intro off hoff hne
    rcases hNN with e | hmem
    · omega
    · exact header_word_ne (wellFormed_header_words hW hx hmem) hoff (by decide) hne
  have hPc : ∀ off, off < sizeofHeader → off ≠ off_next →
      s.mem.read (o + off_prev) = 0 ∨ x + off ≠ s.mem.read (o + off_prev) + off_next := by
    intro off hoff hne
    rcases wellFormed_prev hW ho with ⟨-, e⟩ | ⟨-, hmem, -, -⟩
    · exact Or.inl e
    · exact Or.inr (header_word_ne (wellFormed_header_words hW hx hmem) hoff (by decide) hne)
  have h3 : ∀ off, off < sizeofHeader → x + off < h ∨ h + sizeofHeader ≤ x + off := by
    intro off hoff
    rcases hin off hoff with e | e
    · exact Or.inl e
    · right
      omega
  have base : ∀ off, off < sizeofHeader → x + off ≠ NN + off_prev →
      s1.mem.read (x + off) = s.mem.read (x + off) := by
    intro off hoff hne
    exact hbase _ (wellFormed_header_outside hW hx off hoff)
      (header_words_apart hxo2 hoff (by decide)) hne
  have hsucc : s.mem.read (x + off_next) = o → s.mem.read (o + off_prev) = x := by
    intro e
    rcases wellFormed_next hW hx with e2 | ⟨-, -, e3⟩
    · exfalso
      omega
    · rw [e] at e3
      exact e3
  have hnext : s2.mem.read (x + off_next) =
      (if s.mem.read (x + off_next) = o then h else s.mem.read (x + off_next)) := by
    rw [rd off_next (by decide)]
    by_cases e : s.mem.read (x + off_next) = o
    · rw [if_pos e, hsucc e]
      exact relinked_at_prev_next s1 hx0 (hNc off_next (by decide) (by decide))
    · rw [if_neg e, relinked_skip s1 (hNc off_next (by decide) (by decide)) ?_
        (h3 off_next (by decide))]
      · exact base off_next (by decide) (hNc2 off_next (by decide) (by decide))
      · rcases wellFormed_prev hW ho with ⟨-, e2⟩ | ⟨-, hmem, e3, -⟩
        · exact Or.inl e2
        · right
          intro c
          have c2 : x = s.mem.read (o + off_prev) := by omega
          rw [← c2] at e3
          exact e e3
  have hnode : s2.mem.read (x + off_node) = s.mem.read (x + off_node) := by
    rw [rd off_node (by decide), relinked_skip s1 (hNc off_node (by decide) (by decide))
      (hPc off_node (by decide) (by decide)) (h3 off_node (by decide))]
    exact base off_node (by decide) (hNc2 off_node (by decide) (by decide))
  refine ⟨⟨rfl, ?_, hnext⟩, ?_, ?_⟩
  · rw [hnext]
    by_cases e : s.mem.read (x + off_next) = o
    · rw [if_pos e]
      rcases hg1 with c | c <;> omega
    · rw [if_neg e]
      omega
  · unfold measured
    rw [hnode, hnext]
    by_cases e : s.mem.read (x + off_node) = 0
    · simp [e]
    · have hm : s.mem.read (x + off_node) ∈ free_nodes s bs := mem_free_nodes.2 ⟨e, x, hx, rfl⟩
      obtain ⟨-, -, -, -, a5⟩ := freeBlockOk_node hx0 (hW.2.2.2.2.1 x hx) e
      have hne : s.mem.read (x + off_next) ≠ o := by
        intro c
        have c2 := hsucc c
        rw [c2] at hleft
        rcases hleft with c3 | c3
        · exact hx0 c3
        · exact e c3
      rw [hval _ hm, a5, if_neg hne]
      simp
  · intro ehead
    have e0 : s.mem.read (x + off_prev) = 0 := by
      cases bs with
      | nil => exact absurd hx (List.not_mem_nil x)
      | cons c rest =>
        have e1 : x = c := ehead
        rw [e1]
        exact hl.2.2.1
    have hne : x + off_prev ≠ NN + off_prev := by omega
    rw [rd off_prev (by decide), relinked_skip s1 (Or.inr hne)
      (hPc off_prev (by decide) (by decide)) (h3 off_prev (by decide)),
      base off_prev (by decide) hne]
    exact e0

/-- One call of `free_raw_ptr` on a free list in order, for the payload of a used
block that spans at least `MIN_INIT_SIZE` bytes and whose left neighbour is not
free: the blocks of the list after the call tile the arena from the first header
to the end sentinel, and the node of every free block gives the bytes behind its
header. -/
theorem free_raw_ptr_tiled {s s2 : FreeList} {bs : List Nat} {data fuel : Nat}
    (hW : WellFormed s bs) (hne : bs ≠ [])
    (ho : get_header_placement_from_ptr data ∈ bs)
    (hused : s.mem.read (get_header_placement_from_ptr data + off_node) = 0)
    (hspan : s.mem.read (get_header_placement_from_ptr data + off_next) ≠ s.m_end_of_memory →
      s.mem.read (s.mem.read (get_header_placement_from_ptr data + off_next) + off_node) ≠ 0 →
      get_header_placement_from_ptr data + MIN_INIT_SIZE ≤
        s.mem.read (get_header_placement_from_ptr data + off_next))
    (hleft : s.mem.read (get_header_placement_from_ptr data + off_prev) = 0 ∨
      s.mem.read (s.mem.read (get_header_placement_from_ptr data + off_prev) + off_node) = 0)
    (h : free_raw_ptr fuel s data = .ok s2) :
    s2.m_end_of_memory = s.m_end_of_memory ∧
      ∃ bs2 h0, s.m_memory_location ≤ h0 ∧ Tiled s2 bs2 h0 := by
  unfold free_raw_ptr at h
  generalize get_header_placement_from_ptr data = o at *
  have o1 : off_next = 0 := rfl
  have o2 : off_prev = 8 := rfl
  have o3 : off_node = 16 := rfl
  have o4 : sizeofHeader = 24 := rfl
  have o5 : sizeofNode = 40 := rfl
  have o6 : MIN_INIT_SIZE = 128 := rfl
  obtain ⟨hoh, ho0, ho2, ho3⟩ := linked_mem s _ _ _ hW.1 o ho
  simp only [get_ok _ _ ho0, ok_bind] at h
  obtain ⟨⟨s1, rh, NN⟩, hmr, g1⟩ := bind_eq_ok h
  clear h
  dsimp only at g1
  obtain ⟨hc1, hv1, he1, hl1, hbase, hcase, -, -⟩ := free_merge_right_state hW ho hmr
  clear hmr
  obtain ⟨lf, hlf, g2⟩ := bind_eq_ok g1
  clear g1
  have hPV := wellFormed_prev hW ho
  have hNNf : s.mem.read (o + off_next) ≤ NN ∧ (NN = s.m_end_of_memory ∨ NN ∈ bs) ∧
      NN ≤ s.m_end_of_memory := by
    rcases hcase with ⟨e, -, -⟩ | ⟨c1, c2, e⟩
    · subst e
      refine ⟨le_refl _, ?_, ho3⟩
      rcases wellFormed_next hW ho with c | ⟨-, c, -⟩
      · exact Or.inl c
      · exact Or.inr c
    · rcases wellFormed_next hW ho with c | ⟨-, hm, -⟩
      · exact absurd c c1
      · obtain ⟨-, -, r2, r3⟩ := linked_mem s _ _ _ hW.1 _ hm
        subst e
        refine ⟨by omega, ?_, r3⟩
        rcases wellFormed_next hW hm with c | ⟨-, c, -⟩
        · exact Or.inl c
        · exact Or.inr c
  obtain ⟨hoN, hNN, hNNle⟩ := hNNf
  have hlf2 : lf = false := by
    by_cases c : s.mem.read (o + off_prev) = 0
    · rw [if_neg (by simpa using c)] at hlf
      simp only [pure, Except.pure, Except.ok.injEq] at hlf
      exact hlf.symm
    · rw [if_pos c, get_ok _ _ c] at hlf
      simp only [ok_bind, pure, Except.pure, Except.ok.injEq] at hlf
      have hmem : s.mem.read (o + off_prev) ∈ bs := by
        rcases hPV with ⟨-, e⟩ | ⟨-, e, -⟩
        · exact absurd e c
        · exact e
      have hlt : s.mem.read (o + off_prev) + sizeofHeader ≤ o := by
        rcases hPV with ⟨-, e⟩ | ⟨-, -, -, e⟩
        · exact absurd e c
        · exact e
      have e0 : s1.mem.read (s.mem.read (o + off_prev) + off_node) = 0 := by
        rw [hbase _ (wellFormed_header_outside hW hmem off_node (by decide)) (by omega)
          (by omega)]
        exact hleft.resolve_left c
      rw [e0] at hlf
      simpa using hlf.symm
  subst hlf2
  clear hlf
  simp only [Bool.false_eq_true, if_false] at g2
  rw [hl1] at g2
  -- where the new block is made
  have hptr : (if s.mem.read (o + off_prev) = 0 then s.m_memory_location else o) ≤ o ∧
      ((if s.mem.read (o + off_prev) = 0 then s.m_memory_location else o) = o ∨
        (s.mem.read (o + off_prev) = 0 ∧
          (if s.mem.read (o + off_prev) = 0 then s.m_memory_location else o) =
            s.m_memory_location ∧ o = bs.headD s.m_end_of_memory)) := by
    by_cases c : s.mem.read (o + off_prev) = 0
    · rw [if_pos c]
      refine ⟨hW.2.1 o ho, Or.inr ⟨c, rfl, ?_⟩⟩
      rcases hPV with ⟨e, -⟩ | ⟨e, -⟩
      · exact e
      · exact absurd c e
    · rw [if_neg c]
      exact ⟨le_refl _, Or.inl rfl⟩
  generalize (if s.mem.read (o + off_prev) = 0 then s.m_memory_location else o) = ptr at *
  obtain ⟨hptr1, hptr2⟩ := hptr
  obtain ⟨p1, p2, p3, p4⟩ := placement_bounds ptr
  have hlt := hW.2.2.2.1
  have hNNlt : NN < 2 ^ 64 := lt_of_le_of_lt hNNle hlt
  have hsz : wsub NN ptr = NN - ptr := wsub_of_le NN ptr hNNlt (by omega)
  have hNN0 : NN ≠ 0 := by omega
  by_cases hns : wsub NN ptr < HEADER_MAX_PADDING + NODE_MAX_PADDING
  · -- too little memory for a block: nothing is made
    unfold create_new_memory_block at g2
    rw [if_neg hNN0, if_pos hns] at g2
    simp only [pure, Except.pure, Except.ok.injEq] at g2
    subst g2
    rcases hcase with ⟨-, e, -⟩ | ⟨c1, c2, -⟩
    · subst e
      exact ⟨rfl, _, _, hW.2.1 _ (head_mem hne _), wellFormed_tiled hW hne⟩
    · exfalso
      have q := hspan c1 c2
      rw [hsz] at hns
      have hns2 : NN - ptr < 2 * 24 + 2 * 40 := hns
      omega
  have hcreate : ptr + MIN_INIT_SIZE ≤ NN := by
    rw [hsz] at hns
    have hns2 : ¬ NN - ptr < 2 * 24 + 2 * 40 := hns
    omega
  have hkey : ptr + MIN_INIT_SIZE ≤ s.mem.read (o + off_next) := by
    rcases hcase with ⟨e, -, -⟩ | ⟨c1, c2, -⟩
    · rw [← e]
      exact hcreate
    · have q := hspan c1 c2
      omega
  clear hspan
  have hLpos : ∀ m ∈ free_nodes s bs,
      (m + sizeofNode ≤ o ∧ ptr = o) ∨ s.mem.read (o + off_next) + sizeofHeader ≤ m := by
    intro m hm
    have habove := wellFormed_node_above hW m hm
    rcases wellFormed_node_cases hW ho m hm with ⟨e, c, -⟩ | c | c
    · exfalso
      omega
    · rcases hptr2 with e | ⟨-, -, e⟩
      · exact Or.inl ⟨c, e⟩
      · exfalso
        omega
    · exact Or.inr c
  have hS2 : Separated (node_placement ptr :: free_nodes s bs) := by
    refine List.pairwise_cons.2 ⟨?_, wellFormed_separated hW⟩
    intro m hm
    unfold far
    rcases hLpos m hm with ⟨c, e⟩ | c
    · right
      omega
    · left
      omega
  have ho2b : ∀ off, off < sizeofHeader →
      OutsideNodes (free_nodes s bs) (header_placement ptr + off) := by
    intro off hoff m hm
    rcases hLpos m hm with ⟨c, e⟩ | c
    · right
      omega
    · left
      omega
  have hop : s.mem.read (o + off_prev) ≠ 0 →
      OutsideNodes (node_placement ptr :: free_nodes s bs)
        (s.mem.read (o + off_prev) + off_next) := by
    intro c
    rcases hPV with ⟨-, e⟩ | ⟨-, hmem, -, hle⟩
    · exact absurd e c
    · refine outsideNodes_cons.2 ⟨?_, wellFormed_header_outside hW hmem off_next (by decide)⟩
      left
      rcases hptr2 with e | ⟨e, -, -⟩
      · omega
      · exact absurd e c
  have hon : NN ≠ s1.m_end_of_memory →
      OutsideNodes (node_placement ptr :: free_nodes s bs) (NN + off_prev) := by
    intro c
    rw [he1] at c
    refine outsideNodes_cons.2 ⟨?_, wellFormed_header_outside hW (hNN.resolve_left c) off_prev
      (by decide)⟩
    right
    omega
  obtain ⟨-, hv2, hvn2, he2, -, -, hr2⟩ := create_state hc1 hS2 hNN0 hns ho2b hop hon g2
  clear g2 hc1 hS2 hop hon hns
  rw [hsz, split_value (by show 128 ≤ NN - ptr; omega) p1 p2
    (by show ptr + (NN - ptr) < 2 ^ 64; omega)] at hvn2
  have hvn3 : s2.value (node_placement ptr) = NN - (header_placement ptr + sizeofHeader) := by
    rw [hvn2]
    omega
  clear hvn2 hsz
  have hg1 : o ≤ header_placement ptr ∨ o = bs.headD s.m_end_of_memory := by
    rcases hptr2 with e | ⟨-, -, e⟩
    · left
      omega
    · exact Or.inr e
  have hn2 : node_placement ptr + sizeofNode ≤ NN := by omega
  have hPVh : s.mem.read (o + off_prev) = 0 ∨
      s.mem.read (o + off_prev) + sizeofHeader ≤ header_placement ptr := by
    rcases hPV with ⟨-, e⟩ | ⟨c, -, -, hle⟩
    · exact Or.inl e
    · right
      rcases hptr2 with e | ⟨e, -, -⟩
      · omega
      · exact absurd e c
  have hBh : s.m_memory_location ≤ header_placement ptr := by
    have q := hW.2.1 o ho
    rcases hptr2 with e | ⟨-, e, -⟩
    · omega
    · omega
  clear hLpos hptr2 hptr1 p2 p4
  generalize header_placement ptr = hn at *
  generalize node_placement ptr = n at *
  have hval2 : ∀ m ∈ free_nodes s bs, s2.value m = s.value m :=
    fun m hm => (hv2 m hm).trans (hv1 m hm)
  have hownout : ∀ off, off < sizeofHeader →
      OutsideNodes (n :: free_nodes s bs) (hn + off) := by
    intro off hoff
    refine outsideNodes_cons.2 ⟨?_, ho2b off hoff⟩
    left
    omega
  have r_next : s2.mem.read (hn + off_next) = NN := by
    rw [hr2 _ (hownout off_next (by decide)), if_neg (by omega)]
    refine relinked_at_next s1 (Or.inr (by omega)) ?_
    rcases hPVh with e | e
    · exact Or.inl e
    · right
      omega
  have r_node : s2.mem.read (hn + off_node) = n := by
    rw [hr2 _ (hownout off_node (by decide)), if_pos rfl]
  have r_prev : s2.mem.read (hn + off_prev) = s.mem.read (o + off_prev) := by
    rw [hr2 _ (hownout off_prev (by decide)), if_neg (by omega)]
    refine relinked_at_prev s1 (Or.inr (by omega)) ?_
    rcases hPVh with e | e
    · exact Or.inl e
    · right
      omega
  have hmeas_own : measured s2 hn = true := by
    unfold measured
    rw [r_node, hvn3, r_next]
    simp
  have hother := fun x (hx : x ∈ bs) (hxo : x ≠ o) (hpos : x + sizeofHeader ≤ o ∨ NN ≤ x) =>
    freed_other_block hW ho hx hxo hpos hNN (by omega) hg1 p3 hn2 hleft he1 hbase hr2 hval2
  have hhead := head_mem hne s.m_end_of_memory
  have hapart : ∀ x ∈ bs, x ≠ o →
      x + sizeofHeader ≤ o ∨ s.mem.read (o + off_next) ≤ x := by
    intro x hx hxo
    rcases linked_apart_headers hW.1 hx ho with e | e | e
    · exact absurd e hxo
    · exact Or.inl e.1
    · exact Or.inr e.2
  have hpv0 : bs.headD s.m_end_of_memory = o → s.mem.read (o + off_prev) = 0 := by
    intro e
    rcases hPV with ⟨-, c⟩ | ⟨-, c1, -, c2⟩
    · exact c
    · have := (linked_mem s _ _ _ hW.1 _ c1).1
      omega
  have hoend : s.m_end_of_memory ≠ o := by omega
  rcases hcase with ⟨eNN, -, -⟩ | ⟨c1, c2, eNN⟩
  · -- the right neighbour is not merged
    refine ⟨he2.trans he1, _, _, ?_, rebuild_tiled hW (fun x => if x = o then [hn] else [x])
      (fun x => if x = o then hn else x) (he2.trans he1) ?_ ?_ ?_ ?_⟩
    · show s.m_memory_location ≤ (if bs.headD s.m_end_of_memory = o then hn else _)
      by_cases e : bs.headD s.m_end_of_memory = o
      · rw [if_pos e]
        exact hBh
      · rw [if_neg e]
        exact hW.2.1 _ hhead
    · show (if s.m_end_of_memory = o then hn else s.m_end_of_memory) = _
      rw [if_neg hoend]
    · intro x hx
      show Seg s2 (if x = o then [hn] else [x]) (if x = o then hn else x)
        (if s.mem.read (x + off_next) = o then hn else s.mem.read (x + off_next))
      by_cases e : x = o
      · rw [if_pos e, if_pos e, e, if_neg (by omega)]
        refine ⟨rfl, ?_, ?_⟩
        · rw [r_next]
          omega
        · rw [r_next, eNN]
          exact rfl
      · rw [if_neg e, if_neg e]
        exact (hother x hx e (eNN ▸ hapart x hx e)).1
    · intro x hx y hy
      have hy2 : y ∈ (if x = o then [hn] else [x]) := hy
      by_cases e : x = o
      · rw [if_pos e] at hy2
        have ey : y = hn := by simpa using hy2
        rw [ey]
        exact hmeas_own
      · rw [if_neg e] at hy2
        have ey : y = x := by simpa using hy2
        rw [ey]
        exact (hother x hx e (eNN ▸ hapart x hx e)).2.1
    · show s2.mem.read ((if bs.headD s.m_end_of_memory = o then hn else
        bs.headD s.m_end_of_memory) + off_prev) = 0
      by_cases e : bs.headD s.m_end_of_memory = o
      · rw [if_pos e, r_prev]
        exact hpv0 e
      · rw [if_neg e]
        exact (hother _ hhead e (eNN ▸ hapart _ hhead e)).2.2 rfl
  · -- the right neighbour is merged
    have hR : s.mem.read (o + off_next) ∈ bs := by
      rcases wellFormed_next hW ho with c | ⟨-, c, -⟩
      · exact absurd c c1
      · exact c
    have hRprev : s.mem.read (s.mem.read (o + off_next) + off_prev) = o := by
      rcases wellFormed_next hW ho with c | ⟨-, -, c⟩
      · exact absurd c c1
      · exact c
    obtain ⟨-, hR0, hR2, hR3⟩ := linked_mem s _ _ _ hW.1 _ hR
    have hpos2 : ∀ x ∈ bs, x ≠ o → x ≠ s.mem.read (o + off_next) →
        x + sizeofHeader ≤ o ∨ NN ≤ x := by
      intro x hx hxo hxR
      rcases hapart x hx hxo with c | c
      · exact Or.inl c
      · right
        rcases linked_apart_headers hW.1 hx hR with e | e | e
        · exact absurd e hxR
        · omega
        · rw [eNN]
          exact e.2
    have hnR : ∀ x ∈ bs, x ≠ o → s.mem.read (x + off_next) ≠ s.mem.read (o + off_next) := by
      intro x hx hxo c
      rcases wellFormed_next hW hx with e | ⟨-, -, e⟩
      · rw [c] at e
        exact c1 e
      · rw [c, hRprev] at e
        exact hxo e.symm
    generalize hRdef : s.mem.read (o + off_next) = R at *
    refine ⟨he2.trans he1, _, _, ?_, rebuild_tiled hW
      (fun x => if x = o then [hn] else if x = R then [] else [x])
      (fun x => if x = o then hn else if x = R then NN else x) (he2.trans he1) ?_ ?_ ?_ ?_⟩
    · show s.m_memory_location ≤ (if bs.headD s.m_end_of_memory = o then hn
        else if bs.headD s.m_end_of_memory = R then NN else _)
      by_cases e : bs.headD s.m_end_of_memory = o
      · rw [if_pos e]
        exact hBh
      · rw [if_neg e, if_neg (by omega)]
        exact hW.2.1 _ hhead
    · show (if s.m_end_of_memory = o then hn else if s.m_end_of_memory = R then NN
        else s.m_end_of_memory) = _
      rw [if_neg hoend, if_neg (Ne.symm c1)]
    · intro x hx
      show Seg s2 (if x = o then [hn] else if x = R then [] else [x])
        (if x = o then hn else if x = R then NN else x)
        (if s.mem.read (x + off_next) = o then hn
          else if s.mem.read (x + off_next) = R then NN else s.mem.read (x + off_next))
      by_cases e : x = o
      · rw [if_pos e, if_pos e, e]
        rw [hRdef, if_neg (by omega), if_pos rfl]
        refine ⟨rfl, ?_, ?_⟩
        · rw [r_next]
          omega
        · rw [r_next]
          exact rfl
      · rw [if_neg e, if_neg e]
        by_cases e2 : x = R
        · rw [if_pos e2, if_pos e2, e2, ← eNN, if_neg (by omega), if_neg (by omega)]
          exact rfl
        · rw [if_neg e2, if_neg e2]
          have := (hother x hx e (hpos2 x hx e e2)).1
          rw [if_neg (hnR x hx e)] at *
          exact this
    · intro x hx y hy
      have hy2 : y ∈ (if x = o then [hn] else if x = R then [] else [x]) := hy
      by_cases e : x = o
      · rw [if_pos e] at hy2
        have ey : y = hn := by simpa using hy2
        rw [ey]
        exact hmeas_own
      · rw [if_neg e] at hy2
        by_cases e2 : x = R
        · rw [if_pos e2] at hy2
          exact absurd hy2 (List.not_mem_nil y)
        · rw [if_neg e2] at hy2
          have ey : y = x := by simpa using hy2
          rw [ey]
          exact (hother x hx e (hpos2 x hx e e2)).2.1
    · show s2.mem.read ((if bs.headD s.m_end_of_memory = o then hn
        else if bs.headD s.m_end_of_memory = R then NN
        else bs.headD s.m_end_of_memory) + off_prev) = 0
      by_cases e : bs.headD s.m_end_of_memory = o
      · rw [if_pos e, r_prev]
        exact hpv0 e
      · rw [if_neg e, if_neg (by omega)]
        exact (hother _ hhead e (hpos2 _ hhead e (by omega))).2.2 rfl

/-! ### Merging into a free left neighbour -/

theorem tiled_spanned {s : FreeList} {bs : List Nat} {h0 : Nat} (h : Tiled s bs h0) :
    Spanned s bs h0 :=
  ⟨h.1, fun k hk => ⟨(h.2 k hk).1, (h.2 k hk).2.1, (h.2 k hk).2.2.1⟩⟩

/-- Rebuilding the block list after a call, as far as the spans go. -/
theorem rebuild_spanned {s s2 : FreeList} {bs : List Nat} (hW : WellFormed s bs)
    (f : Nat → List Nat) (g : Nat → Nat)
    (he : s2.m_end_of_memory = s.m_end_of_memory)
    (hge : g s.m_end_of_memory = s.m_end_of_memory)
    (hloc : ∀ x ∈ bs, Seg s2 (f x) (g x) (g (s.mem.read (x + off_next))))
    (hprev : s2.mem.read (g (bs.headD s.m_end_of_memory) + off_prev) = 0) :
    Spanned s2 (bs.flatMap f) (g (bs.headD s.m_end_of_memory)) := by
  have hs := linked_seg s _ _ _ hW.1
  have hs2 := seg_flatMap s s2 f g _ bs _ hs hloc
  rw [hge] at hs2
  have hs3 : Seg s2 (bs.flatMap f) (g (bs.headD s.m_end_of_memory)) s2.m_end_of_memory := by
    rw [he]
    exact hs2
  clear hs2
  refine ⟨hprev, ?_⟩
  intro k hk
  obtain ⟨h1, h2⟩ := seg_walk s2 _ _ hs3 k hk
  exact ⟨h1, h2, (span_sum_telescopes s2 k _ h2).2⟩

theorem linksClosed_congr_links {L : List Nat} {s s2 : FreeList} (hC : LinksClosed s L)
    (hr : s2.m_root = s.m_root)
    (h : ∀ m ∈ L, ∀ off, IsLink off → s2.mem.read (m + off) = s.mem.read (m + off)) :
    LinksClosed s2 L := by
  refine ⟨hr ▸ hC.1, ?_⟩
  intro m hm
  obtain ⟨h0, h1, h2, h3⟩ := hC.2 m hm
  rw [h m hm off_left isLink_left, h m hm off_right isLink_right,
    h m hm off_parent isLink_parent]
  exact ⟨h0, h1, h2, h3⟩

/-- One call of `free_raw_ptr` on a free list in order, for the payload of a used
block whose left neighbour is free: the block is merged into the left
neighbour, and the blocks of the list after the call still lead upwards from
the first header to the end sentinel. -/
theorem free_raw_ptr_left_spanned {s s2 : FreeList} {bs : List Nat} {data fuel : Nat}
    (hW : WellFormed s bs)
    (ho : get_header_placement_from_ptr data ∈ bs)
    (hused : s.mem.read (get_header_placement_from_ptr data + off_node) = 0)
    (hleft : s.mem.read (get_header_placement_from_ptr data + off_prev) ≠ 0)
    (hlfree : s.mem.read (s.mem.read (get_header_placement_from_ptr data + off_prev) +
      off_node) ≠ 0)
    (h : free_raw_ptr fuel s data = .ok s2) :
    s2.m_end_of_memory = s.m_end_of_memory ∧
      ∃ bs2 h0, s.m_memory_location ≤ h0 ∧ Spanned s2 bs2 h0 := by
  unfold free_raw_ptr at h
  generalize get_header_placement_from_ptr data = o at *
  have o1 : off_next = 0 := rfl
  have o2 : off_prev = 8 := rfl
  have o3 : off_node = 16 := rfl
  have o4 : sizeofHeader = 24 := rfl
  have o5 : sizeofNode = 40 := rfl
  have o7 : off_value = 24 := rfl
  have hS := wellFormed_separated hW
  obtain ⟨hoh, ho0, ho2, ho3⟩ := linked_mem s _ _ _ hW.1 o ho
  simp only [get_ok _ _ ho0, ok_bind] at h
  obtain ⟨⟨s1, rh, NN⟩, hmr, g1⟩ := bind_eq_ok h
  clear h
  dsimp only at g1
  obtain ⟨hc1, hv1, he1, hl1, hbase, hcase, hoNN, hrh⟩ := free_merge_right_state hW ho hmr
  clear hmr
  obtain ⟨lf, hlf, g2⟩ := bind_eq_ok g1
  clear g1
  have hNNf : s.mem.read (o + off_next) ≤ NN ∧ (NN = s.m_end_of_memory ∨ NN ∈ bs) ∧
      NN ≤ s.m_end_of_memory := by
    rcases hcase with ⟨e, -, -⟩ | ⟨c1, c2, e⟩
    · subst e
      refine ⟨le_refl _, ?_, ho3⟩
      rcases wellFormed_next hW ho with c | ⟨-, c, -⟩
      · exact Or.inl c
      · exact Or.inr c
    · rcases wellFormed_next hW ho with c | ⟨-, hm, -⟩
      · exact absurd c c1
      · obtain ⟨-, -, r2, r3⟩ := linked_mem s _ _ _ hW.1 _ hm
        subst e
        refine ⟨by omega, ?_, r3⟩
        rcases wellFormed_next hW hm with c | ⟨-, c, -⟩
        · exact Or.inl c
        · exact Or.inr c
  obtain ⟨hoN, hNN, hNNle⟩ := hNNf
  have hPV : s.mem.read (o + off_prev) ∈ bs ∧
      s.mem.read (s.mem.read (o + off_prev) + off_next) = o ∧
      s.mem.read (o + off_prev) + sizeofHeader ≤ o := by
    rcases wellFormed_prev hW ho with ⟨-, e⟩ | ⟨-, c1, c2, c3⟩
    · exact absurd e hleft
    · exact ⟨c1, c2, c3⟩
  obtain ⟨hPm, hPn, hPle⟩ := hPV
  generalize hPVdef : s.mem.read (o + off_prev) = PV at *
  have hPout := wellFormed_header_outside hW hPm
  have hoout := wellFormed_header_outside hW ho
  have hNout : ∀ m ∈ free_nodes s bs, ∀ off, off < sizeofNode → m + off ≠ NN + off_prev := by
    intro m hm off hoff
    rcases hNN with e | e
    · obtain ⟨h0, y, hy, e2⟩ := mem_free_nodes.1 hm
      obtain ⟨-, hy0, -, hy3⟩ := linked_mem s _ _ _ hW.1 y hy
      obtain ⟨-, -, -, a4, -⟩ := freeBlockOk_node hy0 (hW.2.2.2.2.1 y hy) (e2 ▸ h0)
      rw [e2] at a4
      omega
    · have q := wellFormed_header_outside hW e off_prev (by decide) m hm
      omega
  have hlf2 : lf = true := by
    rw [if_pos hleft, get_ok _ _ hleft] at hlf
    simp only [ok_bind, pure, Except.pure, Except.ok.injEq] at hlf
    have e0 : s1.mem.read (PV + off_node) = s.mem.read (PV + off_node) :=
      hbase _ (hPout off_node (by decide)) (by omega) (by omega)
    rw [e0] at hlf
    rw [← hlf]
    simpa using hlfree
  subst hlf2
  clear hlf
  simp only [if_true] at g2
  generalize hnl : s.mem.read (PV + off_node) = nl at *
  have hnlL : nl ∈ free_nodes s bs := mem_free_nodes.2 ⟨hlfree, PV, hPm, hnl⟩
  -- the header words written before the tree is touched
  obtain ⟨sa, hsa, g3⟩ := bind_eq_ok g2
  clear g2
  have hsa2 : sa.m_root = s1.m_root ∧ sa.m_end_of_memory = s1.m_end_of_memory ∧
      ∀ w, w ≠ NN + off_prev → sa.mem.read w = s1.mem.read w := by
    by_cases c : rh ≠ 0 ∧ rh ≠ s1.m_end_of_memory
    · rw [if_pos c] at hsa
      obtain ⟨-, e⟩ := set_ne_zero hsa
      subst e
      refine ⟨rfl, rfl, ?_⟩
      intro w hw
      rcases hrh with e | ⟨e1, e2⟩
      · exact absurd e c.1
      · rw [e1, ← e2]
        exact read_write_ne _ _ _ _ hw
    · rw [if_neg c] at hsa
      simp only [pure, Except.pure, Except.ok.injEq] at hsa
      subst hsa
      exact ⟨rfl, rfl, fun _ _ => rfl⟩
  clear hsa hrh
  obtain ⟨hra, hea, hrda⟩ := hsa2
  rw [set_ok _ _ _ hleft, ok_bind, hrda _ (by omega), hoNN] at g3
  have e16 : (sa.mem.write (PV + off_next) NN).read (o + off_node) = 0 := by
    rw [read_write_ne _ _ _ _ (by omega), hrda _ (by omega),
      hbase _ (hoout off_node (by decide)) (by omega) (by omega)]
    exact hused
  simp only [e16] at g3
  have hrm0 : ∀ st : FreeList, remove_node fuel st 0 = .ok st := by
    intro st
    simp [remove_node, pure, Except.pure]
  rw [hrm0, ok_bind, get_ok _ _ hleft, ok_bind, get_ok _ _ hleft, ok_bind] at g3
  have e0 : (sa.mem.write (PV + off_next) NN).read (PV + off_next) = NN := read_write_eq _ _ _
  have e1 : (sa.mem.write (PV + off_next) NN).read (PV + off_node) = nl := by
    rw [read_write_ne _ _ _ _ (by omega), hrda _ (by omega),
      hbase _ (hPout off_node (by decide)) (by omega) (by omega)]
    exact hnl
  simp only [e0, e1] at g3
  clear e0 e1 e16 hrm0
  -- the tree operations
  have hCb : LinksClosed ({ sa with mem := sa.mem.write (PV + off_next) NN } : FreeList)
      (free_nodes s bs) := by
    refine linksClosed_congr hc1 hra ?_
    intro m hm off hoff
    have q1 := hPout off_next (by decide) m hm
    have q2 := hNout m hm off hoff
    show (Mem.write _ _ _).read (m + off) = _
    rw [read_write_ne _ _ _ _ (by omega)]
    exact hrda _ q2
  obtain ⟨s4, hs4, g4⟩ := bind_eq_ok g3
  clear g3
  obtain ⟨hc4, ho4, hv4, he4, -, -⟩ :=
    remove_node_keeps hS fuel (keeps_refl hCb) (Or.inr hnlL) s4 hs4
  clear hs4
  have e2 : s4.mem.read (PV + off_node) = nl := by
    rw [ho4 _ (hPout off_node (by decide))]
    show (Mem.write _ _ _).read _ = _
    rw [read_write_ne _ _ _ _ (by omega), hrda _ (by omega),
      hbase _ (hPout off_node (by decide)) (by omega) (by omega)]
    exact hnl
  have hnl0 : nl ≠ 0 := hlfree
  rw [get_ok _ _ hleft, ok_bind, e2, set_ok _ _ _ hnl0, ok_bind, get_ok _ _ hleft, ok_bind] at g4
  have hfar : ∀ m ∈ free_nodes s bs, ∀ off, off < sizeofNode → off ≠ off_value →
      m + off ≠ nl + off_value := by
    intro m hm off hoff hne
    have := separated_far hS hm hnlL
    unfold far at this
    omega
  have hC5 : LinksClosed ({ s4 with mem := s4.mem.write (nl + off_value) (wsub NN PV) } :
      FreeList) (free_nodes s bs) := by
    refine linksClosed_congr_links hc4 rfl ?_
    intro m hm off hoff
    show (Mem.write _ _ _).read (m + off) = _
    refine read_write_ne _ _ _ _ (hfar m hm off ?_ ?_)
    · rcases hoff with e | e | e <;> rw [e] <;> decide
    · rcases hoff with e | e | e <;> rw [e] <;> decide
  have e3 : (s4.mem.write (nl + off_value) (wsub NN PV)).read (PV + off_node) = nl := by
    have q := hPout off_node (by decide) nl hnlL
    rw [read_write_ne _ _ _ _ (by omega)]
    exact e2
  simp only [e3] at g4
  obtain ⟨hc6, ho6, -, he6, -, -⟩ :=
    insert_node_keeps hS fuel (keeps_refl hC5) (Or.inr hnlL) s2 g4
  clear g4 hC5 hc6 hc4 hCb hc1 e3 e2
  -- the header words after the call
  have hread : ∀ w, OutsideNodes (free_nodes s bs) w → w ≠ NN + off_prev → w ≠ o + off_next →
      s2.mem.read w = if w = PV + off_next then NN else s.mem.read w := by
    intro w hw h1 h2
    have q := hw nl hnlL
    rw [ho6 w hw]
    show (Mem.write _ _ _).read w = _
    rw [read_write_ne _ _ _ _ (by omega), ho4 w hw]
    show (Mem.write _ _ _).read w = _
    rw [read_write]
    by_cases c : w = PV + off_next
    · rw [if_pos c, if_pos c]
    · rw [if_neg c, if_neg c, hrda _ h1, hbase _ hw h2 h1]
  have hend : s2.m_end_of_memory = s.m_end_of_memory := by
    rw [he6]
    show s4.m_end_of_memory = _
    rw [he4]
    show sa.m_end_of_memory = _
    rw [hea, he1]
  clear ho6 ho4 hrda hbase he6 he4 hea he1 hv4 hv1 hra hl1 hoNN
  have hhead := head_mem (List.ne_nil_of_mem ho) s.m_end_of_memory
  have hhp : s.mem.read (bs.headD s.m_end_of_memory + off_prev) = 0 := by
    cases bs with
    | nil => exact absurd ho (List.not_mem_nil o)
    | cons c rest => exact hW.1.2.2.1
  have hheadP : bs.headD s.m_end_of_memory ≤ PV := (linked_mem s _ _ _ hW.1 _ hPm).1
  have hother : ∀ x ∈ bs, x ≠ o → x + sizeofHeader ≤ o ∨ NN ≤ x →
      s2.mem.read (x + off_next) =
        (if s.mem.read (x + off_next) = o then NN else s.mem.read (x + off_next)) ∧
      x < s2.mem.read (x + off_next) := by
    intro x hx hxo hpos
    obtain ⟨-, hx0, hx2, hx3⟩ := linked_mem s _ _ _ hW.1 x hx
    have hxN : x + off_next ≠ NN + off_prev := by
      rcases hNN with e | e
      · omega
      · exact header_word_ne (wellFormed_header_words hW hx e) (by decide) (by decide)
          (by decide)
    have hxo2 : x + off_next ≠ o + off_next := by omega
    have hsucc : s.mem.read (x + off_next) = o → PV = x := by
      intro e
      rcases wellFormed_next hW hx with e2 | ⟨-, -, e3⟩
      · exfalso
        omega
      · rw [e, hPVdef] at e3
        exact e3
    rw [hread _ (wellFormed_header_outside hW hx off_next (by decide)) hxN hxo2]
    by_cases e : s.mem.read (x + off_next) = o
    · have e2 := hsucc e
      rw [if_pos e, if_pos (by rw [e2])]
      exact ⟨rfl, by omega⟩
    · have c : x + off_next ≠ PV + off_next := by
        intro c
        have c2 : x = PV := by omega
        rw [c2] at e
        exact e hPn
      rw [if_neg e, if_neg c]
      exact ⟨rfl, by omega⟩
  have hprev2 : s2.mem.read (bs.headD s.m_end_of_memory + off_prev) = 0 := by
    have c1 : bs.headD s.m_end_of_memory + off_prev ≠ PV + off_next :=
      header_word_ne (wellFormed_header_words hW hhead hPm) (by decide) (by decide) (by decide)
    rw [hread _ (wellFormed_header_outside hW hhead off_prev (by decide)) (by omega) (by omega),
      if_neg c1]
    exact hhp
  have hapart : ∀ x ∈ bs, x ≠ o →
      x + sizeofHeader ≤ o ∨ s.mem.read (o + off_next) ≤ x := by
    intro x hx hxo
    rcases linked_apart_headers hW.1 hx ho with e | e | e
    · exact absurd e hxo
    · exact Or.inl e.1
    · exact Or.inr e.2
  have hoend : s.m_end_of_memory ≠ o := by omega
  have hheado : bs.headD s.m_end_of_memory ≠ o := by omega
  clear hread
  rcases hcase with ⟨eNN, -, -⟩ | ⟨c1, c2, eNN⟩
  · refine ⟨hend, _, _, ?_, rebuild_spanned hW (fun x => if x = o then [] else [x])
      (fun x => if x = o then NN else x) hend ?_ ?_ ?_⟩
    · show s.m_memory_location ≤ (if bs.headD s.m_end_of_memory = o then NN else _)
      rw [if_neg hheado]
      exact hW.2.1 _ hhead
    · show (if s.m_end_of_memory = o then NN else s.m_end_of_memory) = _
      rw [if_neg hoend]
    · intro x hx
      show Seg s2 (if x = o then [] else [x]) (if x = o then NN else x)
        (if s.mem.read (x + off_next) = o then NN else s.mem.read (x + off_next))
      by_cases e : x = o
      · rw [if_pos e, if_pos e, e, ← eNN, if_neg (by omega)]
        exact rfl
      · rw [if_neg e, if_neg e]
        obtain ⟨q1, q2⟩ := hother x hx e (eNN ▸ hapart x hx e)
        exact ⟨rfl, q2, q1⟩
    · show s2.mem.read ((if bs.headD s.m_end_of_memory = o then NN else
        bs.headD s.m_end_of_memory) + off_prev) = 0
      rw [if_neg hheado]
      exact hprev2
  · have hR : s.mem.read (o + off_next) ∈ bs := by
      rcases wellFormed_next hW ho with c | ⟨-, c, -⟩
      · exact absurd c c1
      · exact c
    have hRprev : s.mem.read (s.mem.read (o + off_next) + off_prev) = o := by
      rcases wellFormed_next hW ho with c | ⟨-, -, c⟩
      · exact absurd c c1
      · exact c
    obtain ⟨-, hR0, hR2, hR3⟩ := linked_mem s _ _ _ hW.1 _ hR
    have hpos2 : ∀ x ∈ bs, x ≠ o → x ≠ s.mem.read (o + off_next) →
        x + sizeofHeader ≤ o ∨ NN ≤ x := by
      intro x hx hxo hxR
      rcases hapart x hx hxo with c | c
      · exact Or.inl c
      · right
        rcases linked_apart_headers hW.1 hx hR with e | e | e
        · exact absurd e hxR
        · omega
        · rw [eNN]
          exact e.2
    have hnR : ∀ x ∈ bs, x ≠ o → s.mem.read (x + off_next) ≠ s.mem.read (o + off_next) := by
      intro x hx hxo c
      rcases wellFormed_next hW hx with e | ⟨-, -, e⟩
      · rw [c] at e
        exact c1 e
      · rw [c, hRprev] at e
        exact hxo e.symm
    generalize hRdef : s.mem.read (o + off_next) = R at *
    refine ⟨hend, _, _, ?_, rebuild_spanned hW
      (fun x => if x = o then [] else if x = R then [] else [x])
      (fun x => if x = o then NN else if x = R then NN else x) hend ?_ ?_ ?_⟩
    · show s.m_memory_location ≤ (if bs.headD s.m_end_of_memory = o then NN
        else if bs.headD s.m_end_of_memory = R then NN else _)
      rw [if_neg hheado, if_neg (by omega)]
      exact hW.2.1 _ hhead
    · show (if s.m_end_of_memory = o then NN else if s.m_end_of_memory = R then NN
        else s.m_end_of_memory) = _
      rw [if_neg hoend, if_neg (Ne.symm c1)]
    · intro x hx
      show Seg s2 (if x = o then [] else if x = R then [] else [x])
        (if x = o then NN else if x = R then NN else x)
        (if s.mem.read (x + off_next) = o then NN
          else if s.mem.read (x + off_next) = R then NN else s.mem.read (x + off_next))
      by_cases e : x = o
      · rw [if_pos e, if_pos e, e, hRdef, if_neg (by omega), if_pos rfl]
        exact rfl
      · rw [if_neg e, if_neg e]
        by_cases e2 : x = R
        · rw [if_pos e2, if_pos e2, e2, ← eNN, if_neg (by omega), if_neg (by omega)]
          exact rfl
        · rw [if_neg e2, if_neg e2]
          obtain ⟨q1, q2⟩ := hother x hx e (hpos2 x hx e e2)
          rw [if_neg (hnR x hx e)]
          exact ⟨rfl, q2, q1⟩
    · show s2.mem.read ((if bs.headD s.m_end_of_memory = o then NN
        else if bs.headD s.m_end_of_memory = R then NN
        else bs.headD s.m_end_of_memory) + off_prev) = 0
      rw [if_neg hheado, if_neg (by omega)]
      exact hprev2

/-! ## C23 and C24: the block list after every call -/

/-- The constructor leaves a free list in order: for a non-null base `B` and a
size `S` of at least `MIN_INIT_SIZE` with `B + S` inside the address space it
returns, and the arena holds the single free block of header
`header_placement B`. -/
theorem construct_wellFormed (fuel : Nat) (mem : Mem) (uninit B S : Nat)
    (hf : 0 < fuel) (hB : B ≠ 0) (hS : MIN_INIT_SIZE ≤ S) (hlt : B + S < SIZE_MOD) :
    ∃ s, FreeList.construct fuel mem uninit B S = .ok s ∧
      WellFormed s [header_placement B] ∧
      s.m_memory_location = B ∧ s.m_memory_maxsize = S := by
  have hlt2 : B + S < 2 ^ 64 := hlt
  have hS2 : 128 ≤ S := hS
  have hmax : S ≤ SIZE_MAX := by
    show S ≤ 2 ^ 64 - 1
    omega
  obtain ⟨s, hs, hend, -, hprev, hnext, hnode, ht, -, hval, hhp, hBlt, hnle⟩ :=
    construct_state fuel mem uninit B S hf hB hS hmax
  obtain ⟨p1, p2, p3, p4⟩ := placement_bounds B
  have o4 : sizeofHeader = 24 := rfl
  have o5 : sizeofNode = 40 := rfl
  have hn0 : node_placement B ≠ 0 := by omega
  have hh0 : header_placement B ≠ 0 := by omega
  have hinv : start_or_size_is_invalid B S = false := by
    have : ¬ S < MIN_INIT_SIZE := by
      show ¬ S < 128
      omega
    simp [start_or_size_is_invalid, this, hB]
  have hs2 := hs
  unfold FreeList.construct at hs2
  simp only [hinv, Bool.false_eq_true, if_false] at hs2
  have hsz : wsub (B + S) B = S := wsub_add_left B S (by
    show S < 2 ^ 64
    omega)
  have hsp : ¬ wsub (B + S) B < HEADER_MAX_PADDING + NODE_MAX_PADDING := by
    rw [hsz]
    show ¬ S < 2 * 24 + 2 * 40
    omega
  have hC0 : LinksClosed
      ({ mem := mem, m_root := 0, m_end_of_memory := B + S, m_memory_location := B,
         m_memory_maxsize := S } : FreeList) [] :=
    ⟨Or.inl rfl, fun m hm => absurd hm (List.not_mem_nil m)⟩
  have hS0 : Separated (node_placement B :: []) := List.pairwise_singleton _ _
  obtain ⟨hc, -, -, -, hloc0, hmx0, -⟩ := create_state (L := []) hC0 hS0
    (by show B + S ≠ 0; omega) hsp
    (fun off _ m hm => absurd hm (List.not_mem_nil m))
    (fun c => absurd rfl c)
    (fun _ => outsideNodes_cons.2 ⟨Or.inr (by
      show node_placement B + sizeofNode ≤ B + S + off_prev
      omega), fun m hm => absurd hm (List.not_mem_nil m)⟩) hs2
  have hloc : s.m_memory_location = B := hloc0
  have hmx : s.m_memory_maxsize = S := hmx0
  clear hloc0 hmx0 hsp hsz hC0 hs2
  have hfn : free_nodes s [header_placement B] = [node_placement B] := by
    simp [free_nodes, hnode, hn0]
  refine ⟨s, hs, ⟨?_, ?_, ?_, ?_, ?_, ?_, ?_⟩, hloc, hmx⟩
  · refine ⟨rfl, hh0, hprev, ?_, ?_⟩
    · rw [hnext]
      omega
    · show s.mem.read (header_placement B + off_next) = s.m_end_of_memory
      rw [hnext, hend]
  · intro b hb
    have e : b = header_placement B := by simpa using hb
    rw [e, hloc]
    omega
  · rw [hend, hloc, hmx]
  · rw [hend]
    exact hlt
  · intro b hb
    have e : b = header_placement B := by simpa using hb
    rw [e]
    right
    rw [hnode, hnext]
    refine ⟨hhp.symm, hnle, ?_⟩
    rw [hval]
    omega
  · exact List.chain'_singleton _
  · rw [hfn]
    exact hc

/-- What `measured` says of a block. -/
theorem measured_value {s : FreeList} {b : Nat} (h : measured s b = true)
    (hn : s.mem.read (b + off_node) ≠ 0) :
    s.value (s.mem.read (b + off_node)) = s.mem.read (b + off_next) - (b + sizeofHeader) := by
  unfold measured at h
  simp only [Bool.or_eq_true, decide_eq_true_eq] at h
  exact h.resolve_left hn

/-- The arena `[1000, 2000)` after construction is a free list in order. -/
theorem arena_1000_wellFormed : WellFormed arena_1000 [1008] :=
  ⟨by decide, by decide, by decide, by decide, by decide, List.chain'_singleton _, by decide⟩

/-- The arena `[1000, 2000)` after one allocation is a free list in order. -/
theorem arena_1000_one_used_wellFormed : WellFormed arena_1000_one_used [1008, 1200] :=
  ⟨by decide, by decide, by decide, by decide, by decide, List.chain'_pair.2 (by decide),
    by decide⟩

/-- The arena `[1000, 2000)` with a used block between two free blocks is a free
list in order. -/
theorem arena_1000_middle_used_wellFormed :
    WellFormed arena_1000_middle_used [1008, 1200, 1368] :=
  ⟨by decide, by decide, by decide, by decide, by decide,
    List.chain'_cons.2 ⟨by decide, List.chain'_pair.2 (by decide)⟩, by decide⟩

end Emma
